import Mathlib

/-!
# Ordered index (binary search tree) of `bst.c`

The tree of `bst.c` is intrusive: a `bst_node_t` (three pointers) lives inside
the host record and the container only links and unlinks such nodes.  The
embedding keeps that design.  A pointer is an `Option Nat` (`none` is `NULL`),
the link fields of all nodes live in a memory `BstMem` indexed by address, and
every operation passes the container state explicitly.

A record is identified with the address of its embedded node: the source
translates between the two by adding or subtracting the constant
`node_offset`, which is a bijection and plays no part in any algorithm.
`get_key` is the host callback; it reads the key out of the record and the
container never writes it.

Recursion and loops of the source run on fuel.  A result `none` means that the
run did not finish within the fuel or that it dereferenced `NULL`.
-/

/-! ## Status codes (`bst.h`) -/

/-- Status `EOK` of `bst.h`. -/
def EOK : Int := 0

/-- Status `EINVAL` of `bst.h`. -/
def EINVAL : Int := -1

/-- Status `ENOTFOUND` of `bst.h`. -/
def ENOTFOUND : Int := -2

/-- Status `EFAIL` of `bst.h`. -/
def EFAIL : Int := -3

/-! ## Data model -/

/-- The link fields of `bst_node_t`. -/
structure bst_node_t where
  left : Option Nat
  right : Option Nat
  parent : Option Nat
deriving DecidableEq, Repr

/-- The link fields found at every node address. -/
abbrev BstMem := Nat → bst_node_t

/-- Store of one node: `*a = n`. -/
def BstMem.set (m : BstMem) (a : Nat) (n : bst_node_t) : BstMem :=
  fun x => if x = a then n else m x

/-- The container `bst_t` together with the node memory it works on.
`node_count` is a `uint32_t`. -/
structure bst_t where
  root : Option Nat
  node_count : Nat
  get_key : Nat → Int
  mem : BstMem

/-- Increment of a `uint32_t`. -/
def u32_inc (n : Nat) : Nat := (n + 1) % 2 ^ 32

/-- Decrement of a `uint32_t`. -/
def u32_dec (n : Nat) : Nat := (n + 2 ^ 32 - 1) % 2 ^ 32

/-! ## Operations -/

/-- The `bst_create` of the source: an empty tree over the given node memory. -/
def bst_create (get_key : Nat → Int) (mem : BstMem) : bst_t :=
  { root := none, node_count := 0, get_key := get_key, mem := mem }

/-- The `bst_empty` of the source. -/
def bst_empty (bst : bst_t) : Bool :=
  if bst.node_count = 0 then true else false

/-- The `bst_get_count` of the source. -/
def bst_get_count (bst : bst_t) : Nat := bst.node_count

/-- The `bst_destroy` of the source: `EFAIL` unless the tree is empty. -/
def bst_destroy (bst : bst_t) : Int :=
  if !bst_empty bst then EFAIL else EOK

/-- The loop of `bst_find_min`:
`while (node->left != NULL && node->left->left != NULL) node = node->left;` -/
def bst_find_min_walk : Nat → BstMem → Nat → Option Nat
  | 0, _, _ => none
  | fuel + 1, m, node =>
    match (m node).left with
    | none => some node
    | some l =>
      match (m l).left with
      | none => some node
      | some _ => bst_find_min_walk fuel m l

/-- The `bst_find_min` of the source.  Returns the memory (changed only when
`delete` is set) and the minimum node. -/
def bst_find_min (fuel : Nat) (m : BstMem) (root : Option Nat) (delete : Bool) :
    Option (BstMem × Option Nat) :=
  match root with
  | none => some (m, none)
  | some node =>
    if (m node).left = none then
      if delete then
        match (m node).parent with
        | none => none
        | some p => some (m.set p { m p with right := none }, some node)
      else some (m, some node)
    else
      match bst_find_min_walk fuel m node with
      | none => none
      | some node1 =>
        let min_node := (m node1).left
        if delete then some (m.set node1 { m node1 with left := none }, min_node)
        else some (m, min_node)

/-- The `bst_get_least` of the source. -/
def bst_get_least (fuel : Nat) (bst : bst_t) : Option (Option Nat) :=
  match bst.root with
  | none => some none
  | some root =>
    match bst_find_min fuel bst.mem (some root) false with
    | none => none
    | some (_, node) => some node

/-- The loop of `bst_get_next`:
`while ((parent != NULL) && (node == parent->right)) { node = parent; parent = node->parent; }`
with result `parent`. -/
def bst_get_next_climb : Nat → BstMem → Nat → Option Nat → Option (Option Nat)
  | 0, _, _, _ => none
  | _ + 1, _, _, none => some none
  | fuel + 1, m, node, some p =>
    if (m p).right = some node then bst_get_next_climb fuel m p (m p).parent
    else some (some p)

/-- The `bst_get_next` of the source. -/
def bst_get_next (fuel : Nat) (bst : bst_t) (prev_node : Option Nat) : Option (Option Nat) :=
  match prev_node with
  | none => some none
  | some node =>
    if (bst.mem node).right ≠ none then
      match bst_find_min fuel bst.mem (bst.mem node).right false with
      | none => none
      | some (_, next_node) => some next_node
    else
      bst_get_next_climb fuel bst.mem node (bst.mem node).parent

/-- The `bst_insert_internal` of the source. -/
def bst_insert_internal (get_key : Nat → Int) :
    Nat → BstMem → Option Nat → Nat → Option (BstMem × Nat)
  | 0, _, _, _ => none
  | _ + 1, m, none, key_node => some (m, key_node)
  | fuel + 1, m, some root, key_node =>
    let root_key := get_key root
    let key := get_key key_node
    if key < root_key then
      match bst_insert_internal get_key fuel m (m root).left key_node with
      | none => none
      | some (m1, res) =>
        let m2 := m1.set root { m1 root with left := some res }
        match (m2 root).left with
        | none => none
        | some c => some (m2.set c { m2 c with parent := some root }, root)
    else if key > root_key then
      match bst_insert_internal get_key fuel m (m root).right key_node with
      | none => none
      | some (m1, res) =>
        let m2 := m1.set root { m1 root with right := some res }
        match (m2 root).right with
        | none => none
        | some c => some (m2.set c { m2 c with parent := some root }, root)
    else some (m, root)

/-- The `bst_insert` of the source; the result is the new state and the status. -/
def bst_insert (fuel : Nat) (bst : bst_t) (node : Option Nat) : Option (bst_t × Int) :=
  match node with
  | none => some (bst, EINVAL)
  | some n =>
    let m0 := bst.mem.set n { left := none, right := none, parent := none }
    match bst.root with
    | none =>
      some ({ bst with mem := m0, root := some n, node_count := u32_inc bst.node_count }, EOK)
    | some root =>
      match bst_insert_internal bst.get_key fuel m0 (some root) n with
      | none => none
      | some (m1, _) =>
        some ({ bst with mem := m1, node_count := u32_inc bst.node_count }, EOK)

/-- The `bst_remove_internal` of the source. -/
def bst_remove_internal (get_key : Nat → Int) :
    Nat → BstMem → Option Nat → Nat → Option (BstMem × Option Nat)
  | 0, _, _, _ => none
  | _ + 1, m, none, _ => some (m, none)
  | fuel + 1, m, some root, key_node =>
    let root_key := get_key root
    let key := get_key key_node
    if key < root_key then
      match bst_remove_internal get_key fuel m (m root).left key_node with
      | none => none
      | some (m1, res) =>
        let m2 := m1.set root { m1 root with left := res }
        match (m2 root).left with
        | none => some (m2, some root)
        | some c => some (m2.set c { m2 c with parent := some root }, some root)
    else if key > root_key then
      match bst_remove_internal get_key fuel m (m root).right key_node with
      | none => none
      | some (m1, res) =>
        let m2 := m1.set root { m1 root with right := res }
        match (m2 root).right with
        | none => some (m2, some root)
        | some c => some (m2.set c { m2 c with parent := some root }, some root)
    else
      if ¬ ((m root).left ≠ none ∧ (m root).right ≠ none) then
        if (m root).left = none then some (m, (m root).right)
        else some (m, (m root).left)
      else
        match bst_find_min fuel m (m root).right true with
        | none => none
        | some (_, none) => none
        | some (m1, some node) =>
          let m2 := m1.set node { m1 node with left := (m1 root).left }
          let m3 := m2.set node { m2 node with right := (m2 root).right }
          let m4 := m3.set node { m3 node with parent := (m3 root).parent }
          let m5 :=
            match (m4 root).left with
            | none => m4
            | some c => m4.set c { m4 c with parent := some node }
          let m6 :=
            match (m5 root).right with
            | none => m5
            | some c => m5.set c { m5 c with parent := some node }
          some (m6, some node)

/-- The `bst_remove` of the source; the result is the new state and the status. -/
def bst_remove (fuel : Nat) (bst : bst_t) (node : Option Nat) : Option (bst_t × Int) :=
  match node with
  | none => some (bst, EINVAL)
  | some n =>
    match bst.root with
    | none => some (bst, EINVAL)
    | some root =>
      match bst_remove_internal bst.get_key fuel bst.mem (some root) n with
      | none => none
      | some (m1, none) => some ({ bst with mem := m1 }, ENOTFOUND)
      | some (m1, some _) =>
        some ({ bst with mem := m1, node_count := u32_dec bst.node_count }, EOK)

/-- The `bst_lookup_internal` of the source. -/
def bst_lookup_internal (get_key : Nat → Int) :
    Nat → BstMem → Option Nat → Int → Option (Option Nat)
  | 0, _, _, _ => none
  | _ + 1, _, none, _ => some none
  | fuel + 1, m, some root, key =>
    let root_key := get_key root
    if key < root_key then bst_lookup_internal get_key fuel m (m root).left key
    else if key > root_key then bst_lookup_internal get_key fuel m (m root).right key
    else some (some root)

/-- The `bst_lookup` of the source. -/
def bst_lookup (fuel : Nat) (bst : bst_t) (key : Int) : Option (Option Nat) :=
  match bst.root with
  | none => some none
  | some root =>
    match bst_lookup_internal bst.get_key fuel bst.mem (some root) key with
    | none => none
    | some none => some none
    | some (some key_node) => some (some key_node)

/-- The iteration loop of `bst_usage` in `ds_usage.c`:
`while (obj != NULL) { ...; obj = bst_get_next(obj_tree, obj); }`.
The first fuel bounds the number of rounds, the second is handed to
`bst_get_next`. -/
def bst_iterate_from : Nat → Nat → bst_t → Option Nat → Option (List Nat)
  | 0, _, _, _ => none
  | _ + 1, _, _, none => some []
  | rounds + 1, fuel, bst, some obj =>
    match bst_get_next fuel bst (some obj) with
    | none => none
    | some nxt =>
      match bst_iterate_from rounds fuel bst nxt with
      | none => none
      | some rest => some (obj :: rest)

/-- The ascending traversal of `bst_usage`: `bst_get_least`, then `bst_get_next`
until it returns `NULL`; the records in the order visited. -/
def bst_iterate (fuel : Nat) (bst : bst_t) : Option (List Nat) :=
  match bst_get_least fuel bst with
  | none => none
  | some first => bst_iterate_from fuel fuel bst first

/-- Insertion of a list of records, one `bst_insert` each, as the loop of
`bst_usage` does; the statuses are collected. -/
def bst_insert_all (fuel : Nat) : bst_t → List Nat → Option (bst_t × List Int)
  | bst, [] => some (bst, [])
  | bst, r :: rs =>
    match bst_insert fuel bst (some r) with
    | none => none
    | some (bst1, st) =>
      match bst_insert_all fuel bst1 rs with
      | none => none
      | some (bst2, sts) => some (bst2, st :: sts)

/-- Removal of a list of records, one `bst_remove` each; the statuses are
collected. -/
def bst_remove_all (fuel : Nat) : bst_t → List Nat → Option (bst_t × List Int)
  | bst, [] => some (bst, [])
  | bst, r :: rs =>
    match bst_remove fuel bst (some r) with
    | none => none
    | some (bst1, st) =>
      match bst_remove_all fuel bst1 rs with
      | none => none
      | some (bst2, sts) => some (bst2, st :: sts)

/-- Memory in which every link is `NULL`. -/
def bst_mem_null : BstMem := fun _ => { left := none, right := none, parent := none }

/-- Key callback of the examples: the record at address `a` has key `a`. -/
def bst_key_id : Nat → Int := fun a => (a : Int)

/-! ## Abstract trees and the representation relation -/

/-- The shape of a binary tree whose nodes are labelled with node addresses. -/
inductive BstTree where
  | nil : BstTree
  | node : BstTree → Nat → BstTree → BstTree
deriving DecidableEq, Repr

/-- Number of nodes. -/
def BstTree.size : BstTree → Nat
  | .nil => 0
  | .node l _ r => l.size + 1 + r.size

/-- The node addresses in in-order (left subtree, node, right subtree). -/
def BstTree.inorder : BstTree → List Nat
  | .nil => []
  | .node l a r => l.inorder ++ a :: r.inorder

/-- Address of the root node, `none` for the empty tree. -/
def BstTree.rootAddr : BstTree → Option Nat
  | .nil => none
  | .node _ a _ => some a

/-- The pointer `p` is the root of a tree of shape `t` in memory `m`, following
`left` and `right` only. -/
def BstShape (m : BstMem) : BstTree → Option Nat → Prop
  | .nil, p => p = none
  | .node l a r, p => p = some a ∧ BstShape m l (m a).left ∧ BstShape m r (m a).right

/-- The parent-reference invariant below a node whose own parent pointer is
`par`: every node of the tree has the node above it as its parent. -/
def BstParents (m : BstMem) : BstTree → Option Nat → Prop
  | .nil, _ => True
  | .node l a r, par =>
    (m a).parent = par ∧ BstParents m l (some a) ∧ BstParents m r (some a)

/-- The strict ordering invariant: every key in the left subtree is strictly
less, every key in the right subtree strictly greater, than the key of the
node. -/
def BstOrdered (key : Nat → Int) : BstTree → Prop
  | .nil => True
  | .node l a r =>
    BstOrdered key l ∧ BstOrdered key r ∧
      (∀ x ∈ l.inorder, key x < key a) ∧ (∀ x ∈ r.inorder, key a < key x)

/-- A well-formed tree: `bst.root` is the root of a tree of shape `t` that
satisfies the ordering invariant and the parent-reference invariant (the root
has no parent). -/
def BstWF (bst : bst_t) (t : BstTree) : Prop :=
  BstShape bst.mem t bst.root ∧ BstParents bst.mem t none ∧ BstOrdered bst.get_key t

/-- The shape relation can be decided by walking the tree. -/
instance BstShape.instDecidable (m : BstMem) :
    (t : BstTree) → (p : Option Nat) → Decidable (BstShape m t p)
  | .nil, p => inferInstanceAs (Decidable (p = none))
  | .node l a r, p =>
    have := BstShape.instDecidable m l (m a).left
    have := BstShape.instDecidable m r (m a).right
    inferInstanceAs
      (Decidable (p = some a ∧ BstShape m l (m a).left ∧ BstShape m r (m a).right))

/-- The parent-reference invariant can be decided by walking the tree. -/
instance BstParents.instDecidable (m : BstMem) :
    (t : BstTree) → (par : Option Nat) → Decidable (BstParents m t par)
  | .nil, _ => inferInstanceAs (Decidable True)
  | .node l a r, par =>
    have := BstParents.instDecidable m l (some a)
    have := BstParents.instDecidable m r (some a)
    inferInstanceAs
      (Decidable ((m a).parent = par ∧ BstParents m l (some a) ∧ BstParents m r (some a)))

/-- The ordering invariant can be decided by walking the tree. -/
instance BstOrdered.instDecidable (key : Nat → Int) :
    (t : BstTree) → Decidable (BstOrdered key t)
  | .nil => inferInstanceAs (Decidable True)
  | .node l a r =>
    have := BstOrdered.instDecidable key l
    have := BstOrdered.instDecidable key r
    inferInstanceAs
      (Decidable (BstOrdered key l ∧ BstOrdered key r ∧
        (∀ x ∈ l.inorder, key x < key a) ∧ (∀ x ∈ r.inorder, key a < key x)))

/-- Well-formedness of a concrete state against a concrete shape is decidable. -/
instance BstWF.instDecidable (bst : bst_t) (t : BstTree) : Decidable (BstWF bst t) :=
  inferInstanceAs (Decidable (BstShape bst.mem t bst.root ∧ BstParents bst.mem t none ∧
    BstOrdered bst.get_key t))

/-- Functional insertion into the abstract tree, by key. -/
def BstTree.ins (key : Nat → Int) : BstTree → Nat → BstTree
  | .nil, a => .node .nil a .nil
  | .node l b r, a =>
    if key a < key b then .node (BstTree.ins key l a) b r
    else if key a > key b then .node l b (BstTree.ins key r a)
    else .node l b r

/-- Functional lookup in the abstract tree, by key. -/
def BstTree.find (key : Nat → Int) : BstTree → Int → Option Nat
  | .nil, _ => none
  | .node l b r, k =>
    if k < key b then BstTree.find key l k
    else if k > key b then BstTree.find key r k
    else some b

/-! ## Example states -/

/-- Key callback of the duplicate-key examples: the record at address `a` has
key `a % 100`, so the records 50 and 150 carry the same key. -/
def bst_key_mod : Nat → Int := fun a => ((a % 100 : Nat) : Int)

/-- Node memory of a three-record tree: record 50 at the root, record 25 its
left child, record 75 its right child. -/
def bst_example_mem : BstMem := fun a =>
  if a = 50 then { left := some 25, right := some 75, parent := none }
  else if a = 25 then { left := none, right := none, parent := some 50 }
  else if a = 75 then { left := none, right := none, parent := some 50 }
  else { left := none, right := none, parent := none }

/-- The three-record tree of `bst_example_mem`. -/
def bst_example : bst_t :=
  { root := some 50, node_count := 3, get_key := bst_key_mod, mem := bst_example_mem }

/-- Shape of `bst_example`. -/
def bst_example_tree : BstTree := .node (.node .nil 25 .nil) 50 (.node .nil 75 .nil)

/-- A scenario of `bst_usage`: the records `ins` are inserted into a newly
created tree (the record at address `a` has key `a`), then the records `rem`
are removed.  Observed are the statuses of the removals, `bst_get_count`, the
status `bst_destroy` would return, and the ascending traversal. -/
def bst_scenario (fuel : Nat) (ins rem : List Nat) :
    Option (List Int × Nat × Int × List Nat) :=
  match bst_insert_all fuel (bst_create bst_key_id bst_mem_null) ins with
  | none => none
  | some (b0, _) =>
    match bst_remove_all fuel b0 rem with
    | none => none
    | some (b1, sts) =>
      match bst_iterate fuel b1 with
      | none => none
      | some out => some (sts, bst_get_count b1, bst_destroy b1, out)

/-- The scenario of `bst_scenario`, followed by `bst_lookup` of `key`. -/
def bst_scenario_lookup (fuel : Nat) (ins rem : List Nat) (key : Int) :
    Option (Option Nat) :=
  match bst_insert_all fuel (bst_create bst_key_id bst_mem_null) ins with
  | none => none
  | some (b0, _) =>
    match bst_remove_all fuel b0 rem with
    | none => none
    | some (b1, _) => bst_lookup fuel b1 key

/-! ## Sequences of calls on the ordered index -/

/-- One call of the ordered index: `bst_insert` or `bst_remove` of a record
pointer (`none` is `NULL`). -/
inductive bst_call where
  | insert : Option Nat → bst_call
  | remove : Option Nat → bst_call
deriving DecidableEq, Repr

/-- Runs the calls in order and collects the status each one returned. -/
def bst_run (fuel : Nat) : bst_t → List bst_call → Option (bst_t × List Int)
  | bst, [] => some (bst, [])
  | bst, c :: cs =>
    match (match c with
      | .insert n => bst_insert fuel bst n
      | .remove n => bst_remove fuel bst n) with
    | none => none
    | some (bst1, st) =>
      match bst_run fuel bst1 cs with
      | none => none
      | some (bst2, sts) => some (bst2, st :: sts)

/-- Number of `bst_insert` calls of the run that returned `EOK`. -/
def bst_count_inserted : List bst_call → List Int → Nat
  | .insert _ :: cs, st :: sts => (if st = EOK then 1 else 0) + bst_count_inserted cs sts
  | .remove _ :: cs, _ :: sts => bst_count_inserted cs sts
  | _, _ => 0

/-- Number of `bst_remove` calls of the run that returned `EOK`. -/
def bst_count_removed : List bst_call → List Int → Nat
  | .remove _ :: cs, st :: sts => (if st = EOK then 1 else 0) + bst_count_removed cs sts
  | .insert _ :: cs, _ :: sts => bst_count_removed cs sts
  | _, _ => 0

/-!
# Prefix index (trie) of `trie.c`

The trie owns its nodes: `trie_insert` obtains them from `malloc` and
`trie_remove` releases them with `free`.  The node memory `TrieMem` holds the
five fields of every `trie_node_t`; `malloc` hands out the addresses
`next_free`, `next_free + 1`, ... and fails once `heap_left` is used up; `free`
records the address in `freed` and leaves the contents of the node in place.

A key is the list of bytes of a C string; `c_strlen` is the position of the
first zero byte and `c_char_at` reads one byte (the terminator past the end).
A payload is a pointer to a host record, `none` for `NULL`.

Sibling scans and the level loop of `trie_lookup` run on fuel.  A run ends in
`TrieRun.ok` with its result, in `TrieRun.fault` when it dereferences `NULL`
or stores outside `delete_arr`, or in `TrieRun.out_of_fuel`.  A function of
the source that reaches its end without `return value;` yields
`CRet.no_value`.
-/

/-- The constant `MAX_KEY_LEN` of `trie.h`. -/
def MAX_KEY_LEN : Nat := 64

/-- Outcome of a run of trie code. -/
inductive TrieRun (α : Type) where
  | ok : α → TrieRun α
  | fault : TrieRun α
  | out_of_fuel : TrieRun α
deriving DecidableEq, Repr

/-- Value handed back by a non-void C function: the returned value, or nothing
defined when control reaches the end of the function (or a bare `return;`). -/
inductive CRet (α : Type) where
  | value : α → CRet α
  | no_value : CRet α
deriving DecidableEq, Repr

/-- Length of a C string: the number of bytes before the first zero byte. -/
def c_strlen (key : List Nat) : Nat := (key.takeWhile (fun b => b ≠ 0)).length

/-- The byte `key[i]` of a C string; the terminator `0` past the stored bytes. -/
def c_char_at (key : List Nat) (i : Nat) : Nat := key.getD i 0

/-- The fields of `trie_node_t`. -/
structure trie_node_t where
  key : Nat
  data : Option Nat
  sibling : Option Nat
  children : Option Nat
  parent : Option Nat
deriving DecidableEq, Repr

/-- The fields found at every node address. -/
abbrev TrieMem := Nat → trie_node_t

/-- Store of one node: `*a = n`. -/
def TrieMem.set (m : TrieMem) (a : Nat) (n : trie_node_t) : TrieMem :=
  fun x => if x = a then n else m x

/-- The entries of `trie_del_node_t`. -/
structure trie_del_node_t where
  del_node : Option Nat
  first_node : Option Nat
  parent : Option Nat
  num_siblings : Nat
  num_children : Nat
deriving DecidableEq, Repr

/-- The local array `delete_arr` of `trie_remove`, by index. -/
abbrev TrieDelArr := Nat → trie_del_node_t

/-- Store of one entry of `delete_arr`. -/
def TrieDelArr.set (arr : TrieDelArr) (i : Nat) (e : trie_del_node_t) : TrieDelArr :=
  fun x => if x = i then e else arr x

/-- The container `trie_t` together with the heap it allocates its nodes
from.  `node_count` and `leaf_count` are `uint32_t`. -/
structure trie_t where
  root : Option Nat
  node_count : Nat
  leaf_count : Nat
  get_key : Nat → Option (List Nat)
  mem : TrieMem
  next_free : Nat
  heap_left : Nat
  freed : List Nat

/-- The `malloc` of one node: the next unused address, or `NULL` when the heap
is used up. -/
def trie_malloc (trie : trie_t) : trie_t × Option Nat :=
  if trie.heap_left = 0 then (trie, none)
  else ({ trie with next_free := trie.next_free + 1, heap_left := trie.heap_left - 1 },
    some trie.next_free)

/-- The `free` of one node; `free(NULL)` does nothing.  The address is recorded
in `freed`; the contents of the block are kept, so statements about nodes that
are read after a `free` say separately that these nodes are not in `freed`. -/
def trie_free (trie : trie_t) (p : Option Nat) : trie_t :=
  match p with
  | none => trie
  | some a => { trie with freed := a :: trie.freed }

/-- The `trie_create` of the source.  It sets `node_count`, `root` and
`get_key`; `leaf_count` keeps whatever the allocated block held
(`leaf_garbage`). -/
def trie_create (get_key : Nat → Option (List Nat)) (leaf_garbage : Nat)
    (mem : TrieMem) (next_free heap_left : Nat) : trie_t :=
  { root := none, node_count := 0, leaf_count := leaf_garbage, get_key := get_key,
    mem := mem, next_free := next_free, heap_left := heap_left, freed := [] }

/-- The `trie_get_count` of the source. -/
def trie_get_count (trie : trie_t) : Nat := trie.leaf_count

/-- The `trie_empty` of the source. -/
def trie_empty (trie : trie_t) : Bool :=
  if trie.node_count = 0 then true else false

/-- The `trie_destroy` of the source: `EFAIL` unless `trie_empty`; on `EOK` the
container has been freed and no state is left (`none`). -/
def trie_destroy (trie : trie_t) : Option trie_t × Int :=
  if !trie_empty trie then (some trie, EFAIL) else (none, EOK)

/-- The `trie_insert_internal` of the source: one new node per remaining byte
of the key, then the leaf node with the payload.  The loop is left with
`break` and the function ends without a `return`. -/
def trie_insert_internal :
    Nat → trie_t → Nat → List Nat → Option Nat → Nat → TrieRun (trie_t × CRet Int)
  | 0, _, _, _, _, _ => .out_of_fuel
  | fuel + 1, trie, parent, key, data, key_index =>
    match trie_malloc trie with
    | (trie1, none) => .ok (trie1, .value EFAIL)
    | (trie1, some new_node) =>
      if key_index ≥ c_strlen key then
        let m1 := trie1.mem.set new_node
          { key := 0, data := data, sibling := none, children := none, parent := some parent }
        let m2 := m1.set parent { m1 parent with children := some new_node }
        .ok ({ trie1 with mem := m2, node_count := u32_inc trie1.node_count,
                          leaf_count := u32_inc trie1.leaf_count }, .no_value)
      else
        let m1 := trie1.mem.set new_node
          { key := c_char_at key key_index, data := none, sibling := none, children := none,
            parent := some parent }
        let m2 := m1.set parent { m1 parent with children := some new_node }
        trie_insert_internal fuel
          { trie1 with mem := m2, node_count := u32_inc trie1.node_count }
          new_node key data (key_index + 1)

/-- The sibling scan of `trie_insert`:
`while (node != NULL) { prev_node = node; if (node->key == key[key_index]) break; node = node->sibling; }`.
Result: the matching node (`NULL` when the scan ran off the chain) and
`prev_node`. -/
def trie_insert_scan :
    Nat → TrieMem → Option Nat → Nat → Option Nat → TrieRun (Option Nat × Option Nat)
  | 0, _, _, _, _ => .out_of_fuel
  | _ + 1, _, none, _, prev_node => .ok (none, prev_node)
  | fuel + 1, m, some node, b, _ =>
    if (m node).key = b then .ok (some node, some node)
    else trie_insert_scan fuel m (m node).sibling b (some node)

/-- The `for` loop of `trie_insert` and the code after it, from the state
`level`, `prev_node`, `key_index`. -/
def trie_insert_walk :
    Nat → trie_t → List Nat → Option Nat → Option Nat → Option Nat → Nat →
      TrieRun (trie_t × CRet Int)
  | 0, _, _, _, _, _, _ => .out_of_fuel
  | fuel + 1, trie, key, data, level, prev_node, key_index =>
    if key_index < c_strlen key then
      match trie_insert_scan fuel trie.mem level (c_char_at key key_index) prev_node with
      | .out_of_fuel => .out_of_fuel
      | .fault => .fault
      | .ok (some node, prev1) =>
        trie_insert_walk fuel trie key data (trie.mem node).children prev1 (key_index + 1)
      | .ok (none, prev1) =>
        match trie_malloc trie with
        | (_, none) => .fault
        | (trie1, some new_node) =>
          match prev1 with
          | none => .fault
          | some prev =>
            let m1 := trie1.mem.set new_node
              { key := c_char_at key key_index, data := none, sibling := none,
                children := none, parent := some prev }
            let m2 := m1.set prev { m1 prev with sibling := some new_node }
            trie_insert_internal fuel
              { trie1 with mem := m2, node_count := u32_inc trie1.node_count }
              new_node key data (key_index + 1)
    else
      match level with
      | none => .fault
      | some lvl =>
        if (trie.mem lvl).key = 0 then .ok (trie, .value EFAIL)
        else
          match trie_malloc trie with
          | (_, none) => .fault
          | (trie1, some last_node) =>
            let m1 := trie1.mem.set last_node
              { key := 0, data := data, sibling := none, children := none,
                parent := some lvl }
            let m2 := m1.set lvl { m1 lvl with sibling := some last_node }
            .ok ({ trie1 with mem := m2, node_count := u32_inc trie1.node_count,
                              leaf_count := u32_inc trie1.leaf_count }, .value EOK)

/-- The `trie_insert` of the source. -/
def trie_insert (fuel : Nat) (trie : trie_t) (key : Option (List Nat)) (data : Option Nat) :
    TrieRun (trie_t × CRet Int) :=
  match key with
  | none => .ok (trie, .value EINVAL)
  | some key =>
    match trie.root with
    | none =>
      match trie_malloc trie with
      | (_, none) => .fault
      | (trie1, some root) =>
        let m1 := trie1.mem.set root
          { key := c_char_at key 0, data := none, sibling := none, children := none,
            parent := none }
        let trie2 : trie_t :=
          { trie1 with mem := m1, node_count := u32_inc trie1.node_count, root := some root }
        if c_char_at key 0 = 0 then .ok (trie2, .no_value)
        else trie_insert_internal fuel trie2 root key data 1
    | some root => trie_insert_walk fuel trie key data (some root) none 0

/-- The sibling scan of `trie_lookup`: the first node of the chain whose byte is
`b`, `NULL` when there is none. -/
def trie_lookup_scan : Nat → TrieMem → Option Nat → Nat → TrieRun (Option Nat)
  | 0, _, _, _ => .out_of_fuel
  | _ + 1, _, none, _ => .ok none
  | fuel + 1, m, some node, b =>
    if (m node).key = b then .ok (some node) else trie_lookup_scan fuel m (m node).sibling b

/-- The level loop `while (level != NULL)` shared by `trie_lookup` and
`trie_lookup_internal`; the result is the matching leaf node.  `match_found` is
set at the first match and never cleared. -/
def trie_lookup_loop :
    Nat → TrieMem → Option Nat → List Nat → Nat → Bool → TrieRun (CRet (Option Nat))
  | 0, _, _, _, _, _ => .out_of_fuel
  | _ + 1, _, none, _, _, _ => .ok .no_value
  | fuel + 1, m, some level, key, i, match_found =>
    match trie_lookup_scan fuel m (some level) (c_char_at key i) with
    | .out_of_fuel => .out_of_fuel
    | .fault => .fault
    | .ok (some node) =>
      if c_char_at key i = 0 then .ok (.value (some node))
      else trie_lookup_loop fuel m (m node).children key (i + 1) true
    | .ok none =>
      if match_found = false then .ok (.value none)
      else trie_lookup_loop fuel m (some level) key i match_found

/-- The `trie_lookup_internal` of the source: the leaf node of the key. -/
def trie_lookup_internal (fuel : Nat) (trie : trie_t) (key : List Nat) :
    TrieRun (CRet (Option Nat)) :=
  match trie.root with
  | none => .ok (.value none)
  | some root => trie_lookup_loop fuel trie.mem (some root) key 0 false

/-- The `trie_lookup` of the source: the payload stored in the leaf node of the
key. -/
def trie_lookup (fuel : Nat) (trie : trie_t) (key : List Nat) :
    TrieRun (CRet (Option Nat)) :=
  match trie.root with
  | none => .ok (.value none)
  | some root =>
    match trie_lookup_loop fuel trie.mem (some root) key 0 false with
    | .out_of_fuel => .out_of_fuel
    | .fault => .fault
    | .ok .no_value => .ok .no_value
    | .ok (.value none) => .ok (.value none)
    | .ok (.value (some node)) => .ok (.value (trie.mem node).data)

/-- The loop variables of one sibling scan of `trie_remove`. -/
structure trie_remove_scan_t where
  match_found : Bool
  entry : trie_del_node_t
  parent : Option Nat
  level : Option Nat

/-- One sibling scan of the first phase of `trie_remove`, for the byte `b`:
`while (node != NULL) { if (node->key == b) {...} num_siblings++; node = node->sibling; }`.
With `leaf` set it is the scan of the additional iteration for the leaf node,
which does not move `parent` and `level`. -/
def trie_remove_scan (leaf : Bool) :
    Nat → TrieMem → Option Nat → Nat → trie_remove_scan_t → TrieRun trie_remove_scan_t
  | 0, _, _, _, _ => .out_of_fuel
  | _ + 1, _, none, _, st => .ok st
  | fuel + 1, m, some node, b, st =>
    let st1 : trie_remove_scan_t :=
      if (m node).key = b then
        { match_found := true,
          entry := { st.entry with del_node := some node, parent := st.parent },
          parent := if leaf then st.parent else some node,
          level := if leaf then st.level else (m node).children }
      else st
    trie_remove_scan leaf fuel m (m node).sibling b
      { st1 with entry := { st1.entry with num_siblings := u32_inc st1.entry.num_siblings } }

/-- The first phase of `trie_remove`: the `for` loop over the bytes of the key
and the additional iteration for the leaf node, from `key_index`.  Result:
`delete_arr`, or `none` when a scan found no match (`ENOTFOUND`). -/
def trie_remove_collect :
    Nat → TrieMem → List Nat → Nat → Option Nat → Option Nat → TrieDelArr →
      TrieRun (Option TrieDelArr)
  | 0, _, _, _, _, _, _ => .out_of_fuel
  | fuel + 1, m, key, key_index, level, parent, arr =>
    if MAX_KEY_LEN ≤ key_index then .fault
    else
      let leaf : Bool := decide (¬ key_index < c_strlen key)
      let b : Nat := if leaf then 0 else c_char_at key key_index
      let e0 : trie_del_node_t :=
        { arr key_index with first_node := level, num_siblings := 0, num_children := 0 }
      match trie_remove_scan leaf fuel m level b
          { match_found := false, entry := e0, parent := parent, level := level } with
      | .out_of_fuel => .out_of_fuel
      | .fault => .fault
      | .ok st =>
        let arr1 := arr.set key_index st.entry
        let arr2 :=
          if key_index > 0 then
            arr1.set (key_index - 1)
              { arr1 (key_index - 1) with num_children := (arr1 key_index).num_siblings }
          else arr1
        if st.match_found = false then .ok none
        else if leaf then .ok (some arr2)
        else trie_remove_collect fuel m key (key_index + 1) st.level st.parent arr2

/-- The loop `while (node->sibling != del_node) node = node->sibling;` of the
second phase of `trie_remove`. -/
def trie_remove_find_prev : Nat → TrieMem → Nat → Option Nat → TrieRun Nat
  | 0, _, _, _ => .out_of_fuel
  | fuel + 1, m, node, del_node =>
    if (m node).sibling = del_node then .ok node
    else
      match (m node).sibling with
      | none => .fault
      | some next => trie_remove_find_prev fuel m next del_node

/-- The branching-point code of the second phase of `trie_remove` at
`key_index`: the node is taken out of its sibling chain and freed. -/
def trie_remove_unlink (fuel : Nat) (trie : trie_t) (arr : TrieDelArr) (key_index : Nat) :
    TrieRun trie_t :=
  let e := arr key_index
  if e.first_node = e.del_node then
    match e.del_node with
    | none => .fault
    | some del =>
      if key_index = 0 then
        let trie1 := { trie with root := (trie.mem del).sibling }
        .ok { trie_free trie1 e.del_node with node_count := u32_dec trie1.node_count }
      else
        match e.parent, e.first_node with
        | some par, some first =>
          let m1 := trie.mem.set par { trie.mem par with children := (trie.mem first).sibling }
          let trie1 := { trie with mem := m1 }
          .ok { trie_free trie1 e.del_node with node_count := u32_dec trie1.node_count }
        | _, _ => .fault
  else
    match e.first_node with
    | none => .fault
    | some first =>
      match trie_remove_find_prev fuel trie.mem first e.del_node with
      | .out_of_fuel => .out_of_fuel
      | .fault => .fault
      | .ok node =>
        match (trie.mem node).sibling with
        | none => .fault
        | some victim =>
          let m1 :=
            if key_index = 0 then
              match (trie.mem victim).sibling with
              | none => trie.mem
              | some nxt => trie.mem.set nxt { trie.mem nxt with parent := some node }
            else trie.mem
          match (m1 node).sibling with
          | none => .fault
          | some victim1 =>
            let m2 := m1.set node { m1 node with sibling := (m1 victim1).sibling }
            let trie1 := { trie with mem := m2 }
            .ok { trie_free trie1 e.del_node with node_count := u32_dec trie1.node_count }

/-- The second phase of `trie_remove`: the loop
`for (key_index = strlen(key); key_index >= 0; key_index--)`, from `key_index`.
At `key_index = 0` the test reads `delete_arr[-1].num_children`, which lies
outside the array; `junk` is the value found there. -/
def trie_remove_prune (fuel : Nat) (junk : Nat) : Nat → trie_t → TrieDelArr → TrieRun trie_t
  | 0, trie, arr =>
    if junk = 1 then
      .ok { trie_free trie (arr 0).del_node with node_count := u32_dec trie.node_count }
    else trie_remove_unlink fuel trie arr 0
  | k + 1, trie, arr =>
    if (arr k).num_children = 1 then
      trie_remove_prune fuel junk k
        { trie_free trie (arr (k + 1)).del_node with node_count := u32_dec trie.node_count }
        arr
    else trie_remove_unlink fuel trie arr (k + 1)

/-- The `trie_remove` of the source.  `junk` is the value of the stack word
that the second phase reads as `delete_arr[-1].num_children`. -/
def trie_remove (fuel : Nat) (junk : Nat) (trie : trie_t) (key : Option (List Nat)) :
    TrieRun (trie_t × Int) :=
  match key with
  | none => .ok (trie, EINVAL)
  | some key =>
    match trie.root with
    | none => .ok (trie, EINVAL)
    | some root =>
      match trie_remove_collect fuel trie.mem key 0 (some root) none
          (fun _ => { del_node := none, first_node := none, parent := none,
                      num_siblings := 0, num_children := 0 }) with
      | .out_of_fuel => .out_of_fuel
      | .fault => .fault
      | .ok none => .ok (trie, ENOTFOUND)
      | .ok (some arr) =>
        match trie_remove_prune fuel junk (c_strlen key) trie arr with
        | .out_of_fuel => .out_of_fuel
        | .fault => .fault
        | .ok trie1 => .ok ({ trie1 with leaf_count := u32_dec trie1.leaf_count }, EOK)

/-- Memory in which every node is zero. -/
def trie_mem_null : TrieMem :=
  fun _ => { key := 0, data := none, sibling := none, children := none, parent := none }

/-- One call of the prefix index in a scenario. -/
inductive trie_call where
  | insert : List Nat → Nat → trie_call
  | remove : List Nat → trie_call
deriving DecidableEq, Repr

/-- Runs the calls in order on the trie and collects the status each one
returned (`trie_remove` with the given `junk`). -/
def trie_run (fuel junk : Nat) : trie_t → List trie_call → TrieRun (trie_t × List (CRet Int))
  | trie, [] => .ok (trie, [])
  | trie, c :: cs =>
    match (match c with
      | .insert key data => trie_insert fuel trie (some key) (some data)
      | .remove key =>
        match trie_remove fuel junk trie (some key) with
        | .ok (t1, st) => .ok (t1, .value st)
        | .fault => .fault
        | .out_of_fuel => .out_of_fuel) with
    | .out_of_fuel => .out_of_fuel
    | .fault => .fault
    | .ok (trie1, st) =>
      match trie_run fuel junk trie1 cs with
      | .out_of_fuel => .out_of_fuel
      | .fault => .fault
      | .ok (trie2, sts) => .ok (trie2, st :: sts)

/-- A scenario of `trie_usage`: the calls run on a newly created trie whose
`leaf_count` field was left at `leaf_garbage` by `trie_create`; node addresses
start at 100.  Observed are the statuses, `node_count`, `trie_get_count` and
the list of freed nodes. -/
def trie_scenario (fuel junk leaf_garbage : Nat) (calls : List trie_call) :
    TrieRun (List (CRet Int) × Nat × Nat × List Nat) :=
  match trie_run fuel junk (trie_create (fun _ => none) leaf_garbage trie_mem_null 100 1000)
      calls with
  | .out_of_fuel => .out_of_fuel
  | .fault => .fault
  | .ok (trie, sts) => .ok (sts, trie.node_count, trie_get_count trie, trie.freed)

/-- The scenario of `trie_scenario` followed by `trie_lookup` of `key`. -/
def trie_scenario_lookup (fuel junk : Nat) (calls : List trie_call) (key : List Nat) :
    TrieRun (CRet (Option Nat)) :=
  match trie_run fuel junk (trie_create (fun _ => none) 0 trie_mem_null 100 1000) calls with
  | .out_of_fuel => .out_of_fuel
  | .fault => .fault
  | .ok (trie, _) => trie_lookup fuel trie key

/-! ## Abstract tries and the representation relation -/

/-- The shape of a trie in first-child / next-sibling form: a node carries its
address, its key byte, its payload, the chain of its children and the rest of
its own sibling chain. -/
inductive TrieT where
  | nil : TrieT
  | node : Nat → Nat → Option Nat → TrieT → TrieT → TrieT
deriving DecidableEq, Repr

/-- Addresses of all nodes. -/
def TrieT.addrs : TrieT → List Nat
  | .nil => []
  | .node a _ _ c s => a :: (c.addrs ++ s.addrs)

/-- Address of the first node of the chain, `none` for the empty chain. -/
def TrieT.head : TrieT → Option Nat
  | .nil => none
  | .node a _ _ _ _ => some a

/-- Number of nodes of the sibling chain (children not counted). -/
def TrieT.chainLength : TrieT → Nat
  | .nil => 0
  | .node _ _ _ _ s => s.chainLength + 1

/-- The pointer `p` is the first node of a chain of shape `t` in memory `m`,
following `sibling` and `children`; key byte and payload agree. -/
def TrieRep (m : TrieMem) : TrieT → Option Nat → Prop
  | .nil, p => p = none
  | .node a k d c s, p =>
    p = some a ∧ (m a).key = k ∧ (m a).data = d ∧
      TrieRep m c (m a).children ∧ TrieRep m s (m a).sibling

/-- The representation relation can be decided by walking the shape. -/
instance TrieRep.instDecidable (m : TrieMem) :
    (t : TrieT) → (p : Option Nat) → Decidable (TrieRep m t p)
  | .nil, p => inferInstanceAs (Decidable (p = none))
  | .node a k d c s, p =>
    have := TrieRep.instDecidable m c (m a).children
    have := TrieRep.instDecidable m s (m a).sibling
    inferInstanceAs (Decidable (p = some a ∧ (m a).key = k ∧ (m a).data = d ∧
      TrieRep m c (m a).children ∧ TrieRep m s (m a).sibling))

/-- The first node of the sibling chain whose key byte is `b`, with what
follows it; `nil` when the chain has no such node. -/
def TrieT.find (b : Nat) : TrieT → TrieT
  | .nil => .nil
  | .node a k d c s => if k = b then .node a k d c s else TrieT.find b s

/-- What the level loop of `trie_lookup` does on a shape. -/
inductive TrieLook where
  | found : Nat → Option Nat → TrieLook
  | absent : TrieLook
  | diverges : TrieLook
  | no_value : TrieLook
deriving DecidableEq, Repr

/-- The level loop of `trie_lookup` on a shape, for the rest of the key: a
missing match leaves the loop only while `match_found` is still clear. -/
def TrieT.runLookup : TrieT → List Nat → Bool → TrieLook
  | .nil, _, _ => .no_value
  | .node a k d c s, [], mf =>
    match TrieT.find 0 (.node a k d c s) with
    | .node x _ dx _ _ => .found x dx
    | .nil => if mf = false then .absent else .diverges
  | .node a k d c s, b :: rest, mf =>
    match TrieT.find b (.node a k d c s) with
    | .node x _ dx cx _ => if b = 0 then .found x dx else TrieT.runLookup cx rest true
    | .nil => if mf = false then .absent else .diverges

/-- Number of nodes of a shape. -/
def TrieT.size : TrieT → Nat
  | .nil => 0
  | .node _ _ _ c s => c.size + s.size + 1

/-- The tree left by the run insert 50, insert 25, insert 75, remove 25 on a
newly created tree. -/
def bst_run_example : bst_t :=
  match bst_run 8 (bst_create bst_key_id bst_mem_null)
      [.insert (some 50), .insert (some 25), .insert (some 75), .remove (some 25)] with
  | some (bst, _) => bst
  | none => bst_create bst_key_id bst_mem_null

/-- The trie a run of calls leaves, started on a newly created trie
(`leaf_count` cleared, node addresses from 100); the newly created trie itself
when the run does not finish. -/
def trie_after (fuel junk : Nat) (calls : List trie_call) : trie_t :=
  match trie_run fuel junk (trie_create (fun _ => none) 0 trie_mem_null 100 1000) calls with
  | .ok (trie, _) => trie
  | _ => trie_create (fun _ => none) 0 trie_mem_null 100 1000

/-- What `trie_lookup` does on a shape: absent on the empty trie, the level
loop otherwise. -/
def TrieT.lookup (t : TrieT) (key : List Nat) : TrieLook :=
  match t with
  | .nil => .absent
  | .node a k d c s => TrieT.runLookup (.node a k d c s) key false

/-- Reads the shape of the chain at `p` off the memory, to the given depth. -/
def trie_shape : Nat → TrieMem → Option Nat → TrieT
  | 0, _, _ => .nil
  | _ + 1, _, none => .nil
  | fuel + 1, m, some a =>
    .node a (m a).key (m a).data (trie_shape fuel m (m a).children)
      (trie_shape fuel m (m a).sibling)

/-- The key "a". -/
def trie_key_a : List Nat := [97]

/-- The key "ab". -/
def trie_key_ab : List Nat := [97, 98]

/-- The key "ac". -/
def trie_key_ac : List Nat := [97, 99]

/-- The key "ann". -/
def trie_key_ann : List Nat := [97, 110, 110]

/-- The key "anx". -/
def trie_key_anx : List Nat := [97, 110, 120]

/-- The key "andrew". -/
def trie_key_andrew : List Nat := [97, 110, 100, 114, 101, 119]

/-- The key "annabel". -/
def trie_key_annabel : List Nat := [97, 110, 110, 97, 98, 101, 108]

/-- The key "dilbert". -/
def trie_key_dilbert : List Nat := [100, 105, 108, 98, 101, 114, 116]

/-- The chain `trie_insert_internal` builds for the rest of a key: one node per
byte at consecutive addresses from `a`, then the leaf node with the payload. -/
def TrieT.chain (data : Option Nat) : List Nat → Nat → TrieT
  | [], a => .node a 0 data .nil .nil
  | b :: rest, a => .node a b none (TrieT.chain data rest (a + 1)) .nil

/-- The chain with `new` put behind its last node. -/
def TrieT.appendChain (new : TrieT) : TrieT → TrieT
  | .nil => new
  | .node a k d c s => .node a k d c (TrieT.appendChain new s)

/-- The chain with the children of its first node of byte `b` replaced. -/
def TrieT.setKids (b : Nat) (kids : TrieT) : TrieT → TrieT
  | .nil => .nil
  | .node a k d c s =>
    if k = b then .node a k d kids s else .node a k d c (TrieT.setKids b kids s)

/-- What `trie_insert` does to the shape below a non-empty level, for the rest
of the key; new nodes take the addresses from `a`.  A matching byte descends,
a missing byte appends a new branch to the chain, and at the end of the key
the leaf node is stored as the sibling of the first node of the level unless
that node is itself a leaf node. -/
def TrieT.insWalk (data : Option Nat) (a : Nat) : List Nat → TrieT → TrieT
  | [], .nil => .nil
  | [], .node x k d c s =>
    if k = 0 then .node x k d c s else .node x k d c (.node a 0 data .nil .nil)
  | b :: rest, level =>
    match TrieT.find b level with
    | .nil => TrieT.appendChain (.node a b none (TrieT.chain data rest (a + 1)) .nil) level
    | .node _ _ _ c _ => TrieT.setKids b (TrieT.insWalk data a rest c) level

/-- What `trie_insert` does to the shape of the whole trie. -/
def TrieT.ins (data : Option Nat) (a : Nat) (key : List Nat) : TrieT → TrieT
  | .nil => TrieT.chain data key a
  | .node x k d c s => TrieT.insWalk data a key (.node x k d c s)

/-- Leaf nodes (key byte 0) have no children and all other nodes have some. -/
def TrieT.kidsOk : TrieT → Prop
  | .nil => True
  | .node _ k _ c s => (k = 0 ↔ c = .nil) ∧ TrieT.kidsOk c ∧ TrieT.kidsOk s

/-- The invariant `kidsOk` can be decided by walking the shape. -/
instance TrieT.kidsOk.instDecidable : (t : TrieT) → Decidable (TrieT.kidsOk t)
  | .nil => inferInstanceAs (Decidable True)
  | .node _ k _ c s =>
    have := TrieT.kidsOk.instDecidable c
    have := TrieT.kidsOk.instDecidable s
    inferInstanceAs (Decidable ((k = 0 ↔ c = .nil) ∧ TrieT.kidsOk c ∧ TrieT.kidsOk s))

/-- Key bytes of the nodes of a sibling chain. -/
def TrieT.chainKeys : TrieT → List Nat
  | .nil => []
  | .node _ k _ _ s => k :: s.chainKeys

/-- Sibling distinctness: within every sibling chain the key bytes are
mutually distinct. -/
def TrieT.distinct : TrieT → Prop
  | .nil => True
  | .node a k d c s =>
    (TrieT.node a k d c s).chainKeys.Nodup ∧ TrieT.distinct c ∧ TrieT.distinct s

/-- Sibling distinctness can be decided by walking the shape. -/
instance TrieT.distinct.instDecidable : (t : TrieT) → Decidable (TrieT.distinct t)
  | .nil => inferInstanceAs (Decidable True)
  | .node a k d c s =>
    have := TrieT.distinct.instDecidable c
    have := TrieT.distinct.instDecidable s
    inferInstanceAs (Decidable ((TrieT.node a k d c s).chainKeys.Nodup ∧
      TrieT.distinct c ∧ TrieT.distinct s))

/-- Number of leaf nodes of a shape. -/
def TrieT.leaves : TrieT → Nat
  | .nil => 0
  | .node _ k _ c s => (if k = 0 then 1 else 0) + c.leaves + s.leaves

/-- Whether the outcome is a found leaf node. -/
def TrieLook.isFound : TrieLook → Bool
  | .found _ _ => true
  | _ => false

/-- A well-formed trie: `trie.root` is the first node of a tree of shape `t`
whose nodes have mutually distinct addresses below `next_free`, none of them
freed; leaf nodes and only they have no children; sibling bytes are distinct;
`node_count` and `leaf_count` are the numbers of nodes and of leaf nodes. -/
def TrieWF (trie : trie_t) (t : TrieT) : Prop :=
  TrieRep trie.mem t trie.root ∧ t.addrs.Nodup ∧ (∀ x ∈ t.addrs, x < trie.next_free) ∧
    (∀ x ∈ t.addrs, x ∉ trie.freed) ∧ t.kidsOk ∧ t.distinct ∧
    trie.node_count = t.size ∧ trie.leaf_count = t.leaves ∧ t.size < 2 ^ 32

/-- Well-formedness of a concrete trie against a concrete shape is decidable. -/
instance TrieWF.instDecidable (trie : trie_t) (t : TrieT) : Decidable (TrieWF trie t) :=
  inferInstanceAs (Decidable (TrieRep trie.mem t trie.root ∧ t.addrs.Nodup ∧
    (∀ x ∈ t.addrs, x < trie.next_free) ∧ (∀ x ∈ t.addrs, x ∉ trie.freed) ∧ t.kidsOk ∧
    t.distinct ∧ trie.node_count = t.size ∧ trie.leaf_count = t.leaves ∧ t.size < 2 ^ 32))

/-- Address of the last node of the sibling chain, `dflt` for the empty
chain: the value `prev_node` has after a scan that ran off the chain. -/
def TrieT.lastOr : Option Nat → TrieT → Option Nat
  | dflt, .nil => dflt
  | _, .node a _ _ _ s => TrieT.lastOr (some a) s

/-- The entries the first phase of `trie_remove` records in `delete_arr` for
the rest of the key, from the level whose matched parent is `par`. -/
def TrieT.delEntries : TrieT → List Nat → Option Nat → List trie_del_node_t
  | level, [], par =>
    [{ del_node := (TrieT.find 0 level).head, first_node := level.head, parent := par,
       num_siblings := level.chainLength, num_children := 0 }]
  | level, b :: rest, par =>
    match TrieT.find b level with
    | .nil => []
    | .node x _ _ c _ =>
      { del_node := some x, first_node := level.head, parent := par,
        num_siblings := level.chainLength, num_children := c.chainLength } ::
        TrieT.delEntries c rest (some x)

/-- The chain without its first node of byte `b` (and without that node's
children). -/
def TrieT.dropFound (b : Nat) : TrieT → TrieT
  | .nil => .nil
  | .node a k d c s => if k = b then s else .node a k d c (TrieT.dropFound b s)

/-- Address of the node of the chain whose sibling is the node at `x`. -/
def TrieT.predOf (x : Nat) : TrieT → Option Nat
  | .nil => none
  | .node a _ _ _ s => if s.head = some x then some a else TrieT.predOf x s

/-- What the second phase of `trie_remove` does to the shape at a level below
the first one, for the rest of the key.  `none`: the level holds a single node
and every node from here down has been freed, the loop goes on one level up.
`some level1`: a node was taken out of its chain at this level or below and
the level now has shape `level1`. -/
def TrieT.pruneBelow : TrieT → List Nat → Option TrieT
  | level, [] => if level.chainLength = 1 then none else some (TrieT.dropFound 0 level)
  | level, b :: rest =>
    match TrieT.find b level with
    | .nil => some level
    | .node _ _ _ c _ =>
      match TrieT.pruneBelow c rest with
      | some c1 => some (TrieT.setKids b c1 level)
      | none => if level.chainLength = 1 then none else some (TrieT.dropFound b level)

/-- What `trie_remove` does to the shape of the trie.  At the first level the
source tests the word `junk` below `delete_arr` instead of a recorded count:
with `junk = 1` the node is freed but stays linked. -/
def TrieT.remove (junk : Nat) (t : TrieT) : List Nat → TrieT
  | [] => if junk = 1 then t else TrieT.dropFound 0 t
  | b :: rest =>
    match TrieT.find b t with
    | .nil => t
    | .node _ _ _ c _ =>
      match TrieT.pruneBelow c rest with
      | some c1 => TrieT.setKids b c1 t
      | none => if junk = 1 then t else TrieT.dropFound b t

/-- The nodes `trie_remove` frees at this level and below, top-most first. -/
def TrieT.freedBelow : TrieT → List Nat → List Nat
  | level, [] => (TrieT.find 0 level).head.toList
  | level, b :: rest =>
    match TrieT.find b level with
    | .nil => []
    | .node x _ _ c _ =>
      match TrieT.pruneBelow c rest with
      | some _ => TrieT.freedBelow c rest
      | none => x :: TrieT.freedBelow c rest

/-- The nodes on the path of a key: the matched node of every level, then the
leaf node. -/
def TrieT.pathNodes : TrieT → List Nat → List Nat
  | level, [] => (TrieT.find 0 level).head.toList
  | level, b :: rest =>
    match TrieT.find b level with
    | .nil => []
    | .node x _ _ c _ => x :: TrieT.pathNodes c rest

/-- The two memories agree at `z` in every field but `parent`. -/
def TrieMem.sameLinks (m1 m : TrieMem) (z : Nat) : Prop :=
  (m1 z).key = (m z).key ∧ (m1 z).data = (m z).data ∧
    (m1 z).sibling = (m z).sibling ∧ (m1 z).children = (m z).children

/-- The trie left by inserting "ann" (payload 1) and then "annabel" (payload 2)
into a newly created trie. -/
def trie_ann_annabel : trie_t :=
  trie_after 50 0 [.insert trie_key_ann 1, .insert trie_key_annabel 2]

/-- The shape of `trie_ann_annabel`, read off its memory. -/
def trie_ann_annabel_shape : TrieT :=
  trie_shape 12 trie_ann_annabel.mem trie_ann_annabel.root

/-- The trie `trie_remove` of "ann" leaves of `trie_ann_annabel` (`junk` 0);
`trie_ann_annabel` itself should the call not return. -/
def trie_annabel_only : trie_t :=
  match trie_remove 100 0 trie_ann_annabel (some trie_key_ann) with
  | .ok (trie1, _) => trie1
  | _ => trie_ann_annabel

/-! ## Iteration over the prefix index -/

/-- The `trie_get_least_internal` of the source: down the first child of every
level to the first leaf node; the result is its payload. -/
def trie_get_least_internal : Nat → TrieMem → Option Nat → TrieRun (Option Nat)
  | 0, _, _ => .out_of_fuel
  | _ + 1, _, none => .ok none
  | fuel + 1, m, some level =>
    if (m level).key = 0 then .ok (m level).data
    else trie_get_least_internal fuel m (m level).children

/-- The `trie_get_least` of the source. -/
def trie_get_least (fuel : Nat) (trie : trie_t) : TrieRun (Option Nat) :=
  match trie.root with
  | none => .ok none
  | some root => trie_get_least_internal fuel trie.mem (some root)

/-- The loop of `trie_get_next` that walks up through the `parent` fields:
`while (parent != NULL) { if (parent->sibling != NULL) { if (parent->sibling != node) break; } node = parent; parent = node->parent; }`.
The result is `parent` when the loop is left. -/
def trie_get_next_climb : Nat → TrieMem → Option Nat → Option Nat → TrieRun (Option Nat)
  | 0, _, _, _ => .out_of_fuel
  | _ + 1, _, none, _ => .ok none
  | fuel + 1, m, some parent, node =>
    if (m parent).sibling ≠ none ∧ (m parent).sibling ≠ node then .ok (some parent)
    else trie_get_next_climb fuel m (m parent).parent (some parent)

/-- The `trie_get_next` of the source.  `prev_node` is the payload returned
before; its key is obtained from `get_key` and its leaf node from
`trie_lookup_internal`.  When `trie_lookup_internal` ends without a value the
leaf pointer is indeterminate and the run counts as a fault. -/
def trie_get_next (fuel : Nat) (trie : trie_t) (prev_node : Option Nat) :
    TrieRun (Option Nat) :=
  match prev_node, trie.root with
  | none, _ => .ok none
  | some _, none => .ok none
  | some prev, some _ =>
    match trie.get_key prev with
    | none => .ok none
    | some key =>
      match trie_lookup_internal fuel trie key with
      | .out_of_fuel => .out_of_fuel
      | .fault => .fault
      | .ok .no_value => .fault
      | .ok (.value none) => .ok none
      | .ok (.value (some key_node)) =>
        match trie_get_next_climb fuel trie.mem (some key_node) none with
        | .out_of_fuel => .out_of_fuel
        | .fault => .fault
        | .ok none => .ok none
        | .ok (some parent) => trie_get_least_internal fuel trie.mem (trie.mem parent).sibling

/-- The iteration of `trie_usage`: `trie_get_next` is called on the payload
returned last until the result is `NULL`; at most `steps` payloads. -/
def trie_iterate_from : Nat → Nat → trie_t → Option Nat → TrieRun (List Nat)
  | _, _, _, none => .ok []
  | 0, _, _, some _ => .out_of_fuel
  | steps + 1, fuel, trie, some prev =>
    match trie_get_next fuel trie (some prev) with
    | .out_of_fuel => .out_of_fuel
    | .fault => .fault
    | .ok next =>
      match trie_iterate_from steps fuel trie next with
      | .out_of_fuel => .out_of_fuel
      | .fault => .fault
      | .ok out => .ok (prev :: out)

/-- The payloads in the order `trie_get_least`, `trie_get_next`, ... return
them. -/
def trie_iterate (steps fuel : Nat) (trie : trie_t) : TrieRun (List Nat) :=
  match trie_get_least fuel trie with
  | .out_of_fuel => .out_of_fuel
  | .fault => .fault
  | .ok first => trie_iterate_from steps fuel trie first

/-- The trie a run of calls leaves, started on a newly created trie with the
given `get_key` (`leaf_count` cleared, node addresses from 100). -/
def trie_built (get_key : Nat → Option (List Nat)) (fuel junk : Nat)
    (calls : List trie_call) : trie_t :=
  match trie_run fuel junk (trie_create get_key 0 trie_mem_null 100 1000) calls with
  | .ok (trie, _) => trie
  | _ => trie_create get_key 0 trie_mem_null 100 1000

/-- The keys of the records used in the iteration examples: record 1 has the
key "ab", record 2 the key "ac", record 3 the key "a". -/
def trie_abc_get_key : Nat → Option (List Nat)
  | 1 => some trie_key_ab
  | 2 => some trie_key_ac
  | 3 => some trie_key_a
  | _ => none

/-- The ordered index a run of calls leaves, started on a newly created tree
(the record at address `a` has key `a`); the newly created tree itself when
the run does not finish. -/
def bst_after (fuel : Nat) (calls : List bst_call) : bst_t :=
  match bst_run fuel (bst_create bst_key_id bst_mem_null) calls with
  | some (bst, _) => bst
  | none => bst_create bst_key_id bst_mem_null

/-!
# Linked lists of `list.c` and `llist.c`

The lists are intrusive: an element is the link structure embedded in a host
record, and a record is identified with the address of its link (the byte
offset `list_offset` between the two is left out).  `none` is `NULL`.  A call
yields `none` when it dereferences `NULL` or runs out of fuel.
-/

/-- The field of `list_elem_t`. -/
structure list_elem_t where
  next : Option Nat
deriving DecidableEq, Repr

/-- The link found at every element address. -/
abbrev ListMem := Nat → list_elem_t

/-- Store of one link: `*a = e`. -/
def ListMem.set (m : ListMem) (a : Nat) (e : list_elem_t) : ListMem :=
  fun x => if x = a then e else m x

/-- The container `list_t` together with the links of the elements.
`list_count` is a `uint32_t`. -/
structure list_t where
  list_head : Option Nat
  list_tail : Option Nat
  list_count : Nat
  mem : ListMem

/-- The `list_create` of the source.  It sets `list_count` and `list_head`;
`list_tail` keeps whatever the allocated block held (`tail_garbage`). -/
def list_create (tail_garbage : Option Nat) (mem : ListMem) : list_t :=
  { list_head := none, list_tail := tail_garbage, list_count := 0, mem := mem }

/-- The `list_empty` of the source. -/
def list_empty (list : list_t) : Bool :=
  if list.list_count = 0 then true else false

/-- The `list_destroy` of the source. -/
def list_destroy (list : list_t) : Int :=
  if !list_empty list then EFAIL else EOK

/-- The `list_get_head` of the source. -/
def list_get_head (list : list_t) : Option Nat := list.list_head

/-- The `list_get_tail` of the source. -/
def list_get_tail (list : list_t) : Option Nat := list.list_tail

/-- The `list_get_next` of the source.  Its sanity check tests the local
variable `elem` before that variable is assigned; `elem_garbage` is the value
the variable holds then. -/
def list_get_next (elem_garbage : Option Nat) (list : list_t) (prev_elem : Option Nat) :
    Option (Option Nat) :=
  if elem_garbage = none then some none
  else
    match prev_elem with
    | none => none
    | some prev => some (list.mem prev).next

/-- The `list_get_count` of the source. -/
def list_get_count (list : list_t) : Nat := list.list_count

/-- The `list_insert` of the source: the element is put behind `list_tail`. -/
def list_insert (list : list_t) (elem : Option Nat) : Option (list_t × Int) :=
  match elem with
  | none => some (list, EINVAL)
  | some e =>
    if list_empty list then
      some ({ list with list_head := some e, list_tail := some e,
                        mem := list.mem.set e { next := none },
                        list_count := u32_inc list.list_count }, EOK)
    else
      match list.list_tail with
      | none => none
      | some link =>
        let m1 := list.mem.set e { next := none }
        let m2 := m1.set link { next := some e }
        some ({ list with list_tail := some e, mem := m2,
                          list_count := u32_inc list.list_count }, EOK)

/-- The `list_insert_head` of the source. -/
def list_insert_head (list : list_t) (elem : Option Nat) : Option (list_t × Int) :=
  match elem with
  | none => some (list, EINVAL)
  | some e =>
    some ({ list with list_head := some e, mem := list.mem.set e { next := list.list_head },
                      list_count := u32_inc list.list_count }, EOK)

/-- The `list_insert_tail` of the source. -/
def list_insert_tail (list : list_t) (elem : Option Nat) : Option (list_t × Int) :=
  list_insert list elem

/-- The loop of `list_insert_after`, from `link`. -/
def list_insert_after_walk : Nat → list_t → Option Nat → Nat → Nat → Option (list_t × Int)
  | 0, _, _, _, _ => none
  | _ + 1, list, none, _, _ => some (list, ENOTFOUND)
  | fuel + 1, list, some link, prev_elem, e =>
    if link = prev_elem then
      let m1 := list.mem.set e { next := (list.mem prev_elem).next }
      let m2 := m1.set prev_elem { next := some e }
      some ({ list with mem := m2,
                        list_tail := if list.list_tail = some prev_elem then some e
                                     else list.list_tail,
                        list_count := u32_inc list.list_count }, EOK)
    else list_insert_after_walk fuel list (list.mem link).next prev_elem e

/-- The `list_insert_after` of the source. -/
def list_insert_after (fuel : Nat) (list : list_t) (prev_elem elem : Option Nat) :
    Option (list_t × Int) :=
  match prev_elem, elem with
  | some p, some e => list_insert_after_walk fuel list list.list_head p e
  | _, _ => some (list, EINVAL)

/-- The loop of `list_insert_before`, from `link`. -/
def list_insert_before_walk : Nat → list_t → Option Nat → Nat → Nat → Option (list_t × Int)
  | 0, _, _, _, _ => none
  | _ + 1, list, none, _, _ => some (list, ENOTFOUND)
  | fuel + 1, list, some link, next_elem, e =>
    if (list.mem link).next = some next_elem then
      let m1 := list.mem.set e { next := some next_elem }
      let m2 := m1.set link { next := some e }
      some ({ list with mem := m2, list_count := u32_inc list.list_count }, EOK)
    else list_insert_before_walk fuel list (list.mem link).next next_elem e

/-- The `list_insert_before` of the source. -/
def list_insert_before (fuel : Nat) (list : list_t) (next_elem elem : Option Nat) :
    Option (list_t × Int) :=
  match next_elem, elem with
  | some n, some e =>
    if list.list_head = some n then list_insert_head list (some e)
    else list_insert_before_walk fuel list list.list_head n e
  | _, _ => some (list, EINVAL)

/-- The loop of `list_remove`, from `link`. -/
def list_remove_walk : Nat → list_t → Option Nat → Nat → Option (list_t × Int)
  | 0, _, _, _ => none
  | _ + 1, list, none, _ => some (list, ENOTFOUND)
  | fuel + 1, list, some link, e =>
    if (list.mem link).next = some e then
      let m1 := list.mem.set link { next := (list.mem e).next }
      some ({ list with mem := m1,
                        list_tail := if list.list_tail = some e then some link
                                     else list.list_tail,
                        list_count := u32_dec list.list_count }, EOK)
    else list_remove_walk fuel list (list.mem link).next e

/-- The `list_remove` of the source. -/
def list_remove (fuel : Nat) (list : list_t) (elem : Option Nat) : Option (list_t × Int) :=
  match elem with
  | none => some (list, EINVAL)
  | some e =>
    if list.list_head = some e then
      some ({ list with list_head := (list.mem e).next,
                        list_count := u32_dec list.list_count }, EOK)
    else list_remove_walk fuel list list.list_head e

/-- Memory in which every link is `NULL`. -/
def list_mem_null : ListMem := fun _ => { next := none }

/-- One call of the singly linked list. -/
inductive list_call where
  | insert : Nat → list_call
  | insert_head : Nat → list_call
  | insert_tail : Nat → list_call
  | insert_after : Nat → Nat → list_call
  | insert_before : Nat → Nat → list_call
  | remove : Nat → list_call
deriving DecidableEq, Repr

/-- Runs the calls in order and collects the status each one returned. -/
def list_run (fuel : Nat) : list_t → List list_call → Option (list_t × List Int)
  | list, [] => some (list, [])
  | list, c :: cs =>
    match (match c with
      | .insert e => list_insert list (some e)
      | .insert_head e => list_insert_head list (some e)
      | .insert_tail e => list_insert_tail list (some e)
      | .insert_after p e => list_insert_after fuel list (some p) (some e)
      | .insert_before n e => list_insert_before fuel list (some n) (some e)
      | .remove e => list_remove fuel list (some e)) with
    | none => none
    | some (list1, st) =>
      match list_run fuel list1 cs with
      | none => none
      | some (list2, sts) => some (list2, st :: sts)

/-- The walk `list_get_head`, `list_get_next`, ... until `NULL`. -/
def list_walk_from (elem_garbage : Option Nat) : Nat → list_t → Option Nat → Option (List Nat)
  | _, _, none => some []
  | 0, _, some _ => none
  | fuel + 1, list, some e =>
    match list_get_next elem_garbage list (some e) with
    | none => none
    | some next =>
      match list_walk_from elem_garbage fuel list next with
      | none => none
      | some out => some (e :: out)

/-- The elements in the order the walk from `list_get_head` yields them. -/
def list_walk (elem_garbage : Option Nat) (fuel : Nat) (list : list_t) : Option (List Nat) :=
  list_walk_from elem_garbage fuel list (list_get_head list)

/-- The sequence with `e` put behind the first occurrence of `p`; unchanged
when `p` does not occur. -/
def list_abstract_insert_after (p e : Nat) : List Nat → List Nat
  | [] => []
  | x :: xs => if x = p then x :: e :: xs else x :: list_abstract_insert_after p e xs

/-- The sequence with `e` put before the first occurrence of `n`; unchanged
when `n` does not occur. -/
def list_abstract_insert_before (n e : Nat) : List Nat → List Nat
  | [] => []
  | x :: xs => if x = n then e :: x :: xs else x :: list_abstract_insert_before n e xs

/-- The edit a call stands for on an abstract sequence of elements. -/
def list_abstract_step (l : List Nat) : list_call → List Nat
  | .insert e => l ++ [e]
  | .insert_head e => e :: l
  | .insert_tail e => l ++ [e]
  | .insert_after p e => list_abstract_insert_after p e l
  | .insert_before n e => list_abstract_insert_before n e l
  | .remove e => l.erase e

/-- The abstract sequence after the calls, from the empty sequence. -/
def list_abstract_run (calls : List list_call) : List Nat :=
  calls.foldl list_abstract_step []

/-- What a scenario on a newly created singly linked list shows (`list_tail`
and the links start as `NULL`, the unassigned local of `list_get_next` holds a
non-null value): the statuses, the walk from the head, `list_get_count` and
`list_get_tail`. -/
def list_scenario (fuel : Nat) (calls : List list_call) :
    Option (List Int × List Nat × Nat × Option Nat) :=
  match list_run fuel (list_create none list_mem_null) calls with
  | none => none
  | some (list, sts) =>
    match list_walk (some 1) fuel list with
    | none => none
    | some out => some (sts, out, list_get_count list, list_get_tail list)

/-- The fields of `llist_elem_t`. -/
structure llist_elem_t where
  next : Option Nat
  prev : Option Nat
deriving DecidableEq, Repr

/-- The links found at every element address of a doubly linked list. -/
abbrev LlistMem := Nat → llist_elem_t

/-- Store of the links of one element. -/
def LlistMem.set (m : LlistMem) (a : Nat) (e : llist_elem_t) : LlistMem :=
  fun x => if x = a then e else m x

/-- The container `llist_t` together with the links of the elements. -/
structure llist_t where
  list_head : Option Nat
  list_tail : Option Nat
  list_count : Nat
  mem : LlistMem

/-- The `llist_create` of the source; `list_tail` is not set. -/
def llist_create (tail_garbage : Option Nat) (mem : LlistMem) : llist_t :=
  { list_head := none, list_tail := tail_garbage, list_count := 0, mem := mem }

/-- A doubly linked list as the functions of `list.c` see it: `llist_t` has
the layout of `list_t`, and `next` is the first field of `llist_elem_t`. -/
def llist_as_list (list : llist_t) : list_t :=
  { list_head := list.list_head, list_tail := list.list_tail, list_count := list.list_count,
    mem := fun a => { next := (list.mem a).next } }

/-- The doubly linked list after a function of `list.c` has worked on it: the
container fields and the `next` fields are taken from the result, the `prev`
fields are untouched. -/
def llist_of_list (list : llist_t) (res : list_t) : llist_t :=
  { list_head := res.list_head, list_tail := res.list_tail, list_count := res.list_count,
    mem := fun a => { next := (res.mem a).next, prev := (list.mem a).prev } }

/-- A call from `llist.c` into a function of `list.c`. -/
def llist_call_list (f : list_t → Option (list_t × Int)) (list : llist_t) :
    Option (llist_t × Int) :=
  match f (llist_as_list list) with
  | none => none
  | some (res, st) => some (llist_of_list list res, st)

/-- The `llist_empty` of the source. -/
def llist_empty (list : llist_t) : Bool :=
  if list.list_count = 0 then true else false

/-- The `llist_destroy` of the source; it calls `list_empty`. -/
def llist_destroy (list : llist_t) : Int :=
  if !list_empty (llist_as_list list) then EFAIL else EOK

/-- The `llist_get_head` of the source. -/
def llist_get_head (list : llist_t) : Option Nat := list.list_head

/-- The `llist_get_tail` of the source. -/
def llist_get_tail (list : llist_t) : Option Nat := list.list_tail

/-- The `llist_get_next` of the source. -/
def llist_get_next (list : llist_t) (prev_elem : Option Nat) : Option Nat :=
  match prev_elem with
  | none => none
  | some prev => (list.mem prev).next

/-- The `llist_get_prev` of the source. -/
def llist_get_prev (list : llist_t) (next_elem : Option Nat) : Option Nat :=
  match next_elem with
  | none => none
  | some nxt => (list.mem nxt).prev

/-- The `llist_get_count` of the source. -/
def llist_get_count (list : llist_t) : Nat := list.list_count

/-- The `llist_insert` of the source.  The branch for the first element
stores `elem->next` twice and leaves `elem->prev` as it was. -/
def llist_insert (list : llist_t) (elem : Option Nat) : Option (llist_t × Int) :=
  match elem with
  | none => some (list, EINVAL)
  | some e =>
    if list_empty (llist_as_list list) then
      let m1 := list.mem.set e { list.mem e with next := none }
      let m2 := m1.set e { m1 e with next := none }
      some ({ list with list_head := some e, list_tail := some e, mem := m2,
                        list_count := u32_inc list.list_count }, EOK)
    else
      match list.list_tail with
      | none => none
      | some link =>
        let m1 := list.mem.set e { list.mem e with next := none }
        let m2 := m1.set e { m1 e with prev := some link }
        let m3 := m2.set link { m2 link with next := some e }
        some ({ list with list_tail := some e, mem := m3,
                          list_count := u32_inc list.list_count }, EOK)

/-- The `llist_insert_head` of the source. -/
def llist_insert_head (list : llist_t) (elem : Option Nat) : Option (llist_t × Int) :=
  match elem with
  | none => some (list, EINVAL)
  | some e =>
    let m1 := list.mem.set e { list.mem e with next := list.list_head }
    let m2 := m1.set e { m1 e with prev := none }
    match list.list_head with
    | none => none
    | some h =>
      let m3 := m2.set h { m2 h with prev := some e }
      some ({ list with list_head := some e, mem := m3,
                        list_count := u32_inc list.list_count }, EOK)

/-- The `llist_insert_tail` of the source; it calls `list_insert` of
`list.c`. -/
def llist_insert_tail (list : llist_t) (elem : Option Nat) : Option (llist_t × Int) :=
  llist_call_list (fun l => list_insert l elem) list

/-- The loop of `llist_insert_after`, from `link`.  The last of the four
stores is `prev_elem->next->prev = elem`, made after `prev_elem->next` has
become `elem`. -/
def llist_insert_after_walk :
    Nat → llist_t → Option Nat → Nat → Nat → Option (llist_t × Int)
  | 0, _, _, _, _ => none
  | _ + 1, list, none, _, _ => some (list, ENOTFOUND)
  | fuel + 1, list, some link, prev_elem, e =>
    if link = prev_elem then
      let m1 := list.mem.set e { list.mem e with next := (list.mem prev_elem).next }
      let m2 := m1.set e { m1 e with prev := some prev_elem }
      let m3 := m2.set prev_elem { m2 prev_elem with next := some e }
      match (m3 prev_elem).next with
      | none => none
      | some n =>
        let m4 := m3.set n { m3 n with prev := some e }
        some ({ list with mem := m4,
                          list_tail := if list.list_tail = some prev_elem then some e
                                       else list.list_tail,
                          list_count := u32_inc list.list_count }, EOK)
    else llist_insert_after_walk fuel list (list.mem link).next prev_elem e

/-- The `llist_insert_after` of the source. -/
def llist_insert_after (fuel : Nat) (list : llist_t) (prev_elem elem : Option Nat) :
    Option (llist_t × Int) :=
  match prev_elem, elem with
  | some p, some e => llist_insert_after_walk fuel list list.list_head p e
  | _, _ => some (list, EINVAL)

/-- The loop of `llist_insert_before`, from `link`. -/
def llist_insert_before_walk :
    Nat → llist_t → Option Nat → Nat → Nat → Option (llist_t × Int)
  | 0, _, _, _, _ => none
  | _ + 1, list, none, _, _ => some (list, ENOTFOUND)
  | fuel + 1, list, some link, next_elem, e =>
    if (list.mem link).next = some next_elem then
      let m1 := list.mem.set e { list.mem e with next := some next_elem }
      let m2 := m1.set e { m1 e with prev := some link }
      let m3 := m2.set link { m2 link with next := some e }
      let m4 := m3.set next_elem { m3 next_elem with prev := some e }
      some ({ list with mem := m4, list_count := u32_inc list.list_count }, EOK)
    else llist_insert_before_walk fuel list (list.mem link).next next_elem e

/-- The `llist_insert_before` of the source; before the head it calls
`list_insert_head` of `list.c`. -/
def llist_insert_before (fuel : Nat) (list : llist_t) (next_elem elem : Option Nat) :
    Option (llist_t × Int) :=
  match next_elem, elem with
  | some n, some e =>
    if list.list_head = some n then llist_call_list (fun l => list_insert_head l (some e)) list
    else llist_insert_before_walk fuel list list.list_head n e
  | _, _ => some (list, EINVAL)

/-- The loop of `llist_remove`, from `link`. -/
def llist_remove_walk : Nat → llist_t → Option Nat → Nat → Option (llist_t × Int)
  | 0, _, _, _ => none
  | _ + 1, list, none, _ => some (list, ENOTFOUND)
  | fuel + 1, list, some link, e =>
    if (list.mem link).next = some e then
      let m1 := list.mem.set link { list.mem link with next := (list.mem e).next }
      let m2 :=
        match (m1 e).next with
        | none => m1
        | some n => m1.set n { m1 n with prev := some link }
      some ({ list with mem := m2,
                        list_tail := if list.list_tail = some e then some link
                                     else list.list_tail,
                        list_count := u32_dec list.list_count }, EOK)
    else llist_remove_walk fuel list (list.mem link).next e

/-- The `llist_remove` of the source.  Removing the head stores into
`list->list_head->prev` without a test of the new head. -/
def llist_remove (fuel : Nat) (list : llist_t) (elem : Option Nat) : Option (llist_t × Int) :=
  match elem with
  | none => some (list, EINVAL)
  | some e =>
    if list.list_head = some e then
      match (list.mem e).next with
      | none => none
      | some h =>
        some ({ list with list_head := some h,
                          mem := list.mem.set h { list.mem h with prev := none },
                          list_count := u32_dec list.list_count }, EOK)
    else llist_remove_walk fuel list list.list_head e

/-- Memory in which every link is `NULL`. -/
def llist_mem_null : LlistMem := fun _ => { next := none, prev := none }

/-- One call of the doubly linked list. -/
inductive llist_call where
  | insert : Nat → llist_call
  | insert_head : Nat → llist_call
  | insert_tail : Nat → llist_call
  | insert_after : Nat → Nat → llist_call
  | insert_before : Nat → Nat → llist_call
  | remove : Nat → llist_call
deriving DecidableEq, Repr

/-- Runs the calls in order and collects the status each one returned. -/
def llist_run (fuel : Nat) : llist_t → List llist_call → Option (llist_t × List Int)
  | list, [] => some (list, [])
  | list, c :: cs =>
    match (match c with
      | .insert e => llist_insert list (some e)
      | .insert_head e => llist_insert_head list (some e)
      | .insert_tail e => llist_insert_tail list (some e)
      | .insert_after p e => llist_insert_after fuel list (some p) (some e)
      | .insert_before n e => llist_insert_before fuel list (some n) (some e)
      | .remove e => llist_remove fuel list (some e)) with
    | none => none
    | some (list1, st) =>
      match llist_run fuel list1 cs with
      | none => none
      | some (list2, sts) => some (list2, st :: sts)

/-- The doubly linked list a run of calls leaves, started on a newly created
list (`list_tail` and all links `NULL`); the newly created list itself when
the run does not finish. -/
def llist_after (fuel : Nat) (calls : List llist_call) : llist_t :=
  match llist_run fuel (llist_create none llist_mem_null) calls with
  | some (list, _) => list
  | none => llist_create none llist_mem_null

/-- The key made of 64 bytes 'a': as long as `MAX_KEY_LEN`. -/
def trie_key_long : List Nat := List.replicate 64 97

/-- Number of nodes `trie_insert` allocates below a non-empty level for the
rest of the key. -/
def TrieT.insAlloc : List Nat → TrieT → Nat
  | [], .nil => 0
  | [], .node _ k _ _ _ => if k = 0 then 0 else 1
  | b :: rest, level =>
    match TrieT.find b level with
    | .nil => rest.length + 2
    | .node _ _ _ c _ => TrieT.insAlloc rest c

/-- The call is a `trie_insert` with a non-empty key (a C string: no zero byte
among its bytes). -/
def trie_call_inserts (c : trie_call) : Bool :=
  match c with
  | .insert key _ => decide (key ≠ [] ∧ 0 ∉ key)
  | .remove _ => false

/-- The most nodes the `trie_insert` calls of a run can allocate: one per byte
of every key, and the leaf node. -/
def trie_calls_cost : List trie_call → Nat
  | [] => 0
  | .insert key _ :: cs => key.length + 1 + trie_calls_cost cs
  | .remove _ :: cs => trie_calls_cost cs

/-- The links of the trie form the finite shape `t`: every node is reached
once, every node has been handed out by the allocator and has not been freed,
every freed block had been handed out before, and leaf nodes (key byte 0) are
exactly the nodes without children. -/
def TrieLinked (trie : trie_t) (t : TrieT) : Prop :=
  TrieRep trie.mem t trie.root ∧ t.addrs.Nodup ∧ (∀ x ∈ t.addrs, x < trie.next_free) ∧
    (∀ x ∈ t.addrs, x ∉ trie.freed) ∧ (∀ x ∈ trie.freed, x < trie.next_free) ∧ t.kidsOk

/-- Whether the links of a concrete trie form a concrete shape is decidable. -/
instance TrieLinked.instDecidable (trie : trie_t) (t : TrieT) : Decidable (TrieLinked trie t) :=
  inferInstanceAs (Decidable (TrieRep trie.mem t trie.root ∧ t.addrs.Nodup ∧
    (∀ x ∈ t.addrs, x < trie.next_free) ∧ (∀ x ∈ t.addrs, x ∉ trie.freed) ∧
    (∀ x ∈ trie.freed, x < trie.next_free) ∧ t.kidsOk))

/-! ## Memory lemmas -/

@[simp] theorem BstMem.set_same (m : BstMem) (a : Nat) (n : bst_node_t) :
    (m.set a n) a = n := by
  simp [BstMem.set]

theorem BstMem.set_other (m : BstMem) (a x : Nat) (n : bst_node_t) (h : x ≠ a) :
    (m.set a n) x = m x := by
  simp [BstMem.set, h]

theorem BstMem.set_self (m : BstMem) (a : Nat) (n : bst_node_t) (h : n = m a) :
    m.set a n = m := by
  funext x
  by_cases hx : x = a
  · subst hx; simp [BstMem.set, h]
  · simp [BstMem.set, hx]

theorem BstShape.shape_congr {m m1 : BstMem} {t : BstTree} {p : Option Nat}
    (h : BstShape m t p) (hm : ∀ x ∈ t.inorder, m1 x = m x) : BstShape m1 t p := by
  induction t generalizing p with
  | nil => exact h
  | node l a r ihl ihr =>
    obtain ⟨hp, hl, hr⟩ := h
    have ha : m1 a = m a := hm a (by simp [BstTree.inorder])
    refine ⟨hp, ?_, ?_⟩
    · rw [ha]
      exact ihl hl (fun x hx => hm x (by simp [BstTree.inorder, hx]))
    · rw [ha]
      exact ihr hr (fun x hx => hm x (by simp [BstTree.inorder, hx]))

theorem BstParents.parents_congr {m m1 : BstMem} {t : BstTree} {par : Option Nat}
    (h : BstParents m t par) (hm : ∀ x ∈ t.inorder, m1 x = m x) : BstParents m1 t par := by
  induction t generalizing par with
  | nil => trivial
  | node l a r ihl ihr =>
    obtain ⟨hp, hl, hr⟩ := h
    have ha : m1 a = m a := hm a (by simp [BstTree.inorder])
    refine ⟨by rw [ha]; exact hp, ?_, ?_⟩
    · exact ihl hl (fun x hx => hm x (by simp [BstTree.inorder, hx]))
    · exact ihr hr (fun x hx => hm x (by simp [BstTree.inorder, hx]))

theorem BstShape.rootAddr {m : BstMem} {t : BstTree} {p : Option Nat}
    (h : BstShape m t p) : p = t.rootAddr := by
  cases t with
  | nil => exact h
  | node l a r => exact h.1

/-! ## Lookup -/

theorem BstTree.find_mem {key : Nat → Int} {t : BstTree} {k : Int} {b : Nat}
    (h : BstTree.find key t k = some b) : b ∈ t.inorder ∧ key b = k := by
  induction t with
  | nil => simp [BstTree.find] at h
  | node l a r ihl ihr =>
    simp only [BstTree.find] at h
    split_ifs at h with h1 h2
    · have := ihl h; simp [BstTree.inorder, this.1, this.2]
    · have := ihr h; simp [BstTree.inorder, this.1, this.2]
    · cases h
      simp only [BstTree.inorder, List.mem_append, List.mem_cons, true_or, or_true, true_and]
      omega

theorem BstTree.find_of_mem {key : Nat → Int} {t : BstTree} (ho : BstOrdered key t)
    {b : Nat} (hb : b ∈ t.inorder) : BstTree.find key t (key b) = some b := by
  induction t with
  | nil => simp [BstTree.inorder] at hb
  | node l a r ihl ihr =>
    obtain ⟨hol, hor, hlt, hgt⟩ := ho
    simp only [BstTree.inorder, List.mem_append, List.mem_cons] at hb
    simp only [BstTree.find]
    rcases hb with hb | hb | hb
    · rw [if_pos (hlt b hb)]; exact ihl hol hb
    · subst hb; simp
    · have := hgt b hb
      rw [if_neg (by omega), if_pos (by omega)]; exact ihr hor hb

theorem BstTree.find_none {key : Nat → Int} {t : BstTree} {k : Int}
    (h : ∀ x ∈ t.inorder, key x ≠ k) : BstTree.find key t k = none := by
  cases hf : BstTree.find key t k with
  | none => rfl
  | some b => exact absurd (BstTree.find_mem hf).2 (h b (BstTree.find_mem hf).1)

theorem bst_lookup_internal_eq (key : Nat → Int) (m : BstMem) (k : Int) :
    ∀ (t : BstTree) (p : Option Nat) (fuel : Nat), BstShape m t p → t.size < fuel →
      bst_lookup_internal key fuel m p k = some (BstTree.find key t k) := by
  intro t
  induction t with
  | nil =>
    intro p fuel hs hf
    cases fuel with
    | zero => omega
    | succ f =>
      have : p = none := hs
      subst this
      simp [bst_lookup_internal, BstTree.find]
  | node l a r ihl ihr =>
    intro p fuel hs hf
    obtain ⟨hp, hl, hr⟩ := hs
    subst hp
    cases fuel with
    | zero => omega
    | succ f =>
      simp only [BstTree.size] at hf
      simp only [bst_lookup_internal, BstTree.find]
      split_ifs with h1 h2
      · exact ihl _ f hl (by omega)
      · exact ihr _ f hr (by omega)
      · rfl

theorem bst_lookup_eq (bst : bst_t) (t : BstTree) (k : Int) (fuel : Nat)
    (hs : BstShape bst.mem t bst.root) (hf : t.size < fuel) :
    bst_lookup fuel bst k = some (BstTree.find bst.get_key t k) := by
  unfold bst_lookup
  cases hr : bst.root with
  | none =>
    rw [hr] at hs
    cases t with
    | nil => simp [BstTree.find]
    | node l a r => simp [BstShape] at hs
  | some root =>
    rw [hr] at hs
    simp only
    rw [bst_lookup_internal_eq bst.get_key bst.mem k t (some root) fuel hs hf]
    cases BstTree.find bst.get_key t k <;> rfl

/-! ## Order and distinctness of the in-order sequence -/

theorem BstOrdered.pairwise {key : Nat → Int} {t : BstTree} (ho : BstOrdered key t) :
    t.inorder.Pairwise (fun x y => key x < key y) := by
  induction t with
  | nil => simp [BstTree.inorder]
  | node l a r ihl ihr =>
    obtain ⟨hol, hor, hlt, hgt⟩ := ho
    simp only [BstTree.inorder]
    rw [List.pairwise_append]
    refine ⟨ihl hol, ?_, ?_⟩
    · rw [List.pairwise_cons]
      exact ⟨hgt, ihr hor⟩
    · intro x hx y hy
      rw [List.mem_cons] at hy
      rcases hy with hy | hy
      · subst hy; exact hlt x hx
      · exact lt_trans (hlt x hx) (hgt y hy)

theorem BstOrdered.nodup {key : Nat → Int} {t : BstTree} (ho : BstOrdered key t) :
    t.inorder.Nodup := by
  have hp := ho.pairwise
  unfold List.Nodup
  exact hp.imp (fun {a b} hab heq => by subst heq; exact lt_irrefl _ hab)

theorem bst_split_unique {r : Nat} :
    ∀ (s1 s2 u1 u2 : List Nat), (s1 ++ r :: s2).Nodup → s1 ++ r :: s2 = u1 ++ r :: u2 →
      s1 = u1 ∧ s2 = u2 := by
  intro s1
  induction s1 with
  | nil =>
    intro s2 u1 u2 hn h
    cases u1 with
    | nil => simpa using h
    | cons x u1 =>
      simp only [List.nil_append, List.cons_append, List.cons.injEq] at h
      obtain ⟨hx, hs⟩ := h
      simp only [List.nil_append, List.nodup_cons] at hn
      exact absurd (by rw [hs]; simp) hn.1
  | cons x s1 ih =>
    intro s2 u1 u2 hn h
    cases u1 with
    | nil =>
      simp only [List.nil_append, List.cons_append, List.cons.injEq] at h
      obtain ⟨hx, hs⟩ := h
      subst hx
      simp only [List.cons_append, List.nodup_cons] at hn
      exact absurd (by simp) hn.1
    | cons y u1 =>
      simp only [List.cons_append, List.cons.injEq] at h
      obtain ⟨hx, hs⟩ := h
      simp only [List.cons_append, List.nodup_cons] at hn
      obtain ⟨h1, h2⟩ := ih s2 u1 u2 hn.2 hs
      exact ⟨by rw [hx, h1], h2⟩

theorem BstTree.inorder_length (t : BstTree) : t.inorder.length = t.size := by
  induction t with
  | nil => rfl
  | node l a r ihl ihr => simp [BstTree.inorder, BstTree.size, ihl, ihr]; omega

theorem BstShape.root_mem {m : BstMem} {t : BstTree} {a : Nat}
    (h : BstShape m t (some a)) : a ∈ t.inorder := by
  cases t with
  | nil => simp [BstShape] at h
  | node l b r =>
    have := h.1
    simp only [Option.some.injEq] at this
    subst this
    simp [BstTree.inorder]

theorem BstShape.ne_nil_of_some {m : BstMem} {t : BstTree} {a : Nat}
    (h : BstShape m t (some a)) : t ≠ .nil := by
  intro ht; subst ht; simp [BstShape] at h

theorem BstShape.some_of_ne_nil {m : BstMem} {t : BstTree} {p : Option Nat}
    (h : BstShape m t p) (ht : t ≠ .nil) : ∃ a, p = some a := by
  cases t with
  | nil => exact absurd rfl ht
  | node l b r => exact ⟨b, h.1⟩

theorem BstTree.inorder_eq_nil {t : BstTree} (h : t.inorder = []) : t = .nil := by
  cases t with
  | nil => rfl
  | node l a r => simp [BstTree.inorder] at h

/-! ## Minimum -/

theorem bst_find_min_walk_spec (m : BstMem) :
    ∀ (l : BstTree) (a : Nat) (r : BstTree) (fuel : Nat),
      BstShape m (.node l a r) (some a) → l ≠ .nil → (BstTree.node l a r).size < fuel →
      ∃ x, bst_find_min_walk fuel m a = some x ∧ (m x).left = l.inorder.head? := by
  intro l
  induction l with
  | nil => intro a r fuel _ h; exact absurd rfl h
  | node ll b lr ihll _ =>
    intro a r fuel hs _ hf
    obtain ⟨_, hl, _⟩ := hs
    have hl0 := hl
    obtain ⟨hb, hll, _⟩ := hl
    cases fuel with
    | zero => omega
    | succ f =>
      simp only [BstTree.size] at hf
      cases ll with
      | nil =>
        have hbl : (m b).left = none := hll
        refine ⟨a, ?_, ?_⟩
        · simp [bst_find_min_walk, hb, hbl]
        · simp [hb, BstTree.inorder]
      | node l3 c r3 =>
        have hbl : (m b).left = some c := hll.1
        have hs2 : BstShape m (.node (.node l3 c r3) b lr) (some b) := by
          rw [hb] at hl0; exact hl0
        obtain ⟨x, hx1, hx2⟩ := ihll b lr f hs2 (by simp)
          (by simp only [BstTree.size] at hf ⊢; omega)
        refine ⟨x, ?_, ?_⟩
        · simp [bst_find_min_walk, hb, hbl, hx1]
        · rw [hx2]
          simp [BstTree.inorder]

theorem bst_find_min_spec (m : BstMem) (t : BstTree) (p : Option Nat) (fuel : Nat)
    (hs : BstShape m t p) (hf : t.size < fuel) :
    bst_find_min fuel m p false = some (m, t.inorder.head?) := by
  cases t with
  | nil =>
    have : p = none := hs
    subst this
    simp [bst_find_min, BstTree.inorder]
  | node l a r =>
    have hp : p = some a := hs.1
    subst hp
    cases l with
    | nil =>
      have : (m a).left = none := hs.2.1
      simp [bst_find_min, this, BstTree.inorder]
    | node ll b lr =>
      have hl : (m a).left = some b := hs.2.1.1
      obtain ⟨x, hx1, hx2⟩ := bst_find_min_walk_spec m (.node ll b lr) a r fuel hs (by simp) hf
      simp only [bst_find_min, hl, hx1, hx2]
      simp [BstTree.inorder]

/-! ## In-order successor -/

theorem bst_get_next_climb_mono (m : BstMem) :
    ∀ (f k : Nat) (node : Nat) (par res : Option Nat),
      bst_get_next_climb f m node par = some res →
      bst_get_next_climb (f + k) m node par = some res := by
  intro f
  induction f with
  | zero => intro k node par res h; simp [bst_get_next_climb] at h
  | succ f ih =>
    intro k node par res h
    have e : f + 1 + k = (f + k) + 1 := by omega
    rw [e]
    cases par with
    | none => simpa [bst_get_next_climb] using h
    | some p =>
      simp only [bst_get_next_climb] at h ⊢
      split_ifs at h ⊢ with hc
      · exact ih k p _ res h
      · exact h

theorem bst_get_next_climb_le (m : BstMem) {f g : Nat} (hfg : f ≤ g) {node : Nat}
    {par res : Option Nat} (h : bst_get_next_climb f m node par = some res) :
    bst_get_next_climb g m node par = some res := by
  obtain ⟨k, rfl⟩ := Nat.exists_eq_add_of_le hfg
  exact bst_get_next_climb_mono m f k node par res h

/-- Position of a record in the in-order sequence decides what `bst_get_next`
does: with a follower `y` it returns `y`; at the end of the subtree the record
has no right child and the climb continues above the subtree's root. -/
theorem bst_get_next_in_subtree (bst : bst_t) :
    ∀ (t : BstTree) (p par : Option Nat),
      BstShape bst.mem t p → BstParents bst.mem t par → t.inorder.Nodup →
      ∀ (s1 : List Nat) (r : Nat) (s2 : List Nat), t.inorder = s1 ++ r :: s2 →
        (∀ y ys, s2 = y :: ys → ∀ fuel, t.size < fuel →
          bst_get_next fuel bst (some r) = some (some y)) ∧
        (s2 = [] → (bst.mem r).right = none ∧
          ∀ f res a, p = some a → bst_get_next_climb f bst.mem a par = some res →
            bst_get_next_climb (f + t.size) bst.mem r (bst.mem r).parent = some res) := by
  intro t
  induction t with
  | nil =>
    intro p par _ _ _ s1 r s2 h
    simp [BstTree.inorder] at h
  | node l a rt ihl ihr =>
    intro p par hs hpar hn s1 r s2 h
    obtain ⟨hp, hl, hr⟩ := hs
    obtain ⟨hpa, hpl, hpr⟩ := hpar
    simp only [BstTree.inorder] at h hn
    have hn0 := hn
    rw [List.nodup_append] at hn
    obtain ⟨hnl, hnr, hdisj⟩ := hn
    rw [List.nodup_cons] at hnr
    have hrmem : r ∈ l.inorder ++ a :: rt.inorder := by rw [h]; simp
    rw [List.mem_append, List.mem_cons] at hrmem
    rcases hrmem with hrl | hra | hrr
    · -- the record lies in the left subtree
      obtain ⟨u1, u2, hu⟩ := List.append_of_mem hrl
      have h2 : s1 ++ r :: s2 = u1 ++ r :: (u2 ++ a :: rt.inorder) := by
        rw [← h, hu]; simp
      obtain ⟨_, hs2⟩ := bst_split_unique s1 s2 u1 _ (by rw [← h]; exact hn0) h2
      obtain ⟨ih1, ih2⟩ := ihl _ (some a) hl hpl hnl u1 r u2 hu
      constructor
      · intro y ys hy fuel hf
        simp only [BstTree.size] at hf
        cases u2 with
        | nil =>
          obtain ⟨hright, hclimb⟩ := ih2 rfl
          have hya : y = a := by
            rw [hy] at hs2; simp at hs2; exact hs2.1
          subst hya
          obtain ⟨la, hla⟩ := hl.some_of_ne_nil (by
            intro hnil; rw [hnil] at hrl; simp [BstTree.inorder] at hrl)
          have hlamem : la ∈ l.inorder := by
            rw [hla] at hl; exact hl.root_mem
          have hne : (bst.mem y).right ≠ some la := by
            intro hc
            rw [hc] at hr
            exact hdisj hlamem (List.mem_cons_of_mem _ hr.root_mem)
          have h1 : bst_get_next_climb 1 bst.mem la (some y) = some (some y) := by
            simp [bst_get_next_climb, hne]
          have h3 := hclimb 1 (some y) la hla h1
          have h4 := bst_get_next_climb_le bst.mem (by omega : 1 + l.size ≤ fuel) h3
          simp only [bst_get_next, hright]
          simpa using h4
        | cons z u2 =>
          have hyz : y = z := by
            rw [hy] at hs2; simp at hs2; exact hs2.1
          subst hyz
          exact ih1 y u2 rfl fuel (by omega)
      · intro hnil
        rw [hnil] at hs2
        simp at hs2
    · -- the record is the root of the subtree
      subst hra
      have h2 : s1 ++ r :: s2 = l.inorder ++ r :: rt.inorder := h.symm
      obtain ⟨_, hs2⟩ := bst_split_unique s1 s2 _ _ (by rw [← h]; exact hn0) h2
      constructor
      · intro y ys hy fuel hf
        simp only [BstTree.size] at hf
        have hrt : rt ≠ .nil := by
          intro hnil; rw [hnil, hy] at hs2; simp [BstTree.inorder] at hs2
        obtain ⟨ra, hra⟩ := hr.some_of_ne_nil hrt
        have hmin := bst_find_min_spec bst.mem rt _ fuel hr (by omega)
        rw [← hs2, hy] at hmin
        simp only [bst_get_next, hra, ne_eq, not_false_eq_true, if_true]
        rw [hra] at hmin
        simp [hmin]
      · intro hnil
        rw [hnil] at hs2
        have hrt := BstTree.inorder_eq_nil hs2.symm
        rw [hrt] at hr
        refine ⟨hr, ?_⟩
        intro f res a ha hc
        rw [hp] at ha
        simp only [Option.some.injEq] at ha
        subst ha
        rw [hpa]
        exact bst_get_next_climb_mono bst.mem f _ _ _ _ hc
    · -- the record lies in the right subtree
      obtain ⟨u1, u2, hu⟩ := List.append_of_mem hrr
      have h2 : s1 ++ r :: s2 = (l.inorder ++ a :: u1) ++ r :: u2 := by
        rw [← h, hu]; simp
      obtain ⟨_, hs2⟩ := bst_split_unique s1 s2 _ _ (by rw [← h]; exact hn0) h2
      obtain ⟨ih1, ih2⟩ := ihr _ (some a) hr hpr hnr.2 u1 r u2 hu
      constructor
      · intro y ys hy fuel hf
        simp only [BstTree.size] at hf
        rw [hs2] at hy
        exact ih1 y ys hy fuel (by omega)
      · intro hnil
        rw [hs2] at hnil
        obtain ⟨hright, hclimb⟩ := ih2 hnil
        refine ⟨hright, ?_⟩
        intro f res b hb hc
        rw [hp] at hb
        simp only [Option.some.injEq] at hb
        subst hb
        obtain ⟨ra, hra⟩ := hr.some_of_ne_nil (by
          intro hn2; rw [hn2] at hrr; simp [BstTree.inorder] at hrr)
        have h1 : bst_get_next_climb (f + 1) bst.mem ra (some a) = some res := by
          simp [bst_get_next_climb, hra, hpa, hc]
        have h3 := hclimb (f + 1) res ra hra h1
        exact bst_get_next_climb_le bst.mem (by simp only [BstTree.size]; omega) h3

theorem bst_get_next_last (bst : bst_t) (t : BstTree)
    (hs : BstShape bst.mem t bst.root) (hp : BstParents bst.mem t none)
    (hn : t.inorder.Nodup) (s1 : List Nat) (r : Nat) (h : t.inorder = s1 ++ [r])
    (fuel : Nat) (hf : t.size < fuel) :
    bst_get_next fuel bst (some r) = some none := by
  obtain ⟨hright, hclimb⟩ := (bst_get_next_in_subtree bst t _ none hs hp hn s1 r [] h).2 rfl
  obtain ⟨a, ha⟩ := hs.some_of_ne_nil (by
    intro hnil; rw [hnil] at h; simp [BstTree.inorder] at h)
  have h1 : bst_get_next_climb 1 bst.mem a none = some none := by
    simp [bst_get_next_climb]
  have h3 := hclimb 1 none a ha h1
  have h4 := bst_get_next_climb_le bst.mem (by omega : 1 + t.size ≤ fuel) h3
  simp only [bst_get_next, hright]
  simpa using h4

/-! ## Ascending iteration -/

theorem bst_iterate_from_spec (bst : bst_t) (t : BstTree)
    (hs : BstShape bst.mem t bst.root) (hp : BstParents bst.mem t none)
    (hn : t.inorder.Nodup) (fuel : Nat) (hf : t.size < fuel) :
    ∀ (s2 s1 : List Nat) (r rounds : Nat), t.inorder = s1 ++ r :: s2 →
      s2.length + 1 < rounds →
      bst_iterate_from rounds fuel bst (some r) = some (r :: s2) := by
  intro s2
  induction s2 with
  | nil =>
    intro s1 r rounds h hr
    have hnext := bst_get_next_last bst t hs hp hn s1 r h fuel hf
    obtain ⟨k, rfl⟩ : ∃ k, rounds = k + 1 + 1 := ⟨rounds - 2, by simp at hr; omega⟩
    simp [bst_iterate_from, hnext]
  | cons y ys ih =>
    intro s1 r rounds h hr
    have hnext := (bst_get_next_in_subtree bst t _ none hs hp hn s1 r (y :: ys) h).1
      y ys rfl fuel hf
    obtain ⟨k, rfl⟩ : ∃ k, rounds = k + 1 := ⟨rounds - 1, by omega⟩
    have hrec := ih (s1 ++ [r]) y k (by rw [h]; simp) (by simp at hr ⊢; omega)
    simp [bst_iterate_from, hnext, hrec]

theorem bst_get_least_spec (bst : bst_t) (t : BstTree)
    (hs : BstShape bst.mem t bst.root) (fuel : Nat) (hf : t.size < fuel) :
    bst_get_least fuel bst = some t.inorder.head? := by
  unfold bst_get_least
  cases hr : bst.root with
  | none =>
    rw [hr] at hs
    cases t with
    | nil => simp [BstTree.inorder]
    | node l a r => simp [BstShape] at hs
  | some root =>
    rw [hr] at hs
    simp [bst_find_min_spec bst.mem t (some root) fuel hs hf]

/-- On a well-formed tree the ascending traversal visits exactly the in-order
sequence of the tree. -/
theorem bst_iterate_spec (bst : bst_t) (t : BstTree)
    (hs : BstShape bst.mem t bst.root) (hp : BstParents bst.mem t none)
    (hn : t.inorder.Nodup) (fuel : Nat) (hf : t.size < fuel) :
    bst_iterate fuel bst = some t.inorder := by
  unfold bst_iterate
  rw [bst_get_least_spec bst t hs fuel hf]
  cases hi : t.inorder with
  | nil =>
    obtain ⟨k, rfl⟩ : ∃ k, fuel = k + 1 := ⟨fuel - 1, by omega⟩
    simp [bst_iterate_from]
  | cons r s2 =>
    have hlen := BstTree.inorder_length t
    rw [hi] at hlen
    simp only [List.head?_cons]
    exact bst_iterate_from_spec bst t hs hp hn fuel hf s2 [] r fuel (by simpa using hi)
      (by simp at hlen; omega)

/-! ## Insertion -/

theorem BstShape.congr_links {m m1 : BstMem} {t : BstTree} {p : Option Nat}
    (h : BstShape m t p)
    (hm : ∀ x ∈ t.inorder, (m1 x).left = (m x).left ∧ (m1 x).right = (m x).right) :
    BstShape m1 t p := by
  induction t generalizing p with
  | nil => exact h
  | node l a r ihl ihr =>
    obtain ⟨hp, hl, hr⟩ := h
    have ha := hm a (by simp [BstTree.inorder])
    refine ⟨hp, ?_, ?_⟩
    · rw [ha.1]
      exact ihl hl (fun x hx => hm x (by simp [BstTree.inorder, hx]))
    · rw [ha.2]
      exact ihr hr (fun x hx => hm x (by simp [BstTree.inorder, hx]))

theorem BstParents.congr_parent {m m1 : BstMem} {t : BstTree} {par : Option Nat}
    (h : BstParents m t par) (hm : ∀ x ∈ t.inorder, (m1 x).parent = (m x).parent) :
    BstParents m1 t par := by
  induction t generalizing par with
  | nil => trivial
  | node l a r ihl ihr =>
    obtain ⟨hp, hl, hr⟩ := h
    have ha := hm a (by simp [BstTree.inorder])
    refine ⟨by rw [ha]; exact hp, ?_, ?_⟩
    · exact ihl hl (fun x hx => hm x (by simp [BstTree.inorder, hx]))
    · exact ihr hr (fun x hx => hm x (by simp [BstTree.inorder, hx]))

theorem BstTree.ins_perm (key : Nat → Int) (a : Nat) :
    ∀ (t : BstTree), (∀ x ∈ t.inorder, key x ≠ key a) →
      (BstTree.ins key t a).inorder.Perm (a :: t.inorder) := by
  intro t
  induction t with
  | nil => intro _; simp [BstTree.ins, BstTree.inorder]
  | node l b r ihl ihr =>
    intro h
    have hb : key b ≠ key a := h b (by simp [BstTree.inorder])
    have hl : ∀ x ∈ l.inorder, key x ≠ key a :=
      fun x hx => h x (by simp [BstTree.inorder, hx])
    have hr : ∀ x ∈ r.inorder, key x ≠ key a :=
      fun x hx => h x (by simp [BstTree.inorder, hx])
    simp only [BstTree.ins]
    split_ifs with h1 h2
    · simp only [BstTree.inorder]
      exact ((ihl hl).append_right _).trans (by simp)
    · simp only [BstTree.inorder]
      have h3 : (b :: (BstTree.ins key r a).inorder).Perm (a :: b :: r.inorder) :=
        ((ihr hr).cons b).trans (List.Perm.swap a b _)
      exact (h3.append_left l.inorder).trans (List.perm_middle)
    · exact absurd (le_antisymm (not_lt.mp h1) (not_lt.mp h2)) hb

theorem BstTree.ins_mem {key : Nat → Int} {a : Nat} {t : BstTree}
    (h : ∀ x ∈ t.inorder, key x ≠ key a) {x : Nat} :
    x ∈ (BstTree.ins key t a).inorder ↔ x = a ∨ x ∈ t.inorder := by
  rw [(BstTree.ins_perm key a t h).mem_iff, List.mem_cons]

theorem BstTree.ins_size (key : Nat → Int) (a : Nat) (t : BstTree)
    (h : ∀ x ∈ t.inorder, key x ≠ key a) : (BstTree.ins key t a).size = t.size + 1 := by
  rw [← BstTree.inorder_length, (BstTree.ins_perm key a t h).length_eq,
    List.length_cons, BstTree.inorder_length]

theorem BstTree.ins_ordered (key : Nat → Int) (a : Nat) :
    ∀ (t : BstTree), BstOrdered key t → (∀ x ∈ t.inorder, key x ≠ key a) →
      BstOrdered key (BstTree.ins key t a) := by
  intro t
  induction t with
  | nil => intro _ _; simp [BstTree.ins, BstOrdered, BstTree.inorder]
  | node l b r ihl ihr =>
    intro ho h
    obtain ⟨hol, hor, hlt, hgt⟩ := ho
    have hb : key b ≠ key a := h b (by simp [BstTree.inorder])
    have hl : ∀ x ∈ l.inorder, key x ≠ key a :=
      fun x hx => h x (by simp [BstTree.inorder, hx])
    have hr : ∀ x ∈ r.inorder, key x ≠ key a :=
      fun x hx => h x (by simp [BstTree.inorder, hx])
    simp only [BstTree.ins]
    split_ifs with h1 h2
    · refine ⟨ihl hol hl, hor, ?_, hgt⟩
      intro x hx
      rcases (BstTree.ins_mem hl).mp hx with hx | hx
      · subst hx; exact h1
      · exact hlt x hx
    · refine ⟨hol, ihr hor hr, hlt, ?_⟩
      intro x hx
      rcases (BstTree.ins_mem hr).mp hx with hx | hx
      · subst hx; exact h2
      · exact hgt x hx
    · exact ⟨hol, hor, hlt, hgt⟩

theorem bst_insert_internal_spec (key : Nat → Int) (a : Nat) :
    ∀ (t : BstTree) (m : BstMem) (p par : Option Nat) (fuel : Nat),
      BstShape m t p → BstParents m t par → BstOrdered key t →
      (∀ x ∈ t.inorder, key x ≠ key a) →
      (m a).left = none → (m a).right = none → t.size < fuel →
      ∃ m1 res, bst_insert_internal key fuel m p a = some (m1, res) ∧
        res = p.getD a ∧
        (∀ x, x ∉ t.inorder → x ≠ a → m1 x = m x) ∧
        (m1 res).parent = (m res).parent ∧
        BstShape m1 (BstTree.ins key t a) (some res) ∧
        ∀ q, BstParents (m1.set res { m1 res with parent := q }) (BstTree.ins key t a) q := by
  intro t
  induction t with
  | nil =>
    intro m p par fuel hs _ _ _ hal har hf
    have hp : p = none := hs
    subst hp
    obtain ⟨f, rfl⟩ : ∃ f, fuel = f + 1 := ⟨fuel - 1, by omega⟩
    refine ⟨m, a, by simp [bst_insert_internal], rfl, fun _ _ _ => rfl, rfl, ?_, ?_⟩
    · exact ⟨rfl, hal, har⟩
    · intro q
      exact ⟨by simp, trivial, trivial⟩
  | node l b r ihl ihr =>
    intro m p par fuel hs hpar ho hk hal har hf
    obtain ⟨hp, hl, hr⟩ := hs
    obtain ⟨hpb, hpl, hpr⟩ := hpar
    have hnd := ho.nodup
    obtain ⟨hol, hor, hlt, hgt⟩ := ho
    subst hp
    obtain ⟨f, rfl⟩ : ∃ f, fuel = f + 1 := ⟨fuel - 1, by omega⟩
    simp only [BstTree.size] at hf
    have hba : b ≠ a := fun h => hk b (by simp [BstTree.inorder]) (by rw [h])
    have hkl : ∀ x ∈ l.inorder, key x ≠ key a :=
      fun x hx => hk x (by simp [BstTree.inorder, hx])
    have hkr : ∀ x ∈ r.inorder, key x ≠ key a :=
      fun x hx => hk x (by simp [BstTree.inorder, hx])
    have hbl : b ∉ l.inorder := fun h => lt_irrefl _ (hlt b h)
    have hbr : b ∉ r.inorder := fun h => lt_irrefl _ (hgt b h)
    have hlr : ∀ x ∈ l.inorder, x ∉ r.inorder :=
      fun x hx hx2 => lt_irrefl _ (lt_trans (hlt x hx) (hgt x hx2))
    by_cases h1 : key a < key b
    · obtain ⟨m1, res1, he, _, hfr, _, hsh, hpa⟩ :=
        ihl m (m b).left (some b) f hl hpl hol hkl hal har (by omega)
      have hres : res1 = a ∨ res1 ∈ l.inorder := (BstTree.ins_mem hkl).mp hsh.root_mem
      have hrb : res1 ≠ b := by
        rcases hres with h | h
        · rw [h]; exact hba.symm
        · intro h2; rw [h2] at h; exact hbl h
      have hm1b : m1 b = m b := hfr b hbl hba
      have hins : BstTree.ins key (.node l b r) a = .node (BstTree.ins key l a) b r := by
        simp [BstTree.ins, h1]
      rw [hins]
      refine ⟨(m1.set b { m1 b with left := some res1 }).set res1
        { (m1.set b { m1 b with left := some res1 }) res1 with parent := some b }, b,
        ?_, rfl, ?_, ?_, ?_, ?_⟩
      · simp [bst_insert_internal, h1, he]
      · intro x hx hxa
        have hxb : x ≠ b := fun h => hx (by simp [BstTree.inorder, h])
        have hxl : x ∉ l.inorder := fun h => hx (by simp [BstTree.inorder, h])
        have hxr : x ≠ res1 := by
          rcases hres with h | h
          · rw [h]; exact hxa
          · intro h2; rw [h2] at hxl; exact hxl h
        rw [BstMem.set_other _ _ _ _ hxr, BstMem.set_other _ _ _ _ hxb]
        exact hfr x hxl hxa
      · rw [BstMem.set_other _ _ _ _ hrb.symm, BstMem.set_same, hm1b]
      · refine ⟨rfl, ?_, ?_⟩
        · rw [BstMem.set_other _ _ _ _ hrb.symm, BstMem.set_same]
          refine hsh.congr_links ?_
          intro x hx
          have hx2 := (BstTree.ins_mem hkl).mp hx
          have hxb : x ≠ b := by
            rcases hx2 with h | h
            · rw [h]; exact hba.symm
            · intro h2; rw [h2] at h; exact hbl h
          by_cases hxr : x = res1
          · subst hxr
            rw [BstMem.set_same, BstMem.set_other _ _ _ _ hxb]
            exact ⟨rfl, rfl⟩
          · rw [BstMem.set_other _ _ _ _ hxr, BstMem.set_other _ _ _ _ hxb]
            exact ⟨rfl, rfl⟩
        · rw [BstMem.set_other _ _ _ _ hrb.symm, BstMem.set_same]
          show BstShape _ r (m1 b).right
          rw [hm1b]
          refine hr.congr_links ?_
          intro x hx
          have hxb : x ≠ b := fun h => hbr (by rw [← h]; exact hx)
          have hxa : x ≠ a := fun h => hkr x hx (by rw [h])
          have hxl : x ∉ l.inorder := fun h => hlr x h hx
          have hxr : x ≠ res1 := by
            rcases hres with h | h
            · rw [h]; exact hxa
            · intro h2; rw [h2] at hxl; exact hxl h
          rw [BstMem.set_other _ _ _ _ hxr, BstMem.set_other _ _ _ _ hxb, hfr x hxl hxa]
          exact ⟨rfl, rfl⟩
      · intro q
        refine ⟨by simp, ?_, ?_⟩
        · refine (hpa (some b)).congr_parent ?_
          intro x hx
          have hx2 := (BstTree.ins_mem hkl).mp hx
          have hxb : x ≠ b := by
            rcases hx2 with h | h
            · rw [h]; exact hba.symm
            · intro h2; rw [h2] at h; exact hbl h
          rw [BstMem.set_other _ _ _ _ hxb]
          by_cases hxr : x = res1
          · subst hxr
            rw [BstMem.set_same, BstMem.set_same]
          · rw [BstMem.set_other _ _ _ _ hxr, BstMem.set_other _ _ _ _ hxb,
              BstMem.set_other _ _ _ _ hxr]
        · refine hpr.congr_parent ?_
          intro x hx
          have hxb : x ≠ b := fun h => hbr (by rw [← h]; exact hx)
          have hxa : x ≠ a := fun h => hkr x hx (by rw [h])
          have hxl : x ∉ l.inorder := fun h => hlr x h hx
          have hxr : x ≠ res1 := by
            rcases hres with h | h
            · rw [h]; exact hxa
            · intro h2; rw [h2] at hxl; exact hxl h
          rw [BstMem.set_other _ _ _ _ hxb, BstMem.set_other _ _ _ _ hxr,
            BstMem.set_other _ _ _ _ hxb, hfr x hxl hxa]
    · have h2 : key a > key b := lt_of_le_of_ne (not_lt.mp h1) (hk b (by simp [BstTree.inorder]))
      obtain ⟨m1, res1, he, _, hfr, _, hsh, hpa⟩ :=
        ihr m (m b).right (some b) f hr hpr hor hkr hal har (by omega)
      have hres : res1 = a ∨ res1 ∈ r.inorder := (BstTree.ins_mem hkr).mp hsh.root_mem
      have hrb : res1 ≠ b := by
        rcases hres with h | h
        · rw [h]; exact hba.symm
        · intro h2; rw [h2] at h; exact hbr h
      have hm1b : m1 b = m b := hfr b hbr hba
      have hins : BstTree.ins key (.node l b r) a = .node l b (BstTree.ins key r a) := by
        simp [BstTree.ins, h1, h2]
      rw [hins]
      refine ⟨(m1.set b { m1 b with right := some res1 }).set res1
        { (m1.set b { m1 b with right := some res1 }) res1 with parent := some b }, b,
        ?_, rfl, ?_, ?_, ?_, ?_⟩
      · simp [bst_insert_internal, h1, h2, he]
      · intro x hx hxa
        have hxb : x ≠ b := fun h => hx (by simp [BstTree.inorder, h])
        have hxl : x ∉ r.inorder := fun h => hx (by simp [BstTree.inorder, h])
        have hxr : x ≠ res1 := by
          rcases hres with h | h
          · rw [h]; exact hxa
          · intro h2; rw [h2] at hxl; exact hxl h
        rw [BstMem.set_other _ _ _ _ hxr, BstMem.set_other _ _ _ _ hxb]
        exact hfr x hxl hxa
      · rw [BstMem.set_other _ _ _ _ hrb.symm, BstMem.set_same, hm1b]
      · refine ⟨rfl, ?_, ?_⟩
        swap
        · rw [BstMem.set_other _ _ _ _ hrb.symm, BstMem.set_same]
          refine hsh.congr_links ?_
          intro x hx
          have hx2 := (BstTree.ins_mem hkr).mp hx
          have hxb : x ≠ b := by
            rcases hx2 with h | h
            · rw [h]; exact hba.symm
            · intro h2; rw [h2] at h; exact hbr h
          by_cases hxr : x = res1
          · subst hxr
            rw [BstMem.set_same, BstMem.set_other _ _ _ _ hxb]
            exact ⟨rfl, rfl⟩
          · rw [BstMem.set_other _ _ _ _ hxr, BstMem.set_other _ _ _ _ hxb]
            exact ⟨rfl, rfl⟩
        · rw [BstMem.set_other _ _ _ _ hrb.symm, BstMem.set_same]
          show BstShape _ l (m1 b).left
          rw [hm1b]
          refine hl.congr_links ?_
          intro x hx
          have hxb : x ≠ b := fun h => hbl (by rw [← h]; exact hx)
          have hxa : x ≠ a := fun h => hkl x hx (by rw [h])
          have hxl : x ∉ r.inorder := fun h => hlr x hx h
          have hxr : x ≠ res1 := by
            rcases hres with h | h
            · rw [h]; exact hxa
            · intro h2; rw [h2] at hxl; exact hxl h
          rw [BstMem.set_other _ _ _ _ hxr, BstMem.set_other _ _ _ _ hxb, hfr x hxl hxa]
          exact ⟨rfl, rfl⟩
      · intro q
        refine ⟨by simp, ?_, ?_⟩
        swap
        · refine (hpa (some b)).congr_parent ?_
          intro x hx
          have hx2 := (BstTree.ins_mem hkr).mp hx
          have hxb : x ≠ b := by
            rcases hx2 with h | h
            · rw [h]; exact hba.symm
            · intro h2; rw [h2] at h; exact hbr h
          rw [BstMem.set_other _ _ _ _ hxb]
          by_cases hxr : x = res1
          · subst hxr
            rw [BstMem.set_same, BstMem.set_same]
          · rw [BstMem.set_other _ _ _ _ hxr, BstMem.set_other _ _ _ _ hxb,
              BstMem.set_other _ _ _ _ hxr]
        · refine hpl.congr_parent ?_
          intro x hx
          have hxb : x ≠ b := fun h => hbl (by rw [← h]; exact hx)
          have hxa : x ≠ a := fun h => hkl x hx (by rw [h])
          have hxl : x ∉ r.inorder := fun h => hlr x hx h
          have hxr : x ≠ res1 := by
            rcases hres with h | h
            · rw [h]; exact hxa
            · intro h2; rw [h2] at hxl; exact hxl h
          rw [BstMem.set_other _ _ _ _ hxb, BstMem.set_other _ _ _ _ hxr,
            BstMem.set_other _ _ _ _ hxb, hfr x hxl hxa]

/-- A successful `bst_insert` of a record with a fresh key: the tree stays
well-formed and its shape is the functional insertion. -/
theorem bst_insert_spec (bst : bst_t) (t : BstTree) (n fuel : Nat)
    (hwf : BstWF bst t) (hk : ∀ x ∈ t.inorder, bst.get_key x ≠ bst.get_key n)
    (hf : t.size < fuel) :
    ∃ bst1, bst_insert fuel bst (some n) = some (bst1, EOK) ∧
      BstWF bst1 (BstTree.ins bst.get_key t n) ∧ bst1.get_key = bst.get_key ∧
      bst1.node_count = u32_inc bst.node_count := by
  obtain ⟨hs, hp, ho⟩ := hwf
  have hnt : n ∉ t.inorder := fun h => hk n h rfl
  have hs0 : BstShape (bst.mem.set n { left := none, right := none, parent := none }) t
      bst.root :=
    hs.shape_congr (fun x hx => BstMem.set_other _ _ _ _ (fun h => hnt (by rw [← h]; exact hx)))
  have hp0 : BstParents (bst.mem.set n { left := none, right := none, parent := none }) t
      none :=
    hp.parents_congr (fun x hx => BstMem.set_other _ _ _ _ (fun h => hnt (by rw [← h]; exact hx)))
  cases hr : bst.root with
  | none =>
    rw [hr] at hs
    have ht : t = .nil := by
      cases t with
      | nil => rfl
      | node l a r => simp [BstShape] at hs
    subst ht
    refine ⟨{ bst with
        mem := bst.mem.set n { left := none, right := none, parent := none },
        root := some n, node_count := u32_inc bst.node_count },
      by simp only [bst_insert, hr], ⟨?_, ?_, ?_⟩, rfl, rfl⟩
    · exact ⟨rfl, by simp [BstShape], by simp [BstShape]⟩
    · exact ⟨by simp, trivial, trivial⟩
    · exact BstTree.ins_ordered _ _ _ ho hk
  | some root =>
    rw [hr] at hs0
    obtain ⟨m1, res, he, hres, _, hpar, hsh, hpa⟩ :=
      bst_insert_internal_spec bst.get_key n t _ (some root) none fuel hs0 hp0 ho hk
        (by simp) (by simp) hf
    simp only [Option.getD_some] at hres
    subst hres
    refine ⟨{ bst with mem := m1, node_count := u32_inc bst.node_count },
      by simp only [bst_insert, hr, he], ⟨?_, ?_, ?_⟩, rfl, rfl⟩
    · exact hr ▸ hsh
    · have hroot : res ∈ t.inorder := hs0.root_mem
      have hrn : res ≠ n := fun h => hnt (by rw [← h]; exact hroot)
      have hpn : (m1 res).parent = none := by
        rw [hpar, BstMem.set_other _ _ _ _ hrn]
        cases t with
        | nil => simp [BstTree.inorder] at hroot
        | node l b r =>
          have hb : some res = some b := hs0.1
          simp only [Option.some.injEq] at hb
          subst hb
          exact hp.1
      have := hpa none
      rw [BstMem.set_self m1 res _ (by rw [← hpn])] at this
      exact this
    · exact BstTree.ins_ordered _ _ _ ho hk

theorem u32_inc_lt (n : Nat) : u32_inc n < 2 ^ 32 := by
  unfold u32_inc
  exact Nat.mod_lt _ (by norm_num)

theorem bst_insert_all_spec (fuel : Nat) :
    ∀ (rs : List Nat) (bst : bst_t) (t : BstTree), BstWF bst t →
      ((t.inorder ++ rs).map bst.get_key).Nodup → t.size + rs.length ≤ fuel →
      ∃ bst1 t1, bst_insert_all fuel bst rs = some (bst1, List.replicate rs.length EOK) ∧
        BstWF bst1 t1 ∧ bst1.get_key = bst.get_key ∧ t1.inorder.Perm (t.inorder ++ rs) ∧
        (bst.node_count < 2 ^ 32 →
          bst1.node_count = (bst.node_count + rs.length) % 2 ^ 32) := by
  intro rs
  induction rs with
  | nil =>
    intro bst t hwf _ _
    refine ⟨bst, t, by simp [bst_insert_all], hwf, rfl, by simp, ?_⟩
    intro h
    simp only [List.length_nil, Nat.add_zero]
    exact (Nat.mod_eq_of_lt h).symm
  | cons r rs ih =>
    intro bst t hwf hnd hf
    simp only [List.length_cons] at hf
    have hk : ∀ x ∈ t.inorder, bst.get_key x ≠ bst.get_key r := by
      intro x hx heq
      rw [List.map_append, List.map_cons, List.nodup_append] at hnd
      exact hnd.2.2 (List.mem_map_of_mem _ hx) (by rw [heq]; simp)
    obtain ⟨bst1, he, hwf1, hg1, hc1⟩ := bst_insert_spec bst t r fuel hwf hk (by omega)
    have hperm := BstTree.ins_perm bst.get_key r t hk
    have hperm2 : ((BstTree.ins bst.get_key t r).inorder ++ rs).Perm (t.inorder ++ r :: rs) :=
      (hperm.append_right rs).trans (by
        simp only [List.cons_append]
        exact List.perm_middle.symm)
    have hnd1 : (((BstTree.ins bst.get_key t r).inorder ++ rs).map bst1.get_key).Nodup := by
      rw [hg1]
      exact (hperm2.map _).nodup_iff.mpr hnd
    obtain ⟨bst2, t2, he2, hwf2, hg2, hp2, hc2⟩ := ih bst1 _ hwf1 hnd1 (by
      rw [BstTree.ins_size _ _ _ hk]; omega)
    refine ⟨bst2, t2, ?_, hwf2, hg2.trans hg1, hp2.trans hperm2, ?_⟩
    · simp [bst_insert_all, he, he2, List.replicate_succ]
    · intro _
      rw [hc2 (by rw [hc1]; exact u32_inc_lt _), hc1]
      simp only [u32_inc, List.length_cons]
      omega

/-- Claim C1.  Records with pairwise distinct keys are inserted with `bst_insert`
into a newly created tree; every insertion returns `EOK`, the traversal by
`bst_get_least` and repeated `bst_get_next` returns, and the keys it yields are
strictly increasing. -/
theorem bst_iterate_strictly_increasing (get_key : Nat → Int) (mem : BstMem)
    (rs : List Nat) (fuel : Nat) (hk : (rs.map get_key).Nodup) (hf : rs.length < fuel) :
    ∃ bst out, bst_insert_all fuel (bst_create get_key mem) rs =
        some (bst, List.replicate rs.length EOK) ∧
      bst_iterate fuel bst = some out ∧ (out.map get_key).Sorted (· < ·) := by
  have hwf0 : BstWF (bst_create get_key mem) .nil := ⟨rfl, trivial, trivial⟩
  obtain ⟨bst, t, he, hwf, hg, hp, _⟩ :=
    bst_insert_all_spec fuel rs (bst_create get_key mem) .nil hwf0
      (by simpa [BstTree.inorder, bst_create] using hk)
      (by simp [BstTree.size]; omega)
  have hsize : t.size = rs.length := by
    rw [← BstTree.inorder_length, hp.length_eq]; simp [BstTree.inorder]
  refine ⟨bst, t.inorder, he, ?_, ?_⟩
  · exact bst_iterate_spec bst t hwf.1 hwf.2.1 hwf.2.2.nodup fuel (by omega)
  · have := hwf.2.2.pairwise
    rw [hg] at this
    simp only [bst_create] at this
    exact List.pairwise_map.mpr this

/-- Claim C2.  After `N` records with pairwise distinct keys have been inserted
into a newly created tree, the traversal by `bst_get_least` and repeated
`bst_get_next` stops after exactly `N` records and has returned each inserted
record exactly once. -/
theorem bst_iterate_visits_each_once (get_key : Nat → Int) (mem : BstMem)
    (rs : List Nat) (fuel : Nat) (hk : (rs.map get_key).Nodup) (hf : rs.length < fuel) :
    ∃ bst out, bst_insert_all fuel (bst_create get_key mem) rs =
        some (bst, List.replicate rs.length EOK) ∧
      bst_iterate fuel bst = some out ∧ out.length = rs.length ∧
      (∀ r ∈ rs, out.count r = 1) ∧ (∀ x ∈ out, x ∈ rs) := by
  have hwf0 : BstWF (bst_create get_key mem) .nil := ⟨rfl, trivial, trivial⟩
  obtain ⟨bst, t, he, hwf, _, hp, _⟩ :=
    bst_insert_all_spec fuel rs (bst_create get_key mem) .nil hwf0
      (by simpa [BstTree.inorder, bst_create] using hk)
      (by simp [BstTree.size]; omega)
  have hp2 : t.inorder.Perm rs := by simpa [BstTree.inorder] using hp
  have hsize : t.size = rs.length := by
    rw [← BstTree.inorder_length, hp2.length_eq]
  refine ⟨bst, t.inorder, he, ?_, hp2.length_eq, ?_, ?_⟩
  · exact bst_iterate_spec bst t hwf.1 hwf.2.1 hwf.2.2.nodup fuel (by omega)
  · intro r hr
    exact List.count_eq_one_of_mem hwf.2.2.nodup (hp2.mem_iff.mpr hr)
  · intro x hx
    exact hp2.mem_iff.mp hx

/-! ## Duplicate keys and absent keys -/

theorem bst_insert_internal_dup (key : Nat → Int) (a : Nat) :
    ∀ (t : BstTree) (m : BstMem) (p par : Option Nat) (fuel : Nat),
      BstShape m t p → BstParents m t par → BstOrdered key t →
      (∃ x ∈ t.inorder, key x = key a) → t.size < fuel →
      ∃ res, p = some res ∧ bst_insert_internal key fuel m p a = some (m, res) := by
  intro t
  induction t with
  | nil =>
    intro m p par fuel _ _ _ hx _
    obtain ⟨x, hx, _⟩ := hx
    simp [BstTree.inorder] at hx
  | node l b r ihl ihr =>
    intro m p par fuel hs hpar ho hx hf
    obtain ⟨hp, hl, hr⟩ := hs
    obtain ⟨_, hpl, hpr⟩ := hpar
    obtain ⟨hol, hor, hlt, hgt⟩ := ho
    obtain ⟨x, hx, hxa⟩ := hx
    subst hp
    obtain ⟨f, rfl⟩ : ∃ f, fuel = f + 1 := ⟨fuel - 1, by omega⟩
    simp only [BstTree.size] at hf
    simp only [BstTree.inorder, List.mem_append, List.mem_cons] at hx
    refine ⟨b, rfl, ?_⟩
    by_cases h1 : key a < key b
    · have hxl : x ∈ l.inorder := by
        rcases hx with h | h | h
        · exact h
        · rw [h] at hxa; omega
        · have := hgt x h; omega
      obtain ⟨res1, hres1, he⟩ := ihl m (m b).left (some b) f hl hpl hol ⟨x, hxl, hxa⟩ (by omega)
      have hpr1 : (m res1).parent = some b := by
        rw [hres1] at hl
        cases l with
        | nil => simp [BstShape] at hl
        | node ll c lr =>
          have hc : some res1 = some c := hl.1
          simp only [Option.some.injEq] at hc
          subst hc
          exact hpl.1
      have e1 : m.set b { left := some res1, right := (m b).right, parent := (m b).parent }
          = m := BstMem.set_self m b _ (by rw [← hres1])
      have e2 : m.set res1
          { left := (m res1).left, right := (m res1).right, parent := some b } = m :=
        BstMem.set_self m res1 _ (by rw [← hpr1])
      rw [hres1] at he
      simp only [bst_insert_internal, h1, if_true, hres1, he, e1, e2]
    · by_cases h2 : key a > key b
      · have hxr : x ∈ r.inorder := by
          rcases hx with h | h | h
          · have := hlt x h; omega
          · rw [h] at hxa; omega
          · exact h
        obtain ⟨res1, hres1, he⟩ :=
          ihr m (m b).right (some b) f hr hpr hor ⟨x, hxr, hxa⟩ (by omega)
        have hpr1 : (m res1).parent = some b := by
          rw [hres1] at hr
          cases r with
          | nil => simp [BstShape] at hr
          | node rl c rr =>
            have hc : some res1 = some c := hr.1
            simp only [Option.some.injEq] at hc
            subst hc
            exact hpr.1
        have e1 : m.set b { left := (m b).left, right := some res1, parent := (m b).parent }
            = m := BstMem.set_self m b _ (by rw [← hres1])
        have e2 : m.set res1
            { left := (m res1).left, right := (m res1).right, parent := some b } = m :=
          BstMem.set_self m res1 _ (by rw [← hpr1])
        rw [hres1] at he
        simp only [bst_insert_internal, h1, h2, if_true, if_false, hres1, he, e1, e2]
      · simp only [bst_insert_internal, h1, h2, if_false]

theorem bst_remove_internal_absent (key : Nat → Int) (a : Nat) :
    ∀ (t : BstTree) (m : BstMem) (p par : Option Nat) (fuel : Nat),
      BstShape m t p → BstParents m t par → BstOrdered key t →
      (∀ x ∈ t.inorder, key x ≠ key a) → t.size < fuel →
      bst_remove_internal key fuel m p a = some (m, p) := by
  intro t
  induction t with
  | nil =>
    intro m p par fuel hs _ _ _ hf
    have hp : p = none := hs
    subst hp
    obtain ⟨f, rfl⟩ : ∃ f, fuel = f + 1 := ⟨fuel - 1, by omega⟩
    simp [bst_remove_internal]
  | node l b r ihl ihr =>
    intro m p par fuel hs hpar ho hk hf
    obtain ⟨hp, hl, hr⟩ := hs
    obtain ⟨_, hpl, hpr⟩ := hpar
    obtain ⟨hol, hor, hlt, hgt⟩ := ho
    subst hp
    obtain ⟨f, rfl⟩ : ∃ f, fuel = f + 1 := ⟨fuel - 1, by omega⟩
    simp only [BstTree.size] at hf
    have hkb : key b ≠ key a := hk b (by simp [BstTree.inorder])
    have hkl : ∀ x ∈ l.inorder, key x ≠ key a :=
      fun x hx => hk x (by simp [BstTree.inorder, hx])
    have hkr : ∀ x ∈ r.inorder, key x ≠ key a :=
      fun x hx => hk x (by simp [BstTree.inorder, hx])
    by_cases h1 : key a < key b
    · have he := ihl m (m b).left (some b) f hl hpl hol hkl (by omega)
      have e1 : ∀ v, (m b).left = v →
          m.set b { left := v, right := (m b).right, parent := (m b).parent } = m :=
        fun v hv => BstMem.set_self m b _ (by rw [← hv])
      cases hc : (m b).left with
      | none =>
        rw [hc] at he
        simp only [bst_remove_internal, h1, if_true, hc, he, e1 none hc]
      | some c =>
        have hpc : (m c).parent = some b := by
          rw [hc] at hl
          cases l with
          | nil => simp [BstShape] at hl
          | node ll d lr =>
            have hd : some c = some d := hl.1
            simp only [Option.some.injEq] at hd
            subst hd
            exact hpl.1
        have e2 : m.set c { left := (m c).left, right := (m c).right, parent := some b } = m :=
          BstMem.set_self m c _ (by rw [← hpc])
        rw [hc] at he
        simp only [bst_remove_internal, h1, if_true, hc, he, e1 (some c) hc, e2]
    · have h2 : key a > key b := lt_of_le_of_ne (not_lt.mp h1) hkb
      have he := ihr m (m b).right (some b) f hr hpr hor hkr (by omega)
      have e1 : ∀ v, (m b).right = v →
          m.set b { left := (m b).left, right := v, parent := (m b).parent } = m :=
        fun v hv => BstMem.set_self m b _ (by rw [← hv])
      cases hc : (m b).right with
      | none =>
        rw [hc] at he
        simp only [bst_remove_internal, h1, h2, if_true, if_false, hc, he, e1 none hc]
      | some c =>
        have hpc : (m c).parent = some b := by
          rw [hc] at hr
          cases r with
          | nil => simp [BstShape] at hr
          | node rl d rr =>
            have hd : some c = some d := hr.1
            simp only [Option.some.injEq] at hd
            subst hd
            exact hpr.1
        have e2 : m.set c { left := (m c).left, right := (m c).right, parent := some b } = m :=
          BstMem.set_self m c _ (by rw [← hpc])
        rw [hc] at he
        simp only [bst_remove_internal, h1, h2, if_true, if_false, hc, he, e1 (some c) hc, e2]

/-! ## Example state -/

theorem bst_example_wf : BstWF bst_example bst_example_tree := by
  decide

/-! ## Claims on the ordered index -/

/-- Claim C3 (code defect).  Six records are inserted and the non-root record
25, which has two children, is removed with status `EOK`.  The traversal
before the removal yields 10, 25, 30, 35, 40, 50; afterwards it yields only
10, 30, 40, 50: record 35, the right child of the promoted successor 30, is
lost although it was never removed. -/
theorem bst_remove_loses_successor_subtree :
    bst_scenario 8 [50, 25, 10, 40, 30, 35] [] =
        some ([], 6, EFAIL, [10, 25, 30, 35, 40, 50]) ∧
      bst_scenario 8 [50, 25, 10, 40, 30, 35] [25] =
        some ([EOK], 5, EFAIL, [10, 30, 40, 50]) := by
  constructor <;> decide

/-- Claim C4 (code defect).  The tree holds the records 50 (root) and 25.
`bst_remove` of the root record returns `EOK` and decrements the count, yet
`bst_lookup 50` still returns record 50: `bst->root` is never updated. -/
theorem bst_lookup_finds_removed_root :
    bst_scenario 8 [50, 25] [50] = some ([EOK], 1, EFAIL, [25, 50]) ∧
      bst_scenario_lookup 8 [50, 25] [50] 50 = some (some 50) := by
  constructor <;> decide

/-- Claim C7 (code defect).  A single record is inserted into a newly created
tree and removed again: `bst_remove` returns `ENOTFOUND`, `bst_get_count`
stays 1, `bst_destroy` would return `EFAIL` and the record is still
traversed. -/
theorem bst_remove_single_record_not_found :
    bst_scenario 8 [50] [50] = some ([ENOTFOUND], 1, EFAIL, [50]) := by
  decide

/-- Claim C5, counterexample.  On a newly created (empty) tree `bst_remove` of
a record whose key is not stored returns `EINVAL`, not `ENOTFOUND`. -/
theorem bst_remove_empty_returns_einval :
    (bst_remove 8 (bst_create bst_key_id bst_mem_null) (some 50)).map Prod.snd = some EINVAL ∧
      (bst_remove 8 (bst_create bst_key_id bst_mem_null) (some 50)).map Prod.snd ≠
        some ENOTFOUND := by
  constructor <;> decide

/-- Claim C5, amended.  On a well-formed tree `bst_remove` of a record whose
key is not stored returns and leaves the root reference and every
left/right/parent link unchanged; on the empty tree the status is `EINVAL` and
`node_count` is unchanged. -/
theorem bst_remove_absent_key_frame (bst : bst_t) (t : BstTree) (r fuel : Nat)
    (hwf : BstWF bst t) (hk : ∀ x ∈ t.inorder, bst.get_key x ≠ bst.get_key r)
    (hf : t.size < fuel) :
    ∃ bst1 st, bst_remove fuel bst (some r) = some (bst1, st) ∧
      bst1.root = bst.root ∧ bst1.mem = bst.mem ∧
      (bst.root = none → st = EINVAL ∧ bst1.node_count = bst.node_count) := by
  obtain ⟨hs, hp, ho⟩ := hwf
  cases hr : bst.root with
  | none =>
    exact ⟨bst, EINVAL, by simp only [bst_remove, hr], hr, rfl, fun _ => ⟨rfl, rfl⟩⟩
  | some root =>
    have he := bst_remove_internal_absent bst.get_key r t bst.mem bst.root none fuel hs hp ho
      hk hf
    rw [hr] at he
    exact ⟨{ bst with mem := bst.mem, node_count := u32_dec bst.node_count }, EOK,
      by simp only [bst_remove, hr, he], hr, rfl, fun h => by simp at h⟩

/-- Claim C6.  On a well-formed tree, `bst_insert` of a record `r` whose key is
not stored returns `EOK`, and afterwards `bst_lookup` of that key returns
`r`. -/
theorem bst_lookup_after_insert (bst : bst_t) (t : BstTree) (r fuel : Nat)
    (hwf : BstWF bst t) (hk : ∀ x ∈ t.inorder, bst.get_key x ≠ bst.get_key r)
    (hf : t.size + 1 < fuel) :
    ∃ bst1, bst_insert fuel bst (some r) = some (bst1, EOK) ∧
      bst_lookup fuel bst1 (bst.get_key r) = some (some r) := by
  obtain ⟨bst1, he, hwf1, hg, _⟩ := bst_insert_spec bst t r fuel hwf hk (by omega)
  refine ⟨bst1, he, ?_⟩
  rw [bst_lookup_eq bst1 _ _ fuel hwf1.1 (by rw [BstTree.ins_size _ _ _ hk]; exact hf)]
  have hmem : r ∈ (BstTree.ins bst.get_key t r).inorder :=
    (BstTree.ins_mem hk).mpr (Or.inl rfl)
  have ho := hwf1.2.2
  rw [hg] at ho ⊢
  rw [BstTree.find_of_mem ho hmem]

/-- Claim C8.  On a tree that satisfies the strict ordering invariant,
`bst_lookup k` returns the stored record whose key is `k` when there is one,
and absent when no stored record has key `k`. -/
theorem bst_lookup_correct (bst : bst_t) (t : BstTree) (k : Int) (fuel : Nat)
    (hs : BstShape bst.mem t bst.root) (ho : BstOrdered bst.get_key t)
    (hf : t.size < fuel) :
    (∀ r ∈ t.inorder, bst.get_key r = k → bst_lookup fuel bst k = some (some r)) ∧
      ((∀ r ∈ t.inorder, bst.get_key r ≠ k) → bst_lookup fuel bst k = some none) := by
  rw [bst_lookup_eq bst t k fuel hs hf]
  constructor
  · intro r hr hk
    rw [← hk, BstTree.find_of_mem ho hr]
  · intro h
    rw [BstTree.find_none h]

/-- Claim C9.  On a tree that satisfies the ordering and the parent-reference
invariants, `bst_get_next` of a stored record `r` returns; a returned record
is stored, its key is the smallest key strictly greater than the key of `r`;
and the result is absent exactly when `r` holds the maximum key. -/
theorem bst_get_next_successor (bst : bst_t) (t : BstTree) (r fuel : Nat)
    (hwf : BstWF bst t) (hr : r ∈ t.inorder) (hf : t.size < fuel) :
    ∃ res, bst_get_next fuel bst (some r) = some res ∧
      (∀ s, res = some s → s ∈ t.inorder ∧ bst.get_key r < bst.get_key s ∧
        ∀ x ∈ t.inorder, bst.get_key r < bst.get_key x → bst.get_key s ≤ bst.get_key x) ∧
      (res = none ↔ ∀ x ∈ t.inorder, bst.get_key x ≤ bst.get_key r) := by
  obtain ⟨hs, hp, ho⟩ := hwf
  have hnd := ho.nodup
  have hpw := ho.pairwise
  obtain ⟨s1, s2, hsplit⟩ := List.append_of_mem hr
  rw [hsplit, List.pairwise_append, List.pairwise_cons] at hpw
  obtain ⟨_, ⟨hr2, hp2⟩, h12⟩ := hpw
  have hs1 : ∀ x ∈ s1, bst.get_key x < bst.get_key r :=
    fun x hx => h12 x hx r (List.mem_cons_self _ _)
  cases s2 with
  | nil =>
    refine ⟨none, bst_get_next_last bst t hs hp hnd s1 r hsplit fuel hf, ?_, ?_⟩
    · intro s h; cases h
    · refine ⟨(fun _ x hx => ?_), (fun _ => rfl)⟩
      rw [hsplit, List.mem_append, List.mem_singleton] at hx
      rcases hx with hx | hx
      · exact le_of_lt (hs1 x hx)
      · rw [hx]
  | cons y ys =>
    have hnext := (bst_get_next_in_subtree bst t _ none hs hp hnd s1 r (y :: ys) hsplit).1
      y ys rfl fuel hf
    have hry : bst.get_key r < bst.get_key y := hr2 y (List.mem_cons_self _ _)
    refine ⟨some y, hnext, ?_, ?_⟩
    · intro s h
      simp only [Option.some.injEq] at h
      subst h
      refine ⟨by rw [hsplit]; simp, hry, ?_⟩
      intro x hx hlt
      rw [hsplit, List.mem_append, List.mem_cons, List.mem_cons] at hx
      rcases hx with hx | hx | hx | hx
      · exact absurd (hs1 x hx) (not_lt.mpr (le_of_lt hlt))
      · rw [hx] at hlt; exact absurd hlt (lt_irrefl _)
      · rw [hx]
      · rw [List.pairwise_cons] at hp2
        exact le_of_lt (hp2.1 x hx)
    · refine ⟨(fun h => by cases h), (fun h => ?_)⟩
      have := h y (by rw [hsplit]; simp)
      exact absurd hry (not_lt.mpr this)

/-- Claim C10.  On a well-formed tree that stores a record `r0`, `bst_insert` of
a different record `r` with the same key returns `EOK`, leaves the root and every
left/right/parent link of the tree unchanged (the tree is still well-formed
with the same shape), and `bst_lookup` of the key still returns `r0`. -/
theorem bst_insert_duplicate_key (bst : bst_t) (t : BstTree) (r0 r fuel : Nat)
    (hwf : BstWF bst t) (hr0 : r0 ∈ t.inorder) (hne : r ≠ r0)
    (hkey : bst.get_key r = bst.get_key r0) (hf : t.size < fuel) :
    ∃ bst1, bst_insert fuel bst (some r) = some (bst1, EOK) ∧
      bst1.root = bst.root ∧
      (∀ x ∈ t.inorder, bst1.mem x = bst.mem x) ∧ BstWF bst1 t ∧
      bst_lookup fuel bst1 (bst.get_key r0) = some (some r0) := by
  obtain ⟨hs, hp, ho⟩ := hwf
  have hnt : r ∉ t.inorder := by
    intro h
    have h1 := BstTree.find_of_mem ho h
    have h2 := BstTree.find_of_mem ho hr0
    rw [hkey, h2] at h1
    simp only [Option.some.injEq] at h1
    exact hne h1.symm
  have hfr : ∀ x ∈ t.inorder,
      (bst.mem.set r { left := none, right := none, parent := none }) x = bst.mem x :=
    fun x hx => BstMem.set_other _ _ _ _ (fun h => hnt (by rw [← h]; exact hx))
  have hs0 := hs.shape_congr hfr
  have hp0 := hp.parents_congr hfr
  obtain ⟨root, hroot, he⟩ := bst_insert_internal_dup bst.get_key r t _ bst.root none fuel
    hs0 hp0 ho ⟨r0, hr0, hkey.symm⟩ hf
  rw [hroot] at he
  have hwf1 : BstWF { bst with
      mem := bst.mem.set r { left := none, right := none, parent := none },
      node_count := u32_inc bst.node_count } t := ⟨hs0, hp0, ho⟩
  refine ⟨{ bst with
      mem := bst.mem.set r { left := none, right := none, parent := none },
      node_count := u32_inc bst.node_count },
    by simp only [bst_insert, hroot, he], rfl, hfr, hwf1, ?_⟩
  rw [bst_lookup_eq _ t _ fuel hs0 hf]
  exact congrArg some (BstTree.find_of_mem ho hr0)

/-! ## Instances of the claims at concrete inputs -/

theorem bst_iterate_strictly_increasing_witness :
    ∃ bst out,
      bst_insert_all 16 (bst_create bst_key_id bst_mem_null)
          [50, 25, 75, 10, 40, 5, 15, 30, 45, 60, 90, 55, 80, 100, 65] =
        some (bst, List.replicate 15 EOK) ∧
      bst_iterate 16 bst = some out ∧ (out.map bst_key_id).Sorted (· < ·) :=
  bst_iterate_strictly_increasing bst_key_id bst_mem_null
    [50, 25, 75, 10, 40, 5, 15, 30, 45, 60, 90, 55, 80, 100, 65] 16 (by decide) (by decide)

theorem bst_iterate_visits_each_once_witness :
    ∃ bst out,
      bst_insert_all 16 (bst_create bst_key_id bst_mem_null)
          [50, 25, 75, 10, 40, 5, 15, 30, 45, 60, 90, 55, 80, 100, 65] =
        some (bst, List.replicate 15 EOK) ∧
      bst_iterate 16 bst = some out ∧ out.length = 15 ∧
      (∀ r ∈ [50, 25, 75, 10, 40, 5, 15, 30, 45, 60, 90, 55, 80, 100, 65],
        out.count r = 1) ∧
      (∀ x ∈ out, x ∈ [50, 25, 75, 10, 40, 5, 15, 30, 45, 60, 90, 55, 80, 100, 65]) :=
  bst_iterate_visits_each_once bst_key_id bst_mem_null
    [50, 25, 75, 10, 40, 5, 15, 30, 45, 60, 90, 55, 80, 100, 65] 16 (by decide) (by decide)

theorem bst_remove_absent_key_frame_witness :
    BstWF bst_example bst_example_tree ∧
      ∃ bst1 st, bst_remove 8 bst_example (some 60) = some (bst1, st) ∧
        bst1.root = bst_example.root ∧ bst1.mem = bst_example.mem ∧
        (bst_example.root = none → st = EINVAL ∧ bst1.node_count = bst_example.node_count) :=
  ⟨bst_example_wf,
    bst_remove_absent_key_frame bst_example bst_example_tree 60 8 bst_example_wf
      (by decide) (by decide)⟩

theorem bst_lookup_after_insert_witness :
    BstWF bst_example bst_example_tree ∧
      ∃ bst1, bst_insert 8 bst_example (some 60) = some (bst1, EOK) ∧
        bst_lookup 8 bst1 (bst_example.get_key 60) = some (some 60) :=
  ⟨bst_example_wf,
    bst_lookup_after_insert bst_example bst_example_tree 60 8 bst_example_wf
      (by decide) (by decide)⟩

theorem bst_lookup_correct_witness :
    (∀ r ∈ bst_example_tree.inorder, bst_example.get_key r = 75 →
        bst_lookup 8 bst_example 75 = some (some r)) ∧
      ((∀ r ∈ bst_example_tree.inorder, bst_example.get_key r ≠ 75) →
        bst_lookup 8 bst_example 75 = some none) :=
  bst_lookup_correct bst_example bst_example_tree 75 8 bst_example_wf.1 bst_example_wf.2.2
    (by decide)

theorem bst_get_next_successor_witness :
    ∃ res, bst_get_next 8 bst_example (some 25) = some res ∧
      (∀ s, res = some s → s ∈ bst_example_tree.inorder ∧
        bst_example.get_key 25 < bst_example.get_key s ∧
        ∀ x ∈ bst_example_tree.inorder, bst_example.get_key 25 < bst_example.get_key x →
          bst_example.get_key s ≤ bst_example.get_key x) ∧
      (res = none ↔ ∀ x ∈ bst_example_tree.inorder,
        bst_example.get_key x ≤ bst_example.get_key 25) :=
  bst_get_next_successor bst_example bst_example_tree 25 8 bst_example_wf (by decide)
    (by decide)

theorem bst_insert_duplicate_key_witness :
    BstWF bst_example bst_example_tree ∧
      ∃ bst1, bst_insert 8 bst_example (some 150) = some (bst1, EOK) ∧
        bst1.root = bst_example.root ∧
        (∀ x ∈ bst_example_tree.inorder, bst1.mem x = bst_example.mem x) ∧
        BstWF bst1 bst_example_tree ∧
        bst_lookup 8 bst1 (bst_example.get_key 50) = some (some 50) :=
  ⟨bst_example_wf,
    bst_insert_duplicate_key bst_example bst_example_tree 50 150 8 bst_example_wf
      (by decide) (by decide) (by decide) (by decide)⟩

/-! ## Counting calls on the ordered index -/

theorem u32_dec_lt (n : Nat) : u32_dec n < 2 ^ 32 := by
  unfold u32_dec
  exact Nat.mod_lt _ (by norm_num)

theorem bst_insert_count (fuel : Nat) (bst bst1 : bst_t) (n : Option Nat) (st : Int)
    (h : bst_insert fuel bst n = some (bst1, st)) :
    (st = EOK ∧ bst1.node_count = u32_inc bst.node_count) ∨
      (st ≠ EOK ∧ bst1.node_count = bst.node_count) := by
  unfold bst_insert at h
  cases n with
  | none =>
    simp only [Option.some.injEq, Prod.mk.injEq] at h
    right
    exact ⟨by rw [← h.2]; decide, by rw [← h.1]⟩
  | some a =>
    simp only at h
    cases hr : bst.root with
    | none =>
      rw [hr] at h
      simp only [Option.some.injEq, Prod.mk.injEq] at h
      left
      exact ⟨h.2.symm, by rw [← h.1]⟩
    | some root =>
      rw [hr] at h
      simp only at h
      cases he : bst_insert_internal bst.get_key fuel
          (bst.mem.set a { left := none, right := none, parent := none }) (some root) a with
      | none => rw [he] at h; simp at h
      | some r =>
        rw [he] at h
        simp only [Option.some.injEq, Prod.mk.injEq] at h
        left
        exact ⟨h.2.symm, by rw [← h.1]⟩

theorem bst_remove_count (fuel : Nat) (bst bst1 : bst_t) (n : Option Nat) (st : Int)
    (h : bst_remove fuel bst n = some (bst1, st)) :
    (st = EOK ∧ bst1.node_count = u32_dec bst.node_count) ∨
      (st ≠ EOK ∧ bst1.node_count = bst.node_count) := by
  unfold bst_remove at h
  cases n with
  | none =>
    simp only [Option.some.injEq, Prod.mk.injEq] at h
    right
    exact ⟨by rw [← h.2]; decide, by rw [← h.1]⟩
  | some a =>
    simp only at h
    cases hr : bst.root with
    | none =>
      rw [hr] at h
      simp only [Option.some.injEq, Prod.mk.injEq] at h
      right
      exact ⟨by rw [← h.2]; decide, by rw [← h.1]⟩
    | some root =>
      rw [hr] at h
      simp only at h
      cases he : bst_remove_internal bst.get_key fuel bst.mem (some root) a with
      | none => rw [he] at h; simp at h
      | some r =>
        obtain ⟨m1, res⟩ := r
        rw [he] at h
        cases res with
        | none =>
          simp only [Option.some.injEq, Prod.mk.injEq] at h
          right
          exact ⟨by rw [← h.2]; decide, by rw [← h.1]⟩
        | some x =>
          simp only [Option.some.injEq, Prod.mk.injEq] at h
          left
          exact ⟨h.2.symm, by rw [← h.1]⟩

theorem bst_run_count (fuel : Nat) :
    ∀ (cs : List bst_call) (bst bst1 : bst_t) (sts : List Int),
      bst.node_count < 2 ^ 32 → bst_run fuel bst cs = some (bst1, sts) →
      bst1.node_count < 2 ^ 32 ∧
        (bst1.node_count + bst_count_removed cs sts) % 2 ^ 32 =
          (bst.node_count + bst_count_inserted cs sts) % 2 ^ 32 := by
  intro cs
  induction cs with
  | nil =>
    intro bst bst1 sts hc h
    simp only [bst_run, Option.some.injEq, Prod.mk.injEq] at h
    obtain ⟨h1, h2⟩ := h
    subst h1 h2
    exact ⟨hc, by simp [bst_count_removed, bst_count_inserted]⟩
  | cons c cs ih =>
    intro bst bst1 sts hc h
    cases c with
    | insert n =>
      simp only [bst_run] at h
      cases he : bst_insert fuel bst n with
      | none => rw [he] at h; simp at h
      | some r =>
        obtain ⟨b1, st⟩ := r
        rw [he] at h
        simp only at h
        cases hr : bst_run fuel b1 cs with
        | none => rw [hr] at h; simp at h
        | some r2 =>
          obtain ⟨b2, sts2⟩ := r2
          rw [hr] at h
          simp only [Option.some.injEq, Prod.mk.injEq] at h
          obtain ⟨h1, h2⟩ := h
          subst h1 h2
          rcases bst_insert_count fuel bst b1 n st he with ⟨hst, hcnt⟩ | ⟨hst, hcnt⟩
          · have hb1 : b1.node_count < 2 ^ 32 := by rw [hcnt]; exact u32_inc_lt _
            obtain ⟨hlt, heq⟩ := ih b1 b2 sts2 hb1 hr
            refine ⟨hlt, ?_⟩
            simp only [bst_count_removed, bst_count_inserted, hst, if_true]
            rw [hcnt] at heq
            simp only [u32_inc] at heq
            omega
          · have hb1 : b1.node_count < 2 ^ 32 := by rw [hcnt]; exact hc
            obtain ⟨hlt, heq⟩ := ih b1 b2 sts2 hb1 hr
            refine ⟨hlt, ?_⟩
            simp only [bst_count_removed, bst_count_inserted, hst, if_false]
            rw [hcnt] at heq
            omega
    | remove n =>
      simp only [bst_run] at h
      cases he : bst_remove fuel bst n with
      | none => rw [he] at h; simp at h
      | some r =>
        obtain ⟨b1, st⟩ := r
        rw [he] at h
        simp only at h
        cases hr : bst_run fuel b1 cs with
        | none => rw [hr] at h; simp at h
        | some r2 =>
          obtain ⟨b2, sts2⟩ := r2
          rw [hr] at h
          simp only [Option.some.injEq, Prod.mk.injEq] at h
          obtain ⟨h1, h2⟩ := h
          subst h1 h2
          rcases bst_remove_count fuel bst b1 n st he with ⟨hst, hcnt⟩ | ⟨hst, hcnt⟩
          · have hb1 : b1.node_count < 2 ^ 32 := by rw [hcnt]; exact u32_dec_lt _
            obtain ⟨hlt, heq⟩ := ih b1 b2 sts2 hb1 hr
            refine ⟨hlt, ?_⟩
            simp only [bst_count_removed, bst_count_inserted, hst, if_true]
            rw [hcnt] at heq
            simp only [u32_dec] at heq
            omega
          · have hb1 : b1.node_count < 2 ^ 32 := by rw [hcnt]; exact hc
            obtain ⟨hlt, heq⟩ := ih b1 b2 sts2 hb1 hr
            refine ⟨hlt, ?_⟩
            simp only [bst_count_removed, bst_count_inserted, hst, if_false]
            rw [hcnt] at heq
            omega

/-- Claim C11.  A run of `bst_insert` and `bst_remove` calls, in any
interleaving, starts from a newly created tree and returns.  With `N` the
number of `bst_insert` calls that returned `EOK` and `M` the number of
`bst_remove` calls that returned `EOK`, `M ≤ N` and `N - M` within the range
of the `uint32_t` counter, `bst_get_count` returns `N - M`. -/
theorem bst_get_count_after_run (get_key : Nat → Int) (mem : BstMem) (fuel : Nat)
    (cs : List bst_call) (bst : bst_t) (sts : List Int)
    (hrun : bst_run fuel (bst_create get_key mem) cs = some (bst, sts))
    (hle : bst_count_removed cs sts ≤ bst_count_inserted cs sts)
    (hrange : bst_count_inserted cs sts - bst_count_removed cs sts < 2 ^ 32) :
    bst_get_count bst = bst_count_inserted cs sts - bst_count_removed cs sts := by
  obtain ⟨hlt, heq⟩ := bst_run_count fuel cs (bst_create get_key mem) bst sts
    (by simp [bst_create]) hrun
  simp only [bst_create, Nat.zero_add] at heq
  unfold bst_get_count
  omega

/-- Claim C12 (code defect).  Record 50 is inserted into a newly created tree
and `bst_remove` is called with record 60, whose key is not stored.  The call
returns `EOK` and takes `node_count` down to 0.  Record 50 is still the root
and `bst_lookup` still returns it, but `bst_empty` is true and `bst_destroy`
returns `EOK`: the container is destroyed while it holds a record. -/
theorem bst_destroy_succeeds_on_stored_record :
    (bst_run 8 (bst_create bst_key_id bst_mem_null)
        [.insert (some 50), .remove (some 60)]).map Prod.snd = some [EOK, EOK] ∧
      (bst_after 8 [.insert (some 50), .remove (some 60)]).root = some 50 ∧
      BstShape (bst_after 8 [.insert (some 50), .remove (some 60)]).mem (.node .nil 50 .nil)
        (bst_after 8 [.insert (some 50), .remove (some 60)]).root ∧
      bst_lookup 8 (bst_after 8 [.insert (some 50), .remove (some 60)]) 50 =
        some (some 50) ∧
      bst_get_count (bst_after 8 [.insert (some 50), .remove (some 60)]) = 0 ∧
      bst_empty (bst_after 8 [.insert (some 50), .remove (some 60)]) = true ∧
      bst_destroy (bst_after 8 [.insert (some 50), .remove (some 60)]) = EOK := by
  refine ⟨by decide, by decide, by decide, by decide, by decide, by decide, by decide⟩

/-! ## Lookup in the prefix index -/

@[simp] theorem TrieMem.trie_set_same (m : TrieMem) (a : Nat) (n : trie_node_t) :
    (m.set a n) a = n := by
  simp [TrieMem.set]

theorem TrieMem.trie_set_other (m : TrieMem) (a x : Nat) (n : trie_node_t) (h : x ≠ a) :
    (m.set a n) x = m x := by
  simp [TrieMem.set, h]

theorem c_char_at_drop_nil {key : List Nat} {i : Nat} (h : key.drop i = []) :
    c_char_at key i = 0 := by
  unfold c_char_at
  rw [List.drop_eq_nil_iff] at h
  rw [List.getD_eq_default _ _ h]

theorem c_char_at_drop_cons {key : List Nat} {i b : Nat} {rest : List Nat}
    (h : key.drop i = b :: rest) : c_char_at key i = b ∧ key.drop (i + 1) = rest := by
  have hlt : i < key.length := by
    by_contra hn
    rw [List.drop_eq_nil_iff.mpr (by omega)] at h
    cases h
  constructor
  · unfold c_char_at
    rw [List.getD_eq_getElem _ _ hlt]
    have := List.drop_eq_getElem_cons hlt
    rw [this] at h
    exact (List.cons.inj h).1
  · have := List.drop_eq_getElem_cons hlt
    rw [this] at h
    exact (List.cons.inj h).2

theorem TrieT.find_key {b : Nat} {t : TrieT} {x k : Nat} {d : Option Nat} {c s : TrieT}
    (h : TrieT.find b t = .node x k d c s) : k = b := by
  induction t with
  | nil => simp [TrieT.find] at h
  | node a k1 d1 c1 s1 _ ihs =>
    simp only [TrieT.find] at h
    split_ifs at h with hk
    · cases h; exact hk
    · exact ihs h

theorem TrieRep.find_rep {m : TrieMem} {b : Nat} {t : TrieT} {p : Option Nat}
    (h : TrieRep m t p) : TrieRep m (TrieT.find b t) (TrieT.find b t).head := by
  induction t generalizing p with
  | nil => simp [TrieT.find, TrieT.head, TrieRep]
  | node a k d c s _ ihs =>
    simp only [TrieT.find]
    split_ifs with hk
    · obtain ⟨_, h2⟩ := h
      exact ⟨rfl, h2⟩
    · exact ihs h.2.2.2.2

theorem TrieT.find_size (b : Nat) (t : TrieT) : (TrieT.find b t).size ≤ t.size := by
  induction t with
  | nil => simp [TrieT.find]
  | node a k d c s _ ihs =>
    simp only [TrieT.find]
    split_ifs with hk
    · exact le_refl _
    · simp only [TrieT.size]; omega

theorem TrieT.chainLength_le_size (t : TrieT) : t.chainLength ≤ t.size := by
  induction t with
  | nil => simp [TrieT.chainLength, TrieT.size]
  | node a k d c s _ ihs => simp only [TrieT.chainLength, TrieT.size]; omega

theorem trie_lookup_scan_spec (m : TrieMem) (b : Nat) :
    ∀ (t : TrieT) (p : Option Nat) (fuel : Nat), TrieRep m t p → t.chainLength < fuel →
      trie_lookup_scan fuel m p b = .ok (TrieT.find b t).head := by
  intro t
  induction t with
  | nil =>
    intro p fuel h hf
    have hp : p = none := h
    subst hp
    obtain ⟨f, rfl⟩ : ∃ f, fuel = f + 1 := ⟨fuel - 1, by omega⟩
    simp [trie_lookup_scan, TrieT.find, TrieT.head]
  | node a k d c s _ ihs =>
    intro p fuel h hf
    obtain ⟨hp, hk, _, _, hs⟩ := h
    subst hp
    obtain ⟨f, rfl⟩ : ∃ f, fuel = f + 1 := ⟨fuel - 1, by omega⟩
    simp only [TrieT.chainLength] at hf
    simp only [trie_lookup_scan, TrieT.find, hk]
    split_ifs with hkb
    · rfl
    · exact ihs _ f hs (by omega)

theorem trie_lookup_scan_cases (m : TrieMem) (b : Nat) :
    ∀ (t : TrieT) (p : Option Nat) (fuel : Nat), TrieRep m t p →
      trie_lookup_scan fuel m p b = .out_of_fuel ∨
        trie_lookup_scan fuel m p b = .ok (TrieT.find b t).head := by
  intro t
  induction t with
  | nil =>
    intro p fuel h
    have hp : p = none := h
    subst hp
    cases fuel with
    | zero => left; rfl
    | succ f => right; simp [trie_lookup_scan, TrieT.find, TrieT.head]
  | node a k d c s _ ihs =>
    intro p fuel h
    obtain ⟨hp, hk, _, _, hs⟩ := h
    subst hp
    cases fuel with
    | zero => left; rfl
    | succ f =>
      simp only [trie_lookup_scan, TrieT.find, hk]
      split_ifs with hkb
      · right; rfl
      · exact ihs _ f hs

/-- Result of the level loop that corresponds to an outcome on the shape. -/
theorem trie_lookup_loop_diverges (m : TrieMem) (key : List Nat) :
    ∀ (fuel : Nat) (t : TrieT) (p : Option Nat) (i : Nat) (mf : Bool),
      TrieRep m t p → t.runLookup (key.drop i) mf = .diverges →
      trie_lookup_loop fuel m p key i mf = .out_of_fuel := by
  intro fuel
  induction fuel with
  | zero => intro t p i mf _ _; rfl
  | succ f ih =>
    intro t p i mf h hd
    cases t with
    | nil => simp [TrieT.runLookup] at hd
    | node a k d c s =>
      have hp : p = some a := h.1
      subst hp
      simp only [trie_lookup_loop]
      rcases trie_lookup_scan_cases m (c_char_at key i) _ _ f h with hs | hs
      · rw [hs]
      · rw [hs]
        have hrep := h.find_rep (b := c_char_at key i)
        cases hkd : key.drop i with
        | nil =>
          rw [hkd] at hd
          have hb := c_char_at_drop_nil hkd
          rw [hb] at hrep ⊢
          simp only [TrieT.runLookup] at hd
          cases hf : TrieT.find 0 (.node a k d c s) with
          | nil =>
            rw [hf] at hd
            simp only [TrieT.head]
            cases mf with
            | false => simp at hd
            | true =>
              simp only [Bool.true_eq_false, if_false]
              exact ih _ _ i true h (by rw [hkd]; simp only [TrieT.runLookup, hf]; simp)
          | node x kx dx cx sx => rw [hf] at hd; simp at hd
        | cons b rest =>
          rw [hkd] at hd
          obtain ⟨hb, hrest⟩ := c_char_at_drop_cons hkd
          rw [hb] at hrep ⊢
          simp only [TrieT.runLookup] at hd
          cases hf : TrieT.find b (.node a k d c s) with
          | nil =>
            rw [hf] at hd
            simp only [TrieT.head]
            cases mf with
            | false => simp at hd
            | true =>
              simp only [Bool.true_eq_false, if_false]
              exact ih _ _ i true h (by rw [hkd]; simp only [TrieT.runLookup, hf]; simp)
          | node x kx dx cx sx =>
            rw [hf] at hd hrep
            simp only [TrieT.head]
            by_cases hb0 : b = 0
            · simp [hb0] at hd
            · simp only [hb0, if_false] at hd ⊢
              exact ih cx _ (i + 1) true hrep.2.2.2.1 (by rw [hrest]; exact hd)

/-- When the outcome on the shape is `diverges`, `trie_lookup` returns for no
amount of fuel. -/
theorem trie_lookup_never_returns (trie : trie_t) (t : TrieT) (key : List Nat)
    (h : TrieRep trie.mem t trie.root) (hd : t.runLookup key false = .diverges) :
    ∀ fuel, trie_lookup fuel trie key = .out_of_fuel := by
  intro fuel
  unfold trie_lookup
  cases hr : trie.root with
  | none =>
    rw [hr] at h
    cases t with
    | nil => simp [TrieT.runLookup] at hd
    | node a k d c s => simp [TrieRep] at h
  | some root =>
    simp only
    rw [hr] at h
    rw [trie_lookup_loop_diverges trie.mem key fuel t (some root) 0 false h (by simpa using hd)]

theorem trie_lookup_loop_returns (m : TrieMem) (key : List Nat) :
    ∀ (fuel : Nat) (t : TrieT) (p : Option Nat) (i : Nat) (mf : Bool),
      TrieRep m t p → t.size + (key.drop i).length + 1 < fuel →
      (∀ x dx, t.runLookup (key.drop i) mf = .found x dx →
        trie_lookup_loop fuel m p key i mf = .ok (.value (some x)) ∧ (m x).data = dx) ∧
      (t.runLookup (key.drop i) mf = .absent →
        trie_lookup_loop fuel m p key i mf = .ok (.value none)) ∧
      (t.runLookup (key.drop i) mf = .no_value →
        trie_lookup_loop fuel m p key i mf = .ok .no_value) := by
  intro fuel
  induction fuel with
  | zero => intro t p i mf _ hf; omega
  | succ f ih =>
    intro t p i mf h hf
    cases t with
    | nil =>
      have hp : p = none := h
      subst hp
      simp [TrieT.runLookup, trie_lookup_loop]
    | node a k d c s =>
      have hp : p = some a := h.1
      subst hp
      have hsc := trie_lookup_scan_spec m (c_char_at key i) _ _ f h
        (by have := TrieT.chainLength_le_size (.node a k d c s); omega)
      have hrep := h.find_rep (b := c_char_at key i)
      have hsz := TrieT.find_size (c_char_at key i) (.node a k d c s)
      simp only [trie_lookup_loop, hsc]
      cases hkd : key.drop i with
      | nil =>
        have hb := c_char_at_drop_nil hkd
        rw [hb] at hrep hsz ⊢
        simp only [TrieT.runLookup]
        cases hf0 : TrieT.find 0 (.node a k d c s) with
        | nil => cases mf <;> simp [TrieT.head]
        | node x kx dx cx sx =>
          rw [hf0] at hrep
          simp only [TrieT.head, if_true]
          refine ⟨?_, by simp, by simp⟩
          intro y dy hy
          simp only [TrieLook.found.injEq] at hy
          obtain ⟨h1, h2⟩ := hy
          subst h1 h2
          exact ⟨rfl, hrep.2.2.1⟩
      | cons b rest =>
        obtain ⟨hb, hrest⟩ := c_char_at_drop_cons hkd
        rw [hb] at hrep hsz ⊢
        rw [hkd] at hf
        simp only [TrieT.runLookup]
        cases hf0 : TrieT.find b (.node a k d c s) with
        | nil => cases mf <;> simp [TrieT.head]
        | node x kx dx cx sx =>
          rw [hf0] at hrep hsz
          simp only [TrieT.head]
          by_cases hb0 : b = 0
          · simp only [hb0, if_true]
            refine ⟨?_, by simp, by simp⟩
            intro y dy hy
            simp only [TrieLook.found.injEq] at hy
            obtain ⟨h1, h2⟩ := hy
            subst h1 h2
            exact ⟨rfl, hrep.2.2.1⟩
          · simp only [hb0, if_false]
            have := ih cx _ (i + 1) true hrep.2.2.2.1 (by
              rw [hrest]
              simp only [TrieT.size, List.length_cons] at hsz hf ⊢
              omega)
            rw [hrest] at this
            exact this

/-- On a represented trie `trie_lookup` returns what the outcome on the shape
says, once the fuel exceeds the size of the trie plus the length of the key. -/
theorem trie_lookup_spec (trie : trie_t) (t : TrieT) (key : List Nat) (fuel : Nat)
    (h : TrieRep trie.mem t trie.root) (hf : t.size + key.length + 1 < fuel) :
    (∀ x dx, t.lookup key = .found x dx → trie_lookup fuel trie key = .ok (.value dx)) ∧
      (t.lookup key = .absent → trie_lookup fuel trie key = .ok (.value none)) := by
  cases t with
  | nil =>
    have hr : trie.root = none := h
    simp [TrieT.lookup, trie_lookup, hr]
  | node a k d c s =>
    have hr : trie.root = some a := h.1
    obtain ⟨h1, h2, _⟩ := trie_lookup_loop_returns trie.mem key fuel _ _ 0 false
      (hr ▸ h) (by simpa using hf)
    simp only [List.drop_zero] at h1 h2
    constructor
    · intro x dx hx
      obtain ⟨hl, hdx⟩ := h1 x dx hx
      simp only [trie_lookup, hr, hl, hdx]
    · intro ha
      simp only [trie_lookup, hr, h2 ha]

/-! ## Claims on the prefix index settled by concrete runs -/

/-- Claim C14 (code defect).  The keys "ab" and "ac" are stored and
`trie_lookup` of "ac" returns its payload 2.  After `trie_insert` of the
strict prefix "a", `trie_lookup` of "ac" never returns: the new leaf node was
stored into the `sibling` field of the first child, which cut the branch "c"
off its chain. -/
theorem trie_insert_prefix_cuts_sibling_chain :
    trie_scenario_lookup 50 0 [.insert trie_key_ab 1, .insert trie_key_ac 2] trie_key_ac =
        .ok (.value (some 2)) ∧
      trie_scenario 50 0 0
          [.insert trie_key_ab 1, .insert trie_key_ac 2, .insert trie_key_a 3] =
        .ok ([.no_value, .no_value, .value EOK], 6, 3, []) ∧
      ∀ fuel, trie_lookup fuel
          (trie_after 50 0 [.insert trie_key_ab 1, .insert trie_key_ac 2, .insert trie_key_a 3])
          trie_key_ac = .out_of_fuel := by
  refine ⟨by decide, by decide, ?_⟩
  exact trie_lookup_never_returns _
    (trie_shape 10
      (trie_after 50 0
        [.insert trie_key_ab 1, .insert trie_key_ac 2, .insert trie_key_a 3]).mem
      (trie_after 50 0
        [.insert trie_key_ab 1, .insert trie_key_ac 2, .insert trie_key_a 3]).root)
    trie_key_ac (by decide) (by decide)

/-- Claim C15 (code defect).  The trie holds "ann" and "annabel".
`trie_lookup` of the key "anx", which is not stored and shares the prefix "an"
with the stored keys, never returns: `match_found` stays set after the first
matching byte, so the level loop repeats the failing scan for ever. -/
theorem trie_lookup_after_partial_match_never_returns :
    trie_scenario 50 0 0 [.insert trie_key_ann 1, .insert trie_key_annabel 2] =
        .ok ([.no_value, .no_value], 9, 2, []) ∧
      ∀ fuel, trie_lookup fuel
          (trie_after 50 0 [.insert trie_key_ann 1, .insert trie_key_annabel 2])
          trie_key_anx = .out_of_fuel := by
  refine ⟨by decide, ?_⟩
  exact trie_lookup_never_returns _
    (trie_shape 10
      (trie_after 50 0 [.insert trie_key_ann 1, .insert trie_key_annabel 2]).mem
      (trie_after 50 0 [.insert trie_key_ann 1, .insert trie_key_annabel 2]).root)
    trie_key_anx (by decide) (by decide)

/-- Claim C16 (code defect).  "ab" and then "a" are stored, so the leaf node of
"a" is the second node of its sibling chain.  A second `trie_insert` of "a"
returns `EOK` instead of `EFAIL`, raises `node_count` from 4 to 5 and
`leaf_count` from 2 to 3, and `trie_lookup` of "a" returns the new payload 3
instead of 2. -/
theorem trie_insert_duplicate_not_rejected :
    trie_scenario 50 0 0 [.insert trie_key_ab 1, .insert trie_key_a 2] =
        .ok ([.no_value, .value EOK], 4, 2, []) ∧
      trie_scenario_lookup 50 0 [.insert trie_key_ab 1, .insert trie_key_a 2] trie_key_a =
        .ok (.value (some 2)) ∧
      trie_scenario 50 0 0
          [.insert trie_key_ab 1, .insert trie_key_a 2, .insert trie_key_a 3] =
        .ok ([.no_value, .value EOK, .value EOK], 5, 3, []) ∧
      trie_scenario_lookup 50 0
          [.insert trie_key_ab 1, .insert trie_key_a 2, .insert trie_key_a 3] trie_key_a =
        .ok (.value (some 3)) := by
  refine ⟨by decide, by decide, by decide, by decide⟩

/-- Claim C18 (code defect).  The trie holds "ann" and "annabel".
`trie_remove` of "ann" returns `EOK` and "annabel" is still found, but
`trie_lookup` of "ann" afterwards never returns: the bytes "ann" still match
and the failing scan for the leaf node is repeated for ever. -/
theorem trie_lookup_removed_key_never_returns :
    trie_scenario 50 0 0
        [.insert trie_key_ann 1, .insert trie_key_annabel 2, .remove trie_key_ann] =
        .ok ([.no_value, .no_value, .value EOK], 8, 1, [103]) ∧
      trie_scenario_lookup 50 0
          [.insert trie_key_ann 1, .insert trie_key_annabel 2, .remove trie_key_ann]
          trie_key_annabel = .ok (.value (some 2)) ∧
      ∀ fuel, trie_lookup fuel
          (trie_after 50 0
            [.insert trie_key_ann 1, .insert trie_key_annabel 2, .remove trie_key_ann])
          trie_key_ann = .out_of_fuel := by
  refine ⟨by decide, by decide, ?_⟩
  exact trie_lookup_never_returns _
    (trie_shape 10
      (trie_after 50 0
        [.insert trie_key_ann 1, .insert trie_key_annabel 2, .remove trie_key_ann]).mem
      (trie_after 50 0
        [.insert trie_key_ann 1, .insert trie_key_annabel 2, .remove trie_key_ann]).root)
    trie_key_ann (by decide) (by decide)

/-- Claim C20 (code defect).  `trie_create` does not set `leaf_count`.  When the
allocated block held 7 there, `trie_get_count` is 11 after the four keys
"ann", "andrew", "annabel", "dilbert" have been inserted, and 4 only when the
block happened to hold 0. -/
theorem trie_get_count_starts_from_garbage :
    trie_scenario 50 0 7
        [.insert trie_key_ann 1, .insert trie_key_andrew 2, .insert trie_key_annabel 3,
          .insert trie_key_dilbert 4] =
        .ok ([.no_value, .no_value, .no_value, .no_value], 22, 11, []) ∧
      trie_scenario 50 0 0
        [.insert trie_key_ann 1, .insert trie_key_andrew 2, .insert trie_key_annabel 3,
          .insert trie_key_dilbert 4] =
        .ok ([.no_value, .no_value, .no_value, .no_value], 22, 4, []) := by
  refine ⟨by decide, by decide⟩

/-! ## Insertion into the prefix index -/

theorem c_strlen_eq_length {key : List Nat} (hz : 0 ∉ key) : c_strlen key = key.length := by
  unfold c_strlen
  rw [List.takeWhile_eq_self_iff.mpr]
  intro x hx
  simp only [ne_eq, decide_not, Bool.not_eq_true', decide_eq_false_iff_not]
  intro h
  exact hz (h ▸ hx)

theorem trie_malloc_some (trie : trie_t) (h : 0 < trie.heap_left) :
    trie_malloc trie =
      ({ trie with next_free := trie.next_free + 1, heap_left := trie.heap_left - 1 },
        some trie.next_free) := by
  unfold trie_malloc
  rw [if_neg (by omega)]

theorem TrieRep.mem_congr {m m1 : TrieMem} {t : TrieT} {p : Option Nat}
    (h : TrieRep m t p) (hm : ∀ x ∈ t.addrs, m1 x = m x) : TrieRep m1 t p := by
  induction t generalizing p with
  | nil => exact h
  | node a k d c s ihc ihs =>
    obtain ⟨hp, hk, hd, hc, hs⟩ := h
    have ha : m1 a = m a := hm a (by simp [TrieT.addrs])
    refine ⟨hp, by rw [ha]; exact hk, by rw [ha]; exact hd, ?_, ?_⟩
    · rw [ha]
      exact ihc hc (fun x hx => hm x (by simp [TrieT.addrs, hx]))
    · rw [ha]
      exact ihs hs (fun x hx => hm x (by simp [TrieT.addrs, hx]))

theorem trie_insert_internal_spec (key : List Nat) (data : Option Nat) (hz : 0 ∉ key) :
    ∀ (n fuel : Nat) (trie : trie_t) (par j : Nat),
      key.length - j = n → j ≤ key.length → par < trie.next_free →
      n + 1 ≤ trie.heap_left → n < fuel →
      ∃ trie1, trie_insert_internal fuel trie par key data j = .ok (trie1, .no_value) ∧
        TrieRep trie1.mem (TrieT.chain data (key.drop j) trie.next_free)
          (some trie.next_free) ∧
        trie1.mem par = { trie.mem par with children := some trie.next_free } ∧
        (∀ y, y < trie.next_free → y ≠ par → trie1.mem y = trie.mem y) ∧
        trie1.next_free = trie.next_free + n + 1 ∧
        trie1.heap_left = trie.heap_left - (n + 1) ∧
        trie1.root = trie.root ∧ trie1.freed = trie.freed ∧
        trie1.get_key = trie.get_key ∧
        trie1.leaf_count = u32_inc trie.leaf_count ∧
        trie1.node_count = (trie.node_count + n + 1) % 2 ^ 32 := by
  intro n
  induction n with
  | zero =>
    intro fuel trie par j hn hj hpar hheap hf
    obtain ⟨f, rfl⟩ : ∃ f, fuel = f + 1 := ⟨fuel - 1, by omega⟩
    have hjl : j = key.length := by omega
    have hge : j ≥ c_strlen key := by rw [c_strlen_eq_length hz]; omega
    have hdrop : key.drop j = [] := by rw [hjl]; simp
    have hne : trie.next_free ≠ par := by omega
    refine ⟨{ trie with
        next_free := trie.next_free + 1, heap_left := trie.heap_left - 1,
        mem := (trie.mem.set trie.next_free
            { key := 0, data := data, sibling := none, children := none,
              parent := some par }).set par
          { (trie.mem.set trie.next_free
              { key := 0, data := data, sibling := none, children := none,
                parent := some par }) par with children := some trie.next_free },
        node_count := u32_inc trie.node_count, leaf_count := u32_inc trie.leaf_count },
      by simp only [trie_insert_internal, trie_malloc_some trie (by omega), hge, if_true],
      ?_, ?_, ?_, rfl, rfl, rfl, rfl, rfl, rfl, ?_⟩
    · rw [hdrop]
      show TrieRep _ (.node trie.next_free 0 data .nil .nil) (some trie.next_free)
      refine ⟨rfl, ?_, ?_, ?_, ?_⟩ <;>
        simp only [TrieMem.trie_set_other _ _ _ _ hne, TrieMem.trie_set_same, TrieRep]
    · simp only
      rw [TrieMem.trie_set_same, TrieMem.trie_set_other _ _ _ _ (Ne.symm hne)]
    · intro y hy hyp
      simp only
      rw [TrieMem.trie_set_other _ _ _ _ hyp, TrieMem.trie_set_other _ _ _ _ (by omega)]
    · simp only [u32_inc]
  | succ n ih =>
    intro fuel trie par j hn hj hpar hheap hf
    obtain ⟨f, rfl⟩ : ∃ f, fuel = f + 1 := ⟨fuel - 1, by omega⟩
    have hjl : j < key.length := by omega
    have hlt : ¬ j ≥ c_strlen key := by rw [c_strlen_eq_length hz]; omega
    have hne : trie.next_free ≠ par := by omega
    obtain ⟨b, rest, hdrop⟩ : ∃ b rest, key.drop j = b :: rest :=
      ⟨_, _, List.drop_eq_getElem_cons hjl⟩
    obtain ⟨hb, hrest⟩ := c_char_at_drop_cons hdrop
    obtain ⟨trie3, he, hrep, hpar3, hfr, hnf, hhl, hroot, hfreed, hgk, hlc, hnc⟩ :=
      ih f
        { trie with
          next_free := trie.next_free + 1, heap_left := trie.heap_left - 1,
          mem := (trie.mem.set trie.next_free
              { key := c_char_at key j, data := none, sibling := none, children := none,
                parent := some par }).set par
            { (trie.mem.set trie.next_free
                { key := c_char_at key j, data := none, sibling := none, children := none,
                  parent := some par }) par with children := some trie.next_free },
          node_count := u32_inc trie.node_count }
        trie.next_free (j + 1) (by omega) (by omega) (by simp) (by simp; omega) (by omega)
    simp only at hrep hpar3 hfr hnf hhl hroot hfreed hgk hlc hnc
    refine ⟨trie3, ?_, ?_, ?_, ?_, by rw [hnf]; omega, by rw [hhl]; omega, hroot, hfreed,
      hgk, hlc, ?_⟩
    · simp only [trie_insert_internal, trie_malloc_some trie (by omega), hlt, if_false]
      exact he
    · rw [hdrop]
      rw [hrest] at hrep
      show TrieRep _ (.node trie.next_free b none
        (TrieT.chain data rest (trie.next_free + 1)) .nil) (some trie.next_free)
      refine ⟨rfl, ?_, ?_, ?_, ?_⟩
      · rw [hpar3, TrieMem.trie_set_other _ _ _ _ hne, TrieMem.trie_set_same]
        exact hb
      · rw [hpar3, TrieMem.trie_set_other _ _ _ _ hne, TrieMem.trie_set_same]
      · rw [hpar3]
        exact hrep
      · rw [hpar3, TrieMem.trie_set_other _ _ _ _ hne, TrieMem.trie_set_same]
        rfl
    · rw [hfr par (by omega) (by omega), TrieMem.trie_set_same,
        TrieMem.trie_set_other _ _ _ _ (Ne.symm hne)]
    · intro y hy hyp
      rw [hfr y (by omega) (by omega), TrieMem.trie_set_other _ _ _ _ hyp,
        TrieMem.trie_set_other _ _ _ _ (by omega)]
    · rw [hnc]
      simp only [u32_inc]
      omega

theorem trie_insert_scan_spec (m : TrieMem) (b : Nat) :
    ∀ (t : TrieT) (p prev : Option Nat) (fuel : Nat), TrieRep m t p → t.chainLength < fuel →
      trie_insert_scan fuel m p b prev =
        .ok (match TrieT.find b t with
          | .nil => (none, TrieT.lastOr prev t)
          | .node x _ _ _ _ => (some x, some x)) := by
  intro t
  induction t with
  | nil =>
    intro p prev fuel h hf
    have hp : p = none := h
    subst hp
    obtain ⟨f, rfl⟩ : ∃ f, fuel = f + 1 := ⟨fuel - 1, by omega⟩
    simp [trie_insert_scan, TrieT.find, TrieT.lastOr]
  | node a k d c s _ ihs =>
    intro p prev fuel h hf
    obtain ⟨hp, hk, _, _, hs⟩ := h
    subst hp
    obtain ⟨f, rfl⟩ : ∃ f, fuel = f + 1 := ⟨fuel - 1, by omega⟩
    simp only [TrieT.chainLength] at hf
    simp only [trie_insert_scan, TrieT.find, hk]
    split_ifs with hkb
    · rfl
    · rw [ihs _ (some a) f hs (by omega)]
      rfl

theorem TrieT.lastOr_mem {s : TrieT} (hs : s ≠ .nil) (d : Option Nat) :
    ∃ l, TrieT.lastOr d s = some l ∧ l ∈ s.addrs := by
  induction s generalizing d with
  | nil => exact absurd rfl hs
  | node a k dd c s2 _ ihs =>
    simp only [TrieT.lastOr]
    cases s2 with
    | nil => exact ⟨a, rfl, by simp [TrieT.addrs]⟩
    | node a2 k2 d2 c2 s3 =>
      obtain ⟨l, hl, hmem⟩ := ihs (by simp) (some a)
      exact ⟨l, hl, by simp only [TrieT.addrs] at hmem ⊢; simp [hmem]⟩

theorem TrieT.mem_addrs_self (a k : Nat) (d : Option Nat) (c s : TrieT) :
    a ∈ (TrieT.node a k d c s).addrs := by
  simp [TrieT.addrs]

theorem TrieT.mem_addrs_children {y : Nat} (a k : Nat) (d : Option Nat) {c : TrieT}
    (s : TrieT) (h : y ∈ c.addrs) : y ∈ (TrieT.node a k d c s).addrs := by
  simp [TrieT.addrs, h]

theorem TrieT.mem_addrs_sibling {y : Nat} (a k : Nat) (d : Option Nat) (c : TrieT)
    {s : TrieT} (h : y ∈ s.addrs) : y ∈ (TrieT.node a k d c s).addrs := by
  simp [TrieT.addrs, h]

theorem TrieT.find_addrs {b x k : Nat} {d : Option Nat} {c s : TrieT} :
    ∀ (t : TrieT), TrieT.find b t = .node x k d c s →
      x ∈ t.addrs ∧ (∀ y ∈ c.addrs, y ∈ t.addrs) ∧ x ∉ c.addrs ∨ ¬ t.addrs.Nodup := by
  intro t
  induction t with
  | nil => intro h; simp [TrieT.find] at h
  | node a2 k2 d2 c2 s2 _ ih2 =>
    intro h
    simp only [TrieT.find] at h
    split_ifs at h with hk2
    · cases h
      by_cases hnd : (TrieT.node x k d c s).addrs.Nodup
      · left
        refine ⟨TrieT.mem_addrs_self _ _ _ _ _, fun y hy => TrieT.mem_addrs_children _ _ _ _ hy, ?_⟩
        simp only [TrieT.addrs, List.nodup_cons, List.mem_append, not_or] at hnd
        exact hnd.1.1
      · right; exact hnd
    · rcases ih2 h with ⟨h1, h2, h3⟩ | h4
      · left
        exact ⟨TrieT.mem_addrs_sibling _ _ _ _ h1,
          fun y hy => TrieT.mem_addrs_sibling _ _ _ _ (h2 y hy), h3⟩
      · right
        intro hnd
        simp only [TrieT.addrs, List.nodup_cons, List.nodup_append] at hnd
        exact h4 hnd.2.2.1

theorem TrieRep.appendChain {m m1 : TrieMem} {new : TrieT} {a l : Nat} :
    ∀ (t : TrieT) (p d : Option Nat), TrieRep m t p → t ≠ .nil → t.addrs.Nodup →
      TrieT.lastOr d t = some l →
      (∀ y ∈ t.addrs, y ≠ l → m1 y = m y) →
      m1 l = { m l with sibling := some a } →
      TrieRep m1 new (some a) →
      TrieRep m1 (TrieT.appendChain new t) p := by
  intro t
  induction t with
  | nil => intro p d _ h; exact absurd rfl h
  | node x k dd c s _ ihs =>
    intro p d h _ hnd hlast hfr hl hnew
    obtain ⟨hp, hk, hd, hc, hs⟩ := h
    simp only [TrieT.addrs, List.nodup_cons, List.nodup_append, List.mem_append,
      not_or] at hnd
    obtain ⟨⟨hxc, hxs⟩, hndc, hnds, hdisj⟩ := hnd
    simp only [TrieT.lastOr] at hlast
    cases s with
    | nil =>
      simp only [TrieT.lastOr, Option.some.injEq] at hlast
      subst hlast
      simp only [TrieT.appendChain]
      refine ⟨hp, by rw [hl]; exact hk, by rw [hl]; exact hd, ?_, ?_⟩
      · rw [hl]
        refine hc.mem_congr ?_
        intro y hy
        exact hfr y (by simp [TrieT.addrs, hy]) (fun h => hxc (h ▸ hy))
      · rw [hl]
        exact hnew
    | node x2 k2 d2 c2 s2 =>
      obtain ⟨l2, hl2, hmem⟩ := TrieT.lastOr_mem (s := .node x2 k2 d2 c2 s2) (by simp) (some x)
      rw [hl2] at hlast
      simp only [Option.some.injEq] at hlast
      subst hlast
      have hxl : x ≠ l2 := fun h => hxs (h ▸ hmem)
      have hmx : m1 x = m x := hfr x (by simp [TrieT.addrs]) hxl
      simp only [TrieT.appendChain]
      refine ⟨hp, by rw [hmx]; exact hk, by rw [hmx]; exact hd, ?_, ?_⟩
      · rw [hmx]
        refine hc.mem_congr ?_
        intro y hy
        exact hfr y (by simp [TrieT.addrs, hy]) (fun h => hdisj (h ▸ hy) hmem)
      · rw [hmx]
        exact ihs _ (some x) hs (by simp) hnds hl2
          (fun y hy hyl => hfr y (TrieT.mem_addrs_sibling _ _ _ _ hy) hyl) hl hnew

theorem TrieRep.setKids {m m1 : TrieMem} {b : Nat} {kids : TrieT} :
    ∀ (t : TrieT) (p : Option Nat) (x k : Nat) (d : Option Nat) (c s : TrieT),
      TrieRep m t p → t.addrs.Nodup → TrieT.find b t = .node x k d c s →
      (∀ y ∈ t.addrs, y ∉ c.addrs → m1 y = m y) →
      TrieRep m1 kids (m x).children →
      TrieRep m1 (TrieT.setKids b kids t) p := by
  intro t
  induction t with
  | nil => intro p x k d c s _ _ hf; simp [TrieT.find] at hf
  | node a ka da ca sa _ ihs =>
    intro p x k d c s h hnd hf hfr hkids
    obtain ⟨hp, hk, hd, hc, hs⟩ := h
    simp only [TrieT.addrs, List.nodup_cons, List.nodup_append, List.mem_append,
      not_or] at hnd
    obtain ⟨⟨hxc, hxs⟩, hndc, hnds, hdisj⟩ := hnd
    simp only [TrieT.find] at hf
    simp only [TrieT.setKids]
    split_ifs at hf ⊢ with hkb
    · cases hf
      have hmx : m1 a = m a := hfr a (TrieT.mem_addrs_self _ _ _ _ _) hxc
      refine ⟨hp, by rw [hmx]; exact hk, by rw [hmx]; exact hd, ?_, ?_⟩
      · rw [hmx]; exact hkids
      · rw [hmx]
        refine hs.mem_congr ?_
        intro y hy
        exact hfr y (TrieT.mem_addrs_sibling _ _ _ _ hy) (fun h => hdisj h hy)
    · have hsub : ∀ y ∈ c.addrs, y ∈ sa.addrs := by
        rcases TrieT.find_addrs sa hf with ⟨_, h2, _⟩ | h4
        · exact h2
        · exact absurd hnds h4
      have hac : a ∉ c.addrs := fun h => hxs (hsub a h)
      have hmx : m1 a = m a := hfr a (TrieT.mem_addrs_self _ _ _ _ _) hac
      refine ⟨hp, by rw [hmx]; exact hk, by rw [hmx]; exact hd, ?_, ?_⟩
      · rw [hmx]
        refine hc.mem_congr ?_
        intro y hy
        exact hfr y (TrieT.mem_addrs_children _ _ _ _ hy) (fun h => hdisj hy (hsub y h))
      · rw [hmx]
        exact ihs _ x k d c s hs hnds hf
          (fun y hy hyc => hfr y (TrieT.mem_addrs_sibling _ _ _ _ hy) hyc) hkids

theorem TrieT.find_props {b x k : Nat} {d : Option Nat} {c s : TrieT} :
    ∀ (t : TrieT), TrieT.find b t = .node x k d c s →
      (t.kidsOk → (k = 0 ↔ c = .nil) ∧ c.kidsOk) ∧ (t.addrs.Nodup → c.addrs.Nodup) ∧
        c.size + 1 ≤ t.size ∧ (t.distinct → c.distinct) := by
  intro t
  induction t with
  | nil => intro h; simp [TrieT.find] at h
  | node a2 k2 d2 c2 s2 _ ih2 =>
    intro h
    simp only [TrieT.find] at h
    split_ifs at h with hk2
    · cases h
      refine ⟨fun hk => ⟨hk.1, hk.2.1⟩, ?_, by simp only [TrieT.size]; omega,
        fun hd => hd.2.1⟩
      intro hnd
      simp only [TrieT.addrs, List.nodup_cons, List.nodup_append] at hnd
      exact hnd.2.1
    · obtain ⟨h1, h2, h3, h4⟩ := ih2 h
      refine ⟨fun hk => h1 hk.2.2, ?_, by simp only [TrieT.size]; omega, fun hd => h4 hd.2.2⟩
      intro hnd
      simp only [TrieT.addrs, List.nodup_cons, List.nodup_append] at hnd
      exact h2 hnd.2.2.1

theorem trie_insert_walk_spec (key : List Nat) (data : Option Nat) (hz : 0 ∉ key) :
    ∀ (n fuel : Nat) (trie : trie_t) (level : TrieT) (p prev : Option Nat) (i : Nat),
      key.length - i = n → i ≤ key.length → TrieRep trie.mem level p → level ≠ .nil →
      level.addrs.Nodup → (∀ x ∈ level.addrs, x < trie.next_free) → level.kidsOk →
      n + 1 ≤ trie.heap_left → level.size + n + 1 < fuel →
      ∃ trie1 st, trie_insert_walk fuel trie key data p prev i = .ok (trie1, st) ∧
        TrieRep trie1.mem (TrieT.insWalk data trie.next_free (key.drop i) level) p ∧
        (∀ y, y < trie.next_free → y ∉ level.addrs → trie1.mem y = trie.mem y) ∧
        trie1.root = trie.root ∧ trie1.freed = trie.freed ∧
        trie1.get_key = trie.get_key := by
  intro n
  induction n with
  | zero =>
    intro fuel trie level p prev i hn hi hrep hne hnd hlt hko hheap hf
    obtain ⟨f, rfl⟩ : ∃ f, fuel = f + 1 := ⟨fuel - 1, by omega⟩
    have hil : i = key.length := by omega
    have hns : ¬ i < c_strlen key := by rw [c_strlen_eq_length hz]; omega
    have hdrop : key.drop i = [] := by rw [hil]; simp
    rw [hdrop]
    cases level with
    | nil => exact absurd rfl hne
    | node x k d c s =>
      obtain ⟨hp, hk, hd, hc, hs⟩ := hrep
      subst hp
      simp only [TrieT.addrs, List.nodup_cons, List.nodup_append, List.mem_append,
        not_or] at hnd
      obtain ⟨⟨hxc, hxs⟩, hndc, hnds, hdisj⟩ := hnd
      have hxlt : x < trie.next_free := hlt x (TrieT.mem_addrs_self _ _ _ _ _)
      by_cases hk0 : k = 0
      · simp only [trie_insert_walk, hns, if_false, hk, hk0, if_true, TrieT.insWalk]
        exact ⟨_, _, rfl, ⟨rfl, hk.trans hk0, hd, hc, hs⟩, fun _ _ _ => rfl, rfl, rfl, rfl⟩
      · simp only [trie_insert_walk, hns, if_false, hk, hk0,
          trie_malloc_some trie (by omega), TrieT.insWalk]
        refine ⟨_, _, rfl, ?_, ?_, rfl, rfl, rfl⟩
        · have hne2 : x ≠ trie.next_free := by omega
          refine ⟨rfl, ?_, ?_, ?_, ?_⟩
          · simp only [TrieMem.trie_set_same, TrieMem.trie_set_other _ _ _ _ hne2]
            exact hk
          · simp only [TrieMem.trie_set_same, TrieMem.trie_set_other _ _ _ _ hne2]
            exact hd
          · simp only [TrieMem.trie_set_same, TrieMem.trie_set_other _ _ _ _ hne2]
            refine hc.mem_congr ?_
            intro y hy
            have hy1 : y ≠ x := fun h => hxc (h ▸ hy)
            have hy2 : y ≠ trie.next_free :=
              Nat.ne_of_lt (hlt y (TrieT.mem_addrs_children _ _ _ _ hy))
            rw [TrieMem.trie_set_other _ _ _ _ hy1, TrieMem.trie_set_other _ _ _ _ hy2]
          · simp only [TrieMem.trie_set_same]
            refine ⟨rfl, ?_, ?_, ?_, ?_⟩ <;>
              simp only [TrieMem.trie_set_other _ _ _ _ (Ne.symm hne2),
                TrieMem.trie_set_same, TrieRep]
        · intro y hy hyl
          have hy1 : y ≠ x := fun h => hyl (h ▸ TrieT.mem_addrs_self _ _ _ _ _)
          simp only
          rw [TrieMem.trie_set_other _ _ _ _ hy1, TrieMem.trie_set_other _ _ _ _ (by omega)]
  | succ n ih =>
    intro fuel trie level p prev i hn hi hrep hne hnd hlt hko hheap hf
    obtain ⟨f, rfl⟩ : ∃ f, fuel = f + 1 := ⟨fuel - 1, by omega⟩
    have hil : i < key.length := by omega
    have his : i < c_strlen key := by rw [c_strlen_eq_length hz]; omega
    obtain ⟨b, rest, hdrop⟩ : ∃ b rest, key.drop i = b :: rest :=
      ⟨_, _, List.drop_eq_getElem_cons hil⟩
    obtain ⟨hb, hrest⟩ := c_char_at_drop_cons hdrop
    have hb0 : b ≠ 0 := by
      intro h0
      have : b ∈ key := List.mem_of_mem_drop (hdrop ▸ List.mem_cons_self b rest)
      exact hz (h0 ▸ this)
    have hscan := trie_insert_scan_spec trie.mem b level p prev f hrep
      (by have := TrieT.chainLength_le_size level; omega)
    rw [hdrop]
    simp only [trie_insert_walk, his, if_true, hb, hscan, TrieT.insWalk]
    cases hfind : TrieT.find b level with
    | nil =>
      obtain ⟨l, hl, hlmem⟩ := TrieT.lastOr_mem hne prev
      have hllt : l < trie.next_free := hlt l hlmem
      simp only [hl, trie_malloc_some trie (by omega)]
      obtain ⟨trie3, he, hrep3, hpar3, hfr3, _, _, hroot, hfreed, hgk, _, _⟩ :=
        trie_insert_internal_spec key data hz n f
          { trie with
            next_free := trie.next_free + 1, heap_left := trie.heap_left - 1,
            mem := (trie.mem.set trie.next_free
                { key := b, data := none, sibling := none, children := none,
                  parent := some l }).set l
              { (trie.mem.set trie.next_free
                  { key := b, data := none, sibling := none, children := none,
                    parent := some l }) l with sibling := some trie.next_free },
            node_count := u32_inc trie.node_count }
          trie.next_free (i + 1) (by omega) (by omega) (by simp) (by simp; omega) (by omega)
      simp only at hrep3 hpar3 hfr3 hroot hfreed hgk
      rw [hrest] at hrep3
      refine ⟨trie3, _, he, ?_, ?_, hroot, hfreed, hgk⟩
      · refine TrieRep.appendChain (a := trie.next_free) level p prev hrep hne hnd hl ?_ ?_ ?_
        · intro y hy hyl
          have hylt := hlt y hy
          rw [hfr3 y (by omega) (by omega), TrieMem.trie_set_other _ _ _ _ hyl,
            TrieMem.trie_set_other _ _ _ _ (by omega)]
        · rw [hfr3 l (by omega) (by omega), TrieMem.trie_set_same,
            TrieMem.trie_set_other _ _ _ _ (by omega)]
        · have hnl : trie.next_free ≠ l := by omega
          refine ⟨rfl, ?_, ?_, ?_, ?_⟩
          · rw [hpar3, TrieMem.trie_set_other _ _ _ _ hnl, TrieMem.trie_set_same]
          · rw [hpar3, TrieMem.trie_set_other _ _ _ _ hnl, TrieMem.trie_set_same]
          · rw [hpar3]; exact hrep3
          · rw [hpar3, TrieMem.trie_set_other _ _ _ _ hnl, TrieMem.trie_set_same]
            rfl
      · intro y hy hyl
        have hyl2 : y ≠ l := fun h => hyl (h ▸ hlmem)
        rw [hfr3 y (by omega) (by omega), TrieMem.trie_set_other _ _ _ _ hyl2,
          TrieMem.trie_set_other _ _ _ _ (by omega)]
    | node x k d c s =>
      have hkb := TrieT.find_key hfind
      subst hkb
      obtain ⟨h1, h2, h3, _⟩ := TrieT.find_props level hfind
      obtain ⟨hkc, hkoc⟩ := h1 hko
      have hcne : c ≠ .nil := fun h => hb0 (hkc.mpr h)
      have hfrep := hrep.find_rep (b := k)
      rw [hfind] at hfrep
      have hsub : ∀ y ∈ c.addrs, y ∈ level.addrs := by
        rcases TrieT.find_addrs level hfind with ⟨_, h2, _⟩ | h4
        · exact h2
        · exact absurd hnd h4
      obtain ⟨trie1, st, he, hrep1, hfr1, hroot, hfreed, hgk⟩ :=
        ih f trie c (trie.mem x).children (some x) (i + 1) (by omega) (by omega)
          hfrep.2.2.2.1 hcne (h2 hnd) (fun y hy => hlt y (hsub y hy)) hkoc (by omega)
          (by omega)
      rw [hrest] at hrep1
      refine ⟨trie1, st, he, ?_, ?_, hroot, hfreed, hgk⟩
      · exact TrieRep.setKids level p x k d c s hrep hnd hfind
          (fun y hy hyc => hfr1 y (hlt y hy) hyc) hrep1
      · intro y hy hyl
        exact hfr1 y hy (fun h => hyl (hsub y h))

theorem TrieT.runLookup_cons {t : TrieT} (ht : t ≠ .nil) (b : Nat) (rest : List Nat)
    (mf : Bool) :
    t.runLookup (b :: rest) mf =
      match TrieT.find b t with
      | .node x _ dx cx _ => if b = 0 then .found x dx else TrieT.runLookup cx rest true
      | .nil => if mf = false then .absent else .diverges := by
  cases t with
  | nil => exact absurd rfl ht
  | node a k d c s => rfl

theorem TrieT.runLookup_nil_key {t : TrieT} (ht : t ≠ .nil) (mf : Bool) :
    t.runLookup [] mf =
      match TrieT.find 0 t with
      | .node x _ dx _ _ => .found x dx
      | .nil => if mf = false then .absent else .diverges := by
  cases t with
  | nil => exact absurd rfl ht
  | node a k d c s => rfl

theorem TrieT.chain_runLookup (data : Option Nat) :
    ∀ (rest : List Nat) (a : Nat) (mf : Bool), 0 ∉ rest →
      (TrieT.chain data rest a).runLookup rest mf = .found (a + rest.length) data := by
  intro rest
  induction rest with
  | nil => intro a mf _; simp [TrieT.chain, TrieT.runLookup, TrieT.find]
  | cons b rest ih =>
    intro a mf hz
    have hb : b ≠ 0 := fun h => hz (by simp [h])
    have hz2 : 0 ∉ rest := fun h => hz (List.mem_cons_of_mem _ h)
    simp only [TrieT.chain, TrieT.runLookup, TrieT.find, if_true, hb, if_false]
    rw [ih (a + 1) true hz2]
    simp only [List.length_cons]
    congr 1
    omega

theorem TrieT.chain_size (data : Option Nat) :
    ∀ (rest : List Nat) (a : Nat), (TrieT.chain data rest a).size = rest.length + 1 := by
  intro rest
  induction rest with
  | nil => intro a; simp [TrieT.chain, TrieT.size]
  | cons b rest ih => intro a; simp [TrieT.chain, TrieT.size, ih]

theorem TrieT.find_appendChain {b : Nat} {new : TrieT} :
    ∀ (t : TrieT), TrieT.find b t = .nil →
      TrieT.find b (TrieT.appendChain new t) = TrieT.find b new := by
  intro t
  induction t with
  | nil => intro _; rfl
  | node a k d c s _ ihs =>
    intro h
    simp only [TrieT.find] at h
    split_ifs at h with hk
    simp only [TrieT.appendChain, TrieT.find, hk, if_false]
    exact ihs h

theorem TrieT.appendChain_size (new : TrieT) :
    ∀ (t : TrieT), (TrieT.appendChain new t).size = t.size + new.size := by
  intro t
  induction t with
  | nil => simp [TrieT.appendChain, TrieT.size]
  | node a k d c s _ ihs => simp only [TrieT.appendChain, TrieT.size, ihs]; omega

theorem TrieT.appendChain_ne_nil {new t : TrieT} (ht : t ≠ .nil) :
    TrieT.appendChain new t ≠ .nil := by
  cases t with
  | nil => exact absurd rfl ht
  | node a k d c s => simp [TrieT.appendChain]

theorem TrieT.find_setKids {b x k : Nat} {d : Option Nat} {c s kids : TrieT} :
    ∀ (t : TrieT), TrieT.find b t = .node x k d c s →
      TrieT.find b (TrieT.setKids b kids t) = .node x k d kids s ∧
        (TrieT.setKids b kids t).size + c.size = t.size + kids.size ∧
        TrieT.setKids b kids t ≠ .nil := by
  intro t
  induction t with
  | nil => intro h; simp [TrieT.find] at h
  | node a2 k2 d2 c2 s2 _ ihs =>
    intro h
    simp only [TrieT.find] at h
    split_ifs at h with hk
    · cases h
      simp only [TrieT.setKids, hk, if_true, TrieT.find, TrieT.size]
      exact ⟨trivial, by omega, by simp⟩
    · obtain ⟨h1, h2, _⟩ := ihs h
      simp only [TrieT.setKids, hk, if_false, TrieT.find, TrieT.size]
      exact ⟨h1, by omega, by simp⟩

theorem TrieT.insWalk_lookup (data : Option Nat) (a : Nat) :
    ∀ (key : List Nat) (level : TrieT) (mf mf1 : Bool), 0 ∉ key → level ≠ .nil →
      level.kidsOk → (level.runLookup key mf).isFound = false →
      (∃ x, (TrieT.insWalk data a key level).runLookup key mf1 = .found x data) ∧
        (TrieT.insWalk data a key level).size ≤ level.size + key.length + 1 ∧
        TrieT.insWalk data a key level ≠ .nil := by
  intro key
  induction key with
  | nil =>
    intro level mf mf1 _ hne _ hns
    cases level with
    | nil => exact absurd rfl hne
    | node x k d c s =>
      have hk0 : k ≠ 0 := by
        intro h0
        simp [TrieT.runLookup, TrieT.find, h0, TrieLook.isFound] at hns
      have hf0 : TrieT.find 0 s = .nil := by
        cases hfs : TrieT.find 0 s with
        | nil => rfl
        | node y ky dy cy sy =>
          simp [TrieT.runLookup, TrieT.find, hk0, hfs, TrieLook.isFound] at hns
      refine ⟨⟨a, ?_⟩, ?_, ?_⟩
      · simp [TrieT.insWalk, hk0, TrieT.runLookup, TrieT.find]
      · simp only [TrieT.insWalk, hk0, if_false, TrieT.size, List.length_nil]; omega
      · simp [TrieT.insWalk, hk0]
  | cons b rest ih =>
    intro level mf mf1 hz hne hko hns
    have hb : b ≠ 0 := fun h => hz (by simp [h])
    have hz2 : 0 ∉ rest := fun h => hz (List.mem_cons_of_mem _ h)
    rw [TrieT.runLookup_cons hne] at hns
    simp only [TrieT.insWalk]
    cases hfind : TrieT.find b level with
    | nil =>
      simp only
      refine ⟨⟨a + 1 + rest.length, ?_⟩, ?_, TrieT.appendChain_ne_nil hne⟩
      · rw [TrieT.runLookup_cons (TrieT.appendChain_ne_nil hne),
          TrieT.find_appendChain level hfind]
        simp only [TrieT.find, if_true, hb, if_false]
        exact TrieT.chain_runLookup data rest (a + 1) true hz2
      · rw [TrieT.appendChain_size]
        simp only [TrieT.size, TrieT.chain_size, List.length_cons]
        omega
    | node x k d c s =>
      rw [hfind] at hns
      simp only [hb, if_false] at hns
      obtain ⟨h1, _, h3, _⟩ := TrieT.find_props level hfind
      obtain ⟨hkc, hkoc⟩ := h1 hko
      have hkb := TrieT.find_key hfind
      have hcne : c ≠ .nil := fun h => hb (hkb ▸ hkc.mpr h)
      obtain ⟨⟨y, hy⟩, hsz, _⟩ := ih c true true hz2 hcne hkoc hns
      obtain ⟨hfs, hss, hsn⟩ := @TrieT.find_setKids _ _ _ _ _ _ (TrieT.insWalk data a rest c)
        level hfind
      simp only
      refine ⟨⟨y, ?_⟩, ?_, hsn⟩
      · rw [TrieT.runLookup_cons hsn, hfs]
        simp only [hb, if_false]
        exact hy
      · simp only [List.length_cons]
        omega

/-- Claim C13.  On a well-formed trie, `trie_insert` of a non-empty key that is
not stored returns (enough free heap for one node per byte and the leaf node),
and `trie_lookup` of the key afterwards returns and yields the payload. -/
theorem trie_lookup_after_insert (trie : trie_t) (t : TrieT) (key : List Nat)
    (data : Option Nat) (fuel : Nat) (hwf : TrieWF trie t) (hne : key ≠ [])
    (hz : 0 ∉ key) (hns : (t.lookup key).isFound = false)
    (hheap : key.length + 1 ≤ trie.heap_left) (hf : t.size + 2 * key.length + 3 < fuel) :
    ∃ trie1 st, trie_insert fuel trie (some key) data = .ok (trie1, st) ∧
      trie_lookup fuel trie1 key = .ok (.value data) := by
  obtain ⟨hrep, hnd, hlt, _, hko, _, _, _, _⟩ := hwf
  cases t with
  | nil =>
    have hroot : trie.root = none := hrep
    obtain ⟨b, rest, hkey⟩ : ∃ b rest, key = b :: rest := by
      cases key with
      | nil => exact absurd rfl hne
      | cons b rest => exact ⟨b, rest, rfl⟩
    have hb : b ≠ 0 := fun h => hz (by simp [hkey, h])
    have hc0 : c_char_at key 0 = b := by simp [hkey, c_char_at]
    have hcb : ¬ c_char_at key 0 = 0 := by rw [hc0]; exact hb
    simp only [TrieT.size] at hf
    have hlen : 1 ≤ key.length := by rw [hkey]; simp
    obtain ⟨trie3, he, hrep3, hpar3, hfr3, _, _, hroot3, _, _, _, _⟩ :=
      trie_insert_internal_spec key data hz (key.length - 1) fuel
        { trie with
          next_free := trie.next_free + 1, heap_left := trie.heap_left - 1,
          mem := trie.mem.set trie.next_free
            { key := c_char_at key 0, data := none, sibling := none, children := none,
              parent := none },
          node_count := u32_inc trie.node_count, root := some trie.next_free }
        trie.next_free 1 rfl hlen (by simp)
        (by show key.length - 1 + 1 ≤ trie.heap_left - 1; omega) (by omega)
    simp only at hrep3 hpar3 hfr3 hroot3
    have hrepT : TrieRep trie3.mem (TrieT.chain data key trie.next_free) trie3.root := by
      rw [hroot3, hkey]
      have hd1 : List.drop 1 key = rest := by rw [hkey]; rfl
      rw [hd1] at hrep3
      refine ⟨rfl, ?_, ?_, ?_, ?_⟩
      · rw [hpar3, TrieMem.trie_set_same]; exact hc0
      · rw [hpar3, TrieMem.trie_set_same]
      · rw [hpar3]; exact hrep3
      · rw [hpar3, TrieMem.trie_set_same]; rfl
    refine ⟨trie3, .no_value, ?_, ?_⟩
    · simp only [trie_insert, hroot, trie_malloc_some trie (by omega), hcb, if_false]
      exact he
    · have hlk : (TrieT.chain data key trie.next_free).lookup key =
          .found (trie.next_free + key.length) data := by
        have := TrieT.chain_runLookup data key trie.next_free false hz
        rw [hkey] at this ⊢
        exact this
      exact (trie_lookup_spec trie3 _ key fuel hrepT (by
        rw [TrieT.chain_size]; omega)).1 _ _ hlk
  | node x k d c s =>
    have hroot : trie.root = some x := hrep.1
    have hns2 : ((TrieT.node x k d c s).runLookup key false).isFound = false := hns
    obtain ⟨trie1, st, he, hrep1, _, hroot1, _, _⟩ :=
      trie_insert_walk_spec key data hz key.length fuel trie (.node x k d c s) trie.root none 0
        (by simp) (by omega) hrep (by simp) hnd hlt hko hheap (by omega)
    simp only [List.drop_zero] at hrep1
    obtain ⟨⟨y, hy⟩, hsz, hnn⟩ :=
      TrieT.insWalk_lookup data trie.next_free key (.node x k d c s) false false hz (by simp)
        hko hns2
    refine ⟨trie1, st, ?_, ?_⟩
    · simp only [trie_insert, hroot]
      rw [hroot] at he
      exact he
    · rw [← hroot1] at hrep1
      have hlk : (TrieT.insWalk data trie.next_free key (.node x k d c s)).lookup key =
          .found y data := by
        cases hi : TrieT.insWalk data trie.next_free key (.node x k d c s) with
        | nil => exact absurd hi hnn
        | node x2 k2 d2 c2 s2 =>
          rw [hi] at hy
          exact hy
      exact (trie_lookup_spec trie1 _ key fuel hrep1 (by omega)).1 _ _ hlk

/-! ## Removal from the prefix index: the first phase -/

theorem u32_inc_of_lt {n : Nat} (h : n + 1 < 2 ^ 32) : u32_inc n = n + 1 := by
  unfold u32_inc
  exact Nat.mod_eq_of_lt h

theorem trie_remove_scan_nomatch (m : TrieMem) (b : Nat) (leaf : Bool) :
    ∀ (t : TrieT) (p : Option Nat) (fuel : Nat) (st : trie_remove_scan_t),
      TrieRep m t p → b ∉ t.chainKeys → t.chainLength < fuel →
      st.entry.num_siblings + t.chainLength < 2 ^ 32 →
      trie_remove_scan leaf fuel m p b st =
        .ok { st with entry :=
          { st.entry with num_siblings := st.entry.num_siblings + t.chainLength } } := by
  intro t
  induction t with
  | nil =>
    intro p fuel st h _ hf _
    have hp : p = none := h
    subst hp
    obtain ⟨f, rfl⟩ : ∃ f, fuel = f + 1 := ⟨fuel - 1, by omega⟩
    simp [trie_remove_scan, TrieT.chainLength]
  | node a k d c s _ ihs =>
    intro p fuel st h hb hf hlt
    obtain ⟨hp, hk, _, _, hs⟩ := h
    subst hp
    obtain ⟨f, rfl⟩ : ∃ f, fuel = f + 1 := ⟨fuel - 1, by omega⟩
    simp only [TrieT.chainLength] at hf hlt
    simp only [TrieT.chainKeys, List.mem_cons, not_or] at hb
    have hkb : ¬ k = b := fun h => hb.1 h.symm
    simp only [trie_remove_scan, hk, hkb, if_false]
    rw [ihs _ f _ hs hb.2 (by omega) (by
      simp only
      rw [u32_inc_of_lt (by omega)]
      omega)]
    simp only [TrieT.chainLength]
    rw [u32_inc_of_lt (by omega)]
    congr 3
    omega

theorem trie_remove_scan_spec (m : TrieMem) (b : Nat) (leaf : Bool) :
    ∀ (t : TrieT) (p : Option Nat) (fuel : Nat) (st : trie_remove_scan_t)
      (x k : Nat) (d : Option Nat) (c s : TrieT),
      TrieRep m t p → t.chainKeys.Nodup → TrieT.find b t = .node x k d c s →
      t.chainLength < fuel → st.entry.num_siblings + t.chainLength < 2 ^ 32 →
      trie_remove_scan leaf fuel m p b st =
        .ok { match_found := true,
              entry := { st.entry with
                del_node := some x, parent := st.parent,
                num_siblings := st.entry.num_siblings + t.chainLength },
              parent := if leaf then st.parent else some x,
              level := if leaf then st.level else (m x).children } := by
  intro t
  induction t with
  | nil => intro p fuel st x k d c s _ _ hf; simp [TrieT.find] at hf
  | node a ka da ca sa _ ihs =>
    intro p fuel st x k d c s h hnd hfind hf hlt
    obtain ⟨hp, hk, _, _, hs⟩ := h
    subst hp
    obtain ⟨f, rfl⟩ : ∃ f, fuel = f + 1 := ⟨fuel - 1, by omega⟩
    simp only [TrieT.chainLength] at hf hlt
    simp only [TrieT.chainKeys, List.nodup_cons] at hnd
    simp only [TrieT.find] at hfind
    split_ifs at hfind with hkb
    · cases hfind
      simp only [trie_remove_scan, hk, hkb, if_true]
      rw [trie_remove_scan_nomatch m b leaf _ _ f _ hs (hkb ▸ hnd.1) (by omega) (by
        simp only
        rw [u32_inc_of_lt (by omega)]
        omega)]
      simp only [TrieT.chainLength]
      rw [u32_inc_of_lt (by omega)]
      congr 3
      omega
    · simp only [trie_remove_scan, hk, hkb, if_false]
      rw [ihs _ f _ x k d c s hs hnd.2 hfind (by omega) (by
        simp only
        rw [u32_inc_of_lt (by omega)]
        omega)]
      simp only [TrieT.chainLength]
      rw [u32_inc_of_lt (by omega)]
      congr 3
      omega

theorem TrieRep.head_eq {m : TrieMem} {t : TrieT} {p : Option Nat} (h : TrieRep m t p) :
    p = t.head := by
  cases t with
  | nil => exact h
  | node a k d c s => exact h.1

theorem TrieT.distinct_chainKeys {t : TrieT} (h : t.distinct) : t.chainKeys.Nodup := by
  cases t with
  | nil => simp [TrieT.chainKeys]
  | node a k d c s => exact h.1

theorem TrieT.runLookup_found_cons {t : TrieT} {b : Nat} {rest : List Nat} {mf : Bool}
    (hb : b ≠ 0) (h : (t.runLookup (b :: rest) mf).isFound = true) :
    ∃ x k d c s, TrieT.find b t = .node x k d c s ∧
      (c.runLookup rest true).isFound = true := by
  cases t with
  | nil => simp [TrieT.runLookup, TrieLook.isFound] at h
  | node a ka da ca sa =>
    simp only [TrieT.runLookup] at h
    cases hf : TrieT.find b (.node a ka da ca sa) with
    | nil =>
      rw [hf] at h
      cases mf <;> simp [TrieLook.isFound] at h
    | node x k d c s =>
      rw [hf] at h
      simp only [hb, if_false] at h
      exact ⟨x, k, d, c, s, rfl, h⟩

theorem TrieT.runLookup_found_nil {t : TrieT} {mf : Bool}
    (h : (t.runLookup [] mf).isFound = true) :
    ∃ x k d c s, TrieT.find 0 t = .node x k d c s := by
  cases t with
  | nil => simp [TrieT.runLookup, TrieLook.isFound] at h
  | node a ka da ca sa =>
    simp only [TrieT.runLookup] at h
    cases hf : TrieT.find 0 (.node a ka da ca sa) with
    | nil =>
      rw [hf] at h
      cases mf <;> simp [TrieLook.isFound] at h
    | node x k d c s => exact ⟨x, k, d, c, s, rfl⟩

theorem trie_remove_collect_spec (m : TrieMem) (key : List Nat) (hz : 0 ∉ key)
    (hL : key.length < MAX_KEY_LEN) :
    ∀ (n fuel : Nat) (level : TrieT) (p par : Option Nat) (i : Nat) (arr : TrieDelArr)
      (mf : Bool),
      key.length - i = n → i ≤ key.length → TrieRep m level p → level.distinct →
      level.size < 2 ^ 32 → (level.runLookup (key.drop i) mf).isFound = true →
      level.size + n + 1 < fuel →
      ∃ arr1, trie_remove_collect fuel m key i p par arr = .ok (some arr1) ∧
        (∀ j, j ≤ n → (level.delEntries (key.drop i) par)[j]? = some (arr1 (i + j))) ∧
        (∀ j, j + 1 < i → arr1 j = arr j) ∧
        (1 ≤ i → arr1 (i - 1) =
          { arr (i - 1) with num_children := level.chainLength }) := by
  intro n
  induction n with
  | zero =>
    intro fuel level p par i arr mf hn hi hrep hdis hsz hfound hf
    obtain ⟨f, rfl⟩ : ∃ f, fuel = f + 1 := ⟨fuel - 1, by omega⟩
    have hp := hrep.head_eq
    subst hp
    have hil : i = key.length := by omega
    have hns : ¬ i < c_strlen key := by rw [c_strlen_eq_length hz]; omega
    have hmax : ¬ MAX_KEY_LEN ≤ i := by omega
    have hdrop : key.drop i = [] := by rw [hil]; simp
    rw [hdrop] at hfound ⊢
    obtain ⟨x, k, d, c, s, hfind⟩ := TrieT.runLookup_found_nil hfound
    have hcl := TrieT.chainLength_le_size level
    have hscan := trie_remove_scan_spec m 0 true level level.head f
      { match_found := false,
        entry := { arr i with first_node := level.head, num_siblings := 0, num_children := 0 },
        parent := par, level := level.head }
      x k d c s hrep (TrieT.distinct_chainKeys hdis) hfind (by omega) (by simp; omega)
    simp only [trie_remove_collect, hmax, if_false, hns, not_false_eq_true, decide_True,
      if_true, hscan]
    refine ⟨_, rfl, ?_, ?_, ?_⟩
    · intro j hj
      have hj0 : j = 0 := by omega
      subst hj0
      simp only [TrieT.delEntries, hfind, List.getElem?_cons_zero,
        Option.some.injEq, Nat.add_zero]
      by_cases hi0 : i > 0
      · simp only [hi0, if_true]
        rw [TrieDelArr.set, if_neg (by omega), TrieDelArr.set, if_pos rfl]
        simp [TrieT.head]
      · simp only [hi0, if_false]
        rw [TrieDelArr.set, if_pos rfl]
        simp [TrieT.head]
    · intro j hj
      have hi0 : i > 0 := by omega
      simp only [hi0, if_true]
      rw [TrieDelArr.set, if_neg (by omega), TrieDelArr.set, if_neg (by omega)]
    · intro hi1
      have hi0 : i > 0 := by omega
      simp only [hi0, if_true]
      rw [TrieDelArr.set, if_pos rfl]
      simp only [TrieDelArr.set, if_neg (show ¬ i - 1 = i by omega), if_pos]
      simp
  | succ n ih =>
    intro fuel level p par i arr mf hn hi hrep hdis hsz hfound hf
    obtain ⟨f, rfl⟩ : ∃ f, fuel = f + 1 := ⟨fuel - 1, by omega⟩
    have hp := hrep.head_eq
    subst hp
    have hil : i < key.length := by omega
    have his : i < c_strlen key := by rw [c_strlen_eq_length hz]; omega
    have hmax : ¬ MAX_KEY_LEN ≤ i := by omega
    obtain ⟨b, rest, hdrop⟩ : ∃ b rest, key.drop i = b :: rest :=
      ⟨_, _, List.drop_eq_getElem_cons hil⟩
    obtain ⟨hb, hrest⟩ := c_char_at_drop_cons hdrop
    have hb0 : b ≠ 0 := by
      intro h0
      have : b ∈ key := List.mem_of_mem_drop (hdrop ▸ List.mem_cons_self b rest)
      exact hz (h0 ▸ this)
    rw [hdrop] at hfound ⊢
    obtain ⟨x, k, d, c, s, hfind, hfc⟩ := TrieT.runLookup_found_cons hb0 hfound
    have hcl := TrieT.chainLength_le_size level
    have hscan := trie_remove_scan_spec m b false level level.head f
      { match_found := false,
        entry := { arr i with first_node := level.head, num_siblings := 0, num_children := 0 },
        parent := par, level := level.head }
      x k d c s hrep (TrieT.distinct_chainKeys hdis) hfind (by omega) (by simp; omega)
    obtain ⟨_, _, hcsz, hcd⟩ := TrieT.find_props level hfind
    have hfrep := hrep.find_rep (b := b)
    rw [hfind] at hfrep
    simp only [trie_remove_collect, hmax, if_false, his, not_true_eq_false, decide_False,
      hb, hscan, Bool.false_eq_true]
    obtain ⟨arr2, he, hent, hfr, hprev⟩ :=
      ih f c (m x).children (some x) (i + 1)
        (if i > 0 then
          (arr.set i
            { del_node := some x, first_node := level.head, parent := par,
              num_siblings := 0 + level.chainLength, num_children := 0 }).set (i - 1)
            { (arr.set i
                { del_node := some x, first_node := level.head, parent := par,
                  num_siblings := 0 + level.chainLength, num_children := 0 }) (i - 1) with
              num_children := ((arr.set i
                { del_node := some x, first_node := level.head, parent := par,
                  num_siblings := 0 + level.chainLength, num_children := 0 }) i).num_siblings }
        else
          arr.set i
            { del_node := some x, first_node := level.head, parent := par,
              num_siblings := 0 + level.chainLength, num_children := 0 })
        true (by omega) (by omega) hfrep.2.2.2.1 (hcd hdis) (by omega)
        (by rw [hrest]; exact hfc) (by omega)
    refine ⟨arr2, he, ?_, ?_, ?_⟩
    · intro j hj
      cases j with
      | zero =>
        have h1 := hprev (by omega)
        simp only [Nat.add_sub_cancel] at h1
        simp only [TrieT.delEntries, hfind, List.getElem?_cons_zero, Option.some.injEq,
          Nat.add_zero]
        rw [h1]
        by_cases hi0 : i > 0
        · simp only [hi0, if_true]
          rw [TrieDelArr.set, if_neg (by omega), TrieDelArr.set, if_pos rfl]
          simp [TrieT.head]
        · simp only [hi0, if_false]
          rw [TrieDelArr.set, if_pos rfl]
          simp [TrieT.head]
      | succ j =>
        have h1 := hent j (by omega)
        rw [hrest] at h1
        simp only [TrieT.delEntries, hfind, List.getElem?_cons_succ]
        rw [h1]
        congr 2
        omega
    · intro j hj
      rw [hfr j (by omega)]
      have hi0 : i > 0 := by omega
      simp only [hi0, if_true]
      rw [TrieDelArr.set, if_neg (by omega), TrieDelArr.set, if_neg (by omega)]
    · intro hi1
      rw [hfr (i - 1) (by omega)]
      have hi0 : i > 0 := by omega
      simp only [hi0, if_true]
      rw [TrieDelArr.set, if_pos rfl]
      simp only [TrieDelArr.set, if_neg (show ¬ i - 1 = i by omega), if_pos]
      simp

/-! ## Removal from the prefix index: taking a node out of its chain -/

theorem TrieRep.links_congr {m m1 : TrieMem} {t : TrieT} {p : Option Nat}
    (h : TrieRep m t p) (hm : ∀ x ∈ t.addrs, TrieMem.sameLinks m1 m x) : TrieRep m1 t p := by
  induction t generalizing p with
  | nil => exact h
  | node a k d c s ihc ihs =>
    obtain ⟨hp, hk, hd, hc, hs⟩ := h
    obtain ⟨h1, h2, h3, h4⟩ := hm a (TrieT.mem_addrs_self _ _ _ _ _)
    refine ⟨hp, by rw [h1]; exact hk, by rw [h2]; exact hd, ?_, ?_⟩
    · rw [h4]
      exact ihc hc (fun x hx => hm x (TrieT.mem_addrs_children _ _ _ _ hx))
    · rw [h3]
      exact ihs hs (fun x hx => hm x (TrieT.mem_addrs_sibling _ _ _ _ hx))

theorem trie_remove_find_prev_spec (m : TrieMem) (b x k : Nat) (d : Option Nat)
    (c sx : TrieT) :
    ∀ (t : TrieT) (f fuel : Nat), TrieRep m t (some f) →
      TrieT.find b t = .node x k d c sx → f ≠ x → t.chainLength < fuel →
      ∃ y, trie_remove_find_prev fuel m f (some x) = .ok y ∧ TrieT.predOf x t = some y ∧
        (m y).sibling = some x := by
  intro t
  induction t with
  | nil => intro f fuel _ hf; simp [TrieT.find] at hf
  | node a ka da ca sa _ ihs =>
    intro f fuel hrep hfind hfx hfuel
    obtain ⟨hp, hk, _, _, hs⟩ := hrep
    simp only [Option.some.injEq] at hp
    subst hp
    obtain ⟨g, rfl⟩ : ∃ g, fuel = g + 1 := ⟨fuel - 1, by omega⟩
    simp only [TrieT.chainLength] at hfuel
    have hkb : ¬ ka = b := by
      intro h
      simp only [TrieT.find, h, if_true] at hfind
      cases hfind
      exact hfx rfl
    simp only [TrieT.find, hkb, if_false] at hfind
    have hsh := hs.head_eq
    by_cases hx : sa.head = some x
    · refine ⟨f, ?_, ?_, ?_⟩
      · simp only [trie_remove_find_prev, hsh, hx, if_true]
      · simp only [TrieT.predOf, hx, if_true]
      · rw [hsh, hx]
    · cases sa with
      | nil => simp [TrieT.find] at hfind
      | node a2 k2 d2 c2 s2 =>
        have ha2 : a2 ≠ x := fun h => hx (by simp [TrieT.head, h])
        have hsib : (m f).sibling = some a2 := hsh
        obtain ⟨y, hy1, hy2, hy3⟩ := ihs a2 g (hsib ▸ hs) hfind ha2 (by omega)
        refine ⟨y, ?_, ?_, hy3⟩
        · simp only [trie_remove_find_prev, hsib, Option.some.injEq, ha2, if_false]
          exact hy1
        · simp only [TrieT.predOf, hx, if_false]
          exact hy2

theorem TrieRep.dropFound_first {m : TrieMem} {b x k : Nat} {d : Option Nat} {c s : TrieT}
    {t : TrieT} {p : Option Nat} (h : TrieRep m t p)
    (hfind : TrieT.find b t = .node x k d c s) (hp : p = some x) (hnd : t.addrs.Nodup) :
    TrieT.dropFound b t = s ∧ TrieRep m s (m x).sibling ∧
      (∀ y ∈ s.addrs, y ∈ t.addrs ∧ y ≠ x ∧ y ∉ c.addrs) := by
  cases t with
  | nil => simp [TrieT.find] at hfind
  | node a ka da ca sa =>
    have ha : p = some a := h.1
    rw [hp] at ha
    simp only [Option.some.injEq] at ha
    subst ha
    simp only [TrieT.addrs, List.nodup_cons, List.nodup_append, List.mem_append,
      not_or] at hnd
    obtain ⟨⟨hxc, hxs⟩, _, hnds, hdisj⟩ := hnd
    by_cases hkb : ka = b
    · simp only [TrieT.find, hkb, if_true] at hfind
      cases hfind
      refine ⟨by simp [TrieT.dropFound, hkb], h.2.2.2.2, ?_⟩
      intro y hy
      exact ⟨TrieT.mem_addrs_sibling _ _ _ _ hy, fun h => hxs (h ▸ hy),
        fun h => hdisj h hy⟩
    · simp only [TrieT.find, hkb, if_false] at hfind
      rcases TrieT.find_addrs sa hfind with ⟨h1, _, _⟩ | h4
      · exact absurd h1 hxs
      · exact absurd hnds h4

theorem TrieRep.dropFound_later {m m2 : TrieMem} {b x k : Nat} {d : Option Nat}
    {c sx : TrieT} :
    ∀ (t : TrieT) (p : Option Nat) (y : Nat), TrieRep m t p → t.addrs.Nodup →
      TrieT.find b t = .node x k d c sx → p ≠ some x → TrieT.predOf x t = some y →
      (∀ z ∈ t.addrs, z ≠ y → z ≠ x → z ∉ c.addrs → TrieMem.sameLinks m2 m z) →
      (m2 y).key = (m y).key → (m2 y).data = (m y).data →
      (m2 y).children = (m y).children → (m2 y).sibling = (m x).sibling →
      TrieRep m2 (TrieT.dropFound b t) p ∧ (TrieT.dropFound b t).head = t.head := by
  intro t
  induction t with
  | nil => intro p y _ _ hf; simp [TrieT.find] at hf
  | node a ka da ca sa _ ihs =>
    intro p y hrep hnd hfind hpx hpred hfr hyk hyd hyc hys
    obtain ⟨hp, hk, hd, hc, hs⟩ := hrep
    simp only [TrieT.addrs, List.nodup_cons, List.nodup_append, List.mem_append,
      not_or] at hnd
    obtain ⟨⟨hac, has⟩, hndc, hnds, hdisj⟩ := hnd
    have hax : a ≠ x := fun h => hpx (by rw [hp, h])
    have hkb : ¬ ka = b := by
      intro h
      simp only [TrieT.find, h, if_true] at hfind
      cases hfind
      exact hax rfl
    simp only [TrieT.find, hkb, if_false] at hfind
    have hxs : x ∈ sa.addrs ∧ (∀ z ∈ c.addrs, z ∈ sa.addrs) := by
      rcases TrieT.find_addrs sa hfind with ⟨h1, h2, _⟩ | h4
      · exact ⟨h1, h2⟩
      · exact absurd hnds h4
    have hcongr_ca : TrieRep m2 ca (m a).children := by
      refine hc.links_congr ?_
      intro z hz
      refine hfr z (TrieT.mem_addrs_children _ _ _ _ hz) ?_ ?_ ?_
      · intro hzy
        subst hzy
        simp only [TrieT.predOf] at hpred
        split_ifs at hpred with hh
        · simp only [Option.some.injEq] at hpred
          exact hac (hpred ▸ hz)
        · have : ∀ (t : TrieT), TrieT.predOf x t = some z → z ∈ t.addrs := by
            intro t
            induction t with
            | nil => intro h; simp [TrieT.predOf] at h
            | node a3 k3 d3 c3 s3 _ ih3 =>
              intro h
              simp only [TrieT.predOf] at h
              split_ifs at h with hh3
              · simp only [Option.some.injEq] at h
                exact h ▸ TrieT.mem_addrs_self _ _ _ _ _
              · exact TrieT.mem_addrs_sibling _ _ _ _ (ih3 h)
          exact hdisj hz (this sa hpred)
      · intro hzx
        exact hdisj hz (hzx ▸ hxs.1)
      · intro hzc
        exact hdisj hz (hxs.2 z hzc)
    simp only [TrieT.dropFound, hkb, if_false, TrieT.head, and_true]
    simp only [TrieT.predOf] at hpred
    split_ifs at hpred with hh
    · simp only [Option.some.injEq] at hpred
      subst hpred
      cases sa with
      | nil => simp [TrieT.head] at hh
      | node a2 k2 d2 c2 s2 =>
        simp only [TrieT.head, Option.some.injEq] at hh
        subst hh
        have hk2 : k2 = b := by
          by_contra hne
          simp only [TrieT.find, hne, if_false] at hfind
          simp only [TrieT.addrs, List.nodup_cons, List.mem_append, not_or] at hnds
          rcases TrieT.find_addrs s2 hfind with ⟨h1, _, _⟩ | h4
          · exact hnds.1.2 h1
          · simp only [List.nodup_append] at hnds
            exact h4 hnds.2.2.1
        subst hk2
        simp only [TrieT.find, if_true] at hfind
        cases hfind
        simp only [TrieT.dropFound, if_true]
        refine ⟨hp, by rw [hyk]; exact hk, by rw [hyd]; exact hd, ?_, ?_⟩
        · rw [hyc]; exact hcongr_ca
        · rw [hys]
          refine hs.2.2.2.2.links_congr ?_
          intro z hz
          simp only [TrieT.addrs, List.nodup_cons, List.nodup_append, List.mem_append,
            not_or] at hnds
          refine hfr z (TrieT.mem_addrs_sibling _ _ _ _ (TrieT.mem_addrs_sibling _ _ _ _ hz))
            ?_ ?_ ?_
          · intro h; exact has (h ▸ TrieT.mem_addrs_sibling _ _ _ _ hz)
          · intro h; exact hnds.1.2 (h ▸ hz)
          · intro h; exact hnds.2.2.2 h hz
    · have hay : a ≠ y := by
        intro h
        have : ∀ (t : TrieT), TrieT.predOf x t = some y → y ∈ t.addrs := by
          intro t
          induction t with
          | nil => intro h; simp [TrieT.predOf] at h
          | node a3 k3 d3 c3 s3 _ ih3 =>
            intro h
            simp only [TrieT.predOf] at h
            split_ifs at h with hh3
            · simp only [Option.some.injEq] at h
              exact h ▸ TrieT.mem_addrs_self _ _ _ _ _
            · exact TrieT.mem_addrs_sibling _ _ _ _ (ih3 h)
        exact has (h ▸ this sa hpred)
      have hac2 : a ∉ c.addrs := fun h => has (hxs.2 a h)
      obtain ⟨h1, h2, h3, h4⟩ := hfr a (TrieT.mem_addrs_self _ _ _ _ _) hay hax hac2
      refine ⟨hp, by rw [h1]; exact hk, by rw [h2]; exact hd, ?_, ?_⟩
      · rw [h4]; exact hcongr_ca
      · rw [h3]
        have hsx : (m a).sibling ≠ some x := by rw [hs.head_eq]; exact hh
        exact (ihs _ y hs hnds hfind hsx hpred
          (fun z hz => hfr z (TrieT.mem_addrs_sibling _ _ _ _ hz)) hyk hyd hyc hys).1

theorem TrieT.predOf_mem {x y : Nat} :
    ∀ (t : TrieT), TrieT.predOf x t = some y → y ∈ t.addrs := by
  intro t
  induction t with
  | nil => intro h; simp [TrieT.predOf] at h
  | node a k d c s _ ihs =>
    intro h
    simp only [TrieT.predOf] at h
    split_ifs at h with hh
    · simp only [Option.some.injEq] at h
      exact h ▸ TrieT.mem_addrs_self _ _ _ _ _
    · exact TrieT.mem_addrs_sibling _ _ _ _ (ihs h)

theorem TrieRep.setKids_links {m m1 : TrieMem} {b : Nat} {kids : TrieT} :
    ∀ (t : TrieT) (p : Option Nat) (x k : Nat) (d : Option Nat) (c s : TrieT),
      TrieRep m t p → t.addrs.Nodup → TrieT.find b t = .node x k d c s →
      (∀ y ∈ t.addrs, y ∉ c.addrs → y ≠ x → TrieMem.sameLinks m1 m y) →
      (m1 x).key = (m x).key → (m1 x).data = (m x).data →
      (m1 x).sibling = (m x).sibling → TrieRep m1 kids (m1 x).children →
      TrieRep m1 (TrieT.setKids b kids t) p := by
  intro t
  induction t with
  | nil => intro p x k d c s _ _ hf; simp [TrieT.find] at hf
  | node a ka da ca sa _ ihs =>
    intro p x k d c s h hnd hf hfr hxk hxd hxs1 hkids
    obtain ⟨hp, hk, hd, hc, hs⟩ := h
    simp only [TrieT.addrs, List.nodup_cons, List.nodup_append, List.mem_append,
      not_or] at hnd
    obtain ⟨⟨hxc, hxs⟩, hndc, hnds, hdisj⟩ := hnd
    simp only [TrieT.find] at hf
    simp only [TrieT.setKids]
    split_ifs at hf ⊢ with hkb
    · cases hf
      refine ⟨hp, by rw [hxk]; exact hk, by rw [hxd]; exact hd, hkids, ?_⟩
      rw [hxs1]
      refine hs.links_congr ?_
      intro y hy
      exact hfr y (TrieT.mem_addrs_sibling _ _ _ _ hy) (fun h => hdisj h hy)
        (fun h => hxs (h ▸ hy))
    · have hsub : x ∈ sa.addrs ∧ ∀ y ∈ c.addrs, y ∈ sa.addrs := by
        rcases TrieT.find_addrs sa hf with ⟨h1, h2, _⟩ | h4
        · exact ⟨h1, h2⟩
        · exact absurd hnds h4
      have hac : a ∉ c.addrs := fun h => hxs (hsub.2 a h)
      have hax : a ≠ x := fun h => hxs (h ▸ hsub.1)
      obtain ⟨h1, h2, h3, h4⟩ := hfr a (TrieT.mem_addrs_self _ _ _ _ _) hac hax
      refine ⟨hp, by rw [h1]; exact hk, by rw [h2]; exact hd, ?_, ?_⟩
      · rw [h4]
        refine hc.links_congr ?_
        intro y hy
        exact hfr y (TrieT.mem_addrs_children _ _ _ _ hy) (fun h => hdisj hy (hsub.2 y h))
          (fun h => hdisj hy (h ▸ hsub.1))
      · rw [h3]
        exact ihs _ x k d c s hs hnds hf
          (fun y hy hyc hyx => hfr y (TrieT.mem_addrs_sibling _ _ _ _ hy) hyc hyx)
          hxk hxd hxs1 hkids

theorem trie_remove_unlink_below (fuel : Nat) (trie : trie_t) (arr : TrieDelArr) (i : Nat)
    (level : TrieT) (b x k px : Nat) (d : Option Nat) (c sx : TrieT)
    (hdel : (arr (i + 1)).del_node = some x)
    (hfirst : (arr (i + 1)).first_node = level.head)
    (hpar : (arr (i + 1)).parent = some px)
    (hrep : TrieRep trie.mem level (trie.mem px).children) (hnd : level.addrs.Nodup)
    (hpx : px ∉ level.addrs) (hfind : TrieT.find b level = .node x k d c sx)
    (hfuel : level.chainLength < fuel) :
    ∃ trie1, trie_remove_unlink fuel trie arr (i + 1) = .ok trie1 ∧
      TrieRep trie1.mem (TrieT.dropFound b level) (trie1.mem px).children ∧
      (∀ y, y ∉ level.addrs → y ≠ px → trie1.mem y = trie.mem y) ∧
      (trie1.mem px).key = (trie.mem px).key ∧ (trie1.mem px).data = (trie.mem px).data ∧
      (trie1.mem px).sibling = (trie.mem px).sibling ∧
      trie1.freed = x :: trie.freed ∧ trie1.root = trie.root ∧
      trie1.leaf_count = trie.leaf_count := by
  by_cases hh : level.head = some x
  · obtain ⟨hdrop, hs, hsub⟩ := hrep.dropFound_first hfind (hrep.head_eq.trans hh) hnd
    simp only [trie_remove_unlink, hdel, hfirst, hh, if_true, hpar, Nat.add_one_ne_zero,
      if_false, trie_free]
    refine ⟨_, rfl, ?_, ?_, ?_, ?_, ?_, rfl, rfl, rfl⟩
    · simp only [TrieMem.trie_set_same]
      rw [hdrop]
      refine hs.mem_congr ?_
      intro y hy
      exact TrieMem.trie_set_other _ _ _ _ (fun h => hpx (h ▸ (hsub y hy).1))
    · intro y _ hy
      exact TrieMem.trie_set_other _ _ _ _ hy
    · simp only [TrieMem.trie_set_same]
    · simp only [TrieMem.trie_set_same]
    · simp only [TrieMem.trie_set_same]
  · obtain ⟨f, hf⟩ : ∃ f, level.head = some f := by
      cases level with
      | nil => simp [TrieT.find] at hfind
      | node a _ _ _ _ => exact ⟨a, rfl⟩
    have hfx : f ≠ x := fun h => hh (by rw [hf, h])
    have hrep1 : TrieRep trie.mem level (some f) := by
      have := hrep.head_eq
      rw [hf] at this
      exact this ▸ hrep
    obtain ⟨y, hy1, hy2, hy3⟩ :=
      trie_remove_find_prev_spec trie.mem b x k d c sx level f fuel hrep1 hfind hfx hfuel
    have hyl : y ∈ level.addrs := TrieT.predOf_mem level hy2
    have hypx : px ≠ y := fun h => hpx (h ▸ hyl)
    have hne : ¬ (some f = some x) := by simpa using hfx
    simp only [trie_remove_unlink, hdel, hfirst, hf, hne, if_false, hy1, hy3,
      Nat.add_one_ne_zero, trie_free]
    have hpne : (trie.mem px).children ≠ some x := by
      rw [hrep.head_eq, hf]; simpa using hfx
    refine ⟨_, rfl, ?_, ?_, ?_, ?_, ?_, rfl, rfl, rfl⟩
    · simp only [TrieMem.trie_set_other _ _ _ _ hypx]
      refine (TrieRep.dropFound_later level _ y hrep hnd hfind hpne hy2 ?_ ?_ ?_ ?_ ?_).1
      · intro z _ hzy _ _
        simp only [TrieMem.sameLinks, TrieMem.trie_set_other _ _ _ _ hzy, and_self]
      · simp only [TrieMem.trie_set_same]
      · simp only [TrieMem.trie_set_same]
      · simp only [TrieMem.trie_set_same]
      · simp only [TrieMem.trie_set_same]
    · intro z hz _
      exact TrieMem.trie_set_other _ _ _ _ (fun h => hz (h ▸ hyl))
    · simp only [TrieMem.trie_set_other _ _ _ _ hypx]
    · simp only [TrieMem.trie_set_other _ _ _ _ hypx]
    · simp only [TrieMem.trie_set_other _ _ _ _ hypx]

theorem TrieMem.set_parent_links (m : TrieMem) (a z : Nat) (q : Option Nat) :
    TrieMem.sameLinks (m.set a { m a with parent := q }) m z := by
  unfold TrieMem.sameLinks TrieMem.set
  split_ifs with h
  · subst h; exact ⟨rfl, rfl, rfl, rfl⟩
  · exact ⟨rfl, rfl, rfl, rfl⟩

theorem trie_remove_unlink_top (fuel : Nat) (trie : trie_t) (arr : TrieDelArr)
    (t : TrieT) (b x k : Nat) (d : Option Nat) (c sx : TrieT)
    (hdel : (arr 0).del_node = some x) (hfirst : (arr 0).first_node = t.head)
    (hrep : TrieRep trie.mem t trie.root) (hnd : t.addrs.Nodup)
    (hfind : TrieT.find b t = .node x k d c sx) (hfuel : t.chainLength < fuel) :
    ∃ trie1, trie_remove_unlink fuel trie arr 0 = .ok trie1 ∧
      TrieRep trie1.mem (TrieT.dropFound b t) trie1.root ∧
      trie1.freed = x :: trie.freed ∧ trie1.leaf_count = trie.leaf_count := by
  by_cases hh : t.head = some x
  · obtain ⟨hdrop, hs, _⟩ := hrep.dropFound_first hfind (hrep.head_eq.trans hh) hnd
    simp only [trie_remove_unlink, hdel, hfirst, hh, if_true, trie_free]
    refine ⟨_, rfl, ?_, rfl, rfl⟩
    rw [hdrop]
    exact hs
  · obtain ⟨f, hf⟩ : ∃ f, t.head = some f := by
      cases t with
      | nil => simp [TrieT.find] at hfind
      | node a _ _ _ _ => exact ⟨a, rfl⟩
    have hfx : f ≠ x := fun h => hh (by rw [hf, h])
    have hrep1 : TrieRep trie.mem t (some f) := by
      have := hrep.head_eq
      rw [hf] at this
      exact this ▸ hrep
    obtain ⟨y, hy1, hy2, hy3⟩ :=
      trie_remove_find_prev_spec trie.mem b x k d c sx t f fuel hrep1 hfind hfx hfuel
    have hne : ¬ (some f = some x) := by simpa using hfx
    have hpne : trie.root ≠ some x := by
      rw [hrep.head_eq, hf]; simpa using hfx
    have key : ∀ (m1 : TrieMem), (∀ z, TrieMem.sameLinks m1 trie.mem z) →
        ∃ trie1,
          (match (m1 y).sibling with
            | none => TrieRun.fault
            | some victim1 =>
              TrieRun.ok
                { trie_free { trie with mem := m1.set y { m1 y with sibling := (m1 victim1).sibling } }
                    (some x) with
                  node_count := u32_dec trie.node_count }) = .ok trie1 ∧
          TrieRep trie1.mem (TrieT.dropFound b t) trie1.root ∧
          trie1.freed = x :: trie.freed ∧ trie1.leaf_count = trie.leaf_count := by
      intro m1 hm1
      have hys : (m1 y).sibling = some x := by rw [(hm1 y).2.2.1]; exact hy3
      simp only [hys, trie_free]
      refine ⟨_, rfl, ?_, rfl, rfl⟩
      refine (TrieRep.dropFound_later t _ y hrep hnd hfind hpne hy2 ?_ ?_ ?_ ?_ ?_).1
      · intro z _ hzy _ _
        simp only [TrieMem.sameLinks, TrieMem.trie_set_other _ _ _ _ hzy]
        exact hm1 z
      · simp only [TrieMem.trie_set_same]; exact (hm1 y).1
      · simp only [TrieMem.trie_set_same]; exact (hm1 y).2.1
      · simp only [TrieMem.trie_set_same]; exact (hm1 y).2.2.2
      · simp only [TrieMem.trie_set_same]; exact (hm1 x).2.2.1
    simp only [trie_remove_unlink, hdel, hfirst, hf, hne, if_false, hy1, hy3, if_true]
    cases hsx : (trie.mem x).sibling with
    | none =>
      exact key trie.mem (fun z => ⟨rfl, rfl, rfl, rfl⟩)
    | some nxt =>
      exact key _ (fun z => TrieMem.set_parent_links trie.mem nxt z (some y))

/-! ## Removal from the prefix index: the second phase -/

theorem trie_remove_prune_step (fuel junk : Nat) (trie : trie_t) (arr : TrieDelArr) (i : Nat)
    (level : TrieT) (b x k px : Nat) (d : Option Nat) (c sx : TrieT)
    (hdel : (arr (i + 1)).del_node = some x)
    (hfirst : (arr (i + 1)).first_node = level.head)
    (hpar : (arr (i + 1)).parent = some px)
    (hnum : (arr i).num_children = level.chainLength)
    (hrep : TrieRep trie.mem level (trie.mem px).children) (hnd : level.addrs.Nodup)
    (hpx : px ∉ level.addrs) (hfind : TrieT.find b level = .node x k d c sx)
    (hfuel : level.chainLength < fuel) :
    (level.chainLength = 1 →
      ∃ trie1, trie_remove_prune fuel junk (i + 1) trie arr =
          trie_remove_prune fuel junk i trie1 arr ∧
        trie1.mem = trie.mem ∧ trie1.root = trie.root ∧ trie1.freed = x :: trie.freed ∧
        trie1.leaf_count = trie.leaf_count) ∧
    (level.chainLength ≠ 1 →
      ∃ trie1, trie_remove_prune fuel junk (i + 1) trie arr = .ok trie1 ∧
        TrieRep trie1.mem (TrieT.dropFound b level) (trie1.mem px).children ∧
        (∀ y, y ∉ level.addrs → y ≠ px → trie1.mem y = trie.mem y) ∧
        (trie1.mem px).key = (trie.mem px).key ∧ (trie1.mem px).data = (trie.mem px).data ∧
        (trie1.mem px).sibling = (trie.mem px).sibling ∧
        trie1.freed = x :: trie.freed ∧ trie1.root = trie.root ∧
        trie1.leaf_count = trie.leaf_count) := by
  constructor
  · intro h1
    have hn : (arr i).num_children = 1 := by rw [hnum, h1]
    simp only [trie_remove_prune, hn, if_true, hdel, trie_free]
    exact ⟨_, rfl, rfl, rfl, rfl, rfl⟩
  · intro h1
    have hn : ¬ (arr i).num_children = 1 := by rw [hnum]; exact h1
    simp only [trie_remove_prune, hn, if_false]
    exact trie_remove_unlink_below fuel trie arr i level b x k px d c sx hdel hfirst hpar hrep
      hnd hpx hfind hfuel

theorem trie_remove_prune_below (fuel junk : Nat) (arr : TrieDelArr) :
    ∀ (r : List Nat) (level : TrieT) (i px : Nat) (trie : trie_t),
      0 ∉ r →
      TrieRep trie.mem level (trie.mem px).children → level.addrs.Nodup →
      px ∉ level.addrs → (level.runLookup r true).isFound = true →
      (∀ j, j ≤ r.length → (level.delEntries r (some px))[j]? = some (arr (i + 1 + j))) →
      (arr i).num_children = level.chainLength →
      level.size < fuel →
      (level.pruneBelow r = none →
        ∃ trie1, trie_remove_prune fuel junk (i + 1 + r.length) trie arr =
            trie_remove_prune fuel junk i trie1 arr ∧
          trie1.mem = trie.mem ∧ trie1.root = trie.root ∧
          trie1.freed = level.freedBelow r ++ trie.freed ∧
          trie1.leaf_count = trie.leaf_count) ∧
      (∀ level1, level.pruneBelow r = some level1 →
        ∃ trie1, trie_remove_prune fuel junk (i + 1 + r.length) trie arr = .ok trie1 ∧
          TrieRep trie1.mem level1 (trie1.mem px).children ∧
          (∀ y, y ∉ level.addrs → y ≠ px → trie1.mem y = trie.mem y) ∧
          (trie1.mem px).key = (trie.mem px).key ∧ (trie1.mem px).data = (trie.mem px).data ∧
          (trie1.mem px).sibling = (trie.mem px).sibling ∧
          trie1.freed = level.freedBelow r ++ trie.freed ∧ trie1.root = trie.root ∧
          trie1.leaf_count = trie.leaf_count) := by
  intro r
  induction r with
  | nil =>
    intro level i px trie _ hrep hnd hpx hfound hent hnum hfuel
    obtain ⟨x, k, d, c, s, hfind⟩ := TrieT.runLookup_found_nil hfound
    have he := hent 0 (Nat.zero_le _)
    simp only [TrieT.delEntries, hfind, List.getElem?_cons_zero,
      Option.some.injEq, Nat.add_zero] at he
    have hcl : level.chainLength < fuel := lt_of_le_of_lt level.chainLength_le_size hfuel
    obtain ⟨hs1, hs2⟩ := trie_remove_prune_step fuel junk trie arr i level 0 x k px d c s
      (by rw [← he]; rfl) (by rw [← he]) (by rw [← he]) hnum hrep hnd hpx hfind hcl
    simp only [List.length_nil, Nat.add_zero, TrieT.pruneBelow, TrieT.freedBelow, hfind,
      TrieT.head, Option.toList, List.singleton_append]
    constructor
    · intro hp
      split_ifs at hp with h1
      exact hs1 h1
    · intro level1 hp
      split_ifs at hp with h1
      simp only [Option.some.injEq] at hp
      subst hp
      exact hs2 h1
  | cons b rest ih =>
    intro level i px trie hz hrep hnd hpx hfound hent hnum hfuel
    have hb : b ≠ 0 := fun h => hz (h ▸ List.mem_cons_self _ _)
    have hz1 : 0 ∉ rest := fun h => hz (List.mem_cons_of_mem _ h)
    obtain ⟨x, k, d, c, s, hfind, hfc⟩ := TrieT.runLookup_found_cons hb hfound
    have he := hent 0 (Nat.zero_le _)
    simp only [TrieT.delEntries, hfind, List.getElem?_cons_zero,
      Option.some.injEq, Nat.add_zero] at he
    have hcl : level.chainLength < fuel := lt_of_le_of_lt level.chainLength_le_size hfuel
    have hs := fun tr hr => trie_remove_prune_step fuel junk tr arr i level b x k px
      d c s (by rw [← he]) (by rw [← he]) (by rw [← he]) hnum hr hnd hpx hfind hcl
    have hxl : x ∈ level.addrs ∧ (∀ y ∈ c.addrs, y ∈ level.addrs) ∧ x ∉ c.addrs := by
      rcases TrieT.find_addrs level hfind with h | h
      · exact h
      · exact absurd hnd h
    obtain ⟨_, hndc, hsz, _⟩ := TrieT.find_props level hfind
    have hrc : TrieRep trie.mem c (trie.mem x).children := by
      have := hrep.find_rep (b := b)
      rw [hfind] at this
      exact this.2.2.2.1
    have hent1 : ∀ j, j ≤ rest.length →
        (c.delEntries rest (some x))[j]? = some (arr (i + 1 + 1 + j)) := by
      intro j hj
      have := hent (j + 1) (by simp only [List.length_cons]; omega)
      simp only [TrieT.delEntries, hfind, List.getElem?_cons_succ] at this
      rw [this]
      congr 2
      omega
    have hidx : i + 1 + (b :: rest).length = i + 1 + 1 + rest.length := by
      simp only [List.length_cons]; omega
    obtain ⟨ih1, ih2⟩ := ih c (i + 1) x trie hz1 hrc (hndc hnd) hxl.2.2 hfc hent1
      (by rw [← he]) (by omega)
    rw [hidx]
    simp only [TrieT.pruneBelow, TrieT.freedBelow, hfind]
    cases hpb : TrieT.pruneBelow c rest with
    | some c1 =>
      obtain ⟨trie1, h1, h2, h3, h4, h5, h6, h7, h8, h9⟩ := ih2 c1 hpb
      simp only [reduceCtorEq, false_implies, true_and, Option.some.injEq]
      intro level1 hl1
      subst hl1
      have hpxe : trie1.mem px = trie.mem px :=
        h3 px (fun h => hpx (hxl.2.1 px h)) (fun h => hpx (h ▸ hxl.1))
      refine ⟨trie1, h1, ?_, ?_, by rw [hpxe], by rw [hpxe], by rw [hpxe], h7, h8, h9⟩
      · rw [hpxe]
        refine TrieRep.setKids_links level _ x k d c s hrep hnd hfind ?_ h4 h5 h6 h2
        intro y _ hyc hyx
        unfold TrieMem.sameLinks
        rw [h3 y hyc hyx]
        exact ⟨rfl, rfl, rfl, rfl⟩
      · intro y hy hypx
        exact h3 y (fun h => hy (hxl.2.1 y h)) (fun h => hy (h ▸ hxl.1))
    | none =>
      obtain ⟨trie0, h1, h2, h3, h4, h5⟩ := ih1 hpb
      have hr0 : TrieRep trie0.mem level (trie0.mem px).children := by rw [h2]; exact hrep
      simp only
      constructor
      · intro hp
        split_ifs at hp with hc1
        obtain ⟨trie1, g1, g2, g3, g4, g5⟩ := (hs trie0 hr0).1 hc1
        refine ⟨trie1, h1.trans g1, g2.trans h2, g3.trans h3, ?_, g5.trans h5⟩
        rw [g4, h4]
        rfl
      · intro level1 hp
        split_ifs at hp with hc1
        simp only [Option.some.injEq] at hp
        subst hp
        obtain ⟨trie1, g1, g2, g3, g4, g5, g6, g7, g8, g9⟩ := (hs trie0 hr0).2 hc1
        rw [h2] at g3 g4 g5 g6
        refine ⟨trie1, h1.trans g1, g2, g3, g4, g5, g6, ?_, g8.trans h3, g9.trans h5⟩
        rw [g7, h4]
        rfl

theorem trie_remove_prune_top (fuel junk : Nat) (trie : trie_t) (arr : TrieDelArr)
    (t : TrieT) (b x k : Nat) (d : Option Nat) (c sx : TrieT)
    (hdel : (arr 0).del_node = some x) (hfirst : (arr 0).first_node = t.head)
    (hrep : TrieRep trie.mem t trie.root) (hnd : t.addrs.Nodup)
    (hfind : TrieT.find b t = .node x k d c sx) (hfuel : t.chainLength < fuel) :
    ∃ trie1, trie_remove_prune fuel junk 0 trie arr = .ok trie1 ∧
      TrieRep trie1.mem (if junk = 1 then t else TrieT.dropFound b t) trie1.root ∧
      trie1.freed = x :: trie.freed ∧ trie1.leaf_count = trie.leaf_count := by
  by_cases hj : junk = 1
  · simp only [trie_remove_prune, hj, if_true, hdel, trie_free]
    exact ⟨_, rfl, hrep, rfl, rfl⟩
  · simp only [trie_remove_prune, hj, if_false]
    exact trie_remove_unlink_top fuel trie arr t b x k d c sx hdel hfirst hrep hnd hfind hfuel

theorem trie_remove_spec (fuel junk : Nat) (trie : trie_t) (t : TrieT) (key : List Nat)
    (hrep : TrieRep trie.mem t trie.root) (hnd : t.addrs.Nodup) (hdist : t.distinct)
    (hsize : t.size < 2 ^ 32) (hz : 0 ∉ key) (hL : key.length < MAX_KEY_LEN)
    (hfound : (t.lookup key).isFound = true) (hf : t.size + key.length + 1 < fuel) :
    ∃ trie1, trie_remove fuel junk trie (some key) = .ok (trie1, EOK) ∧
      TrieRep trie1.mem (t.remove junk key) trie1.root ∧
      trie1.freed = t.freedBelow key ++ trie.freed ∧
      trie1.leaf_count = u32_dec trie.leaf_count := by
  have hfound1 : (t.runLookup key false).isFound = true := by
    cases t with
    | nil => simp [TrieT.lookup, TrieLook.isFound] at hfound
    | node a k d c s => exact hfound
  obtain ⟨a, ha⟩ : ∃ a, trie.root = some a := by
    cases t with
    | nil => simp [TrieT.lookup, TrieLook.isFound] at hfound
    | node a k d c s => exact ⟨a, hrep.1⟩
  obtain ⟨arr1, hc1, hent, _, _⟩ := trie_remove_collect_spec trie.mem key hz hL key.length fuel
    t trie.root none 0 (fun _ => ⟨none, none, none, 0, 0⟩) false (by omega) (Nat.zero_le _) hrep hdist hsize
    (by simpa using hfound1) hf
  simp only [List.drop_zero, Nat.zero_add] at hent
  rw [ha] at hc1
  have hcl : t.chainLength < fuel := by
    have := t.chainLength_le_size
    omega
  suffices h : ∃ trie1, trie_remove_prune fuel junk key.length trie arr1 = .ok trie1 ∧
      TrieRep trie1.mem (t.remove junk key) trie1.root ∧
      trie1.freed = t.freedBelow key ++ trie.freed ∧ trie1.leaf_count = trie.leaf_count by
    obtain ⟨trie1, h1, h2, h3, h4⟩ := h
    simp only [trie_remove, ha, hc1, c_strlen_eq_length hz, h1]
    exact ⟨_, rfl, h2, h3, by rw [← h4]⟩
  cases key with
  | nil =>
    obtain ⟨x, k, d, c, s, hfind⟩ := TrieT.runLookup_found_nil hfound1
    have he := hent 0 (Nat.zero_le _)
    simp only [TrieT.delEntries, hfind, List.getElem?_cons_zero, Option.some.injEq] at he
    obtain ⟨trie1, h1, h2, h3, h4⟩ := trie_remove_prune_top fuel junk trie arr1 t 0 x k d c s
      (by rw [← he]; rfl) (by rw [← he]) hrep hnd hfind hcl
    refine ⟨trie1, h1, ?_, ?_, h4⟩
    · simp only [TrieT.remove]
      exact h2
    · simp only [TrieT.freedBelow, hfind, TrieT.head, Option.toList, List.singleton_append]
      exact h3
  | cons b rest =>
    have hb : b ≠ 0 := fun h => hz (h ▸ List.mem_cons_self _ _)
    have hz1 : 0 ∉ rest := fun h => hz (List.mem_cons_of_mem _ h)
    obtain ⟨x, k, d, c, s, hfind, hfc⟩ := TrieT.runLookup_found_cons hb hfound1
    have he := hent 0 (Nat.zero_le _)
    simp only [TrieT.delEntries, hfind, List.getElem?_cons_zero, Option.some.injEq] at he
    have hxl : x ∈ t.addrs ∧ (∀ y ∈ c.addrs, y ∈ t.addrs) ∧ x ∉ c.addrs := by
      rcases TrieT.find_addrs t hfind with h | h
      · exact h
      · exact absurd hnd h
    obtain ⟨_, hndc, hsz, _⟩ := TrieT.find_props t hfind
    have hrc : TrieRep trie.mem c (trie.mem x).children := by
      have := hrep.find_rep (b := b)
      rw [hfind] at this
      exact this.2.2.2.1
    have hent1 : ∀ j, j ≤ rest.length →
        (c.delEntries rest (some x))[j]? = some (arr1 (0 + 1 + j)) := by
      intro j hj
      have := hent (j + 1) (by simp only [List.length_cons]; omega)
      simp only [TrieT.delEntries, hfind, List.getElem?_cons_succ] at this
      rw [this]
      congr 2
      omega
    have hidx : (b :: rest).length = 0 + 1 + rest.length := by
      simp only [List.length_cons]; omega
    obtain ⟨ih1, ih2⟩ := trie_remove_prune_below fuel junk arr1 rest c 0 x trie hz1 hrc
      (hndc hnd) hxl.2.2 hfc hent1 (by rw [← he]) (by omega)
    rw [hidx]
    simp only [TrieT.remove, TrieT.freedBelow, hfind]
    cases hpb : TrieT.pruneBelow c rest with
    | some c1 =>
      obtain ⟨trie1, h1, h2, h3, h4, h5, h6, h7, h8, h9⟩ := ih2 c1 hpb
      refine ⟨trie1, h1, ?_, h7, h9⟩
      rw [h8]
      refine TrieRep.setKids_links t _ x k d c s hrep hnd hfind ?_ h4 h5 h6 h2
      intro y _ hyc hyx
      unfold TrieMem.sameLinks
      rw [h3 y hyc hyx]
      exact ⟨rfl, rfl, rfl, rfl⟩
    | none =>
      obtain ⟨trie0, h1, h2, h3, h4, h5⟩ := ih1 hpb
      obtain ⟨trie1, g1, g2, g3, g4⟩ := trie_remove_prune_top fuel junk trie0 arr1 t b x k d c s
        (by rw [← he]) (by rw [← he]) (by rw [h2, h3]; exact hrep) hnd hfind hcl
      refine ⟨trie1, h1.trans g1, g2, ?_, g4.trans h5⟩
      rw [g3, h4]
      rfl

/-! ## Removal from the prefix index: the other keys -/

theorem TrieT.runLookup_of_find_cons {t : TrieT} {b x k : Nat} {d : Option Nat} {c s : TrieT}
    (h : TrieT.find b t = .node x k d c s) (hb : b ≠ 0) (rest : List Nat) (mf : Bool) :
    t.runLookup (b :: rest) mf = c.runLookup rest true := by
  have ht : t ≠ .nil := by
    intro h0
    rw [h0] at h
    simp [TrieT.find] at h
  rw [TrieT.runLookup_cons ht, h]
  simp only [hb, if_false]

theorem TrieT.runLookup_of_find_nil {t : TrieT} {x k : Nat} {d : Option Nat} {c s : TrieT}
    (h : TrieT.find 0 t = .node x k d c s) (mf : Bool) :
    t.runLookup [] mf = .found x d := by
  have ht : t ≠ .nil := by
    intro h0
    rw [h0] at h
    simp [TrieT.find] at h
  rw [TrieT.runLookup_nil_key ht, h]

theorem TrieT.runLookup_found_head {t : TrieT} {r : List Nat} {mf : Bool} (hz : 0 ∉ r)
    (h : (t.runLookup r mf).isFound = true) :
    ∃ x k d c s, TrieT.find (r.headD 0) t = .node x k d c s := by
  cases r with
  | nil => exact TrieT.runLookup_found_nil h
  | cons b rest =>
    have hb : b ≠ 0 := fun h0 => hz (h0 ▸ List.mem_cons_self _ _)
    obtain ⟨x, k, d, c, s, hf, _⟩ := TrieT.runLookup_found_cons hb h
    exact ⟨x, k, d, c, s, hf⟩

theorem TrieT.pathNodes_sub :
    ∀ (r : List Nat) (level : TrieT), level.addrs.Nodup →
      ∀ y ∈ level.pathNodes r, y ∈ level.addrs := by
  intro r
  induction r with
  | nil =>
    intro level hnd y hy
    simp only [TrieT.pathNodes] at hy
    cases hf : TrieT.find 0 level with
    | nil => rw [hf] at hy; simp [TrieT.head] at hy
    | node x k d c s =>
      rw [hf] at hy
      simp only [TrieT.head, Option.toList, List.mem_singleton] at hy
      rcases TrieT.find_addrs level hf with h | h
      · exact hy ▸ h.1
      · exact absurd hnd h
  | cons b rest ih =>
    intro level hnd y hy
    simp only [TrieT.pathNodes] at hy
    cases hf : TrieT.find b level with
    | nil => rw [hf] at hy; simp at hy
    | node x k d c s =>
      rw [hf] at hy
      simp only [List.mem_cons] at hy
      have hxl : x ∈ level.addrs ∧ (∀ y ∈ c.addrs, y ∈ level.addrs) ∧ x ∉ c.addrs := by
        rcases TrieT.find_addrs level hf with h | h
        · exact h
        · exact absurd hnd h
      rcases hy with hy | hy
      · exact hy ▸ hxl.1
      · exact hxl.2.1 y (ih c ((TrieT.find_props level hf).2.1 hnd) y hy)

theorem TrieT.pathNodes_sub_found {level : TrieT} {r : List Nat} {x k : Nat} {d : Option Nat}
    {c s : TrieT} (hf : TrieT.find (r.headD 0) level = .node x k d c s)
    (hnd : level.addrs.Nodup) : ∀ y ∈ level.pathNodes r, y ∈ x :: c.addrs := by
  intro y hy
  cases r with
  | nil =>
    simp only [List.headD_nil] at hf
    simp only [TrieT.pathNodes, hf, TrieT.head, Option.toList, List.mem_singleton] at hy
    exact hy ▸ List.mem_cons_self _ _
  | cons b rest =>
    simp only [List.headD_cons] at hf
    simp only [TrieT.pathNodes, hf, List.mem_cons] at hy
    rcases hy with hy | hy
    · exact hy ▸ List.mem_cons_self _ _
    · exact List.mem_cons_of_mem _
        (TrieT.pathNodes_sub rest c ((TrieT.find_props level hf).2.1 hnd) y hy)

theorem TrieT.freedBelow_sub :
    ∀ (r : List Nat) (level : TrieT), ∀ y ∈ level.freedBelow r, y ∈ level.pathNodes r := by
  intro r
  induction r with
  | nil => intro level y hy; exact hy
  | cons b rest ih =>
    intro level y hy
    simp only [TrieT.freedBelow] at hy
    simp only [TrieT.pathNodes]
    cases hf : TrieT.find b level with
    | nil => rw [hf] at hy; simp at hy
    | node x k d c s =>
      rw [hf] at hy
      simp only at hy ⊢
      cases hp : TrieT.pruneBelow c rest with
      | none =>
        rw [hp] at hy
        simp only [List.mem_cons] at hy ⊢
        rcases hy with hy | hy
        · exact Or.inl hy
        · exact Or.inr (ih c y hy)
      | some c1 =>
        rw [hp] at hy
        exact List.mem_cons_of_mem _ (ih c y hy)

theorem TrieT.find_diverge {b b2 x k x2 k2 : Nat} {d d2 : Option Nat} {c s c2 s2 : TrieT} :
    ∀ (level : TrieT), TrieT.find b level = .node x k d c s →
      TrieT.find b2 level = .node x2 k2 d2 c2 s2 → b ≠ b2 →
      level.chainLength ≠ 1 ∧
        (∃ s1, TrieT.find b2 (TrieT.dropFound b level) = .node x2 k2 d2 c2 s1) ∧
        (∀ kids, ∃ s1, TrieT.find b2 (TrieT.setKids b kids level) = .node x2 k2 d2 c2 s1) ∧
        (level.addrs.Nodup → ∀ y, y ∈ x :: c.addrs → y ∈ x2 :: c2.addrs → False) := by
  intro level
  induction level with
  | nil => intro h; simp [TrieT.find] at h
  | node a ka da ca sa _ ihs =>
    intro h1 h2 hne
    have hlen : ∀ {β y ky : Nat} {dy : Option Nat} {cy sy : TrieT},
        TrieT.find β sa = .node y ky dy cy sy → sa.chainLength + 1 ≠ 1 := by
      intro β y ky dy cy sy h
      cases sa with
      | nil => simp [TrieT.find] at h
      | node _ _ _ _ _ => simp [TrieT.chainLength]
    have hin : ∀ {β y ky : Nat} {dy : Option Nat} {cy sy : TrieT},
        TrieT.find β sa = .node y ky dy cy sy → sa.addrs.Nodup →
        ∀ z, z ∈ y :: cy.addrs → z ∈ sa.addrs := by
      intro β y ky dy cy sy h hnd z hz
      rcases TrieT.find_addrs sa h with h3 | h3
      · simp only [List.mem_cons] at hz
        rcases hz with hz | hz
        · exact hz ▸ h3.1
        · exact h3.2.1 z hz
      · exact absurd hnd h3
    simp only [TrieT.find] at h1 h2
    simp only [TrieT.chainLength, TrieT.dropFound, TrieT.setKids]
    by_cases hk1 : ka = b
    · subst hk1
      have hk2 : ¬ ka = b2 := hne
      simp only [eq_self_iff_true, if_true] at h1
      simp only [hk2, if_false] at h2
      cases h1
      simp only [eq_self_iff_true, if_true, TrieT.find, hk2, if_false]
      refine ⟨hlen h2, ⟨s2, h2⟩, fun _ => ⟨s2, h2⟩, ?_⟩
      intro hnd y hy1 hy2
      simp only [TrieT.addrs, List.nodup_cons, List.nodup_append, List.mem_append,
        not_or] at hnd
      obtain ⟨⟨_, has⟩, _, hnds, hdisj⟩ := hnd
      have := hin h2 hnds y hy2
      simp only [List.mem_cons] at hy1
      rcases hy1 with hy1 | hy1
      · exact has (hy1 ▸ this)
      · exact hdisj hy1 this
    · simp only [hk1, if_false] at h1
      simp only [hk1, if_false]
      by_cases hk2 : ka = b2
      · subst hk2
        simp only [eq_self_iff_true, if_true] at h2
        cases h2
        simp only [TrieT.find, eq_self_iff_true, if_true]
        refine ⟨hlen h1, ⟨_, rfl⟩, fun _ => ⟨_, rfl⟩, ?_⟩
        intro hnd y hy1 hy2
        simp only [TrieT.addrs, List.nodup_cons, List.nodup_append, List.mem_append,
          not_or] at hnd
        obtain ⟨⟨_, has⟩, _, hnds, hdisj⟩ := hnd
        have := hin h1 hnds y hy1
        simp only [List.mem_cons] at hy2
        rcases hy2 with hy2 | hy2
        · exact has (hy2 ▸ this)
        · exact hdisj hy2 this
      · simp only [hk2, if_false] at h2
        simp only [TrieT.find, hk2, if_false]
        obtain ⟨_, i2, i3, i4⟩ := ihs h1 h2 hne
        refine ⟨hlen h1, i2, i3, ?_⟩
        intro hnd
        simp only [TrieT.addrs, List.nodup_cons, List.nodup_append] at hnd
        exact i4 hnd.2.2.1

theorem TrieT.pruneBelow_cases {level : TrieT} {r : List Nat} {x k : Nat} {d : Option Nat}
    {c s : TrieT} (hf : TrieT.find (r.headD 0) level = .node x k d c s) :
    (level.pruneBelow r = none → level.chainLength = 1) ∧
      (∀ l1, level.pruneBelow r = some l1 →
        l1 = TrieT.dropFound (r.headD 0) level ∨
          ∃ c1, l1 = TrieT.setKids (r.headD 0) c1 level) := by
  cases r with
  | nil =>
    simp only [List.headD_nil] at hf ⊢
    simp only [TrieT.pruneBelow]
    constructor
    · intro h
      split_ifs at h with h1
      exact h1
    · intro l1 h
      split_ifs at h with h1
      simp only [Option.some.injEq] at h
      exact Or.inl h.symm
  | cons b rest =>
    simp only [List.headD_cons] at hf ⊢
    simp only [TrieT.pruneBelow, hf]
    cases hp : TrieT.pruneBelow c rest with
    | some c1 =>
      simp only [reduceCtorEq, false_implies, true_and, Option.some.injEq]
      intro l1 h
      exact Or.inr ⟨c1, h.symm⟩
    | none =>
      simp only
      constructor
      · intro h
        split_ifs at h with h1
        exact h1
      · intro l1 h
        split_ifs at h with h1
        simp only [Option.some.injEq] at h
        exact Or.inl h.symm

theorem TrieT.runLookup_congr_find {t t1 : TrieT} {r2 : List Nat} {x k k1 : Nat}
    {d : Option Nat} {c s s1 : TrieT} (hz2 : 0 ∉ r2)
    (h : TrieT.find (r2.headD 0) t = .node x k d c s)
    (h1 : TrieT.find (r2.headD 0) t1 = .node x k1 d c s1) (mf mf1 : Bool) :
    t1.runLookup r2 mf1 = t.runLookup r2 mf ∧ t1.pathNodes r2 = t.pathNodes r2 := by
  cases r2 with
  | nil =>
    simp only [List.headD_nil] at h h1
    rw [TrieT.runLookup_of_find_nil h, TrieT.runLookup_of_find_nil h1]
    simp only [TrieT.pathNodes, h, h1, TrieT.head, and_self]
  | cons b rest =>
    have hb : b ≠ 0 := fun h0 => hz2 (h0 ▸ List.mem_cons_self _ _)
    simp only [List.headD_cons] at h h1
    rw [TrieT.runLookup_of_find_cons h hb, TrieT.runLookup_of_find_cons h1 hb]
    simp only [TrieT.pathNodes, h, h1, and_self]

theorem TrieT.pruneBelow_frame :
    ∀ (r r2 : List Nat) (level : TrieT) (mf mf2 : Bool), 0 ∉ r → 0 ∉ r2 → r2 ≠ r →
      level.addrs.Nodup → (level.runLookup r mf).isFound = true →
      (level.runLookup r2 mf2).isFound = true →
      (∀ y ∈ level.pathNodes r2, y ∉ level.freedBelow r) ∧
        level.pruneBelow r ≠ none ∧
        (∀ l1, level.pruneBelow r = some l1 →
          ∀ mf3, l1.runLookup r2 mf3 = level.runLookup r2 mf2 ∧
            l1.pathNodes r2 = level.pathNodes r2) := by
  intro r
  induction r with
  | nil =>
    intro r2 level mf mf2 hz hz2 hne hnd hf1 hf2
    obtain ⟨x, k, d, c, s, hfind⟩ := TrieT.runLookup_found_head hz hf1
    obtain ⟨x2, k2, d2, c2, s2, hfind2⟩ := TrieT.runLookup_found_head hz2 hf2
    have hh : ([] : List Nat).headD 0 ≠ r2.headD 0 := by
      cases r2 with
      | nil => exact absurd rfl hne
      | cons b2 rest2 =>
        simp only [List.headD_nil, List.headD_cons]
        intro h0
        exact hz2 (h0 ▸ List.mem_cons_self _ _)
    obtain ⟨g1, g2, g3, g4⟩ := TrieT.find_diverge level hfind hfind2 hh
    obtain ⟨p1, p2⟩ := TrieT.pruneBelow_cases hfind
    refine ⟨?_, ?_, ?_⟩
    · intro y hy hy1
      exact g4 hnd y
        (TrieT.pathNodes_sub_found hfind hnd y (TrieT.freedBelow_sub _ level y hy1))
        (TrieT.pathNodes_sub_found hfind2 hnd y hy)
    · intro h
      exact g1 (p1 h)
    · intro l1 hl1 mf3
      rcases p2 l1 hl1 with h | ⟨c1, h⟩
      · obtain ⟨s1, hs1⟩ := g2
        rw [h]
        exact TrieT.runLookup_congr_find hz2 hfind2 hs1 mf2 mf3
      · obtain ⟨s1, hs1⟩ := g3 c1
        rw [h]
        exact TrieT.runLookup_congr_find hz2 hfind2 hs1 mf2 mf3
  | cons b rest ih =>
    intro r2 level mf mf2 hz hz2 hne hnd hf1 hf2
    obtain ⟨x, k, d, c, s, hfind⟩ := TrieT.runLookup_found_head hz hf1
    obtain ⟨x2, k2, d2, c2, s2, hfind2⟩ := TrieT.runLookup_found_head hz2 hf2
    obtain ⟨p1, p2⟩ := TrieT.pruneBelow_cases hfind
    have hb : b ≠ 0 := fun h0 => hz (h0 ▸ List.mem_cons_self _ _)
    have hz1 : 0 ∉ rest := fun h => hz (List.mem_cons_of_mem _ h)
    by_cases hh : (b :: rest).headD 0 = r2.headD 0
    · cases r2 with
      | nil =>
        simp only [List.headD_nil, List.headD_cons] at hh
        exact absurd hh hb
      | cons b2 rest2 =>
        simp only [List.headD_cons] at hh hfind hfind2
        subst hh
        rw [hfind] at hfind2
        cases hfind2
        have hne1 : rest2 ≠ rest := fun h => hne (by rw [h])
        have hz3 : 0 ∉ rest2 := fun h => hz2 (List.mem_cons_of_mem _ h)
        obtain ⟨_, _, _, _, _, hfa, hfc⟩ := TrieT.runLookup_found_cons hb hf1
        rw [hfind] at hfa
        cases hfa
        obtain ⟨_, _, _, _, _, hfa2, hfc2⟩ := TrieT.runLookup_found_cons hb hf2
        rw [hfind] at hfa2
        cases hfa2
        have hxl : x ∈ level.addrs ∧ (∀ y ∈ c.addrs, y ∈ level.addrs) ∧ x ∉ c.addrs := by
          rcases TrieT.find_addrs level hfind with h | h
          · exact h
          · exact absurd hnd h
        have hndc : c.addrs.Nodup := (TrieT.find_props level hfind).2.1 hnd
        obtain ⟨i1, i2, i3⟩ := ih rest2 c true true hz1 hz3 hne1 hndc hfc hfc2
        obtain ⟨c1, hc1⟩ : ∃ c1, TrieT.pruneBelow c rest = some c1 := by
          cases hp : TrieT.pruneBelow c rest with
          | none => exact absurd hp i2
          | some c1 => exact ⟨c1, rfl⟩
        have hpl : level.pruneBelow (b :: rest) = some (TrieT.setKids b c1 level) := by
          simp only [TrieT.pruneBelow, hfind, hc1]
        refine ⟨?_, ?_, ?_⟩
        · intro y hy hy1
          simp only [TrieT.pathNodes, hfind, List.mem_cons] at hy
          simp only [TrieT.freedBelow, hfind, hc1] at hy1
          rcases hy with hy | hy
          · subst hy
            exact hxl.2.2 (TrieT.pathNodes_sub rest c hndc y (TrieT.freedBelow_sub rest c y hy1))
          · exact i1 y hy hy1
        · rw [hpl]
          exact Option.some_ne_none _
        · intro l1 hl1 mf3
          rw [hpl] at hl1
          simp only [Option.some.injEq] at hl1
          subst hl1
          obtain ⟨hfs, _, _⟩ := @TrieT.find_setKids _ _ _ _ _ _ c1 level hfind
          obtain ⟨j1, j2⟩ := i3 c1 hc1 true
          rw [TrieT.runLookup_of_find_cons hfs hb, TrieT.runLookup_of_find_cons hfind hb, j1]
          simp only [TrieT.pathNodes, hfs, hfind, j2, and_self]
    · obtain ⟨g1, g2, g3, g4⟩ := TrieT.find_diverge level hfind hfind2 hh
      refine ⟨?_, ?_, ?_⟩
      · intro y hy hy1
        exact g4 hnd y
          (TrieT.pathNodes_sub_found hfind hnd y (TrieT.freedBelow_sub _ level y hy1))
          (TrieT.pathNodes_sub_found hfind2 hnd y hy)
      · intro h
        exact g1 (p1 h)
      · intro l1 hl1 mf3
        rcases p2 l1 hl1 with h | ⟨c1, h⟩
        · obtain ⟨s1, hs1⟩ := g2
          rw [h]
          exact TrieT.runLookup_congr_find hz2 hfind2 hs1 mf2 mf3
        · obtain ⟨s1, hs1⟩ := g3 c1
          rw [h]
          exact TrieT.runLookup_congr_find hz2 hfind2 hs1 mf2 mf3

theorem TrieT.remove_cases (junk : Nat) {t : TrieT} {r : List Nat} {x k : Nat}
    {d : Option Nat} {c s : TrieT} (hf : TrieT.find (r.headD 0) t = .node x k d c s) :
    t.remove junk r = t ∨ t.remove junk r = TrieT.dropFound (r.headD 0) t ∨
      ∃ c1, t.remove junk r = TrieT.setKids (r.headD 0) c1 t := by
  cases r with
  | nil =>
    simp only [TrieT.remove, List.headD_nil]
    split_ifs
    · exact Or.inl rfl
    · exact Or.inr (Or.inl rfl)
  | cons b rest =>
    simp only [List.headD_cons] at hf ⊢
    simp only [TrieT.remove, hf]
    cases hp : TrieT.pruneBelow c rest with
    | some c1 => exact Or.inr (Or.inr ⟨c1, rfl⟩)
    | none =>
      simp only
      split_ifs
      · exact Or.inl rfl
      · exact Or.inr (Or.inl rfl)

theorem TrieT.remove_frame (junk : Nat) (t : TrieT) (key key2 : List Nat) (mf mf2 mf3 : Bool)
    (hz : 0 ∉ key) (hz2 : 0 ∉ key2) (hne : key2 ≠ key) (hnd : t.addrs.Nodup)
    (hf1 : (t.runLookup key mf).isFound = true)
    (hf2 : (t.runLookup key2 mf2).isFound = true) :
    (∀ y ∈ t.pathNodes key2, y ∉ t.freedBelow key) ∧
      (t.remove junk key).runLookup key2 mf3 = t.runLookup key2 mf2 ∧
      (t.remove junk key).pathNodes key2 = t.pathNodes key2 := by
  obtain ⟨x, k, d, c, s, hfind⟩ := TrieT.runLookup_found_head hz hf1
  obtain ⟨x2, k2, d2, c2, s2, hfind2⟩ := TrieT.runLookup_found_head hz2 hf2
  by_cases hh : key.headD 0 = key2.headD 0
  · cases key with
    | nil =>
      cases key2 with
      | nil => exact absurd rfl hne
      | cons b2 rest2 =>
        simp only [List.headD_nil, List.headD_cons] at hh
        exact absurd (hh ▸ List.mem_cons_self _ _) hz2
    | cons b rest =>
      have hb : b ≠ 0 := fun h0 => hz (h0 ▸ List.mem_cons_self _ _)
      have hz1 : 0 ∉ rest := fun h => hz (List.mem_cons_of_mem _ h)
      cases key2 with
      | nil =>
        simp only [List.headD_nil, List.headD_cons] at hh
        exact absurd hh hb
      | cons b2 rest2 =>
        simp only [List.headD_cons] at hh hfind hfind2
        subst hh
        rw [hfind] at hfind2
        cases hfind2
        have hne1 : rest2 ≠ rest := fun h => hne (by rw [h])
        have hz3 : 0 ∉ rest2 := fun h => hz2 (List.mem_cons_of_mem _ h)
        obtain ⟨_, _, _, _, _, hfa, hfc⟩ := TrieT.runLookup_found_cons hb hf1
        rw [hfind] at hfa
        cases hfa
        obtain ⟨_, _, _, _, _, hfa2, hfc2⟩ := TrieT.runLookup_found_cons hb hf2
        rw [hfind] at hfa2
        cases hfa2
        have hxl : x ∈ t.addrs ∧ (∀ y ∈ c.addrs, y ∈ t.addrs) ∧ x ∉ c.addrs := by
          rcases TrieT.find_addrs t hfind with h | h
          · exact h
          · exact absurd hnd h
        have hndc : c.addrs.Nodup := (TrieT.find_props t hfind).2.1 hnd
        obtain ⟨i1, i2, i3⟩ :=
          TrieT.pruneBelow_frame rest rest2 c true true hz1 hz3 hne1 hndc hfc hfc2
        obtain ⟨c1, hc1⟩ : ∃ c1, TrieT.pruneBelow c rest = some c1 := by
          cases hp : TrieT.pruneBelow c rest with
          | none => exact absurd hp i2
          | some c1 => exact ⟨c1, rfl⟩
        have hpl : t.remove junk (b :: rest) = TrieT.setKids b c1 t := by
          simp only [TrieT.remove, hfind, hc1]
        refine ⟨?_, ?_, ?_⟩
        · intro y hy hy1
          simp only [TrieT.pathNodes, hfind, List.mem_cons] at hy
          simp only [TrieT.freedBelow, hfind, hc1] at hy1
          rcases hy with hy | hy
          · subst hy
            exact hxl.2.2 (TrieT.pathNodes_sub rest c hndc y (TrieT.freedBelow_sub rest c y hy1))
          · exact i1 y hy hy1
        · obtain ⟨hfs, _, _⟩ := @TrieT.find_setKids _ _ _ _ _ _ c1 t hfind
          rw [hpl, TrieT.runLookup_of_find_cons hfs hb, TrieT.runLookup_of_find_cons hfind hb,
            (i3 c1 hc1 true).1]
        · obtain ⟨hfs, _, _⟩ := @TrieT.find_setKids _ _ _ _ _ _ c1 t hfind
          rw [hpl]
          simp only [TrieT.pathNodes, hfs, hfind, (i3 c1 hc1 true).2]
  · obtain ⟨g1, g2, g3, g4⟩ := TrieT.find_diverge t hfind hfind2 hh
    have hfr : ∃ s1, TrieT.find (key2.headD 0) (t.remove junk key) = .node x2 k2 d2 c2 s1 := by
      rcases TrieT.remove_cases junk hfind with h | h | ⟨c1, h⟩
      · rw [h]; exact ⟨s2, hfind2⟩
      · rw [h]; exact g2
      · rw [h]; exact g3 c1
    obtain ⟨s1, hs1⟩ := hfr
    refine ⟨?_, (TrieT.runLookup_congr_find hz2 hfind2 hs1 mf2 mf3).1,
      (TrieT.runLookup_congr_find hz2 hfind2 hs1 mf2 mf3).2⟩
    intro y hy hy1
    exact g4 hnd y
      (TrieT.pathNodes_sub_found hfind hnd y (TrieT.freedBelow_sub _ t y hy1))
      (TrieT.pathNodes_sub_found hfind2 hnd y hy)

theorem TrieT.find_leaves {b x k : Nat} {d : Option Nat} {c s : TrieT} :
    ∀ (t : TrieT), TrieT.find b t = .node x k d c s →
      (if k = 0 then 1 else 0) + c.leaves ≤ t.leaves := by
  intro t
  induction t with
  | nil => intro h; simp [TrieT.find] at h
  | node a ka da ca sa _ ihs =>
    intro h
    simp only [TrieT.find] at h
    split_ifs at h with hk
    · cases h
      simp only [TrieT.leaves]
      omega
    · have := ihs h
      simp only [TrieT.leaves]
      omega

theorem TrieT.found_leaves :
    ∀ (r : List Nat) (level : TrieT) (mf : Bool), 0 ∉ r →
      (level.runLookup r mf).isFound = true → 1 ≤ level.leaves := by
  intro r
  induction r with
  | nil =>
    intro level mf _ h
    obtain ⟨x, k, d, c, s, hf⟩ := TrieT.runLookup_found_nil h
    have hk := TrieT.find_key hf
    have := TrieT.find_leaves level hf
    simp only [hk, if_true] at this
    omega
  | cons b rest ih =>
    intro level mf hz h
    have hb : b ≠ 0 := fun h0 => hz (h0 ▸ List.mem_cons_self _ _)
    obtain ⟨x, k, d, c, s, hf, hfc⟩ := TrieT.runLookup_found_cons hb h
    have := TrieT.find_leaves level hf
    have := ih c true (fun h => hz (List.mem_cons_of_mem _ h)) hfc
    omega

theorem TrieT.leaves_le_size (t : TrieT) : t.leaves ≤ t.size := by
  induction t with
  | nil => simp [TrieT.leaves, TrieT.size]
  | node a k d c s ihc ihs =>
    simp only [TrieT.leaves, TrieT.size]
    split_ifs <;> omega

theorem TrieT.dropFound_size (b : Nat) : ∀ (t : TrieT), (TrieT.dropFound b t).size ≤ t.size := by
  intro t
  induction t with
  | nil => simp [TrieT.dropFound]
  | node a k d c s _ ihs =>
    simp only [TrieT.dropFound]
    split_ifs
    · simp only [TrieT.size]; omega
    · simp only [TrieT.size]; omega

theorem TrieT.pruneBelow_size :
    ∀ (r : List Nat) (level l1 : TrieT), level.pruneBelow r = some l1 →
      l1.size ≤ level.size := by
  intro r
  induction r with
  | nil =>
    intro level l1 h
    simp only [TrieT.pruneBelow] at h
    split_ifs at h
    simp only [Option.some.injEq] at h
    exact h ▸ TrieT.dropFound_size 0 level
  | cons b rest ih =>
    intro level l1 h
    simp only [TrieT.pruneBelow] at h
    cases hf : TrieT.find b level with
    | nil =>
      rw [hf] at h
      simp only [Option.some.injEq] at h
      exact h ▸ le_refl _
    | node x k d c s =>
      rw [hf] at h
      simp only at h
      cases hp : TrieT.pruneBelow c rest with
      | some c1 =>
        rw [hp] at h
        simp only [Option.some.injEq] at h
        have h1 := ih c c1 hp
        obtain ⟨_, h2, _⟩ := @TrieT.find_setKids _ _ _ _ _ _ c1 level hf
        rw [← h]
        omega
      | none =>
        rw [hp] at h
        simp only at h
        split_ifs at h
        simp only [Option.some.injEq] at h
        exact h ▸ TrieT.dropFound_size b level

theorem TrieT.remove_size (junk : Nat) (t : TrieT) (key : List Nat) :
    (t.remove junk key).size ≤ t.size := by
  cases key with
  | nil =>
    simp only [TrieT.remove]
    split_ifs
    · exact le_refl _
    · exact TrieT.dropFound_size 0 t
  | cons b rest =>
    simp only [TrieT.remove]
    cases hf : TrieT.find b t with
    | nil => exact le_refl _
    | node x k d c s =>
      simp only
      cases hp : TrieT.pruneBelow c rest with
      | some c1 =>
        have h1 := TrieT.pruneBelow_size rest c c1 hp
        obtain ⟨_, h2, _⟩ := @TrieT.find_setKids _ _ _ _ _ _ c1 t hf
        simp only
        omega
      | none =>
        simp only
        split_ifs
        · exact le_refl _
        · exact TrieT.dropFound_size b t

theorem u32_dec_of_pos {n : Nat} (h1 : 1 ≤ n) (h2 : n < 2 ^ 32) : u32_dec n + 1 = n := by
  unfold u32_dec
  have : n + 2 ^ 32 - 1 = (n - 1) + 2 ^ 32 := by omega
  rw [this, Nat.add_mod_right, Nat.mod_eq_of_lt (by omega)]
  omega

theorem TrieT.lookup_eq_runLookup {t : TrieT} {key : List Nat} (mf : Bool)
    (h : (t.runLookup key mf).isFound = true) : t.lookup key = t.runLookup key mf := by
  cases t with
  | nil => simp [TrieT.runLookup, TrieLook.isFound] at h
  | node a k d c s =>
    simp only [TrieT.lookup]
    cases key with
    | nil =>
      simp only [TrieT.runLookup] at h ⊢
      cases hf : TrieT.find 0 (.node a k d c s) with
      | nil => rw [hf] at h; cases mf <;> simp [TrieLook.isFound] at h
      | node _ _ _ _ _ => rfl
    | cons b rest =>
      simp only [TrieT.runLookup] at h ⊢
      cases hf : TrieT.find b (.node a k d c s) with
      | nil => rw [hf] at h; cases mf <;> simp [TrieLook.isFound] at h
      | node _ _ _ _ _ => rfl

/-! ## Claims on the removal from the prefix index -/

/-- Claim C19.  On a well-formed trie, `trie_remove` of a stored key shorter
than `MAX_KEY_LEN` returns `EOK`, and `trie_get_count` of the trie it leaves is
exactly one less than before.  This holds for every value `junk` of the stack
word that the second phase reads below `delete_arr`. -/
theorem trie_remove_decrements_count (fuel junk : Nat) (trie : trie_t) (t : TrieT)
    (key : List Nat) (hwf : TrieWF trie t) (hz : 0 ∉ key) (hlen : key.length < MAX_KEY_LEN)
    (hstored : (t.lookup key).isFound = true) (hf : t.size + key.length + 1 < fuel) :
    ∃ trie1, trie_remove fuel junk trie (some key) = .ok (trie1, EOK) ∧
      trie_get_count trie1 + 1 = trie_get_count trie := by
  obtain ⟨hrep, hnd, _, _, _, hdist, _, hleaf, hsize⟩ := hwf
  obtain ⟨trie1, h1, _, _, h4⟩ :=
    trie_remove_spec fuel junk trie t key hrep hnd hdist hsize hz hlen hstored hf
  refine ⟨trie1, h1, ?_⟩
  have hfound : (t.runLookup key false).isFound = true := by
    cases t with
    | nil => simp [TrieT.lookup, TrieLook.isFound] at hstored
    | node a k d c s => exact hstored
  have hl1 := TrieT.found_leaves key t false hz hfound
  have hl2 := t.leaves_le_size
  simp only [trie_get_count, h4]
  exact u32_dec_of_pos (by omega) (by omega)

theorem trie_remove_frame_spec (fuel junk : Nat) (trie : trie_t) (t : TrieT)
    (key key2 : List Nat) (hwf : TrieWF trie t) (hz : 0 ∉ key) (hz2 : 0 ∉ key2)
    (hlen : key.length < MAX_KEY_LEN) (hstored : (t.lookup key).isFound = true)
    (hstored2 : (t.lookup key2).isFound = true) (hne : key2 ≠ key)
    (hf : t.size + key.length + key2.length + 1 < fuel) :
    ∃ trie1 payload, trie_remove fuel junk trie (some key) = .ok (trie1, EOK) ∧
      trie_lookup fuel trie key2 = .ok (.value payload) ∧
      trie_lookup fuel trie1 key2 = .ok (.value payload) ∧
      TrieRep trie1.mem (t.remove junk key) trie1.root ∧
      (t.remove junk key).pathNodes key2 = t.pathNodes key2 ∧
      ∀ x ∈ t.pathNodes key2, x ∉ trie1.freed := by
  obtain ⟨hrep, hnd, _, hfr, _, hdist, _, _, hsize⟩ := hwf
  obtain ⟨trie1, h1, h2, h3, _⟩ :=
    trie_remove_spec fuel junk trie t key hrep hnd hdist hsize hz hlen hstored (by omega)
  have hfound : (t.runLookup key false).isFound = true ∧
      (t.runLookup key2 false).isFound = true ∧ t.lookup key2 = t.runLookup key2 false := by
    cases t with
    | nil => simp [TrieT.lookup, TrieLook.isFound] at hstored
    | node a k d c s => exact ⟨hstored, hstored2, rfl⟩
  obtain ⟨f1, f2, f3⟩ :=
    TrieT.remove_frame junk t key key2 false false false hz hz2 hne hnd hfound.1 hfound.2.1
  obtain ⟨x2, d2, hx2⟩ : ∃ x2 d2, t.lookup key2 = .found x2 d2 := by
    cases hl : t.lookup key2 with
    | found x2 d2 => exact ⟨x2, d2, rfl⟩
    | absent => rw [hl] at hstored2; simp [TrieLook.isFound] at hstored2
    | diverges => rw [hl] at hstored2; simp [TrieLook.isFound] at hstored2
    | no_value => rw [hl] at hstored2; simp [TrieLook.isFound] at hstored2
  have hx3 : (t.remove junk key).lookup key2 = .found x2 d2 := by
    rw [TrieT.lookup_eq_runLookup false (by rw [f2]; exact hfound.2.1), f2,
      ← hfound.2.2, hx2]
  have hsz := TrieT.remove_size junk t key
  refine ⟨trie1, d2, h1, ?_, ?_, h2, f3, ?_⟩
  · exact (trie_lookup_spec trie t key2 fuel hrep (by omega)).1 x2 d2 hx2
  · exact (trie_lookup_spec trie1 _ key2 fuel h2 (by omega)).1 x2 d2 hx3
  · intro x hx
    rw [h3]
    simp only [List.mem_append, not_or]
    exact ⟨f1 x hx, hfr x (TrieT.pathNodes_sub key2 t hnd x hx)⟩

theorem trie_remove_collect_overflow (m : TrieMem) (key : List Nat) (hz : 0 ∉ key)
    (hL : MAX_KEY_LEN ≤ key.length) :
    ∀ (n fuel : Nat) (level : TrieT) (p par : Option Nat) (i : Nat) (arr : TrieDelArr)
      (mf : Bool),
      MAX_KEY_LEN - i = n → i ≤ MAX_KEY_LEN → TrieRep m level p → level.distinct →
      level.size < 2 ^ 32 → (level.runLookup (key.drop i) mf).isFound = true →
      level.size + n + 1 < fuel →
      trie_remove_collect fuel m key i p par arr = .fault := by
  intro n
  induction n with
  | zero =>
    intro fuel level p par i arr mf hn hi hrep hdis hsz hfound hf
    obtain ⟨f, rfl⟩ : ∃ f, fuel = f + 1 := ⟨fuel - 1, by omega⟩
    have hmax : MAX_KEY_LEN ≤ i := by omega
    simp only [trie_remove_collect, hmax, if_true]
  | succ n ih =>
    intro fuel level p par i arr mf hn hi hrep hdis hsz hfound hf
    obtain ⟨f, rfl⟩ : ∃ f, fuel = f + 1 := ⟨fuel - 1, by omega⟩
    have hp := hrep.head_eq
    subst hp
    have hil : i < key.length := by omega
    have his : i < c_strlen key := by rw [c_strlen_eq_length hz]; omega
    have hmax : ¬ MAX_KEY_LEN ≤ i := by omega
    obtain ⟨b, rest, hdrop⟩ : ∃ b rest, key.drop i = b :: rest :=
      ⟨_, _, List.drop_eq_getElem_cons hil⟩
    obtain ⟨hb, hrest⟩ := c_char_at_drop_cons hdrop
    have hb0 : b ≠ 0 := by
      intro h0
      have : b ∈ key := List.mem_of_mem_drop (hdrop ▸ List.mem_cons_self b rest)
      exact hz (h0 ▸ this)
    rw [hdrop] at hfound
    obtain ⟨x, k, d, c, s, hfind, hfc⟩ := TrieT.runLookup_found_cons hb0 hfound
    have hcl := TrieT.chainLength_le_size level
    have hscan := trie_remove_scan_spec m b false level level.head f
      { match_found := false,
        entry := { arr i with first_node := level.head, num_siblings := 0, num_children := 0 },
        parent := par, level := level.head }
      x k d c s hrep (TrieT.distinct_chainKeys hdis) hfind (by omega) (by simp; omega)
    obtain ⟨_, _, hcsz, hcd⟩ := TrieT.find_props level hfind
    have hfrep := hrep.find_rep (b := b)
    rw [hfind] at hfrep
    simp only [trie_remove_collect, hmax, if_false, his, not_true_eq_false, decide_False,
      hb, hscan, Bool.false_eq_true]
    exact ih f c (m x).children (some x) (i + 1) _ true (by omega) (by omega) hfrep.2.2.2.1
      (hcd hdis) (by omega) (by rw [hrest]; exact hfc) (by omega)

theorem trie_remove_long_key_faults (fuel junk : Nat) (trie : trie_t) (t : TrieT)
    (key : List Nat) (hrep : TrieRep trie.mem t trie.root) (hdist : t.distinct)
    (hsize : t.size < 2 ^ 32) (hz : 0 ∉ key) (hL : MAX_KEY_LEN ≤ key.length)
    (hfound : (t.lookup key).isFound = true) (hf : t.size + MAX_KEY_LEN + 1 < fuel) :
    trie_remove fuel junk trie (some key) = .fault := by
  have hfound1 : (t.runLookup key false).isFound = true := by
    cases t with
    | nil => simp [TrieT.lookup, TrieLook.isFound] at hfound
    | node a k d c s => exact hfound
  obtain ⟨a, ha⟩ : ∃ a, trie.root = some a := by
    cases t with
    | nil => simp [TrieT.lookup, TrieLook.isFound] at hfound
    | node a k d c s => exact ⟨a, hrep.1⟩
  have hc := trie_remove_collect_overflow trie.mem key hz hL MAX_KEY_LEN fuel t trie.root none 0
    (fun _ => ⟨none, none, none, 0, 0⟩) false (by omega) (Nat.zero_le _) hrep hdist hsize
    (by simpa using hfound1) hf
  rw [ha] at hc
  simp only [trie_remove, ha, hc]

/-! ## Instances of the claims on counts, insertion and removal at concrete inputs -/

theorem bst_get_count_after_run_witness : bst_get_count bst_run_example = 3 - 1 :=
  bst_get_count_after_run bst_key_id bst_mem_null 8
    [.insert (some 50), .insert (some 25), .insert (some 75), .remove (some 25)]
    bst_run_example [EOK, EOK, EOK, EOK] rfl (by decide) (by decide)

theorem trie_lookup_after_insert_witness :
    TrieWF (trie_after 50 0 [.insert trie_key_ann 1])
        (trie_shape 10 (trie_after 50 0 [.insert trie_key_ann 1]).mem
          (trie_after 50 0 [.insert trie_key_ann 1]).root) ∧
      ∃ trie1 st,
        trie_insert 40 (trie_after 50 0 [.insert trie_key_ann 1]) (some trie_key_andrew)
            (some 2) = .ok (trie1, st) ∧
          trie_lookup 40 trie1 trie_key_andrew = .ok (.value (some 2)) :=
  ⟨by decide,
    trie_lookup_after_insert (trie_after 50 0 [.insert trie_key_ann 1])
      (trie_shape 10 (trie_after 50 0 [.insert trie_key_ann 1]).mem
        (trie_after 50 0 [.insert trie_key_ann 1]).root)
      trie_key_andrew (some 2) 40 (by decide) (by decide) (by decide) (by decide) (by decide)
      (by decide)⟩

theorem trie_remove_decrements_count_witness :
    TrieWF trie_ann_annabel trie_ann_annabel_shape ∧
      ∃ trie1, trie_remove 40 1 trie_ann_annabel (some trie_key_annabel) = .ok (trie1, EOK) ∧
        trie_get_count trie1 + 1 = trie_get_count trie_ann_annabel :=
  ⟨by decide,
    trie_remove_decrements_count 40 1 trie_ann_annabel trie_ann_annabel_shape
      trie_key_annabel (by decide) (by decide) (by decide) (by decide) (by decide)⟩

/-! ## Claims on iteration, round trips and statuses of the prefix index -/

/-- Claim C21 (code defect).  The records 1, 2, 3 with the pairwise distinct
keys "ab", "ac", "a" are inserted into a newly created trie.  After "ab" and
"ac" the iteration `trie_get_least`, `trie_get_next`, ... returns 1, 2.  After
"a" has been inserted as well it returns 1, 3 and ends: record 2 is never
returned, because the leaf node of "a" was stored over the sibling link that
led to the branch "c". -/
theorem trie_iterate_misses_record :
    trie_iterate 10 50
        (trie_built trie_abc_get_key 50 0 [.insert trie_key_ab 1, .insert trie_key_ac 2]) =
        .ok [1, 2] ∧
      trie_iterate 10 50
        (trie_built trie_abc_get_key 50 0
          [.insert trie_key_ab 1, .insert trie_key_ac 2, .insert trie_key_a 3]) =
        .ok [1, 3] := by
  constructor <;> decide

/-- Claim C22 (code defect).  The pairwise distinct keys "ab", "ac", "a" are
inserted into a newly created trie and then removed.  `trie_remove` of "ac"
returns `ENOTFOUND` (for every value of `junk`, also as the first removal),
and after the three removals `node_count` is 2, `trie_get_count` is 1,
`trie_empty` is false and `trie_destroy` returns `EFAIL`. -/
theorem trie_round_trip_leaves_nodes :
    trie_scenario 50 0 0
        [.insert trie_key_ab 1, .insert trie_key_ac 2, .insert trie_key_a 3,
          .remove trie_key_ab, .remove trie_key_ac, .remove trie_key_a] =
        .ok ([.no_value, .no_value, .value EOK, .value EOK, .value ENOTFOUND, .value EOK],
          2, 1, [100, 105, 101, 102]) ∧
      trie_empty (trie_after 50 0
        [.insert trie_key_ab 1, .insert trie_key_ac 2, .insert trie_key_a 3,
          .remove trie_key_ab, .remove trie_key_ac, .remove trie_key_a]) = false ∧
      (trie_destroy (trie_after 50 0
        [.insert trie_key_ab 1, .insert trie_key_ac 2, .insert trie_key_a 3,
          .remove trie_key_ab, .remove trie_key_ac, .remove trie_key_a])).2 = EFAIL ∧
      ∀ junk, trie_scenario 50 junk 0
        [.insert trie_key_ab 1, .insert trie_key_ac 2, .insert trie_key_a 3,
          .remove trie_key_ac] =
        .ok ([.no_value, .no_value, .value EOK, .value ENOTFOUND], 6, 3, []) := by
  refine ⟨by decide, by decide, by decide, ?_⟩
  intro junk
  rfl

/-- Claim C25 (code defect).  `trie_insert` of "ann" into a newly created trie
(first key) and then of "andrew" (new branch) both end without a status: the
call goes through `trie_insert_internal`, which leaves its loop with `break`
and reaches the end of the function without `return`.  Only the insertion of
"a", a key that is the beginning of stored keys, returns `EOK`. -/
theorem trie_insert_returns_no_status :
    trie_scenario 50 0 0 [.insert trie_key_ann 1] = .ok ([.no_value], 4, 1, []) ∧
      trie_scenario 50 0 0 [.insert trie_key_ann 1, .insert trie_key_andrew 2] =
        .ok ([.no_value, .no_value], 9, 2, []) ∧
      trie_scenario 50 0 0
          [.insert trie_key_ann 1, .insert trie_key_andrew 2, .insert trie_key_a 3] =
        .ok ([.no_value, .no_value, .value EOK], 10, 3, []) := by
  refine ⟨by decide, by decide, by decide⟩

/-- Claim C26 (code defect).  `trie_insert` with a null key returns `EINVAL`
and the unchanged trie.  With the key "ann" and a null payload it does not
return `EINVAL`: it builds the four nodes of the key, raises `node_count` to 4
and `leaf_count` to 1, sets the root, and ends without a status. -/
theorem trie_insert_null_data_not_rejected :
    (∀ (fuel : Nat) (trie : trie_t) (data : Option Nat),
        trie_insert fuel trie none data = .ok (trie, .value EINVAL)) ∧
      (match trie_insert 50 (trie_create (fun _ => none) 0 trie_mem_null 100 1000)
          (some trie_key_ann) none with
        | .ok (trie1, st) => some (st, trie1.node_count, trie1.leaf_count, trie1.root)
        | _ => none) = some (.no_value, 4, 1, some 100) := by
  refine ⟨fun _ _ _ => rfl, by decide⟩

/-! ## Claims on the linked lists -/

/-- Claim C27 (code defect).  On a newly created singly linked list the calls
`list_insert` 1, `list_remove` 1, `list_insert_head` 2 all return `EOK`; the
abstract sequence is then `[2]`, but `list_get_tail` returns element 1, which
is no longer in the list.  After `list_insert_tail` 3 the abstract sequence is
`[2, 3]`, but the walk from `list_get_head` yields `[2]` while
`list_get_count` is 2: `list_insert_head` never sets `list_tail`, so element 3
was linked behind the removed element 1. -/
theorem list_walk_differs_from_abstract :
    list_scenario 10 [.insert 1, .remove 1, .insert_head 2] =
        some ([EOK, EOK, EOK], [2], 1, some 1) ∧
      list_abstract_run [.insert 1, .remove 1, .insert_head 2] = [2] ∧
      list_scenario 10 [.insert 1, .remove 1, .insert_head 2, .insert_tail 3] =
        some ([EOK, EOK, EOK, EOK], [2], 2, some 3) ∧
      list_abstract_run [.insert 1, .remove 1, .insert_head 2, .insert_tail 3] = [2, 3] := by
  refine ⟨by decide, by decide, by decide, by decide⟩

/-- Claim C28 (code defect).  On a newly created doubly linked list
`llist_insert` 1 and `llist_insert_after` 1 2 return `EOK`.  Afterwards
`llist_get_next` of element 1 is element 2, but `llist_get_prev` of element 2
is element 2 itself, not element 1: `llist_insert_after` stores
`prev_elem->next->prev = elem` after `prev_elem->next` has become `elem`. -/
theorem llist_get_prev_after_insert_after :
    (llist_run 10 (llist_create none llist_mem_null) [.insert 1, .insert_after 1 2]).map
        Prod.snd = some [EOK, EOK] ∧
      llist_get_next (llist_after 10 [.insert 1, .insert_after 1 2]) (some 1) = some 2 ∧
      llist_get_prev (llist_after 10 [.insert 1, .insert_after 1 2])
        (llist_get_next (llist_after 10 [.insert 1, .insert_after 1 2]) (some 1)) = some 2 := by
  refine ⟨by decide, by decide, by decide⟩

/-! ## Claims on removal from the ordered index -/

/-- Claim C29 (code defect).  The records 50, 25, 10, 40, 30, 35 are inserted.
Record 25 is not the root and has the two children 10 and 40; its in-order
successor 30 has the right child 35.  Before `bst_remove` of 25, `bst_lookup`
of the key 35 returns record 35; afterwards it returns `NULL`, and the
traversal no longer visits 35. -/
theorem bst_remove_loses_record_of_lookup :
    bst_scenario_lookup 10 [50, 25, 10, 40, 30, 35] [] 35 = some (some 35) ∧
      bst_scenario_lookup 10 [50, 25, 10, 40, 30, 35] [25] 35 = some none ∧
      bst_scenario 10 [50, 25, 10, 40, 30, 35] [25] = some ([EOK], 5, EFAIL, [10, 30, 40, 50]) := by
  refine ⟨by decide, by decide, by decide⟩

theorem bst_shape_no_right_loop (m : BstMem) (a : Nat) (h : (m a).right = some a) :
    ∀ (t : BstTree), ¬ BstShape m t (some a) := by
  intro t
  induction t with
  | nil => intro hs; exact absurd hs (by simp [BstShape])
  | node l x r _ ihr =>
    intro hs
    obtain ⟨hp, _, hr⟩ := hs
    simp only [Option.some.injEq] at hp
    subst hp
    rw [h] at hr
    exact ihr hr

/-- Claim C30 (code defect).  The records 50, 25, 75, 60 are inserted and the
root 50 is removed: `bst_remove` returns `EOK`, and the tree reachable from
the root is 50 with the children 25 and 75, which satisfies the ordering
invariant.  A second `bst_remove` of 50 returns `EOK` and leaves 75 as the
right child of 50 with 25 as its left child and 75 itself as its right child:
record 25 is now reachable through the right link of 50, and what is reachable
from the root is no tree at all. -/
theorem bst_remove_breaks_ordering :
    (bst_run 10 (bst_create bst_key_id bst_mem_null)
        [.insert (some 50), .insert (some 25), .insert (some 75), .insert (some 60),
          .remove (some 50), .remove (some 50)]).map Prod.snd =
        some [EOK, EOK, EOK, EOK, EOK, EOK] ∧
      BstShape
        (bst_after 10 [.insert (some 50), .insert (some 25), .insert (some 75),
          .insert (some 60), .remove (some 50)]).mem
        (.node (.node .nil 25 .nil) 50 (.node .nil 75 .nil))
        (bst_after 10 [.insert (some 50), .insert (some 25), .insert (some 75),
          .insert (some 60), .remove (some 50)]).root ∧
      BstOrdered bst_key_id (.node (.node .nil 25 .nil) 50 (.node .nil 75 .nil)) ∧
      (bst_after 10 [.insert (some 50), .insert (some 25), .insert (some 75),
          .insert (some 60), .remove (some 50), .remove (some 50)]).root = some 50 ∧
      ((bst_after 10 [.insert (some 50), .insert (some 25), .insert (some 75),
          .insert (some 60), .remove (some 50), .remove (some 50)]).mem 50).right = some 75 ∧
      ((bst_after 10 [.insert (some 50), .insert (some 25), .insert (some 75),
          .insert (some 60), .remove (some 50), .remove (some 50)]).mem 75).left = some 25 ∧
      ((bst_after 10 [.insert (some 50), .insert (some 25), .insert (some 75),
          .insert (some 60), .remove (some 50), .remove (some 50)]).mem 75).right = some 75 ∧
      ¬ ∃ t, BstShape
        (bst_after 10 [.insert (some 50), .insert (some 25), .insert (some 75),
          .insert (some 60), .remove (some 50), .remove (some 50)]).mem t
        (bst_after 10 [.insert (some 50), .insert (some 25), .insert (some 75),
          .insert (some 60), .remove (some 50), .remove (some 50)]).root := by
  refine ⟨by decide, by decide, by decide, by decide, by decide, by decide, by decide, ?_⟩
  rintro ⟨t, ht⟩
  cases t with
  | nil => exact absurd ht (by decide)
  | node l x r =>
    obtain ⟨hp, _, hr⟩ := ht
    have hx : x = 50 := by
      have h50 : (bst_after 10 [.insert (some 50), .insert (some 25), .insert (some 75),
          .insert (some 60), .remove (some 50), .remove (some 50)]).root = some 50 := by decide
      rw [h50] at hp
      exact (Option.some.inj hp).symm
    subst hx
    have h75 : ((bst_after 10 [.insert (some 50), .insert (some 25), .insert (some 75),
          .insert (some 60), .remove (some 50), .remove (some 50)]).mem 50).right = some 75 := by
      decide
    rw [h75] at hr
    exact bst_shape_no_right_loop _ 75 (by decide) r hr

/-! ## Removal of a key that is not stored -/

theorem TrieT.find_nil_not_mem {b : Nat} :
    ∀ (t : TrieT), TrieT.find b t = .nil → b ∉ t.chainKeys := by
  intro t
  induction t with
  | nil => intro _; simp [TrieT.chainKeys]
  | node a k d c s _ ihs =>
    intro h
    simp only [TrieT.find] at h
    split_ifs at h with hk
    simp only [TrieT.chainKeys, List.mem_cons, not_or]
    exact ⟨fun hb => hk hb.symm, ihs h⟩

theorem TrieT.find_nil_of_absent_nil {t : TrieT} {mf : Bool}
    (h : (t.runLookup [] mf).isFound = false) : TrieT.find 0 t = .nil := by
  cases t with
  | nil => rfl
  | node a k d c s =>
    simp only [TrieT.runLookup] at h
    cases hf : TrieT.find 0 (.node a k d c s) with
    | nil => rfl
    | node x kx dx cx sx =>
      rw [hf] at h
      simp [TrieLook.isFound] at h

theorem trie_remove_collect_absent (m : TrieMem) (key : List Nat) (hz : 0 ∉ key)
    (hL : key.length < MAX_KEY_LEN) :
    ∀ (n fuel : Nat) (level : TrieT) (p par : Option Nat) (i : Nat) (arr : TrieDelArr)
      (mf : Bool),
      key.length - i = n → i ≤ key.length → TrieRep m level p → level.distinct →
      level.size < 2 ^ 32 → (level.runLookup (key.drop i) mf).isFound = false →
      level.size + n + 1 < fuel →
      trie_remove_collect fuel m key i p par arr = .ok none := by
  intro n
  induction n with
  | zero =>
    intro fuel level p par i arr mf hn hi hrep hdis hsz hfound hf
    obtain ⟨f, rfl⟩ : ∃ f, fuel = f + 1 := ⟨fuel - 1, by omega⟩
    have hil : i = key.length := by omega
    have hns : ¬ i < c_strlen key := by rw [c_strlen_eq_length hz]; omega
    have hmax : ¬ MAX_KEY_LEN ≤ i := by omega
    have hdrop : key.drop i = [] := by rw [hil]; simp
    rw [hdrop] at hfound
    have hfind := TrieT.find_nil_of_absent_nil hfound
    have hcl := TrieT.chainLength_le_size level
    have hscan := trie_remove_scan_nomatch m 0 true level p f
      { match_found := false,
        entry := { arr i with first_node := p, num_siblings := 0, num_children := 0 },
        parent := par, level := p }
      hrep (TrieT.find_nil_not_mem level hfind) (by omega) (by simp; omega)
    simp only [trie_remove_collect, hmax, if_false, hns, not_false_eq_true, decide_True,
      if_true, hscan]
  | succ n ih =>
    intro fuel level p par i arr mf hn hi hrep hdis hsz hfound hf
    obtain ⟨f, rfl⟩ : ∃ f, fuel = f + 1 := ⟨fuel - 1, by omega⟩
    have hil : i < key.length := by omega
    have his : i < c_strlen key := by rw [c_strlen_eq_length hz]; omega
    have hmax : ¬ MAX_KEY_LEN ≤ i := by omega
    obtain ⟨b, rest, hdrop⟩ : ∃ b rest, key.drop i = b :: rest :=
      ⟨_, _, List.drop_eq_getElem_cons hil⟩
    obtain ⟨hb, hrest⟩ := c_char_at_drop_cons hdrop
    have hb0 : b ≠ 0 := by
      intro h0
      have : b ∈ key := List.mem_of_mem_drop (hdrop ▸ List.mem_cons_self b rest)
      exact hz (h0 ▸ this)
    rw [hdrop] at hfound
    have hcl := TrieT.chainLength_le_size level
    cases hfind : TrieT.find b level with
    | nil =>
      have hscan := trie_remove_scan_nomatch m b false level p f
        { match_found := false,
          entry := { arr i with first_node := p, num_siblings := 0, num_children := 0 },
          parent := par, level := p }
        hrep (TrieT.find_nil_not_mem level hfind) (by omega) (by simp; omega)
      simp only [trie_remove_collect, hmax, if_false, his, not_true_eq_false, decide_False,
        hb, hscan, Bool.false_eq_true, if_true]
    | node x k d c s =>
      have hp := hrep.head_eq
      subst hp
      rw [TrieT.runLookup_of_find_cons hfind hb0] at hfound
      have hscan := trie_remove_scan_spec m b false level level.head f
        { match_found := false,
          entry := { arr i with first_node := level.head, num_siblings := 0,
                                num_children := 0 },
          parent := par, level := level.head }
        x k d c s hrep (TrieT.distinct_chainKeys hdis) hfind (by omega) (by simp; omega)
      obtain ⟨_, _, hcsz, hcd⟩ := TrieT.find_props level hfind
      have hfrep := hrep.find_rep (b := b)
      rw [hfind] at hfrep
      simp only [trie_remove_collect, hmax, if_false, his, not_true_eq_false, decide_False,
        hb, hscan, Bool.false_eq_true]
      exact ih f c (m x).children (some x) (i + 1) _ true (by omega) (by omega)
        hfrep.2.2.2.1 (hcd hdis) (by omega) (by rw [hrest]; exact hfound) (by omega)

/-- Claim C23, counterexample.  On a newly created (empty) trie `trie_remove`
of a key, which is not stored, returns `EINVAL`, not `ENOTFOUND`. -/
theorem trie_remove_empty_returns_einval :
    (match trie_remove 50 0 (trie_create (fun _ => none) 0 trie_mem_null 100 1000)
        (some trie_key_ann) with
      | .ok (_, st) => some st
      | _ => none) = some EINVAL ∧ EINVAL ≠ ENOTFOUND := by
  constructor <;> decide

/-- Claim C23, amended.  On a well-formed trie `trie_remove` of a key shorter
than `MAX_KEY_LEN` that is not stored returns and hands back the unchanged
trie; the status is `ENOTFOUND` when the trie is not empty and `EINVAL` when
it is empty.  This holds for every value `junk` of the stack word below
`delete_arr`. -/
theorem trie_remove_absent_key (fuel junk : Nat) (trie : trie_t) (t : TrieT) (key : List Nat)
    (hwf : TrieWF trie t) (hz : 0 ∉ key) (hlen : key.length < MAX_KEY_LEN)
    (hns : (t.lookup key).isFound = false) (hf : t.size + key.length + 1 < fuel) :
    ∃ st, trie_remove fuel junk trie (some key) = .ok (trie, st) ∧
      (trie.root = none → st = EINVAL) ∧ (trie.root ≠ none → st = ENOTFOUND) := by
  obtain ⟨hrep, _, _, _, _, hdist, _, _, hsize⟩ := hwf
  cases hr : trie.root with
  | none =>
    refine ⟨EINVAL, by simp only [trie_remove, hr], (fun _ => rfl), (fun h => absurd rfl h)⟩
  | some root =>
    have hns1 : (t.runLookup key false).isFound = false := by
      cases t with
      | nil =>
        have : trie.root = none := hrep
        rw [hr] at this
        cases this
      | node a k d c s => exact hns
    have hc := trie_remove_collect_absent trie.mem key hz hlen key.length fuel t trie.root none 0
      (fun _ => ⟨none, none, none, 0, 0⟩) false (by omega) (Nat.zero_le _) hrep hdist hsize
      (by simpa using hns1) hf
    rw [hr] at hc
    refine ⟨ENOTFOUND, by simp only [trie_remove, hr, hc], (fun h => by cases h), (fun _ => rfl)⟩

/-- Claim C24.  Whenever `trie_remove` returns a status other than `EOK`, the
status is `EINVAL` or `ENOTFOUND` and the trie handed back is the one passed
in: root, `node_count`, `leaf_count`, every link of every node and the list of
freed nodes are what they were. -/
theorem trie_remove_failure_keeps_trie (fuel junk : Nat) (trie trie1 : trie_t)
    (key : Option (List Nat)) (st : Int)
    (h : trie_remove fuel junk trie key = .ok (trie1, st)) (hst : st ≠ EOK) :
    (st = EINVAL ∨ st = ENOTFOUND) ∧ trie1 = trie := by
  unfold trie_remove at h
  cases key with
  | none =>
    simp only [TrieRun.ok.injEq, Prod.mk.injEq] at h
    exact ⟨Or.inl h.2.symm, h.1.symm⟩
  | some k =>
    simp only at h
    cases hr : trie.root with
    | none =>
      rw [hr] at h
      simp only [TrieRun.ok.injEq, Prod.mk.injEq] at h
      exact ⟨Or.inl h.2.symm, h.1.symm⟩
    | some root =>
      rw [hr] at h
      simp only at h
      cases hc : trie_remove_collect fuel trie.mem k 0 (some root) none
          (fun _ => ⟨none, none, none, 0, 0⟩) with
      | out_of_fuel => rw [hc] at h; cases h
      | fault => rw [hc] at h; cases h
      | ok res =>
        rw [hc] at h
        cases res with
        | none =>
          simp only [TrieRun.ok.injEq, Prod.mk.injEq] at h
          exact ⟨Or.inr h.2.symm, h.1.symm⟩
        | some arr =>
          simp only at h
          cases hp : trie_remove_prune fuel junk (c_strlen k) trie arr with
          | out_of_fuel => rw [hp] at h; cases h
          | fault => rw [hp] at h; cases h
          | ok t2 =>
            rw [hp] at h
            simp only [TrieRun.ok.injEq, Prod.mk.injEq] at h
            exact absurd h.2.symm hst

/-! ## Instances of the claims on failing removals at concrete inputs -/

theorem trie_remove_absent_key_witness :
    TrieWF trie_ann_annabel trie_ann_annabel_shape ∧
      ∃ st, trie_remove 40 0 trie_ann_annabel (some trie_key_anx) =
          .ok (trie_ann_annabel, st) ∧
        (trie_ann_annabel.root = none → st = EINVAL) ∧
        (trie_ann_annabel.root ≠ none → st = ENOTFOUND) :=
  ⟨by decide,
    trie_remove_absent_key 40 0 trie_ann_annabel trie_ann_annabel_shape trie_key_anx
      (by decide) (by decide) (by decide) (by decide) (by decide)⟩

theorem trie_remove_failure_keeps_trie_witness :
    trie_remove 40 0 trie_ann_annabel (some trie_key_andrew) =
        .ok (trie_ann_annabel, ENOTFOUND) ∧
      ((ENOTFOUND = EINVAL ∨ ENOTFOUND = ENOTFOUND) ∧ trie_ann_annabel = trie_ann_annabel) :=
  ⟨rfl,
    trie_remove_failure_keeps_trie 40 0 trie_ann_annabel trie_ann_annabel
      (some trie_key_andrew) ENOTFOUND rfl (by decide)⟩

/-! ## Claims on the invariants of the ordered index -/

/-- Claim C31 (code defect).  The records 50, 25, 75 are inserted; the tree is
well formed, so the parent-reference invariant holds.  `bst_remove` of the
root 50 returns `EOK` and leaves 50 as the root with the left child 25, whose
parent reference now is 75: no tree reachable from the root satisfies the
parent-reference invariant any more. -/
theorem bst_remove_root_breaks_parents :
    BstWF (bst_after 10 [.insert (some 50), .insert (some 25), .insert (some 75)])
        (.node (.node .nil 25 .nil) 50 (.node .nil 75 .nil)) ∧
      (bst_run 10 (bst_create bst_key_id bst_mem_null)
        [.insert (some 50), .insert (some 25), .insert (some 75), .remove (some 50)]).map
          Prod.snd = some [EOK, EOK, EOK, EOK] ∧
      (bst_after 10 [.insert (some 50), .insert (some 25), .insert (some 75),
        .remove (some 50)]).root = some 50 ∧
      ((bst_after 10 [.insert (some 50), .insert (some 25), .insert (some 75),
        .remove (some 50)]).mem 50).left = some 25 ∧
      ((bst_after 10 [.insert (some 50), .insert (some 25), .insert (some 75),
        .remove (some 50)]).mem 25).parent = some 75 ∧
      ¬ ∃ t, BstShape
          (bst_after 10 [.insert (some 50), .insert (some 25), .insert (some 75),
            .remove (some 50)]).mem t
          (bst_after 10 [.insert (some 50), .insert (some 25), .insert (some 75),
            .remove (some 50)]).root ∧
        BstParents
          (bst_after 10 [.insert (some 50), .insert (some 25), .insert (some 75),
            .remove (some 50)]).mem t none := by
  refine ⟨by decide, by decide, by decide, by decide, by decide, ?_⟩
  rintro ⟨t, hs, hp⟩
  have h50 : (bst_after 10 [.insert (some 50), .insert (some 25), .insert (some 75),
      .remove (some 50)]).root = some 50 := by decide
  have h25 : ((bst_after 10 [.insert (some 50), .insert (some 25), .insert (some 75),
      .remove (some 50)]).mem 50).left = some 25 := by decide
  have hpar : ((bst_after 10 [.insert (some 50), .insert (some 25), .insert (some 75),
      .remove (some 50)]).mem 25).parent ≠ some 50 := by decide
  rw [h50] at hs
  cases t with
  | nil => exact absurd hs (by simp [BstShape])
  | node l x r =>
    obtain ⟨hx, hl, _⟩ := hs
    simp only [Option.some.injEq] at hx
    subst hx
    rw [h25] at hl
    cases l with
    | nil => exact absurd hl (by simp [BstShape])
    | node ll y lr =>
      obtain ⟨hy, _, _⟩ := hl
      simp only [Option.some.injEq] at hy
      subst hy
      exact hpar hp.2.1.1

/-- Claim C32 (code defect).  After `bst_insert` of record 50 and a second
`bst_insert` with the same key, `bst_get_count` is 2 while the tree reachable
from the root is the single node 50.  After `bst_insert` of 50 and
`bst_remove` of the absent record 60, which returns `EOK`, `bst_get_count` is
0 while node 50 is still reachable and traversed. -/
theorem bst_get_count_is_no_live_count :
    bst_scenario 8 [50, 50] [] = some ([], 2, EFAIL, [50]) ∧
      BstShape (bst_after 8 [.insert (some 50), .insert (some 50)]).mem (.node .nil 50 .nil)
        (bst_after 8 [.insert (some 50), .insert (some 50)]).root ∧
      bst_scenario 8 [50] [60] = some ([EOK], 0, EOK, [50]) ∧
      BstShape (bst_after 8 [.insert (some 50), .remove (some 60)]).mem (.node .nil 50 .nil)
        (bst_after 8 [.insert (some 50), .remove (some 60)]).root := by
  refine ⟨by decide, by decide, by decide, by decide⟩

/-! ## Claims on references, statuses and bounds of the prefix index -/

/-- Claim C33 (code defect).  "ann" and "annabel" are inserted; the leaf node
of "ann" (address 103) is the first node of its sibling chain and the node 'a'
of "annabel" (address 104) follows it.  `trie_remove` of "ann" returns `EOK`
and frees node 103.  Node 104 remains, it is now the first child of node 102,
and its `parent` reference still is the freed node 103. -/
theorem trie_remove_leaves_parent_to_freed_node :
    trie_scenario 50 0 0
        [.insert trie_key_ann 1, .insert trie_key_annabel 2, .remove trie_key_ann] =
        .ok ([.no_value, .no_value, .value EOK], 8, 1, [103]) ∧
      ((trie_after 50 0
        [.insert trie_key_ann 1, .insert trie_key_annabel 2, .remove trie_key_ann]).mem
          102).children = some 104 ∧
      ((trie_after 50 0
        [.insert trie_key_ann 1, .insert trie_key_annabel 2, .remove trie_key_ann]).mem
          104).parent = some 103 ∧
      103 ∈ (trie_after 50 0
        [.insert trie_key_ann 1, .insert trie_key_annabel 2, .remove trie_key_ann]).freed := by
  refine ⟨by decide, by decide, by decide, by decide⟩

/-- Claim C36 (code defect).  `trie_insert` of the empty key with payload 7
into a newly created trie ends without a status, creates one node with key
byte 0 and no payload, and leaves `leaf_count` at 0; `trie_lookup` of the
empty key afterwards returns `NULL`. -/
theorem trie_insert_empty_key_stores_nothing :
    trie_scenario 50 0 0 [.insert [] 7] = .ok ([.no_value], 1, 0, []) ∧
      (trie_after 50 0 [.insert [] 7]).mem 100 =
        { key := 0, data := none, sibling := none, children := none, parent := none } ∧
      trie_scenario_lookup 50 0 [.insert [] 7] [] = .ok (.value none) := by
  refine ⟨by decide, by decide, by decide⟩

/-- Claim C37 (code defect).  The trie holds "ann".  For the key "ab", whose
second byte does not match after the first byte matched, neither
`trie_lookup` nor `trie_lookup_internal` returns, whatever the fuel. -/
theorem trie_lookup_does_not_terminate :
    TrieWF (trie_after 50 0 [.insert trie_key_ann 1])
        (trie_shape 10 (trie_after 50 0 [.insert trie_key_ann 1]).mem
          (trie_after 50 0 [.insert trie_key_ann 1]).root) ∧
      (∀ fuel, trie_lookup fuel (trie_after 50 0 [.insert trie_key_ann 1]) trie_key_ab =
        .out_of_fuel) ∧
      ∀ fuel, trie_lookup_internal fuel (trie_after 50 0 [.insert trie_key_ann 1])
        trie_key_ab = .out_of_fuel := by
  refine ⟨by decide, ?_, ?_⟩
  · exact trie_lookup_never_returns _
      (trie_shape 10 (trie_after 50 0 [.insert trie_key_ann 1]).mem
        (trie_after 50 0 [.insert trie_key_ann 1]).root)
      trie_key_ab (by decide) (by decide)
  · intro fuel
    have hr : (trie_after 50 0 [.insert trie_key_ann 1]).root = some 100 := by decide
    unfold trie_lookup_internal
    rw [hr]
    exact trie_lookup_loop_diverges _ trie_key_ab fuel
      (trie_shape 10 (trie_after 50 0 [.insert trie_key_ann 1]).mem (some 100))
      (some 100) 0 false (by decide) (by decide)

/-- Claim C38 (code defect).  The trie holds the single key "a", shorter than
`MAX_KEY_LEN`.  `trie_remove` of "a" returns `EOK` whatever the word below
`delete_arr` holds, but what it leaves depends on that word: with the value 0
the root reference becomes `NULL`, with the value 1 the root reference still
is node 100, which has been freed.  The pruning loop reaches `key_index` 0 and
reads `delete_arr[-1].num_children`. -/
theorem trie_remove_reads_below_delete_arr :
    trie_scenario 50 0 0 [.insert trie_key_a 1, .remove trie_key_a] =
        .ok ([.no_value, .value EOK], 0, 0, [100, 101]) ∧
      (trie_after 50 0 [.insert trie_key_a 1, .remove trie_key_a]).root = none ∧
      trie_scenario 50 1 0 [.insert trie_key_a 1, .remove trie_key_a] =
        .ok ([.no_value, .value EOK], 0, 0, [100, 101]) ∧
      (trie_after 50 1 [.insert trie_key_a 1, .remove trie_key_a]).root = some 100 := by
  refine ⟨by decide, by decide, by decide, by decide⟩

/-- Claim C40 (code defect).  On a trie just created in a block whose
`leaf_count` word held 7, `trie_empty` is true and `trie_get_count` is 7.  On
a newly created trie whose `leaf_count` was 0, after `trie_insert` of the
empty key `trie_empty` is false and `trie_get_count` is 0. -/
theorem trie_empty_and_count_disagree :
    trie_empty (trie_create (fun _ => none) 7 trie_mem_null 100 1000) = true ∧
      trie_get_count (trie_create (fun _ => none) 7 trie_mem_null 100 1000) = 7 ∧
      trie_empty (trie_after 50 0 [.insert [] 7]) = false ∧
      trie_get_count (trie_after 50 0 [.insert [] 7]) = 0 := by
  refine ⟨by decide, by decide, by decide, by decide⟩

/-- Claim C39 (code defect).  `trie_insert` accepts the key of 64 bytes 'a'
(`MAX_KEY_LEN` bytes) and stores it: 65 nodes are created and `trie_lookup`
returns the payload.  `trie_remove` of this key stores into `delete_arr[64]`,
outside the array of `MAX_KEY_LEN` entries. -/
theorem trie_remove_overflows_delete_arr :
    trie_key_long.length = MAX_KEY_LEN ∧
      trie_scenario 200 0 0 [.insert trie_key_long 1] = .ok ([.no_value], 65, 1, []) ∧
      trie_scenario_lookup 200 0 [.insert trie_key_long 1] trie_key_long =
        .ok (.value (some 1)) ∧
      trie_scenario 200 0 0 [.insert trie_key_long 1, .remove trie_key_long] = .fault := by
  refine ⟨by decide, ?_, ?_, ?_⟩
  · set_option maxRecDepth 100000 in decide
  · set_option maxRecDepth 100000 in decide
  · set_option maxRecDepth 100000 in decide

/-! ## Shapes after insertion: invariants -/

theorem TrieT.chain_addrs (data : Option Nat) :
    ∀ (rest : List Nat) (a y : Nat),
      y ∈ (TrieT.chain data rest a).addrs ↔ a ≤ y ∧ y < a + rest.length + 1 := by
  intro rest
  induction rest with
  | nil =>
    intro a y
    simp only [TrieT.chain, TrieT.addrs, List.append_nil, List.mem_singleton, List.length_nil]
    omega
  | cons b rest ih =>
    intro a y
    simp only [TrieT.chain, TrieT.addrs, List.append_nil, List.mem_cons, ih, List.length_cons]
    omega

theorem TrieT.chain_nodup (data : Option Nat) :
    ∀ (rest : List Nat) (a : Nat), (TrieT.chain data rest a).addrs.Nodup := by
  intro rest
  induction rest with
  | nil => intro a; simp [TrieT.chain, TrieT.addrs]
  | cons b rest ih =>
    intro a
    simp only [TrieT.chain, TrieT.addrs, List.append_nil, List.nodup_cons, TrieT.chain_addrs]
    exact ⟨by omega, ih (a + 1)⟩

theorem TrieT.chain_ne_nil (data : Option Nat) (rest : List Nat) (a : Nat) :
    TrieT.chain data rest a ≠ .nil := by
  cases rest <;> simp [TrieT.chain]

theorem TrieT.chain_kidsOk (data : Option Nat) :
    ∀ (rest : List Nat) (a : Nat), 0 ∉ rest → (TrieT.chain data rest a).kidsOk := by
  intro rest
  induction rest with
  | nil => intro a _; simp [TrieT.chain, TrieT.kidsOk]
  | cons b rest ih =>
    intro a hz
    have hb : b ≠ 0 := fun h => hz (h ▸ List.mem_cons_self _ _)
    simp only [TrieT.chain, TrieT.kidsOk, and_true]
    exact ⟨⟨fun h => absurd h hb, fun h => absurd h (TrieT.chain_ne_nil _ _ _)⟩,
      ih (a + 1) (fun h => hz (List.mem_cons_of_mem _ h))⟩

theorem TrieT.chain_distinct (data : Option Nat) :
    ∀ (rest : List Nat) (a : Nat), (TrieT.chain data rest a).distinct := by
  intro rest
  induction rest with
  | nil => intro a; simp [TrieT.chain, TrieT.distinct, TrieT.chainKeys]
  | cons b rest ih =>
    intro a
    simp only [TrieT.chain, TrieT.distinct, TrieT.chainKeys, List.nodup_cons,
      List.not_mem_nil, not_false_eq_true, List.nodup_nil, and_self, true_and, and_true]
    exact ih (a + 1)

theorem TrieT.appendChain_addrs (new : TrieT) :
    ∀ (t : TrieT) (y : Nat),
      y ∈ (TrieT.appendChain new t).addrs ↔ y ∈ t.addrs ∨ y ∈ new.addrs := by
  intro t
  induction t with
  | nil => intro y; simp [TrieT.appendChain, TrieT.addrs]
  | node a k d c s _ ihs =>
    intro y
    simp only [TrieT.appendChain, TrieT.addrs, List.mem_cons, List.mem_append, ihs]
    tauto

theorem TrieT.appendChain_nodup (new : TrieT) :
    ∀ (t : TrieT), t.addrs.Nodup → new.addrs.Nodup →
      (∀ y ∈ t.addrs, y ∉ new.addrs) → (TrieT.appendChain new t).addrs.Nodup := by
  intro t
  induction t with
  | nil => intro _ hn _; exact hn
  | node a k d c s _ ihs =>
    intro hnd hn hdis
    simp only [TrieT.addrs, List.nodup_cons, List.nodup_append, List.mem_append,
      not_or] at hnd
    obtain ⟨⟨hac, has⟩, hndc, hnds, hdisj⟩ := hnd
    simp only [TrieT.appendChain, TrieT.addrs, List.nodup_cons, List.nodup_append,
      List.mem_append, not_or, TrieT.appendChain_addrs]
    refine ⟨⟨hac, has, hdis a (TrieT.mem_addrs_self _ _ _ _ _)⟩, hndc,
      ihs hnds hn (fun y hy => hdis y (TrieT.mem_addrs_sibling _ _ _ _ hy)), ?_⟩
    intro y hy1 hy2
    simp only [TrieT.appendChain_addrs] at hy2
    rcases hy2 with hy2 | hy2
    · exact hdisj hy1 hy2
    · exact hdis y (TrieT.mem_addrs_children _ _ _ _ hy1) hy2

theorem TrieT.appendChain_kidsOk (new : TrieT) :
    ∀ (t : TrieT), t.kidsOk → new.kidsOk → (TrieT.appendChain new t).kidsOk := by
  intro t
  induction t with
  | nil => intro _ hn; exact hn
  | node a k d c s _ ihs =>
    intro h hn
    exact ⟨h.1, h.2.1, ihs h.2.2 hn⟩

theorem TrieT.appendChain_chainKeys (new : TrieT) :
    ∀ (t : TrieT), (TrieT.appendChain new t).chainKeys = t.chainKeys ++ new.chainKeys := by
  intro t
  induction t with
  | nil => rfl
  | node a k d c s _ ihs => simp only [TrieT.appendChain, TrieT.chainKeys, ihs, List.cons_append]

theorem TrieT.appendChain_distinct (new : TrieT) :
    ∀ (t : TrieT), t.distinct → new.distinct →
      (∀ b ∈ new.chainKeys, b ∉ t.chainKeys) → (TrieT.appendChain new t).distinct := by
  intro t
  induction t with
  | nil => intro _ hn _; exact hn
  | node a k d c s _ ihs =>
    intro h hn hdis
    obtain ⟨h1, h2, h3⟩ := h
    have hs : ∀ b ∈ new.chainKeys, b ∉ s.chainKeys := by
      intro b hb hbs
      exact hdis b hb (by simp only [TrieT.chainKeys, List.mem_cons]; exact Or.inr hbs)
    refine ⟨?_, h2, ihs h3 hn hs⟩
    have := TrieT.appendChain_chainKeys new (.node a k d c s)
    simp only [TrieT.appendChain] at this
    rw [this]
    refine List.Nodup.append h1 (TrieT.distinct_chainKeys hn) ?_
    intro b hb1 hb2
    exact hdis b hb2 hb1

theorem TrieT.setKids_chainKeys (b : Nat) (kids : TrieT) :
    ∀ (t : TrieT), (TrieT.setKids b kids t).chainKeys = t.chainKeys := by
  intro t
  induction t with
  | nil => rfl
  | node a k d c s _ ihs =>
    simp only [TrieT.setKids]
    split_ifs
    · rfl
    · simp only [TrieT.chainKeys, ihs]

theorem TrieT.setKids_distinct (b : Nat) (kids : TrieT) (hk : kids.distinct) :
    ∀ (t : TrieT), t.distinct → (TrieT.setKids b kids t).distinct := by
  intro t
  induction t with
  | nil => intro h; exact h
  | node a k d c s _ ihs =>
    intro h
    obtain ⟨h1, h2, h3⟩ := h
    have hck := TrieT.setKids_chainKeys b kids (.node a k d c s)
    simp only [TrieT.setKids] at hck ⊢
    split_ifs at hck ⊢ with hkb
    · exact ⟨h1, hk, h3⟩
    · refine ⟨?_, h2, ihs h3⟩
      rw [hck]
      exact h1

theorem TrieT.setKids_kidsOk (b : Nat) (kids : TrieT) (hb : b ≠ 0) (hk : kids.kidsOk)
    (hne : kids ≠ .nil) : ∀ (t : TrieT), t.kidsOk → (TrieT.setKids b kids t).kidsOk := by
  intro t
  induction t with
  | nil => intro h; exact h
  | node a k d c s _ ihs =>
    intro h
    obtain ⟨h1, h2, h3⟩ := h
    simp only [TrieT.setKids]
    split_ifs with hkb
    · refine ⟨⟨fun h0 => absurd (hkb ▸ h0) hb, fun h0 => absurd h0 hne⟩, hk, h3⟩
    · exact ⟨h1, h2, ihs h3⟩

theorem TrieT.setKids_addrs {b x k : Nat} {d : Option Nat} {c s kids : TrieT} :
    ∀ (t : TrieT), TrieT.find b t = .node x k d c s → t.addrs.Nodup → kids.addrs.Nodup →
      (∀ y ∈ kids.addrs, y ∈ c.addrs ∨ y ∉ t.addrs) →
      (TrieT.setKids b kids t).addrs.Nodup ∧
        ∀ y ∈ (TrieT.setKids b kids t).addrs, y ∈ t.addrs ∨ y ∈ kids.addrs := by
  intro t
  induction t with
  | nil => intro h; simp [TrieT.find] at h
  | node a ka da ca sa _ ihs =>
    intro hf hnd hkn hk
    simp only [TrieT.addrs, List.nodup_cons, List.nodup_append, List.mem_append,
      not_or] at hnd
    obtain ⟨⟨hac, has⟩, hndc, hnds, hdisj⟩ := hnd
    simp only [TrieT.find] at hf
    simp only [TrieT.setKids]
    split_ifs at hf ⊢ with hkb
    · cases hf
      have hk1 : ∀ y ∈ kids.addrs, y ≠ x ∧ y ∉ s.addrs := by
        intro y hy
        rcases hk y hy with h | h
        · exact ⟨fun h0 => hac (h0 ▸ h), fun h0 => hdisj h h0⟩
        · simp only [TrieT.addrs, List.mem_cons, List.mem_append, not_or] at h
          exact ⟨h.1, h.2.2⟩
      constructor
      · simp only [TrieT.addrs, List.nodup_cons, List.nodup_append, List.mem_append, not_or]
        exact ⟨⟨fun h => (hk1 x h).1 rfl, has⟩, hkn, hnds, fun y hy1 hy2 => (hk1 y hy1).2 hy2⟩
      · intro y hy
        simp only [TrieT.addrs, List.mem_cons, List.mem_append] at hy ⊢
        tauto
    · have hsub : x ∈ sa.addrs ∧ ∀ y ∈ c.addrs, y ∈ sa.addrs := by
        rcases TrieT.find_addrs sa hf with ⟨h1, h2, _⟩ | h4
        · exact ⟨h1, h2⟩
        · exact absurd hnds h4
      have hk2 : ∀ y ∈ kids.addrs, y ∈ c.addrs ∨ y ∉ sa.addrs := by
        intro y hy
        rcases hk y hy with h | h
        · exact Or.inl h
        · exact Or.inr (fun h0 => h (TrieT.mem_addrs_sibling _ _ _ _ h0))
      obtain ⟨i1, i2⟩ := ihs hf hnds hkn hk2
      have hk3 : ∀ y ∈ kids.addrs, y ≠ a ∧ y ∉ ca.addrs := by
        intro y hy
        rcases hk y hy with h | h
        · exact ⟨fun h0 => has (h0 ▸ hsub.2 y h), fun h0 => hdisj h0 (hsub.2 y h)⟩
        · simp only [TrieT.addrs, List.mem_cons, List.mem_append, not_or] at h
          exact ⟨h.1, h.2.1⟩
      constructor
      · simp only [TrieT.addrs, List.nodup_cons, List.nodup_append, List.mem_append, not_or]
        refine ⟨⟨hac, ?_⟩, hndc, i1, ?_⟩
        · intro h
          rcases i2 a h with h1 | h1
          · exact has h1
          · exact (hk3 a h1).1 rfl
        · intro y hy1 hy2
          rcases i2 y hy2 with h1 | h1
          · exact hdisj hy1 h1
          · exact (hk3 y h1).2 hy1
      · intro y hy
        simp only [TrieT.addrs, List.mem_cons, List.mem_append] at hy ⊢
        rcases hy with h | h | h
        · exact Or.inl (Or.inl h)
        · exact Or.inl (Or.inr (Or.inl h))
        · rcases i2 y h with h1 | h1
          · exact Or.inl (Or.inr (Or.inr h1))
          · exact Or.inr h1

theorem TrieT.insWalk_ne_nil (data : Option Nat) (a : Nat) :
    ∀ (key : List Nat) (level : TrieT), level ≠ .nil →
      TrieT.insWalk data a key level ≠ .nil := by
  intro key level hne
  cases key with
  | nil =>
    cases level with
    | nil => exact absurd rfl hne
    | node x k d c s =>
      simp only [TrieT.insWalk]
      split_ifs <;> simp
  | cons b rest =>
    simp only [TrieT.insWalk]
    cases hf : TrieT.find b level with
    | nil => exact TrieT.appendChain_ne_nil hne
    | node x k d c s => exact (TrieT.find_setKids level hf).2.2

theorem TrieT.insAlloc_le :
    ∀ (key : List Nat) (level : TrieT), TrieT.insAlloc key level ≤ key.length + 1 := by
  intro key
  induction key with
  | nil =>
    intro level
    cases level with
    | nil => simp [TrieT.insAlloc]
    | node x k d c s =>
      simp only [TrieT.insAlloc]
      split_ifs <;> simp
  | cons b rest ih =>
    intro level
    simp only [TrieT.insAlloc, List.length_cons]
    cases hf : TrieT.find b level with
    | nil => simp
    | node x k d c s =>
      have := ih c
      simp only
      omega

theorem TrieT.insWalk_inv (data : Option Nat) (a : Nat) :
    ∀ (key : List Nat) (level : TrieT), 0 ∉ key → level.addrs.Nodup →
      (∀ x ∈ level.addrs, x < a) →
      (TrieT.insWalk data a key level).addrs.Nodup ∧
        (∀ y ∈ (TrieT.insWalk data a key level).addrs,
          y ∈ level.addrs ∨ (a ≤ y ∧ y < a + TrieT.insAlloc key level)) ∧
        (level.kidsOk → (TrieT.insWalk data a key level).kidsOk) ∧
        (level.distinct → (TrieT.insWalk data a key level).distinct) ∧
        (TrieT.insWalk data a key level).size ≤ level.size + key.length + 1 := by
  intro key
  induction key with
  | nil =>
    intro level _ hnd hlt
    cases level with
    | nil => simp [TrieT.insWalk, TrieT.addrs, TrieT.size]
    | node x k d c s =>
      by_cases hk0 : k = 0
      · simp only [TrieT.insWalk, hk0, if_true]
        subst hk0
        exact ⟨hnd, fun y hy => Or.inl hy, fun h => h, fun h => h, by omega⟩
      · simp only [TrieT.insWalk, TrieT.insAlloc, hk0, if_false]
        have hnd0 := hnd
        simp only [TrieT.addrs, List.nodup_cons, List.nodup_append, List.mem_append,
          not_or] at hnd
        obtain ⟨⟨hxc, hxs⟩, hndc, hnds, hdisj⟩ := hnd
        have hxa : x < a := hlt x (TrieT.mem_addrs_self _ _ _ _ _)
        have hca : ∀ y ∈ c.addrs, y < a := fun y hy =>
          hlt y (TrieT.mem_addrs_children _ _ _ _ hy)
        refine ⟨?_, ?_, ?_, ?_, ?_⟩
        · simp only [TrieT.addrs, List.append_nil, List.nodup_cons, List.nodup_append,
            List.mem_append, List.mem_singleton, not_or, List.not_mem_nil, not_false_eq_true,
            List.nodup_nil, and_true, List.disjoint_singleton]
          exact ⟨⟨hxc, by omega⟩, hndc, trivial, (fun h => absurd (hca a h) (by omega))⟩
        · intro y hy
          simp only [TrieT.addrs, List.append_nil, List.mem_cons, List.mem_append,
            List.mem_singleton, List.not_mem_nil, or_false] at hy ⊢
          rcases hy with h | h | h
          · exact Or.inl (Or.inl h)
          · exact Or.inl (Or.inr (Or.inl h))
          · exact Or.inr (by omega)
        · intro h
          exact ⟨h.1, h.2.1, by simp [TrieT.kidsOk]⟩
        · intro h
          refine ⟨?_, h.2.1, by simp [TrieT.distinct, TrieT.chainKeys]⟩
          simp only [TrieT.chainKeys, List.nodup_cons, List.mem_singleton, List.not_mem_nil,
            not_false_eq_true, List.nodup_nil, and_true]
          exact hk0
        · simp only [TrieT.size, List.length_nil]
          omega
  | cons b rest ih =>
    intro level hz hnd hlt
    have hb : b ≠ 0 := fun h => hz (h ▸ List.mem_cons_self _ _)
    have hz1 : 0 ∉ rest := fun h => hz (List.mem_cons_of_mem _ h)
    simp only [TrieT.insWalk, TrieT.insAlloc, List.length_cons]
    cases hf : TrieT.find b level with
    | nil =>
      simp only
      have hnew : ∀ y, y ∈ (TrieT.node a b none (TrieT.chain data rest (a + 1)) .nil).addrs ↔
          a ≤ y ∧ y < a + (rest.length + 2) := by
        intro y
        simp only [TrieT.addrs, List.append_nil, List.mem_cons, TrieT.chain_addrs]
        omega
      have hnewnd : (TrieT.node a b none (TrieT.chain data rest (a + 1)) .nil).addrs.Nodup := by
        simp only [TrieT.addrs, List.append_nil, List.nodup_cons, TrieT.chain_addrs]
        exact ⟨by omega, TrieT.chain_nodup data rest (a + 1)⟩
      refine ⟨?_, ?_, ?_, ?_, ?_⟩
      · refine TrieT.appendChain_nodup _ level hnd hnewnd ?_
        intro y hy hy2
        have := hlt y hy
        have := (hnew y).mp hy2
        omega
      · intro y hy
        rw [TrieT.appendChain_addrs] at hy
        rcases hy with h | h
        · exact Or.inl h
        · exact Or.inr ((hnew y).mp h)
      · intro h
        refine TrieT.appendChain_kidsOk _ level h ?_
        exact ⟨⟨fun h0 => absurd h0 hb, fun h0 => absurd h0 (TrieT.chain_ne_nil _ _ _)⟩,
          TrieT.chain_kidsOk data rest (a + 1) hz1, trivial⟩
      · intro h
        refine TrieT.appendChain_distinct _ level h ?_ ?_
        · exact ⟨by simp [TrieT.chainKeys], TrieT.chain_distinct data rest (a + 1), trivial⟩
        · intro b1 hb1
          simp only [TrieT.chainKeys, List.mem_singleton] at hb1
          subst hb1
          exact TrieT.find_nil_not_mem level hf
      · rw [TrieT.appendChain_size]
        simp only [TrieT.size, TrieT.chain_size]
        omega
    | node x k d c s =>
      simp only
      have hkb := TrieT.find_key hf
      obtain ⟨h1, h2, h3, h4⟩ := TrieT.find_props level hf
      have hsub : ∀ y ∈ c.addrs, y ∈ level.addrs := by
        rcases TrieT.find_addrs level hf with ⟨_, h2, _⟩ | h5
        · exact h2
        · exact absurd hnd h5
      obtain ⟨i1, i2, i3, i4, i5⟩ := ih c hz1 (h2 hnd) (fun y hy => hlt y (hsub y hy))
      obtain ⟨j1, j2⟩ := @TrieT.setKids_addrs b x k d c s (TrieT.insWalk data a rest c) level hf
        hnd i1 (by
          intro y hy
          rcases i2 y hy with h | h
          · exact Or.inl h
          · exact Or.inr (fun h0 => absurd (hlt y h0) (by omega)))
      refine ⟨j1, ?_, ?_, ?_, ?_⟩
      · intro y hy
        rcases j2 y hy with h | h
        · exact Or.inl h
        · rcases i2 y h with h0 | h0
          · exact Or.inl (hsub y h0)
          · exact Or.inr h0
      · intro h
        obtain ⟨hkc, hkoc⟩ := h1 h
        have hcne : c ≠ .nil := fun h0 => hb (hkb ▸ hkc.mpr h0)
        exact TrieT.setKids_kidsOk b _ hb (i3 hkoc) (TrieT.insWalk_ne_nil data a rest c hcne)
          level h
      · intro h
        exact TrieT.setKids_distinct b _ (i4 (h4 h)) level h
      · obtain ⟨_, hsz, _⟩ := @TrieT.find_setKids b x k d c s (TrieT.insWalk data a rest c)
          level hf
        omega

/-! ## Insertion into the prefix index: what is allocated -/

theorem trie_insert_walk_alloc (key : List Nat) (data : Option Nat) (hz : 0 ∉ key) :
    ∀ (n fuel : Nat) (trie : trie_t) (level : TrieT) (p prev : Option Nat) (i : Nat),
      key.length - i = n → i ≤ key.length → TrieRep trie.mem level p → level ≠ .nil →
      level.addrs.Nodup → (∀ x ∈ level.addrs, x < trie.next_free) → level.kidsOk →
      n + 1 ≤ trie.heap_left → level.size + n + 1 < fuel →
      ∃ trie1 st, trie_insert_walk fuel trie key data p prev i = .ok (trie1, st) ∧
        trie1.next_free = trie.next_free + TrieT.insAlloc (key.drop i) level ∧
        trie1.heap_left = trie.heap_left - TrieT.insAlloc (key.drop i) level := by
  intro n
  induction n with
  | zero =>
    intro fuel trie level p prev i hn hi hrep hne hnd hlt hko hheap hf
    obtain ⟨f, rfl⟩ : ∃ f, fuel = f + 1 := ⟨fuel - 1, by omega⟩
    have hil : i = key.length := by omega
    have hns : ¬ i < c_strlen key := by rw [c_strlen_eq_length hz]; omega
    have hdrop : key.drop i = [] := by rw [hil]; simp
    rw [hdrop]
    cases level with
    | nil => exact absurd rfl hne
    | node x k d c s =>
      obtain ⟨hp, hk, hd, hc, hs⟩ := hrep
      subst hp
      by_cases hk0 : k = 0
      · simp only [trie_insert_walk, hns, if_false, hk, hk0, if_true, TrieT.insAlloc]
        exact ⟨_, _, rfl, rfl, rfl⟩
      · simp only [trie_insert_walk, hns, if_false, hk, hk0,
          trie_malloc_some trie (by omega), TrieT.insAlloc]
        exact ⟨_, _, rfl, rfl, rfl⟩
  | succ n ih =>
    intro fuel trie level p prev i hn hi hrep hne hnd hlt hko hheap hf
    obtain ⟨f, rfl⟩ : ∃ f, fuel = f + 1 := ⟨fuel - 1, by omega⟩
    have hil : i < key.length := by omega
    have his : i < c_strlen key := by rw [c_strlen_eq_length hz]; omega
    obtain ⟨b, rest, hdrop⟩ : ∃ b rest, key.drop i = b :: rest :=
      ⟨_, _, List.drop_eq_getElem_cons hil⟩
    obtain ⟨hb, hrest⟩ := c_char_at_drop_cons hdrop
    have hrl : rest.length = n := by
      have := congrArg List.length hdrop
      simp only [List.length_drop, List.length_cons] at this
      omega
    have hb0 : b ≠ 0 := by
      intro h0
      have : b ∈ key := List.mem_of_mem_drop (hdrop ▸ List.mem_cons_self b rest)
      exact hz (h0 ▸ this)
    have hscan := trie_insert_scan_spec trie.mem b level p prev f hrep
      (by have := TrieT.chainLength_le_size level; omega)
    rw [hdrop]
    simp only [trie_insert_walk, his, if_true, hb, hscan, TrieT.insAlloc]
    cases hfind : TrieT.find b level with
    | nil =>
      obtain ⟨l, hl, hlmem⟩ := TrieT.lastOr_mem hne prev
      have hllt : l < trie.next_free := hlt l hlmem
      simp only [hl, trie_malloc_some trie (by omega)]
      obtain ⟨trie3, he, _, _, _, hnf, hhl, _⟩ :=
        trie_insert_internal_spec key data hz n f
          { trie with
            next_free := trie.next_free + 1, heap_left := trie.heap_left - 1,
            mem := (trie.mem.set trie.next_free
                { key := b, data := none, sibling := none, children := none,
                  parent := some l }).set l
              { (trie.mem.set trie.next_free
                  { key := b, data := none, sibling := none, children := none,
                    parent := some l }) l with sibling := some trie.next_free },
            node_count := u32_inc trie.node_count }
          trie.next_free (i + 1) (by omega) (by omega) (by simp) (by simp; omega) (by omega)
      simp only at hnf hhl
      refine ⟨trie3, _, he, ?_, ?_⟩
      · rw [hnf]; omega
      · rw [hhl]; omega
    | node x k d c s =>
      have hkb := TrieT.find_key hfind
      subst hkb
      obtain ⟨h1, h2, h3, _⟩ := TrieT.find_props level hfind
      obtain ⟨hkc, hkoc⟩ := h1 hko
      have hcne : c ≠ .nil := fun h => hb0 (hkc.mpr h)
      have hfrep := hrep.find_rep (b := k)
      rw [hfind] at hfrep
      have hsub : ∀ y ∈ c.addrs, y ∈ level.addrs := by
        rcases TrieT.find_addrs level hfind with ⟨_, h2, _⟩ | h4
        · exact h2
        · exact absurd hnd h4
      obtain ⟨trie1, st, he, hnf, hhl⟩ :=
        ih f trie c (trie.mem x).children (some x) (i + 1) (by omega) (by omega)
          hfrep.2.2.2.1 hcne (h2 hnd) (fun y hy => hlt y (hsub y hy)) hkoc (by omega)
          (by omega)
      rw [hrest] at hnf hhl
      exact ⟨trie1, st, he, hnf, hhl⟩

theorem trie_insert_first (fuel : Nat) (trie : trie_t) (key : List Nat) (data : Option Nat)
    (hroot : trie.root = none) (hne : key ≠ []) (hz : 0 ∉ key)
    (hheap : key.length + 1 ≤ trie.heap_left) (hf : key.length + 1 < fuel) :
    ∃ trie1, trie_insert fuel trie (some key) data = .ok (trie1, .no_value) ∧
      TrieRep trie1.mem (TrieT.chain data key trie.next_free) trie1.root ∧
      trie1.next_free = trie.next_free + key.length + 1 ∧
      trie1.heap_left + (key.length + 1) = trie.heap_left ∧ trie1.freed = trie.freed := by
  obtain ⟨b, rest, hkey⟩ : ∃ b rest, key = b :: rest := by
    cases key with
    | nil => exact absurd rfl hne
    | cons b rest => exact ⟨b, rest, rfl⟩
  have hb : b ≠ 0 := fun h => hz (by simp [hkey, h])
  have hc0 : c_char_at key 0 = b := by simp [hkey, c_char_at]
  have hcb : ¬ c_char_at key 0 = 0 := by rw [hc0]; exact hb
  have hlen : 1 ≤ key.length := by rw [hkey]; simp
  obtain ⟨trie3, he, hrep3, hpar3, hfr3, hnf, hhl, hroot3, hfreed3, _⟩ :=
    trie_insert_internal_spec key data hz (key.length - 1) fuel
      { trie with
        next_free := trie.next_free + 1, heap_left := trie.heap_left - 1,
        mem := trie.mem.set trie.next_free
          { key := c_char_at key 0, data := none, sibling := none, children := none,
            parent := none },
        node_count := u32_inc trie.node_count, root := some trie.next_free }
      trie.next_free 1 rfl hlen (by simp)
      (by show key.length - 1 + 1 ≤ trie.heap_left - 1; omega) (by omega)
  simp only at hrep3 hpar3 hfr3 hroot3 hnf hhl hfreed3
  refine ⟨trie3, ?_, ?_, by rw [hnf]; omega, by rw [hhl]; omega, hfreed3⟩
  · simp only [trie_insert, hroot, trie_malloc_some trie (by omega), hcb, if_false]
    exact he
  · rw [hroot3, hkey]
    have hd1 : List.drop 1 key = rest := by rw [hkey]; rfl
    rw [hd1] at hrep3
    refine ⟨rfl, ?_, ?_, ?_, ?_⟩
    · rw [hpar3, TrieMem.trie_set_same]; exact hc0
    · rw [hpar3, TrieMem.trie_set_same]
    · rw [hpar3]; exact hrep3
    · rw [hpar3, TrieMem.trie_set_same]; rfl

theorem trie_insert_later (fuel : Nat) (trie : trie_t) (t : TrieT) (key : List Nat)
    (data : Option Nat) (hrep : TrieRep trie.mem t trie.root) (hne : t ≠ .nil)
    (hnd : t.addrs.Nodup) (hlt : ∀ x ∈ t.addrs, x < trie.next_free) (hko : t.kidsOk)
    (hz : 0 ∉ key) (hheap : key.length + 1 ≤ trie.heap_left)
    (hf : t.size + key.length + 1 < fuel) :
    ∃ trie1 st, trie_insert fuel trie (some key) data = .ok (trie1, st) ∧
      TrieRep trie1.mem (TrieT.insWalk data trie.next_free key t) trie1.root ∧
      trie1.next_free = trie.next_free + TrieT.insAlloc key t ∧
      trie1.heap_left = trie.heap_left - TrieT.insAlloc key t ∧ trie1.freed = trie.freed := by
  obtain ⟨x, hroot⟩ : ∃ x, trie.root = some x := by
    cases t with
    | nil => exact absurd rfl hne
    | node x k d c s => exact ⟨x, hrep.1⟩
  obtain ⟨trie1, st, he, hrep1, _, hroot1, hfreed1, _⟩ :=
    trie_insert_walk_spec key data hz key.length fuel trie t trie.root none 0
      (by simp) (by omega) hrep hne hnd hlt hko hheap (by omega)
  obtain ⟨trie2, st2, he2, hnf, hhl⟩ :=
    trie_insert_walk_alloc key data hz key.length fuel trie t trie.root none 0
      (by simp) (by omega) hrep hne hnd hlt hko hheap (by omega)
  rw [he] at he2
  simp only [TrieRun.ok.injEq, Prod.mk.injEq] at he2
  obtain ⟨h1, _⟩ := he2
  subst h1
  simp only [List.drop_zero] at hrep1 hnf hhl
  refine ⟨trie1, st, ?_, ?_, hnf, hhl, hfreed1⟩
  · simp only [trie_insert, hroot]
    rw [hroot] at he
    exact he
  · rw [hroot1]
    exact hrep1

theorem trie_insert_step (fuel : Nat) (trie : trie_t) (t : TrieT) (key : List Nat)
    (data : Option Nat) (hrep : TrieRep trie.mem t trie.root) (hnd : t.addrs.Nodup)
    (hlt : ∀ x ∈ t.addrs, x < trie.next_free) (hko : t.kidsOk) (hne : key ≠ [] ∨ t ≠ .nil)
    (hz : 0 ∉ key) (hheap : key.length + 1 ≤ trie.heap_left)
    (hf : t.size + key.length + 1 < fuel) :
    ∃ trie1 st, trie_insert fuel trie (some key) data = .ok (trie1, st) ∧
      TrieRep trie1.mem (t.ins data trie.next_free key) trie1.root ∧
      (t.ins data trie.next_free key).addrs.Nodup ∧
      (∀ x ∈ (t.ins data trie.next_free key).addrs, x < trie1.next_free) ∧
      (t.ins data trie.next_free key).kidsOk ∧
      (t.distinct → (t.ins data trie.next_free key).distinct) ∧
      (t.ins data trie.next_free key).size ≤ t.size + key.length + 1 ∧
      trie.heap_left ≤ trie1.heap_left + (key.length + 1) ∧
      trie1.freed = trie.freed ∧ trie.next_free ≤ trie1.next_free ∧
      ∀ y ∈ (t.ins data trie.next_free key).addrs, y ∈ t.addrs ∨ trie.next_free ≤ y := by
  cases t with
  | nil =>
    have hkne : key ≠ [] := by
      rcases hne with h | h
      · exact h
      · exact absurd rfl h
    obtain ⟨trie1, he, hrep1, hnf, hhl, hfreed⟩ :=
      trie_insert_first fuel trie key data hrep hkne hz hheap (by omega)
    refine ⟨trie1, _, he, hrep1, TrieT.chain_nodup _ _ _, ?_, TrieT.chain_kidsOk _ _ _ hz,
      (fun _ => TrieT.chain_distinct _ _ _), ?_, by omega, hfreed, by omega, ?_⟩
    · intro x hx
      have := (TrieT.chain_addrs data key trie.next_free x).mp hx
      omega
    · simp only [TrieT.ins, TrieT.chain_size, TrieT.size]
      omega
    · intro y hy
      exact Or.inr ((TrieT.chain_addrs data key trie.next_free y).mp hy).1
  | node x k d c s =>
    obtain ⟨trie1, st, he, hrep1, hnf, hhl, hfreed⟩ :=
      trie_insert_later fuel trie (.node x k d c s) key data hrep (by simp) hnd hlt hko hz
        hheap hf
    obtain ⟨i1, i2, i3, i4, i5⟩ :=
      TrieT.insWalk_inv data trie.next_free key (.node x k d c s) hz hnd hlt
    have hal := TrieT.insAlloc_le key (.node x k d c s)
    refine ⟨trie1, st, he, hrep1, i1, ?_, i3 hko, i4, i5, by omega, hfreed, by omega, ?_⟩
    · intro y hy
      rcases i2 y hy with h | h
      · have := hlt y h
        omega
      · omega
    · intro y hy
      rcases i2 y hy with h | h
      · exact Or.inl h
      · exact Or.inr h.1

/-! ## The children rule on tries built by insertions -/

theorem TrieRep.kids_rule {m : TrieMem} :
    ∀ (t : TrieT) (p : Option Nat), TrieRep m t p → t.kidsOk →
      ∀ x ∈ t.addrs, ((m x).key = 0 ↔ (m x).children = none) := by
  intro t
  induction t with
  | nil => intro p _ _ x hx; simp [TrieT.addrs] at hx
  | node a k d c s ihc ihs =>
    intro p hrep hko x hx
    obtain ⟨_, hk, _, hc, hs⟩ := hrep
    obtain ⟨hkc, hkoc, hkos⟩ := hko
    simp only [TrieT.addrs, List.mem_cons, List.mem_append] at hx
    rcases hx with rfl | hx | hx
    · rw [hk, hkc]
      cases c with
      | nil => exact ⟨fun _ => hc, fun _ => rfl⟩
      | node a2 k2 d2 c2 s2 =>
        constructor
        · intro h; cases h
        · intro h
          have := hc.1
          rw [h] at this
          cases this
    · exact ihc _ hc hkoc x hx
    · exact ihs _ hs hkos x hx

theorem trie_run_inserts (fuel junk : Nat) :
    ∀ (calls : List trie_call) (trie : trie_t) (t : TrieT),
      TrieRep trie.mem t trie.root → t.addrs.Nodup → (∀ x ∈ t.addrs, x < trie.next_free) →
      t.kidsOk → t.distinct → (∀ c ∈ calls, trie_call_inserts c = true) →
      trie_calls_cost calls ≤ trie.heap_left → t.size + trie_calls_cost calls + 1 < fuel →
      ∃ trie1 sts t1, trie_run fuel junk trie calls = .ok (trie1, sts) ∧
        TrieRep trie1.mem t1 trie1.root ∧ t1.addrs.Nodup ∧
        (∀ x ∈ t1.addrs, x < trie1.next_free) ∧ t1.kidsOk ∧ t1.distinct := by
  intro calls
  induction calls with
  | nil =>
    intro trie t hrep hnd hlt hko hdist _ _ _
    exact ⟨trie, [], t, rfl, hrep, hnd, hlt, hko, hdist⟩
  | cons c cs ih =>
    intro trie t hrep hnd hlt hko hdist hins hheap hf
    have hc := hins c (List.mem_cons_self _ _)
    cases c with
    | remove key => simp [trie_call_inserts] at hc
    | insert key data =>
      simp only [trie_call_inserts, decide_eq_true_eq] at hc
      simp only [trie_calls_cost] at hheap hf
      obtain ⟨trie1, st, he, hrep1, hnd1, hlt1, hko1, hdist1, hsz1, hhl1, _⟩ :=
        trie_insert_step fuel trie t key (some data) hrep hnd hlt hko (Or.inl hc.1) hc.2
          (by omega) (by omega)
      obtain ⟨trie2, sts, t2, he2, hfin⟩ :=
        ih trie1 _ hrep1 hnd1 hlt1 hko1 (hdist1 hdist)
          (fun c2 h2 => hins c2 (List.mem_cons_of_mem _ h2)) (by omega) (by omega)
      refine ⟨trie2, st :: sts, t2, ?_, hfin⟩
      simp only [trie_run, he, he2]

/-- Claim C35.  From a newly created trie, every run of `trie_insert` calls
with non-empty keys returns (heap and fuel permitting), and in the trie it
leaves every node reachable from the root has key byte 0 exactly when its
children reference is null. -/
theorem trie_inserts_keep_children_rule (fuel junk leaf_garbage next_free heap_left : Nat)
    (get_key : Nat → Option (List Nat)) (mem : TrieMem) (calls : List trie_call)
    (hins : ∀ c ∈ calls, trie_call_inserts c = true)
    (hheap : trie_calls_cost calls ≤ heap_left) (hf : trie_calls_cost calls + 1 < fuel) :
    ∃ trie sts t,
      trie_run fuel junk (trie_create get_key leaf_garbage mem next_free heap_left) calls =
          .ok (trie, sts) ∧
        TrieRep trie.mem t trie.root ∧
        ∀ x ∈ t.addrs, ((trie.mem x).key = 0 ↔ (trie.mem x).children = none) := by
  obtain ⟨trie1, sts, t1, he, hrep1, _, _, hko1, _⟩ :=
    trie_run_inserts fuel junk calls
      (trie_create get_key leaf_garbage mem next_free heap_left) .nil rfl
      (by simp [TrieT.addrs]) (by simp [TrieT.addrs]) trivial trivial hins hheap
      (by simp only [TrieT.size]; omega)
  exact ⟨trie1, sts, t1, he, hrep1, TrieRep.kids_rule t1 _ hrep1 hko1⟩

theorem trie_inserts_keep_children_rule_witness :
    (∀ c ∈ [trie_call.insert trie_key_ann 1, trie_call.insert trie_key_annabel 2],
        trie_call_inserts c = true) ∧
      trie_calls_cost [.insert trie_key_ann 1, .insert trie_key_annabel 2] ≤ 1000 ∧
      trie_calls_cost [.insert trie_key_ann 1, .insert trie_key_annabel 2] + 1 < 50 ∧
      ∃ trie sts t,
        trie_run 50 0 (trie_create (fun _ => none) 0 trie_mem_null 100 1000)
            [.insert trie_key_ann 1, .insert trie_key_annabel 2] = .ok (trie, sts) ∧
          TrieRep trie.mem t trie.root ∧
          ∀ x ∈ t.addrs, ((trie.mem x).key = 0 ↔ (trie.mem x).children = none) :=
  ⟨by decide, by decide, by decide,
    trie_inserts_keep_children_rule 50 0 0 100 1000 (fun _ => none) trie_mem_null
      [.insert trie_key_ann 1, .insert trie_key_annabel 2] (by decide) (by decide)
      (by decide)⟩

theorem trie_free_next_free (trie : trie_t) (p : Option Nat) :
    (trie_free trie p).next_free = trie.next_free ∧
      (trie_free trie p).heap_left = trie.heap_left := by
  cases p <;> exact ⟨rfl, rfl⟩

theorem trie_remove_unlink_next_free (fuel : Nat) (trie trie1 : trie_t) (arr : TrieDelArr)
    (k : Nat) (h : trie_remove_unlink fuel trie arr k = .ok trie1) :
    trie1.next_free = trie.next_free ∧ trie1.heap_left = trie.heap_left := by
  unfold trie_remove_unlink at h
  simp only at h
  repeat' split at h
  all_goals cases h
  all_goals simp only [(trie_free_next_free _ _).1, (trie_free_next_free _ _).2, and_self]

theorem trie_remove_prune_next_free (fuel junk : Nat) (arr : TrieDelArr) :
    ∀ (k : Nat) (trie trie1 : trie_t), trie_remove_prune fuel junk k trie arr = .ok trie1 →
      trie1.next_free = trie.next_free ∧ trie1.heap_left = trie.heap_left := by
  intro k
  induction k with
  | zero =>
    intro trie trie1 h
    simp only [trie_remove_prune] at h
    split_ifs at h
    · cases h
      simp only [(trie_free_next_free _ _).1, (trie_free_next_free _ _).2, and_self]
    · exact trie_remove_unlink_next_free fuel trie trie1 arr 0 h
  | succ k ih =>
    intro trie trie1 h
    simp only [trie_remove_prune] at h
    split_ifs at h
    · obtain ⟨h1, h2⟩ := ih _ _ h
      rw [h1, h2]
      simp only [(trie_free_next_free _ _).1, (trie_free_next_free _ _).2, and_self]
    · exact trie_remove_unlink_next_free fuel trie trie1 arr (k + 1) h

theorem trie_remove_next_free (fuel junk : Nat) (trie trie1 : trie_t) (key : Option (List Nat))
    (st : Int) (h : trie_remove fuel junk trie key = .ok (trie1, st)) :
    trie1.next_free = trie.next_free ∧ trie1.heap_left = trie.heap_left := by
  unfold trie_remove at h
  cases key with
  | none =>
    simp only [TrieRun.ok.injEq, Prod.mk.injEq] at h
    rw [← h.1]
    exact ⟨rfl, rfl⟩
  | some k =>
    simp only at h
    cases hr : trie.root with
    | none =>
      rw [hr] at h
      simp only [TrieRun.ok.injEq, Prod.mk.injEq] at h
      rw [← h.1]
      exact ⟨rfl, rfl⟩
    | some root =>
      rw [hr] at h
      simp only at h
      cases hc : trie_remove_collect fuel trie.mem k 0 (some root) none
          (fun _ => ⟨none, none, none, 0, 0⟩) with
      | out_of_fuel => rw [hc] at h; cases h
      | fault => rw [hc] at h; cases h
      | ok res =>
        rw [hc] at h
        cases res with
        | none =>
          simp only [TrieRun.ok.injEq, Prod.mk.injEq] at h
          rw [← h.1]
          exact ⟨rfl, rfl⟩
        | some arr =>
          simp only at h
          cases hp : trie_remove_prune fuel junk (c_strlen k) trie arr with
          | out_of_fuel => rw [hp] at h; cases h
          | fault => rw [hp] at h; cases h
          | ok t2 =>
            rw [hp] at h
            simp only [TrieRun.ok.injEq, Prod.mk.injEq] at h
            have hnf := trie_remove_prune_next_free fuel junk arr (c_strlen k) trie t2 hp
            rw [← h.1]
            exact ⟨hnf.1, hnf.2⟩

theorem TrieT.dropFound_addrs (b : Nat) :
    ∀ (t : TrieT), (TrieT.dropFound b t).addrs.Sublist t.addrs := by
  intro t
  induction t with
  | nil => exact List.Sublist.refl _
  | node a k d c s _ ihs =>
    simp only [TrieT.dropFound]
    split_ifs with hk
    · simp only [TrieT.addrs]
      exact (List.sublist_append_right c.addrs s.addrs).cons a
    · simp only [TrieT.addrs]
      exact ((List.Sublist.refl _).append ihs).cons₂ _

theorem TrieT.setKids_addrs_sublist {b x k : Nat} {d : Option Nat} {c s kids : TrieT} :
    ∀ (t : TrieT), TrieT.find b t = .node x k d c s → kids.addrs.Sublist c.addrs →
      (TrieT.setKids b kids t).addrs.Sublist t.addrs := by
  intro t
  induction t with
  | nil => intro h; simp [TrieT.find] at h
  | node a2 k2 d2 c2 s2 _ ihs =>
    intro h hsub
    simp only [TrieT.find] at h
    simp only [TrieT.setKids]
    split_ifs at h ⊢ with hk
    · cases h
      simp only [TrieT.addrs]
      exact (hsub.append (List.Sublist.refl _)).cons₂ _
    · simp only [TrieT.addrs]
      exact ((List.Sublist.refl _).append (ihs h hsub)).cons₂ _

theorem TrieT.pruneBelow_addrs :
    ∀ (r : List Nat) (level l1 : TrieT), level.pruneBelow r = some l1 →
      l1.addrs.Sublist level.addrs := by
  intro r
  induction r with
  | nil =>
    intro level l1 h
    simp only [TrieT.pruneBelow] at h
    split_ifs at h
    simp only [Option.some.injEq] at h
    exact h ▸ TrieT.dropFound_addrs 0 level
  | cons b rest ih =>
    intro level l1 h
    simp only [TrieT.pruneBelow] at h
    cases hf : TrieT.find b level with
    | nil =>
      rw [hf] at h
      simp only [Option.some.injEq] at h
      exact h ▸ List.Sublist.refl _
    | node x k d c s =>
      rw [hf] at h
      simp only at h
      cases hp : TrieT.pruneBelow c rest with
      | some c1 =>
        rw [hp] at h
        simp only [Option.some.injEq] at h
        exact h ▸ TrieT.setKids_addrs_sublist level hf (ih c c1 hp)
      | none =>
        rw [hp] at h
        simp only at h
        split_ifs at h
        simp only [Option.some.injEq] at h
        exact h ▸ TrieT.dropFound_addrs b level

theorem TrieT.remove_addrs (junk : Nat) (t : TrieT) (key : List Nat) :
    (t.remove junk key).addrs.Sublist t.addrs := by
  cases key with
  | nil =>
    simp only [TrieT.remove]
    split_ifs
    · exact List.Sublist.refl _
    · exact TrieT.dropFound_addrs 0 t
  | cons b rest =>
    simp only [TrieT.remove]
    cases hf : TrieT.find b t with
    | nil => exact List.Sublist.refl _
    | node x k d c s =>
      simp only
      cases hp : TrieT.pruneBelow c rest with
      | some c1 =>
        simp only
        exact TrieT.setKids_addrs_sublist t hf (TrieT.pruneBelow_addrs rest c c1 hp)
      | none =>
        simp only
        split_ifs
        · exact List.Sublist.refl _
        · exact TrieT.dropFound_addrs b t

theorem TrieT.dropFound_kidsOk (b : Nat) :
    ∀ (t : TrieT), t.kidsOk → (TrieT.dropFound b t).kidsOk := by
  intro t
  induction t with
  | nil => intro h; exact h
  | node a k d c s _ ihs =>
    intro h
    simp only [TrieT.dropFound]
    split_ifs with hk
    · exact h.2.2
    · exact ⟨h.1, h.2.1, ihs h.2.2⟩

theorem TrieT.dropFound_ne_nil (b : Nat) :
    ∀ (t : TrieT), t ≠ .nil → t.chainLength ≠ 1 → TrieT.dropFound b t ≠ .nil := by
  intro t ht hlen
  cases t with
  | nil => exact absurd rfl ht
  | node a k d c s =>
    simp only [TrieT.dropFound]
    split_ifs with hk
    · intro hs
      rw [hs] at hlen
      simp [TrieT.chainLength] at hlen
    · simp

theorem TrieT.setKids_ne_nil (b : Nat) (kids : TrieT) :
    ∀ (t : TrieT), t ≠ .nil → TrieT.setKids b kids t ≠ .nil := by
  intro t ht
  cases t with
  | nil => exact absurd rfl ht
  | node a k d c s =>
    simp only [TrieT.setKids]
    split_ifs <;> simp

theorem TrieT.pruneBelow_kidsOk :
    ∀ (r : List Nat) (level l1 : TrieT), 0 ∉ r → level.kidsOk → level ≠ .nil →
      level.pruneBelow r = some l1 → l1.kidsOk ∧ l1 ≠ .nil := by
  intro r
  induction r with
  | nil =>
    intro level l1 _ hko hne h
    simp only [TrieT.pruneBelow] at h
    split_ifs at h with hlen
    simp only [Option.some.injEq] at h
    exact h ▸ ⟨TrieT.dropFound_kidsOk 0 level hko, TrieT.dropFound_ne_nil 0 level hne hlen⟩
  | cons b rest ih =>
    intro level l1 hz hko hne h
    have hb : b ≠ 0 := fun h0 => hz (by simp [h0])
    have hzr : 0 ∉ rest := fun h0 => hz (List.mem_cons_of_mem _ h0)
    simp only [TrieT.pruneBelow] at h
    cases hf : TrieT.find b level with
    | nil =>
      rw [hf] at h
      simp only [Option.some.injEq] at h
      exact h ▸ ⟨hko, hne⟩
    | node x k d c s =>
      rw [hf] at h
      simp only at h
      have hkb : k = b := (TrieT.find_key hf)
      obtain ⟨hkc, hkoc⟩ := (TrieT.find_props level hf).1 hko
      have hcne : c ≠ .nil := fun hc => hb (hkb ▸ hkc.mpr hc)
      cases hp : TrieT.pruneBelow c rest with
      | some c1 =>
        rw [hp] at h
        simp only [Option.some.injEq] at h
        obtain ⟨h1, h2⟩ := ih c c1 hzr hkoc hcne hp
        exact h ▸ ⟨TrieT.setKids_kidsOk b c1 hb h1 h2 level hko,
          TrieT.setKids_ne_nil b c1 level hne⟩
      | none =>
        rw [hp] at h
        simp only at h
        split_ifs at h with hlen
        simp only [Option.some.injEq] at h
        exact h ▸ ⟨TrieT.dropFound_kidsOk b level hko, TrieT.dropFound_ne_nil b level hne hlen⟩

theorem TrieT.remove_kidsOk (junk : Nat) (t : TrieT) (key : List Nat) (hz : 0 ∉ key)
    (hko : t.kidsOk) : (t.remove junk key).kidsOk := by
  cases key with
  | nil =>
    simp only [TrieT.remove]
    split_ifs
    · exact hko
    · exact TrieT.dropFound_kidsOk 0 t hko
  | cons b rest =>
    have hb : b ≠ 0 := fun h0 => hz (by simp [h0])
    have hzr : 0 ∉ rest := fun h0 => hz (List.mem_cons_of_mem _ h0)
    simp only [TrieT.remove]
    cases hf : TrieT.find b t with
    | nil => exact hko
    | node x k d c s =>
      simp only
      have hkb : k = b := (TrieT.find_key hf)
      obtain ⟨hkc, hkoc⟩ := (TrieT.find_props t hf).1 hko
      have hcne : c ≠ .nil := fun hc => hb (hkb ▸ hkc.mpr hc)
      cases hp : TrieT.pruneBelow c rest with
      | some c1 =>
        simp only
        obtain ⟨h1, h2⟩ := TrieT.pruneBelow_kidsOk rest c c1 hzr hkoc hcne hp
        exact TrieT.setKids_kidsOk b c1 hb h1 h2 t hko
      | none =>
        simp only
        split_ifs
        · exact hko
        · exact TrieT.dropFound_kidsOk b t hko

/-! ## Sibling distinctness under insertion and removal -/

theorem TrieT.dropFound_chainKeys (b : Nat) :
    ∀ (t : TrieT), (TrieT.dropFound b t).chainKeys.Sublist t.chainKeys := by
  intro t
  induction t with
  | nil => exact List.Sublist.refl _
  | node a k d c s _ ihs =>
    simp only [TrieT.dropFound]
    split_ifs with hk
    · exact List.sublist_cons_self _ _
    · simp only [TrieT.chainKeys]
      exact ihs.cons₂ _

theorem TrieT.dropFound_distinct (b : Nat) :
    ∀ (t : TrieT), t.distinct → (TrieT.dropFound b t).distinct := by
  intro t
  induction t with
  | nil => intro h; exact h
  | node a k d c s _ ihs =>
    intro h
    simp only [TrieT.dropFound]
    split_ifs with hk
    · exact h.2.2
    · obtain ⟨h1, h2, h3⟩ := h
      refine ⟨?_, h2, ihs h3⟩
      have hsub : (TrieT.node a k d c (TrieT.dropFound b s)).chainKeys.Sublist
          (TrieT.node a k d c s).chainKeys := by
        simp only [TrieT.chainKeys]
        exact (TrieT.dropFound_chainKeys b s).cons₂ _
      exact hsub.nodup h1

theorem TrieT.pruneBelow_distinct :
    ∀ (r : List Nat) (level l1 : TrieT), level.distinct → level.pruneBelow r = some l1 →
      l1.distinct := by
  intro r
  induction r with
  | nil =>
    intro level l1 hd h
    simp only [TrieT.pruneBelow] at h
    split_ifs at h
    simp only [Option.some.injEq] at h
    exact h ▸ TrieT.dropFound_distinct 0 level hd
  | cons b rest ih =>
    intro level l1 hd h
    simp only [TrieT.pruneBelow] at h
    cases hf : TrieT.find b level with
    | nil =>
      rw [hf] at h
      simp only [Option.some.injEq] at h
      exact h ▸ hd
    | node x k d c s =>
      rw [hf] at h
      simp only at h
      cases hp : TrieT.pruneBelow c rest with
      | some c1 =>
        rw [hp] at h
        simp only [Option.some.injEq] at h
        have hc1 := ih c c1 ((TrieT.find_props level hf).2.2.2 hd) hp
        exact h ▸ TrieT.setKids_distinct b c1 hc1 level hd
      | none =>
        rw [hp] at h
        simp only at h
        split_ifs at h
        simp only [Option.some.injEq] at h
        exact h ▸ TrieT.dropFound_distinct b level hd

theorem TrieT.remove_distinct (junk : Nat) (t : TrieT) (key : List Nat) (hd : t.distinct) :
    (t.remove junk key).distinct := by
  cases key with
  | nil =>
    simp only [TrieT.remove]
    split_ifs
    · exact hd
    · exact TrieT.dropFound_distinct 0 t hd
  | cons b rest =>
    simp only [TrieT.remove]
    cases hf : TrieT.find b t with
    | nil => exact hd
    | node x k d c s =>
      simp only
      cases hp : TrieT.pruneBelow c rest with
      | some c1 =>
        simp only
        exact TrieT.setKids_distinct b c1
          (TrieT.pruneBelow_distinct rest c c1 ((TrieT.find_props t hf).2.2.2 hd) hp) t hd
      | none =>
        simp only
        split_ifs
        · exact hd
        · exact TrieT.dropFound_distinct b t hd

theorem trie_remove_collect_long (m : TrieMem) (key : List Nat) (hz : 0 ∉ key)
    (hL : MAX_KEY_LEN ≤ key.length) :
    ∀ (fuel i : Nat) (p par : Option Nat) (arr arr1 : TrieDelArr), i ≤ key.length →
      trie_remove_collect fuel m key i p par arr ≠ .ok (some arr1) := by
  intro fuel
  induction fuel with
  | zero =>
    intro i p par arr arr1 _ h
    simp [trie_remove_collect] at h
  | succ f ih =>
    intro i p par arr arr1 hi h
    by_cases hmax : MAX_KEY_LEN ≤ i
    · simp [trie_remove_collect, hmax] at h
    · have hlt : i < c_strlen key := by rw [c_strlen_eq_length hz]; omega
      have hlen : i + 1 ≤ key.length := by omega
      have hleaf : decide (¬ i < c_strlen key) = false := by simp [hlt]
      simp only [trie_remove_collect, if_neg hmax, hleaf, Bool.false_eq_true, if_false] at h
      split at h
      · cases h
      · cases h
      · split_ifs at h <;> first | exact ih _ _ _ _ _ hlen h | cases h

theorem trie_remove_result_cases (fuel junk : Nat) (trie trie1 : trie_t) (key : List Nat)
    (st : Int) (h : trie_remove fuel junk trie (some key) = .ok (trie1, st)) :
    trie1 = trie ∨
      ∃ root arr, trie.root = some root ∧
        trie_remove_collect fuel trie.mem key 0 (some root) none
          (fun _ => ⟨none, none, none, 0, 0⟩) = .ok (some arr) := by
  unfold trie_remove at h
  simp only at h
  cases hr : trie.root with
  | none =>
    rw [hr] at h
    simp only [TrieRun.ok.injEq, Prod.mk.injEq] at h
    exact Or.inl h.1.symm
  | some root =>
    rw [hr] at h
    simp only at h
    cases hc : trie_remove_collect fuel trie.mem key 0 (some root) none
        (fun _ => ⟨none, none, none, 0, 0⟩) with
    | out_of_fuel => rw [hc] at h; cases h
    | fault => rw [hc] at h; cases h
    | ok res =>
      rw [hc] at h
      cases res with
      | none =>
        simp only [TrieRun.ok.injEq, Prod.mk.injEq] at h
        exact Or.inl h.1.symm
      | some arr => exact Or.inr ⟨root, arr, rfl, hc⟩

theorem TrieT.find_sub {b x k : Nat} {d : Option Nat} {c s : TrieT} :
    ∀ (t : TrieT), TrieT.find b t = .node x k d c s →
      x ∈ t.addrs ∧ ∀ y ∈ c.addrs, y ∈ t.addrs := by
  intro t
  induction t with
  | nil => intro h; simp [TrieT.find] at h
  | node a2 k2 d2 c2 s2 _ ih2 =>
    intro h
    simp only [TrieT.find] at h
    split_ifs at h with hk2
    · cases h
      refine ⟨by simp [TrieT.addrs], ?_⟩
      intro y hy
      simp only [TrieT.addrs, List.mem_cons, List.mem_append]
      exact Or.inr (Or.inl hy)
    · obtain ⟨h1, h2⟩ := ih2 h
      refine ⟨?_, ?_⟩
      · simp only [TrieT.addrs, List.mem_cons, List.mem_append]
        exact Or.inr (Or.inr h1)
      · intro y hy
        simp only [TrieT.addrs, List.mem_cons, List.mem_append]
        exact Or.inr (Or.inr (h2 y hy))

theorem TrieT.dropFound_fresh {b x k : Nat} {d : Option Nat} {c s : TrieT} :
    ∀ (t : TrieT), TrieT.find b t = .node x k d c s → t.addrs.Nodup →
      ∀ y ∈ (TrieT.dropFound b t).addrs, y ≠ x ∧ y ∉ c.addrs := by
  intro t
  induction t with
  | nil => intro h; simp [TrieT.find] at h
  | node a2 k2 d2 c2 s2 _ ih2 =>
    intro h hnd y hy
    simp only [TrieT.addrs, List.nodup_cons, List.mem_append, not_or, List.nodup_append] at hnd
    obtain ⟨⟨ha1, ha2⟩, hc2, hs2, hdisj⟩ := hnd
    simp only [TrieT.find] at h
    simp only [TrieT.dropFound] at hy
    split_ifs at h hy with hk2
    · cases h
      exact ⟨fun e => ha2 (e ▸ hy), fun hc => hdisj hc hy⟩
    · obtain ⟨hx, hcs⟩ := TrieT.find_sub s2 h
      simp only [TrieT.addrs, List.mem_cons, List.mem_append] at hy
      rcases hy with rfl | hy | hy
      · exact ⟨fun e => ha2 (e ▸ hx), fun hc => ha2 (hcs _ hc)⟩
      · exact ⟨fun e => hdisj hy (e ▸ hx), fun hc => hdisj hy (hcs _ hc)⟩
      · exact ih2 h hs2 y hy

theorem TrieT.setKids_mem {b x k : Nat} {d : Option Nat} {c s kids : TrieT} :
    ∀ (t : TrieT), TrieT.find b t = .node x k d c s → t.addrs.Nodup →
      ∀ y ∈ (TrieT.setKids b kids t).addrs, y ∈ kids.addrs ∨ (y ∈ t.addrs ∧ y ∉ c.addrs) := by
  intro t
  induction t with
  | nil => intro h; simp [TrieT.find] at h
  | node a2 k2 d2 c2 s2 _ ih2 =>
    intro h hnd y hy
    simp only [TrieT.addrs, List.nodup_cons, List.mem_append, not_or, List.nodup_append] at hnd
    obtain ⟨⟨ha1, ha2⟩, hc2, hs2, hdisj⟩ := hnd
    simp only [TrieT.find] at h
    simp only [TrieT.setKids] at hy
    split_ifs at h hy with hk2
    · cases h
      simp only [TrieT.addrs, List.mem_cons, List.mem_append] at hy ⊢
      rcases hy with rfl | hy | hy
      · exact Or.inr ⟨Or.inl rfl, ha1⟩
      · exact Or.inl hy
      · exact Or.inr ⟨Or.inr (Or.inr hy), fun hc => hdisj hc hy⟩
    · obtain ⟨hx, hcs⟩ := TrieT.find_sub s2 h
      simp only [TrieT.addrs, List.mem_cons, List.mem_append] at hy ⊢
      rcases hy with rfl | hy | hy
      · exact Or.inr ⟨Or.inl rfl, fun hc => ha2 (hcs _ hc)⟩
      · exact Or.inr ⟨Or.inr (Or.inl hy), fun hc => hdisj hy (hcs _ hc)⟩
      · rcases ih2 h hs2 y hy with h1 | ⟨h1, h2⟩
        · exact Or.inl h1
        · exact Or.inr ⟨Or.inr (Or.inr h1), h2⟩

theorem TrieT.freedBelow_addrs (r : List Nat) (level : TrieT) (hnd : level.addrs.Nodup) :
    ∀ y ∈ level.freedBelow r, y ∈ level.addrs :=
  fun y hy => TrieT.pathNodes_sub r level hnd y (TrieT.freedBelow_sub r level y hy)

theorem TrieT.pruneBelow_not_freed :
    ∀ (r : List Nat) (level l1 : TrieT), level.addrs.Nodup → level.pruneBelow r = some l1 →
      ∀ y ∈ l1.addrs, y ∉ level.freedBelow r := by
  intro r
  induction r with
  | nil =>
    intro level l1 hnd h y hy
    simp only [TrieT.pruneBelow] at h
    split_ifs at h
    simp only [Option.some.injEq] at h
    subst h
    simp only [TrieT.freedBelow]
    cases hf : TrieT.find 0 level with
    | nil => simp [TrieT.head]
    | node x k d c s =>
      simp only [TrieT.head, Option.toList, List.mem_singleton]
      exact (TrieT.dropFound_fresh level hf hnd y hy).1
  | cons b rest ih =>
    intro level l1 hnd h y hy
    simp only [TrieT.pruneBelow] at h
    simp only [TrieT.freedBelow]
    cases hf : TrieT.find b level with
    | nil => simp
    | node x k d c s =>
      rw [hf] at h
      simp only at h ⊢
      have hcnd : c.addrs.Nodup := (TrieT.find_props level hf).2.1 hnd
      cases hp : TrieT.pruneBelow c rest with
      | some c1 =>
        rw [hp] at h
        simp only [Option.some.injEq] at h
        subst h
        simp only
        rcases TrieT.setKids_mem level hf hnd y hy with h1 | ⟨_, h2⟩
        · exact ih c c1 hcnd hp y h1
        · exact fun hfr => h2 (TrieT.freedBelow_addrs rest c hcnd y hfr)
      | none =>
        rw [hp] at h
        simp only at h ⊢
        split_ifs at h
        simp only [Option.some.injEq] at h
        subst h
        obtain ⟨h1, h2⟩ := TrieT.dropFound_fresh level hf hnd y hy
        simp only [List.mem_cons, not_or]
        exact ⟨h1, fun hfr => h2 (TrieT.freedBelow_addrs rest c hcnd y hfr)⟩

theorem TrieT.remove_not_freed (junk : Nat) (hjunk : junk ≠ 1) (t : TrieT) (key : List Nat)
    (hnd : t.addrs.Nodup) : ∀ y ∈ (t.remove junk key).addrs, y ∉ t.freedBelow key := by
  intro y hy
  cases key with
  | nil =>
    simp only [TrieT.remove, if_neg hjunk] at hy
    simp only [TrieT.freedBelow]
    cases hf : TrieT.find 0 t with
    | nil => simp [TrieT.head]
    | node x k d c s =>
      simp only [TrieT.head, Option.toList, List.mem_singleton]
      exact (TrieT.dropFound_fresh t hf hnd y hy).1
  | cons b rest =>
    simp only [TrieT.remove] at hy
    simp only [TrieT.freedBelow]
    cases hf : TrieT.find b t with
    | nil => simp
    | node x k d c s =>
      rw [hf] at hy
      simp only at hy ⊢
      have hcnd : c.addrs.Nodup := (TrieT.find_props t hf).2.1 hnd
      cases hp : TrieT.pruneBelow c rest with
      | some c1 =>
        rw [hp] at hy
        simp only at hy ⊢
        rcases TrieT.setKids_mem t hf hnd y hy with h1 | ⟨_, h2⟩
        · exact TrieT.pruneBelow_not_freed rest c c1 hcnd hp y h1
        · exact fun hfr => h2 (TrieT.freedBelow_addrs rest c hcnd y hfr)
      | none =>
        rw [hp] at hy
        simp only [if_neg hjunk] at hy ⊢
        obtain ⟨h1, h2⟩ := TrieT.dropFound_fresh t hf hnd y hy
        simp only [List.mem_cons, not_or]
        exact ⟨h1, fun hfr => h2 (TrieT.freedBelow_addrs rest c hcnd y hfr)⟩

theorem trie_remove_returns_linked (fuel junk : Nat) (trie : trie_t) (t : TrieT)
    (key : List Nat) (hl : TrieLinked trie t) (hdist : t.distinct) (hsize : t.size < 2 ^ 32)
    (hz : 0 ∉ key) (hL : key.length < MAX_KEY_LEN) (hf : t.size + key.length + 1 < fuel)
    (hjunk : junk ≠ 1) :
    ∃ trie1 st t1, trie_remove fuel junk trie (some key) = .ok (trie1, st) ∧
      TrieLinked trie1 t1 ∧ t1.distinct := by
  obtain ⟨hrep, hnd, hlt, hnf0, hfl, hko⟩ := hl
  cases hfound : (t.lookup key).isFound with
  | true =>
    obtain ⟨trie1, he, hrep1, hfreed, _⟩ :=
      trie_remove_spec fuel junk trie t key hrep hnd hdist hsize hz hL hfound hf
    have hnf := (trie_remove_next_free fuel junk trie trie1 (some key) EOK he).1
    have hsub := TrieT.remove_addrs junk t key
    refine ⟨trie1, EOK, _, he,
      ⟨hrep1, hsub.nodup hnd, ?_, ?_, ?_, TrieT.remove_kidsOk junk t key hz hko⟩,
      TrieT.remove_distinct junk t key hdist⟩
    · intro x hx
      rw [hnf]
      exact hlt x (hsub.subset hx)
    · intro x hx
      rw [hfreed]
      simp only [List.mem_append, not_or]
      exact ⟨TrieT.remove_not_freed junk hjunk t key hnd x hx, hnf0 x (hsub.subset hx)⟩
    · intro x hx
      rw [hfreed] at hx
      rw [hnf]
      rcases List.mem_append.mp hx with h | h
      · exact hlt x (TrieT.freedBelow_addrs key t hnd x h)
      · exact hfl x h
  | false =>
    cases hr : trie.root with
    | none =>
      exact ⟨trie, EINVAL, t, by simp only [trie_remove, hr],
        ⟨hrep, hnd, hlt, hnf0, hfl, hko⟩, hdist⟩
    | some root =>
      have hns1 : (t.runLookup key false).isFound = false := by
        cases t with
        | nil =>
          have : trie.root = none := hrep
          rw [hr] at this
          cases this
        | node a k d c s => exact hfound
      have hc := trie_remove_collect_absent trie.mem key hz hL key.length fuel t trie.root none
        0 (fun _ => ⟨none, none, none, 0, 0⟩) false (by omega) (Nat.zero_le _) hrep hdist hsize
        (by simpa using hns1) hf
      rw [hr] at hc
      exact ⟨trie, ENOTFOUND, t, by simp only [trie_remove, hr, hc],
        ⟨hrep, hnd, hlt, hnf0, hfl, hko⟩, hdist⟩

theorem trie_insert_returns_linked (fuel : Nat) (trie : trie_t) (t : TrieT) (key : List Nat)
    (data : Option Nat) (hl : TrieLinked trie t) (hdist : t.distinct) (hz : 0 ∉ key)
    (hheap : key.length + 1 ≤ trie.heap_left) (hf : t.size + key.length + 1 < fuel) :
    ∃ trie1 st t1, trie_insert fuel trie (some key) data = .ok (trie1, st) ∧
      TrieLinked trie1 t1 ∧ t1.distinct := by
  obtain ⟨hrep, hnd, hlt, hnf0, hfl, hko⟩ := hl
  by_cases hne : key ≠ [] ∨ t ≠ .nil
  · obtain ⟨trie1, st, he, hrep1, hnd1, hlt1, hko1, hd1, _, _, hfreed, hnf, hnew⟩ :=
      trie_insert_step fuel trie t key data hrep hnd hlt hko hne hz hheap hf
    refine ⟨trie1, st, _, he, ⟨hrep1, hnd1, hlt1, ?_, ?_, hko1⟩, hd1 hdist⟩
    · intro x hx
      rw [hfreed]
      rcases hnew x hx with h | h
      · exact hnf0 x h
      · intro hfr
        have := hfl x hfr
        omega
    · intro x hx
      rw [hfreed] at hx
      have := hfl x hx
      omega
  · simp only [not_or, not_not] at hne
    obtain ⟨hk, ht⟩ := hne
    subst hk
    subst ht
    have hroot : trie.root = none := hrep
    refine ⟨{ trie with
        next_free := trie.next_free + 1, heap_left := trie.heap_left - 1,
        mem := trie.mem.set trie.next_free
          { key := 0, data := none, sibling := none, children := none, parent := none },
        node_count := u32_inc trie.node_count, root := some trie.next_free },
      .no_value, .node trie.next_free 0 none .nil .nil, ?_, ⟨?_, ?_, ?_, ?_, ?_, ?_⟩, ?_⟩
    · simp [trie_insert, hroot, trie_malloc_some trie (by omega), c_char_at]
    · refine ⟨rfl, ?_, ?_, ?_, ?_⟩
      · simp only [TrieMem.trie_set_same]
      · simp only [TrieMem.trie_set_same]
      · simp only [TrieMem.trie_set_same]; rfl
      · simp only [TrieMem.trie_set_same]; rfl
    · simp [TrieT.addrs]
    · intro x hx
      simp only [TrieT.addrs, List.append_nil, List.mem_singleton] at hx
      subst hx
      exact Nat.lt_succ_self _
    · intro x hx hfr
      simp only [TrieT.addrs, List.append_nil, List.mem_singleton] at hx
      subst hx
      exact Nat.lt_irrefl _ (hfl _ hfr)
    · intro x hx
      exact Nat.lt_succ_of_lt (hfl x hx)
    · exact ⟨Iff.intro (fun _ => rfl) (fun _ => rfl), trivial, trivial⟩
    · exact ⟨by simp [TrieT.chainKeys], trivial, trivial⟩

/-- Claim C34.  On a trie whose links form a finite shape of nodes that have
not been freed, in which leaf nodes are exactly the nodes without children,
and whose sibling chains carry mutually distinct key bytes (byte 0 included):
`trie_insert` of a key returns (heap and fuel permitting) and leaves such a
trie with distinct sibling chains; `trie_remove` of a key shorter than
`MAX_KEY_LEN` returns; and whenever `trie_remove` returns, with whatever
status, it leaves such a trie with distinct sibling chains.  The word `junk`
that `trie_remove` reads below `delete_arr` is taken to differ from 1: with the
value 1 the first-level node is freed while it stays linked. -/
theorem trie_insert_remove_keep_distinct (fuel junk : Nat) (trie : trie_t) (t : TrieT)
    (key : List Nat) (data : Option Nat) (hl : TrieLinked trie t) (hdist : t.distinct)
    (hsize : t.size < 2 ^ 32) (hz : 0 ∉ key) (hheap : key.length + 1 ≤ trie.heap_left)
    (hf : t.size + key.length + 1 < fuel) (hjunk : junk ≠ 1) :
    (∃ trie1 st t1, trie_insert fuel trie (some key) data = .ok (trie1, st) ∧
        TrieLinked trie1 t1 ∧ t1.distinct) ∧
      (key.length < MAX_KEY_LEN →
        ∃ trie1 st, trie_remove fuel junk trie (some key) = .ok (trie1, st)) ∧
      ∀ trie1 st, trie_remove fuel junk trie (some key) = .ok (trie1, st) →
        ∃ t1, TrieLinked trie1 t1 ∧ t1.distinct := by
  refine ⟨trie_insert_returns_linked fuel trie t key data hl hdist hz hheap hf, ?_, ?_⟩
  · intro hL
    obtain ⟨trie1, st, _, he, _⟩ :=
      trie_remove_returns_linked fuel junk trie t key hl hdist hsize hz hL hf hjunk
    exact ⟨trie1, st, he⟩
  · intro trie1 st h
    by_cases hL : key.length < MAX_KEY_LEN
    · obtain ⟨trie2, st2, t2, he, hl2, hd2⟩ :=
        trie_remove_returns_linked fuel junk trie t key hl hdist hsize hz hL hf hjunk
      rw [h] at he
      simp only [TrieRun.ok.injEq, Prod.mk.injEq] at he
      obtain ⟨h1, _⟩ := he
      subst h1
      exact ⟨t2, hl2, hd2⟩
    · rcases trie_remove_result_cases fuel junk trie trie1 key st h with h1 | ⟨root, arr, _, hc⟩
      · subst h1
        exact ⟨t, hl, hdist⟩
      · exact absurd hc
          (trie_remove_collect_long trie.mem key hz (by omega) fuel 0 (some root) none _ arr
            (Nat.zero_le _))

theorem trie_insert_remove_keep_distinct_witness :
    TrieLinked trie_ann_annabel trie_ann_annabel_shape ∧
      trie_ann_annabel_shape.distinct ∧ trie_ann_annabel_shape.size < 2 ^ 32 ∧
      0 ∉ trie_key_ann ∧ trie_key_ann.length + 1 ≤ trie_ann_annabel.heap_left ∧
      trie_ann_annabel_shape.size + trie_key_ann.length + 1 < 100 ∧ 0 ≠ 1 ∧
      ((∃ trie1 st t1, trie_insert 100 trie_ann_annabel (some trie_key_ann) (some 3) =
            .ok (trie1, st) ∧ TrieLinked trie1 t1 ∧ t1.distinct) ∧
        (trie_key_ann.length < MAX_KEY_LEN →
          ∃ trie1 st, trie_remove 100 0 trie_ann_annabel (some trie_key_ann) =
            .ok (trie1, st)) ∧
        ∀ trie1 st, trie_remove 100 0 trie_ann_annabel (some trie_key_ann) = .ok (trie1, st) →
          ∃ t1, TrieLinked trie1 t1 ∧ t1.distinct) :=
  ⟨by decide, by decide, by decide, by decide, by decide, by decide, by decide,
    trie_insert_remove_keep_distinct 100 0 trie_ann_annabel trie_ann_annabel_shape trie_key_ann
      (some 3) (by decide) (by decide) (by decide) (by decide) (by decide) (by decide)
      (by decide)⟩

/-! ## Removal keeps the other keys -/

/-- Claim C17.  On a well-formed trie that stores `key` and another key
`key2`, once `trie_remove` of `key` has returned `EOK`, `trie_lookup` of `key2`
returns the payload it returned before, the nodes on the path of `key2` from
the first level to its leaf node are the ones they were, and no node of the
trie that is left has been freed, so the lookup reads no freed node.  The word
`junk` that the second phase reads below `delete_arr` is taken to differ from
1: with the value 1 the first-level node is freed while it stays linked. -/
theorem trie_remove_keeps_other_keys (fuel junk : Nat) (trie trie1 : trie_t) (t : TrieT)
    (key key2 : List Nat) (hwf : TrieWF trie t) (hz : 0 ∉ key) (hz2 : 0 ∉ key2)
    (hstored : (t.lookup key).isFound = true) (hstored2 : (t.lookup key2).isFound = true)
    (hne : key2 ≠ key) (hf : t.size + key.length + key2.length + MAX_KEY_LEN + 1 < fuel)
    (hjunk : junk ≠ 1) (hrem : trie_remove fuel junk trie (some key) = .ok (trie1, EOK)) :
    ∃ payload, trie_lookup fuel trie key2 = .ok (.value payload) ∧
      trie_lookup fuel trie1 key2 = .ok (.value payload) ∧
      TrieRep trie1.mem (t.remove junk key) trie1.root ∧
      (t.remove junk key).pathNodes key2 = t.pathNodes key2 ∧
      (∀ x ∈ t.pathNodes key2, x ∉ trie1.freed) ∧
      ∀ x ∈ (t.remove junk key).addrs, x ∉ trie1.freed := by
  by_cases hlen : key.length < MAX_KEY_LEN
  · obtain ⟨trie2, payload, h1, h2, h3, h4, h5, h6⟩ :=
      trie_remove_frame_spec fuel junk trie t key key2 hwf hz hz2 hlen hstored hstored2 hne
        (by omega)
    obtain ⟨hrep, hnd, _, hfr, _, hdist, _, _, hsize⟩ := hwf
    obtain ⟨trie3, g1, _, g3, _⟩ :=
      trie_remove_spec fuel junk trie t key hrep hnd hdist hsize hz hlen hstored (by omega)
    rw [h1] at g1
    simp only [TrieRun.ok.injEq, Prod.mk.injEq, and_true] at g1
    subst g1
    rw [h1] at hrem
    simp only [TrieRun.ok.injEq, Prod.mk.injEq, and_true] at hrem
    subst hrem
    refine ⟨payload, h2, h3, h4, h5, h6, ?_⟩
    intro x hx
    rw [g3]
    simp only [List.mem_append, not_or]
    exact ⟨TrieT.remove_not_freed junk hjunk t key hnd x hx,
      hfr x ((TrieT.remove_addrs junk t key).subset hx)⟩
  · obtain ⟨hrep, _, _, _, _, hdist, _, _, hsize⟩ := hwf
    rw [trie_remove_long_key_faults fuel junk trie t key hrep hdist hsize hz (by omega) hstored
      (by omega)] at hrem
    cases hrem

theorem trie_remove_keeps_other_keys_witness :
    TrieWF trie_ann_annabel trie_ann_annabel_shape ∧ 0 ≠ 1 ∧
      trie_remove 100 0 trie_ann_annabel (some trie_key_ann) = .ok (trie_annabel_only, EOK) ∧
      ∃ payload,
        trie_lookup 100 trie_ann_annabel trie_key_annabel = .ok (.value payload) ∧
          trie_lookup 100 trie_annabel_only trie_key_annabel = .ok (.value payload) ∧
          TrieRep trie_annabel_only.mem (trie_ann_annabel_shape.remove 0 trie_key_ann)
            trie_annabel_only.root ∧
          (trie_ann_annabel_shape.remove 0 trie_key_ann).pathNodes trie_key_annabel =
            trie_ann_annabel_shape.pathNodes trie_key_annabel ∧
          (∀ x ∈ trie_ann_annabel_shape.pathNodes trie_key_annabel,
            x ∉ trie_annabel_only.freed) ∧
          ∀ x ∈ (trie_ann_annabel_shape.remove 0 trie_key_ann).addrs,
            x ∉ trie_annabel_only.freed :=
  ⟨by decide, by decide, rfl,
    trie_remove_keeps_other_keys 100 0 trie_ann_annabel trie_annabel_only
      trie_ann_annabel_shape trie_key_ann trie_key_annabel (by decide) (by decide) (by decide)
      (by decide) (by decide) (by decide) (by decide) (by decide) rfl⟩
